import Mathlib

/-!
# sofia2hdf5: the FITS cube reader of `reader.c`

Shallow embedding of `read_fits_file`, `parse_fits_header`,
`get_fits_header_value`, `get_fits_header_int` and `swap_fits_byte_order`.

Conventions of the embedding:
* a byte (`char`) is a natural number, a buffer or a file is a `List Nat`;
  a C string is the list of its bytes without the terminating NUL;
* a pointer into a buffer is the list of the bytes from that position on;
* the data model is LP64 (the platforms `reader.c` names): `int` has 32
  bits, `long int` and `size_t` have 64 bits, narrowing wraps around;
* `error_exit` is an `Except.error`; `memory_alloc` is taken to succeed.
-/

namespace Sofia2hdf5

/-! ## Constants of `reader.h` and string literals -/

def FITS_HEADER_BLOCK_SIZE : Nat := 2880
def FITS_HEADER_LINE_SIZE : Nat := 80
def FITS_HEADER_LINES : Nat := 36

/-- Bytes of an ASCII string literal. -/
def ascii (s : String) : List Nat := s.toList.map Char.toNat

/-- Width of `long int` and `size_t`, and of `int`. -/
def LONG_MAX : Int := 9223372036854775807
def LONG_MIN : Int := -9223372036854775808
def SIZE_MOD : Nat := 18446744073709551616
def INT_MOD : Int := 4294967296

/-! ## C library functions -/

/-- Byte `p[i]` of a NUL-terminated buffer: past the end reads the NUL. -/
def char_at (p : List Nat) (i : Nat) : Nat := p.getD i 0

/-- The test `strncmp(p, lit, n) == 0`. -/
def strncmp_eq : List Nat → List Nat → Nat → Bool
  | _, _, 0 => true
  | p, lit, n + 1 =>
    if char_at p 0 ≠ char_at lit 0 then false
    else if char_at p 0 = 0 then true
    else strncmp_eq p.tail lit.tail n

/-- Offset returned by `strchr(p, c)`, `none` for NULL; the search stops at
the first NUL. -/
def strchr : List Nat → Nat → Option Nat
  | [], _ => none
  | x :: xs, c =>
    if x = c then some 0
    else if x = 0 then none
    else (strchr xs c).map (· + 1)

/-- The C string left in `dst` by `strncpy(dst, src, n); dst[n] = 0`. -/
def strncpy_str (src : List Nat) (n : Nat) : List Nat :=
  (src.take n).takeWhile (· ≠ 0)

def isspace (c : Nat) : Bool := c = 32 || (9 ≤ c && c ≤ 13)

def isdigit (c : Nat) : Bool := 48 ≤ c && c ≤ 57

/-- Digit loop of `strtol`: value of the leading decimal digits. -/
def digits_value : List Nat → Nat → Nat
  | [], acc => acc
  | c :: cs, acc => if isdigit c then digits_value cs (acc * 10 + (c - 48)) else acc

/-- The call `strtol(s, NULL, 10)`: leading white space, an optional sign, the
decimal digits; out-of-range values are clamped to `LONG_MIN`/`LONG_MAX`. -/
def strtol (s : List Nat) : Int :=
  match s.dropWhile isspace with
  | 45 :: r => max (-(digits_value r 0 : Int)) LONG_MIN
  | 43 :: r => min (digits_value r 0 : Int) LONG_MAX
  | r => min (digits_value r 0 : Int) LONG_MAX

/-- Conversion of a `long int` to `int`. -/
def long_to_int (v : Int) : Int := (v + 2147483648) % INT_MOD - 2147483648

/-- Conversion of a `long int` to `size_t`. -/
def long_to_size_t (v : Int) : Nat := (v % (SIZE_MOD : Int)).toNat

/-! ## Data model -/

/-- The fatal errors of `read_fits_file`, named after their messages. -/
inductive FitsError where
  /-- Message "FITS file ended unexpectedly while reading header." -/
  | header_ended_unexpectedly
  /-- Message "Missing SIMPLE keyword; file does not appear to be a FITS file." -/
  | missing_simple
  /-- Message "Invalid BITPIX keyword encountered." -/
  | invalid_bitpix
  /-- Message "Only FITS files with 1-4 dimensions are supported." -/
  | unsupported_dimension
  /-- Message "Invalid NAXISn keyword encountered." -/
  | invalid_naxis
  /-- Message "FITS file ended unexpectedly while reading data." -/
  | data_ended_unexpectedly
  /-- A header value whose end pointer lies before its start pointer: the
  length given to `memory_alloc` and `strncpy` wraps around and the process
  does not survive. -/
  | value_length_wrapped
  deriving DecidableEq, Repr

/-- The `FitsFile` class of `reader.h`. -/
structure FitsFile where
  data : List Nat
  nx : Nat
  ny : Nat
  nz : Nat
  data_type : Int
  word_size : Nat
  data_size : Nat
  header : List Nat
  header_size : Nat
  header_parsed : Bool
  header_keys : List (List Nat)
  header_values : List (List Nat)
  header_count : Nat
  deriving DecidableEq, Repr

/-- `FitsFile_new`. -/
def FitsFile_new : FitsFile :=
  { data := [], nx := 0, ny := 0, nz := 0, data_type := 0, word_size := 0, data_size := 0,
    header := [], header_size := 0, header_parsed := false,
    header_keys := [], header_values := [], header_count := 0 }

/-! ## Reading the header blocks (`read_fits_file`, lines 109-136) -/

/-- The inner loop `while (!end_reached && ptr < header + header_size +
FITS_HEADER_BLOCK_SIZE)`: `ptr` runs over the lines of the block just read;
`lines` counts the lines not yet looked at. -/
def scan_end : Nat → List Nat → Bool
  | 0, _ => false
  | lines + 1, ptr =>
    if strncmp_eq ptr (ascii "END") 3 then true
    else scan_end lines (ptr.drop FITS_HEADER_LINE_SIZE)

/-- The loop `while (!end_reached)`: `blocks` is the number of complete
blocks the stream still holds at offset `header_size`, so `fread` returns
`FITS_HEADER_BLOCK_SIZE` bytes exactly when `blocks` is not zero. The result
is the final `header_size`. -/
def read_header_blocks (file : List Nat) : Nat → Nat → Except FitsError Nat
  | 0, _ => .error .header_ended_unexpectedly
  | blocks + 1, header_size =>
    let block := (file.drop header_size).take FITS_HEADER_BLOCK_SIZE
    if scan_end FITS_HEADER_LINES block then .ok (header_size + FITS_HEADER_BLOCK_SIZE)
    else read_header_blocks file blocks (header_size + FITS_HEADER_BLOCK_SIZE)

/-- Header-reading phase of `read_fits_file`: the size of the header that
was read. -/
def read_header (file : List Nat) : Except FitsError Nat :=
  read_header_blocks file (file.length / FITS_HEADER_BLOCK_SIZE) 0

/-! ## `parse_fits_header` -/

/-- The loop `while (e > lo && line[e - 1] == ' ') e--`. -/
def trim_end (line : List Nat) (lo : Nat) : Nat → Nat
  | 0 => 0
  | e + 1 => if lo < e + 1 ∧ char_at line e = 32 then trim_end line lo e else e + 1

/-- The loop `while (line[s] == ' ') s++`. -/
def skip_spaces (line : List Nat) (s : Nat) : Nat :=
  s + ((line.drop s).takeWhile (· = 32)).length

/-- Outcome of one header line in the parsing loop. -/
inductive CardResult where
  /-- The line is skipped (`continue`). -/
  | skip
  /-- The line gives a key and a value. -/
  | card (key value : List Nat)
  /-- The value end lies before the value start. -/
  | wrapped
  deriving DecidableEq, Repr

/-- Body of the parsing loop of `parse_fits_header` (lines 268-312) for one
line that is not an END line; `line` holds the 80 bytes copied by `memcpy`
and reads as NUL at index 80. -/
def parse_card (line : List Nat) : CardResult :=
  if char_at line 0 = 32 ∨ strncmp_eq line (ascii "COMMENT") 7
      ∨ strncmp_eq line (ascii "HISTORY") 7 then .skip
  else
    match strchr line 61 with
    | none => .skip
    | some equals =>
      let key_len := trim_end line 0 equals
      let key := strncpy_str line key_len
      let value_start := skip_spaces line (equals + 1)
      let value_end :=
        match strchr (line.drop value_start) 47 with
        | some k => value_start + k
        | none => FITS_HEADER_LINE_SIZE
      let value_end := trim_end line value_start value_end
      let quoted := char_at line value_start = 39 ∧ char_at line (value_end - 1) = 39
      let value_start := if quoted then skip_spaces line (value_start + 1) else value_start
      let value_end :=
        if quoted then trim_end line value_start (value_end - 1) else value_end
      if value_end < value_start then .wrapped
      else .card key (strncpy_str (line.drop value_start) (value_end - value_start))

/-- First loop of `parse_fits_header`: `line_count`, the number of lines
before the first END line. `lines` counts the iterations left, `i` is the
offset of the current line. -/
def count_lines (header : List Nat) (header_size : Nat) : Nat → Nat → Nat
  | 0, _ => 0
  | lines + 1, i =>
    if i + 3 < header_size ∧ strncmp_eq (header.drop i) (ascii "END") 3 then 0
    else 1 + count_lines header header_size lines (i + FITS_HEADER_LINE_SIZE)

/-- Second loop of `parse_fits_header`: the keys and values collected from
offset `i` on, `header_count` being the number of cards stored so far. -/
def parse_lines (header : List Nat) (line_count : Nat) :
    Nat → Nat → Nat → Except FitsError (List (List Nat) × List (List Nat))
  | 0, _, _ => .ok ([], [])
  | lines + 1, i, header_count =>
    if ¬ header_count < line_count then .ok ([], [])
    else
      let line := (header.drop i).take FITS_HEADER_LINE_SIZE
      if strncmp_eq line (ascii "END") 3 then .ok ([], [])
      else
        match parse_card line with
        | .skip => parse_lines header line_count lines (i + FITS_HEADER_LINE_SIZE) header_count
        | .wrapped => .error .value_length_wrapped
        | .card key value =>
          match parse_lines header line_count lines (i + FITS_HEADER_LINE_SIZE)
              (header_count + 1) with
          | .ok (keys, values) => .ok (key :: keys, value :: values)
          | .error e => .error e

/-- `parse_fits_header(self)`. -/
def parse_fits_header (self : FitsFile) : Except FitsError FitsFile :=
  if self.header_parsed ∨ self.header_size = 0 then .ok self
  else
    let lines := (self.header_size + (FITS_HEADER_LINE_SIZE - 1)) / FITS_HEADER_LINE_SIZE
    let line_count := count_lines self.header self.header_size lines 0
    match parse_lines self.header line_count lines 0 0 with
    | .error e => .error e
    | .ok (keys, values) =>
      .ok { self with header_keys := keys, header_values := values,
                      header_count := keys.length, header_parsed := true }

/-- Search loop of `get_fits_header_value` over the parallel arrays. -/
def find_value (key : List Nat) : List (List Nat) → List (List Nat) → Option (List Nat)
  | k :: keys, v :: values => if k = key then some v else find_value key keys values
  | _, _ => none

/-- `get_fits_header_value(self, key)`; `none` is NULL. -/
def get_fits_header_value (self : FitsFile) (key : List Nat) : Option (List Nat) :=
  if ¬ self.header_parsed then none
  else find_value key self.header_keys self.header_values

/-- `get_fits_header_int(self, key)`. -/
def get_fits_header_int (self : FitsFile) (key : List Nat) : Int :=
  match get_fits_header_value self key with
  | none => 0
  | some value => strtol value

/-! ## `swap_fits_byte_order` -/

/-- One iteration of the inner loop of `swap_fits_byte_order`: exchange
`word[j]` and `word[word_size - 1 - j]`, where `word = bytes + base`. -/
def swap_step (base word_size : Nat) (bytes : List Nat) (j : Nat) : List Nat :=
  let temp := bytes.getD (base + j) 0
  let bytes1 := bytes.set (base + j) (bytes.getD (base + (word_size - 1 - j)) 0)
  bytes1.set (base + (word_size - 1 - j)) temp

/-- Inner loop of `swap_fits_byte_order`: `for (j = 0; j < word_size / 2; j++)`. -/
def swap_word (word_size : Nat) (bytes : List Nat) (i : Nat) : List Nat :=
  (List.range (word_size / 2)).foldl (swap_step (i * word_size) word_size) bytes

/-- `swap_fits_byte_order(data, word_size, count)` of reader.c. -/
def swap_fits_byte_order (data : List Nat) (word_size count : Nat) : List Nat :=
  if word_size ≤ 1 then data
  else (List.range count).foldl (swap_word word_size) data

/-! Index maps used to state what the swap loops have done. -/

/-- Index map of a partially reversed word: after `m` inner iterations the
bytes at offsets `< m` from either end of the word have been exchanged. -/
def word_idx (base w m k : Nat) : Nat :=
  if base ≤ k ∧ k < base + w ∧ (k - base < m ∨ w - 1 - (k - base) < m)
  then base + (w - 1 - (k - base)) else k

/-- Index map of a buffer whose first `n` words of `w` bytes are reversed. -/
def swapped_idx (w n k : Nat) : Nat :=
  if k < n * w then (k / w) * w + (w - 1 - k % w) else k

/-! ## `read_fits_file` -/

/-- The sanity check on `data_type` (lines 164-165). -/
def valid_bitpix (data_type : Int) : Bool :=
  data_type = -64 || data_type = -32 || data_type = 8 || data_type = 16
    || data_type = 32 || data_type = 64

/-- Lines 107-181 of `read_fits_file`: read the header blocks, check the
SIMPLE keyword, parse the header, extract BITPIX and the axes, run the
sanity checks. The result has no data yet. `abs(data_type) / 8` is taken on
the absolute value; for `INT_MIN`, where C leaves `abs` undefined, the file
is rejected by the BITPIX check that follows. -/
def read_fits_header (file : List Nat) : Except FitsError FitsFile :=
  match read_header file with
  | .error e => .error e
  | .ok header_size =>
    let header := file.take header_size
    if ¬ strncmp_eq header (ascii "SIMPLE") 6 then .error .missing_simple
    else
      match parse_fits_header { FitsFile_new with header := header, header_size := header_size } with
      | .error e => .error e
      | .ok fits =>
        let data_type := long_to_int (get_fits_header_int fits (ascii "BITPIX"))
        let dimension := long_to_int (get_fits_header_int fits (ascii "NAXIS"))
        let nx := long_to_size_t (get_fits_header_int fits (ascii "NAXIS1"))
        let ny := if dimension > 1 then long_to_size_t (get_fits_header_int fits (ascii "NAXIS2"))
                  else 1
        let nz := if dimension > 2 then long_to_size_t (get_fits_header_int fits (ascii "NAXIS3"))
                  else 1
        let word_size := data_type.natAbs / 8
        let data_size := (nx * ny * nz) % SIZE_MOD
        if ¬ valid_bitpix data_type then .error .invalid_bitpix
        else if dimension ≤ 0 ∨ dimension > 4 then .error .unsupported_dimension
        else if data_size ≤ 0 then .error .invalid_naxis
        else .ok { fits with data_type := data_type, nx := nx, ny := ny, nz := nz,
                             word_size := word_size, data_size := data_size }

/-- Lines 199-230 of `read_fits_file`: `fread` of `data_size` elements of
`word_size` bytes from the stream position `header_size`, then the byte
swap on a little-endian host. The BSCALE/BZERO lines only print a warning. -/
def read_fits_data (little_endian : Bool) (file : List Nat) (fits : FitsFile) :
    Except FitsError FitsFile :=
  let rest := file.drop fits.header_size
  let elements_read := min fits.data_size (rest.length / fits.word_size)
  let data := rest.take (elements_read * fits.word_size)
  if elements_read ≠ fits.data_size then .error .data_ended_unexpectedly
  else if little_endian ∧ fits.word_size > 1 then
    .ok { fits with data := swap_fits_byte_order data fits.word_size fits.data_size }
  else .ok { fits with data := data }

/-- `read_fits_file(filename)` on the bytes `file` of an existing, readable
file; `little_endian` is the value of `is_little_endian_system()`. -/
def read_fits_file (little_endian : Bool) (file : List Nat) : Except FitsError FitsFile :=
  match read_fits_header file with
  | .error e => .error e
  | .ok fits => read_fits_data little_endian file fits

/-! ## Writing a cube file, from the description of the format -/

/-- Bytes `l` followed by spaces up to `n` bytes. -/
def pad_right (l : List Nat) (n : Nat) : List Nat := l ++ List.replicate (n - l.length) 32

/-- Bytes `l` preceded by spaces up to `n` bytes. -/
def pad_left (l : List Nat) (n : Nat) : List Nat := List.replicate (n - l.length) 32 ++ l

/-- A header line holding `text`. -/
def fits_line (text : String) : List Nat := pad_right (ascii text) FITS_HEADER_LINE_SIZE

/-- A header of the given lines, filled with blank lines to whole blocks. -/
def fits_header (lines : List (List Nat)) : List Nat :=
  pad_right lines.flatten
    ((lines.flatten.length + (FITS_HEADER_BLOCK_SIZE - 1)) / FITS_HEADER_BLOCK_SIZE
      * FITS_HEADER_BLOCK_SIZE)

/-- Digit loop of the decimal notation: the digits of `n`, most significant
first, put in front of `acc`; `fuel` bounds the number of digits. -/
def decimal_loop : Nat → Nat → List Nat → List Nat
  | 0, _, acc => acc
  | fuel + 1, n, acc =>
    if n / 10 = 0 then (48 + n % 10) :: acc
    else decimal_loop fuel (n / 10) ((48 + n % 10) :: acc)

/-- Decimal notation of a natural number. -/
def decimal (n : Nat) : List Nat := decimal_loop (n + 1) n []

/-- Decimal notation of an integer, with a minus sign when negative. -/
def decimal_int (v : Int) : List Nat :=
  if v < 0 then 45 :: decimal v.natAbs else decimal v.toNat

/-- A header card in fixed format: the keyword in columns 1-8, `= ` in
columns 9-10, the value right-justified in columns 11-30, blanks up to
column 80. -/
def fits_card (key : String) (value : List Nat) : List Nat :=
  pad_right (ascii key) 8 ++ [61, 32] ++ pad_right (pad_left value 20) 70

/-- The header of a three-axis cube: SIMPLE, BITPIX, NAXIS, NAXIS1..NAXIS3
and END cards, filled up to a whole block. -/
def cube_header (bitpix : Int) (nx ny nz : Nat) : List Nat :=
  fits_header
    [fits_card "SIMPLE" (ascii "T"),
     fits_card "BITPIX" (decimal_int bitpix),
     fits_card "NAXIS" (decimal 3),
     fits_card "NAXIS1" (decimal nx),
     fits_card "NAXIS2" (decimal ny),
     fits_card "NAXIS3" (decimal nz),
     fits_line "END"]

/-- The payload in file order (big-endian) of data held in host order. -/
def file_order (little_endian : Bool) (word_size count : Nat) (data : List Nat) : List Nat :=
  if little_endian = true ∧ word_size > 1 then swap_fits_byte_order data word_size count
  else data

/-- The cube file of a three-axis cube: the header followed by the payload
in big-endian order. -/
def write_cube_file (little_endian : Bool) (bitpix : Int) (nx ny nz : Nat)
    (data : List Nat) : List Nat :=
  cube_header bitpix nx ny nz
    ++ file_order little_endian (bitpix.natAbs / 8) (nx * ny * nz) data

/-! ## The scaling keywords (reader.c, `get_fits_header_flt`, `read_fits_file`) -/

/-- A `double` as far as the reader tells values apart: NaN, the constants
0.0 and 1.0, and `of_text s`, the number that the C library reads from the
text `s` (its numeric value is not interpreted). `zero` and `one` are
different doubles; an `of_text` value may be equal to either as a double. -/
inductive CDouble where
  | nan
  | zero
  | one
  | of_text (text : List Nat)
  deriving DecidableEq, Repr

def tolower (c : Nat) : Nat := if 65 ≤ c ∧ c ≤ 90 then c + 32 else c

/-- The text starts with the letters of `lit` (given in lower case), in
either case. -/
def starts_with_ci (s lit : List Nat) : Bool := (s.take lit.length).map tolower == lit

/-- The call `strtod(s, NULL)`: leading white space and an optional sign are
skipped; a text that then starts like a number (a digit, or a point and a
digit) or like INF is converted, one that starts like NAN gives NaN, and when
no conversion can be performed zero is returned. -/
def strtod (s : List Nat) : CDouble :=
  let u := match s.dropWhile isspace with
    | 43 :: r => r
    | 45 :: r => r
    | r => r
  if isdigit (char_at u 0) || (char_at u 0 == 46 && isdigit (char_at u 1)) then .of_text s
  else if starts_with_ci u (ascii "inf") then .of_text s
  else if starts_with_ci u (ascii "nan") then .nan
  else .zero

def MAX_PATH_LENGTH : Nat := 1024

def MAX_STRING_LENGTH : Nat := 256

def MAX_LINE_LENGTH : Nat := 1024

/-- `CatalogSource`. -/
structure CatalogSource where
  name : List Nat
  id : Int
  x : CDouble
  y : CDouble
  z : CDouble
  x_min : CDouble
  x_max : CDouble
  y_min : CDouble
  y_max : CDouble
  z_min : CDouble
  z_max : CDouble
  ra : CDouble
  dec : CDouble
  v_app : CDouble
  f_sum : CDouble
  err_f_sum : CDouble
  err_x : CDouble
  err_y : CDouble
  err_z : CDouble
  kin_pa : CDouble
  w50 : CDouble
  rms : CDouble
  n_pix : Int
  v_sofia : CDouble
  deriving DecidableEq, Repr

/-- `SofiaCatalog`; `sources` holds the `size` records stored so far. -/
structure SofiaCatalog where
  sources : List CatalogSource
  size : Nat
  capacity : Nat
  type : List Nat
  filename : List Nat
  deriving DecidableEq, Repr

/-- `SofiaCatalog_new`. -/
def SofiaCatalog_new : SofiaCatalog :=
  { sources := [], size := 0, capacity := 0, type := [], filename := [] }

/-- The ways in which `read_catalog` and `read_sofia_catalogue` do not
return: the two fatal errors, named after their messages, and the two
accesses that have no defined behaviour. -/
inductive CatalogError where
  /-- Message "Catalog file not found: ..." -/
  | not_found
  /-- Message "Cannot open catalog file: ..." -/
  | cannot_open
  /-- The call `strcpy(source->name, name_token)` with a token of
  `MAX_STRING_LENGTH` or more characters. -/
  | name_overflow
  /-- The call `strcmp(input_columns[i], ...)` on an entry that was never
  assigned. -/
  | unassigned_column
  deriving DecidableEq, Repr

/-- The locals `input_columns`, `column_locations` and `col_count` of
`read_sofia_catalogue`, together with the catalogue; `none` is NULL. -/
structure ReaderState where
  catalog : SofiaCatalog
  input_columns : Option (List (List Nat))
  column_locations : List Nat
  col_count : Nat
  deriving DecidableEq, Repr

/-- The call `fgets(line, n, file)` on the rest `stream` of the file: the
bytes read, at most `n - 1` and none after the first newline, and the rest of
the file; `none` at the end of the file. -/
def fgets (n : Nat) (stream : List Nat) : Option (List Nat × List Nat) :=
  if stream = [] then none
  else
    let count := min (n - 1) ((stream.takeWhile (· ≠ 10)).length + 1)
    some (stream.take count, stream.drop count)

/-- The buffers that the successive calls `fgets(line, MAX_LINE_LENGTH, file)`
of the reading loop give; `fuel` bounds their number. -/
def fgets_lines : Nat → List Nat → List (List Nat)
  | 0, _ => []
  | fuel + 1, stream =>
    match fgets MAX_LINE_LENGTH stream with
    | none => []
    | some (line, rest) => line :: fgets_lines fuel rest

/-- The white space of `string_trim`: space, tab, newline, carriage return. -/
def is_trim_space (c : Nat) : Bool := c == 32 || c == 9 || c == 10 || c == 13

/-- Second loop of `string_trim`: the terminator is moved back over trailing
white space, as long as `end > str`. -/
def trim_trailing : List Nat → List Nat
  | [] => []
  | c :: rest => c :: (rest.reverse.dropWhile is_trim_space).reverse

/-- `string_trim(str)`: the string the returned pointer refers to. -/
def string_trim (str : List Nat) : List Nat := trim_trailing (str.dropWhile is_trim_space)

/-- The call `strstr(haystack, needle)`: the offset of the first occurrence. -/
def strstr : List Nat → List Nat → Option Nat
  | [], needle => if needle = [] then some 0 else none
  | c :: rest, needle =>
    if needle.isPrefixOf (c :: rest) then some 0
    else (strstr rest needle).map (· + 1)

/-- The call `strrchr(s, c)`: the offset of the last occurrence. -/
def strrchr : List Nat → Nat → Option Nat
  | [], _ => none
  | x :: rest, c =>
    match strrchr rest c with
    | some k => some (k + 1)
    | none => if x = c then some 0 else none

/-- The delimiters of the tokens: space and tab. -/
def is_delim (c : Nat) : Bool := c == 32 || c == 9

/-- The tokens that `strtok(s, " \t")` and the following calls
`strtok(NULL, " \t")` return: `token` holds the characters of the token that
has been begun. -/
def strtok_loop : List Nat → List Nat → List (List Nat)
  | [], token => if token = [] then [] else [token]
  | c :: rest, token =>
    if is_delim c then
      if token = [] then strtok_loop rest [] else token :: strtok_loop rest []
    else strtok_loop rest (token ++ [c])

/-- All tokens of `s` for the delimiters space and tab. -/
def strtok_all (s : List Nat) : List (List Nat) := strtok_loop s []

/-- Lines 482-525: the column header line. `line` is the buffer after
`string_trim` has cut its trailing white space, `trimmed` points behind its
leading white space. The columns are counted in `trimmed + 1` and then taken
from `line + 1`. -/
def read_columns (st : ReaderState) (line trimmed : List Nat) : ReaderState :=
  let col_count := (strtok_all (trimmed.drop 1)).length
  let tokens := (strtok_all (line.drop 1)).take col_count
  { st with
    input_columns := some tokens,
    column_locations := tokens.map (fun token =>
      match strstr line token with
      | some found => found + token.length
      | none => 0),
    col_count := col_count }

/-- Lines 550-579: the tokens of a data row. `start` is the rest of the row,
`tokens` are the tokens found so far; `fuel` bounds the number of rounds of
the outer loop. -/
def tokenize_loop : Nat → List Nat → List (List Nat) → List (List Nat)
  | 0, _, tokens => tokens
  | fuel + 1, start, tokens =>
    if start = [] ∨ tokens.length ≥ 100 then tokens
    else
      let start := start.dropWhile is_delim
      if start = [] then tokens
      else if char_at start 0 = 34 then
        let start := start.drop 1
        let rest := start.dropWhile (· ≠ 34)
        if rest ≠ [] then
          tokenize_loop fuel (rest.drop 1) (tokens ++ [start.takeWhile (· ≠ 34)])
        else tokenize_loop fuel start tokens
      else
        let rest := start.dropWhile (fun c => !is_delim c)
        if rest ≠ [] then
          tokenize_loop fuel (rest.drop 1)
            (tokens ++ [start.takeWhile (fun c => !is_delim c)])
        else tokens ++ [start]

/-- The tokens of the data row `trimmed`. Every round of the outer loop that
does not leave it moves `start` forward, so that one round more than the row
has characters is enough. -/
def tokenize_row (trimmed : List Nat) : List (List Nat) :=
  tokenize_loop (trimmed.length + 1) trimmed []

/-- Lines 582-595: the record with its defaults; `size` is `catalog->size`. -/
def default_source (size : Nat) : CatalogSource :=
  { name := [], id := long_to_int ((size + 1 : Nat) : Int),
    x := .zero, y := .zero, z := .zero,
    x_min := .zero, x_max := .zero, y_min := .zero, y_max := .zero,
    z_min := .zero, z_max := .zero, ra := .zero, dec := .zero, v_app := .zero,
    f_sum := .zero, err_f_sum := .zero, err_x := .zero, err_y := .zero, err_z := .zero,
    kin_pa := .zero, w50 := .zero, rms := .zero, n_pix := 0, v_sofia := .zero }

/-- The call `atoi(s)`. -/
def atoi (s : List Nat) : Int := long_to_int (strtol s)

/-- The call `atof(s)`. -/
def atof (s : List Nat) : CDouble := strtod s

/-- The fields that a column can fill, in the order of the comparisons of
lines 599-651. -/
inductive Field where
  | name | id | x | y | z | x_min | x_max | y_min | y_max | z_min | z_max
  | ra | dec | v_app | f_sum | err_f_sum | err_x | err_y | err_z
  | kin_pa | w50 | rms | n_pix
  deriving DecidableEq, Repr

/-- The branch of lines 599-651 that the column name selects; `none` when no
comparison succeeds. -/
def column_field (column : List Nat) : Option Field :=
  if column = ascii "name" then some .name
  else if column = ascii "id" then some .id
  else if column = ascii "x" then some .x
  else if column = ascii "y" then some .y
  else if column = ascii "z" then some .z
  else if column = ascii "x_min" then some .x_min
  else if column = ascii "x_max" then some .x_max
  else if column = ascii "y_min" then some .y_min
  else if column = ascii "y_max" then some .y_max
  else if column = ascii "z_min" then some .z_min
  else if column = ascii "z_max" then some .z_max
  else if column = ascii "ra" then some .ra
  else if column = ascii "dec" then some .dec
  else if column = ascii "v_app" then some .v_app
  else if column = ascii "f_sum" then some .f_sum
  else if column = ascii "err_f_sum" then some .err_f_sum
  else if column = ascii "err_x" then some .err_x
  else if column = ascii "err_y" then some .err_y
  else if column = ascii "err_z" then some .err_z
  else if column = ascii "kin_pa" then some .kin_pa
  else if column = ascii "w50" then some .w50
  else if column = ascii "rms" then some .rms
  else if column = ascii "n_pix" then some .n_pix
  else none

/-- The assignment of the selected branch of lines 599-651. -/
def assign_field (source : CatalogSource) (token : List Nat) :
    Field → Except CatalogError CatalogSource
  | .name =>
    let name_token := if char_at token 0 = 34 then token.drop 1 else token
    if name_token.length ≥ MAX_STRING_LENGTH then .error .name_overflow
    else
      match strrchr name_token 34 with
      | some quote => .ok { source with name := name_token.take quote }
      | none => .ok { source with name := name_token }
  | .id => .ok { source with id := atoi token }
  | .x => .ok { source with x := atof token }
  | .y => .ok { source with y := atof token }
  | .z => .ok { source with z := atof token }
  | .x_min => .ok { source with x_min := atof token }
  | .x_max => .ok { source with x_max := atof token }
  | .y_min => .ok { source with y_min := atof token }
  | .y_max => .ok { source with y_max := atof token }
  | .z_min => .ok { source with z_min := atof token }
  | .z_max => .ok { source with z_max := atof token }
  | .ra => .ok { source with ra := atof token }
  | .dec => .ok { source with dec := atof token }
  | .v_app => .ok { source with v_app := atof token }
  | .f_sum => .ok { source with f_sum := atof token }
  | .err_f_sum => .ok { source with err_f_sum := atof token }
  | .err_x => .ok { source with err_x := atof token }
  | .err_y => .ok { source with err_y := atof token }
  | .err_z => .ok { source with err_z := atof token }
  | .kin_pa => .ok { source with kin_pa := atof token }
  | .w50 => .ok { source with w50 := atof token }
  | .rms => .ok { source with rms := atof token }
  | .n_pix => .ok { source with n_pix := atoi token }

/-- Lines 598-652: the loop `for (i = 0; i < col_count && i < token_count; i++)`;
the first argument is what is left of `col_count`, the lists are
`input_columns` and `tokens` from index `i` on. -/
def assign_columns : Nat → List (List Nat) → List (List Nat) → CatalogSource →
    Except CatalogError CatalogSource
  | 0, _, _, source => .ok source
  | _ + 1, _, [], source => .ok source
  | _ + 1, [], _ :: _, _ => .error .unassigned_column
  | count + 1, column :: columns, token :: tokens, source =>
    match column_field column with
    | none => assign_columns count columns tokens source
    | some field =>
      match assign_field source token field with
      | .error e => .error e
      | .ok source => assign_columns count columns tokens source

/-- Lines 531-654: a data row; the record is stored at index `size`. -/
def read_row (st : ReaderState) (columns : List (List Nat)) (trimmed : List Nat) :
    Except CatalogError ReaderState :=
  let capacity :=
    if st.catalog.size ≥ st.catalog.capacity then st.catalog.capacity * 2
    else st.catalog.capacity
  let tokens := tokenize_row trimmed
  match assign_columns st.col_count columns tokens (default_source st.catalog.size) with
  | .error e => .error e
  | .ok source =>
    .ok { st with
      catalog := { st.catalog with
        sources := st.catalog.sources.take st.catalog.size ++ [source],
        size := st.catalog.size + 1,
        capacity := capacity } }

/-- The body of the reading loop (lines 469-654) for one buffer filled by
`fgets`. -/
def process_line (st : ReaderState) (buffer : List Nat) : Except CatalogError ReaderState :=
  let text := buffer.takeWhile (fun c => c ≠ 0 ∧ c ≠ 10)
  let trimmed := string_trim text
  let line := text.takeWhile is_trim_space ++ trimmed
  if trimmed.length = 0 ∨ trimmed = ascii "#" then .ok st
  else if char_at trimmed 0 = 35 ∧ trimmed.length > 1
      ∧ (strstr trimmed (ascii "name")).isSome ∧ (strstr trimmed (ascii "id")).isSome
      ∧ (strstr trimmed (ascii "ra")).isSome ∧ (strstr trimmed (ascii "dec")).isSome then
    .ok (read_columns st line trimmed)
  else
    match st.input_columns with
    | some columns =>
      if st.col_count > 0 ∧ char_at trimmed 0 = 34 then read_row st columns trimmed
      else .ok st
    | none => .ok st

/-- The reading loop over the buffers of the file. -/
def read_lines : List (List Nat) → ReaderState → Except CatalogError ReaderState
  | [], st => .ok st
  | buffer :: rest, st =>
    match process_line st buffer with
    | .error e => .error e
    | .ok st => read_lines rest st

/-- `read_sofia_catalogue(filename, xml)`; `file` holds the bytes of the file
of that name, `none` when it cannot be opened. -/
def read_sofia_catalogue (filename : List Nat) (file : Option (List Nat)) (xml : Bool) :
    Except CatalogError SofiaCatalog :=
  if xml then .ok SofiaCatalog_new
  else
    match file with
    | none => .error .cannot_open
    | some content =>
      let catalog : SofiaCatalog :=
        { SofiaCatalog_new with filename := filename, type := ascii "ASCII", capacity := 100 }
      match read_lines (fgets_lines content.length content)
          { catalog := catalog, input_columns := none, column_locations := [],
            col_count := 0 } with
      | .error e => .error e
      | .ok st => .ok st.catalog

/-! ## Choosing the catalogue reader (reader.c, `read_catalog`; common.c, `string_ends_with`) -/

/-- `string_ends_with(str, suffix)`. -/
def string_ends_with (str suffix : List Nat) : Bool :=
  if suffix.length > str.length then false
  else str.drop (str.length - suffix.length) == suffix

/-- `read_catalog(filename)`; `present` tells whether `file_exists` finds the
file, `file` holds its bytes when it can be opened. -/
def read_catalog (filename : List Nat) (present : Bool) (file : Option (List Nat)) :
    Except CatalogError SofiaCatalog :=
  if ¬ present then .error .not_found
  else
    let is_xml := string_ends_with filename (ascii ".xml")
    read_sofia_catalogue filename file is_xml

/-! ## The parameter store (parameter.c)

The arrays `keys` and `values` are the lists of their first `size` entries;
allocations are taken to succeed. -/

def PARAMETER_INITIAL_CAPACITY : Nat := 50

/-- `Parameter`. -/
structure Parameter where
  keys : List (List Nat)
  values : List (List Nat)
  size : Nat
  capacity : Nat
  deriving DecidableEq, Repr

/-- `Parameter_new`. -/
def Parameter_new : Parameter :=
  { keys := [], values := [], size := 0, capacity := PARAMETER_INITIAL_CAPACITY }

/-- Loop of `Parameter_find_index`: `keys` are the entries from index `i`
on, `size` is returned when no entry matches. -/
def find_index_loop (key : List Nat) (size : Nat) : List (List Nat) → Nat → Nat
  | [], _ => size
  | k :: keys, i => if k = key then i else find_index_loop key size keys (i + 1)

/-- `Parameter_find_index(self, key)`. -/
def Parameter_find_index (self : Parameter) (key : List Nat) : Nat :=
  find_index_loop key self.size (self.keys.take self.size) 0

/-- `Parameter_expand_capacity(self)`. -/
def Parameter_expand_capacity (self : Parameter) : Parameter :=
  { self with capacity := self.capacity * 2 }

/-- `Parameter_set(self, key, value)`. -/
def Parameter_set (self : Parameter) (key value : List Nat) : Parameter :=
  let index := Parameter_find_index self key
  if index < self.size then { self with values := self.values.set index value }
  else
    let self := if self.size ≥ self.capacity then Parameter_expand_capacity self else self
    { self with
      keys := self.keys.take self.size ++ [key],
      values := self.values.take self.size ++ [value],
      size := self.size + 1 }

/-- `Parameter_exists(self, key)`. -/
def Parameter_exists (self : Parameter) (key : List Nat) : Bool :=
  Parameter_find_index self key < self.size

/-- `Parameter_get_str(self, key)`. -/
def Parameter_get_str (self : Parameter) (key : List Nat) : List Nat :=
  let index := Parameter_find_index self key
  if index < self.size then self.values.getD index [] else []

/-- `Parameter_get_bool(self, key)`: the first 31 characters of the value go
into `lower_value[32]` and are converted with `tolower`. -/
def Parameter_get_bool (self : Parameter) (key : List Nat) : Bool :=
  let value := Parameter_get_str self key
  if value.length = 0 then false
  else
    let lower_value := (value.take 31).map tolower
    lower_value = ascii "true" || lower_value = ascii "yes" || lower_value = ascii "1"
      || lower_value = ascii "t"

/-- The array `required` of `Parameter_set_defaults`. -/
def required : List (List Nat) :=
  [ascii "output.writekarma", ascii "output.directory", ascii "output.filename",
   ascii "output.writecatascii", ascii "output.writecatxml", ascii "output.writecatsql",
   ascii "output.writenoise", ascii "output.writefiltered", ascii "output.writemask",
   ascii "output.writemask2d", ascii "output.writerawmask", ascii "output.writemoments",
   ascii "output.writecubelets", ascii "output.writepv", ascii "output.margincubelets",
   ascii "output.thresholdmom12", ascii "output.overwrite"]

/-- Loop of `Parameter_set_defaults` over the entries of `required` that are
left. -/
def set_defaults_loop : List (List Nat) → Parameter → Parameter
  | [], self => self
  | key :: rest, self =>
    set_defaults_loop rest
      (if ¬ Parameter_exists self key then Parameter_set self key (ascii "false") else self)

/-- `Parameter_set_defaults(self)`. -/
def Parameter_set_defaults (self : Parameter) : Parameter :=
  set_defaults_loop required self

/-! ## The parameter file (parameter.c, `Parameter_load`)

The file is the list of its bytes. The counters `counter` and `counter2` are
`int`; an increment that leaves the range wraps around. -/

def PARAMETER_MAX_LINE_SIZE : Nat := 1024

/-- The fatal errors of `Parameter_load`, named after their messages. -/
inductive ParameterError where
  /-- Message "Parameter file not found: ..." -/
  | not_found
  /-- Message "Cannot open parameter file: ..." -/
  | cannot_open
  deriving DecidableEq, Repr

/-- The store and the locals `counter` and `counter2` of `Parameter_load`. -/
structure LoadState where
  store : Parameter
  counter : Int
  counter2 : Int
  deriving DecidableEq, Repr

/-- The buffers that the successive calls `fgets(line, sizeof(line), fp)` of
`Parameter_load` give; `fuel` bounds their number. -/
def load_buffers : Nat → List Nat → List (List Nat)
  | 0, _ => []
  | fuel + 1, stream =>
    match fgets PARAMETER_MAX_LINE_SIZE stream with
    | none => []
    | some (line, rest) => line :: load_buffers fuel rest

/-- The body of the loop of `Parameter_load` (lines 136-173) for one buffer
filled by `fgets`. `text` is the buffer as a C string after the newline has
been cut, `line` the same buffer after `string_trim` has cut its trailing
white space, `trimmed` points behind its leading white space. The keys
`EMPTY%d` and `HASH%d` have at most 16 characters and fit their buffers of
32. -/
def load_line (st : LoadState) (buffer : List Nat) : LoadState :=
  let text := buffer.takeWhile (fun c => c ≠ 0 ∧ c ≠ 10)
  let trimmed := string_trim text
  let line := text.takeWhile is_trim_space ++ trimmed
  if trimmed.length = 0 then
    { st with
      store := Parameter_set st.store (ascii "EMPTY" ++ decimal_int st.counter) line,
      counter := long_to_int (st.counter + 1) }
  else if char_at trimmed 0 = 35 then
    { st with
      store := Parameter_set st.store (ascii "HASH" ++ decimal_int st.counter2) line,
      counter2 := long_to_int (st.counter2 + 1) }
  else
    match strchr line 61 with
    | none => st
    | some equals =>
      let key := (string_trim (line.take equals)).map tolower
      let value := string_trim (line.drop (equals + 1))
      { st with store := Parameter_set st.store key value }

/-- The loop of `Parameter_load` over the buffers of the file. -/
def load_lines : List (List Nat) → LoadState → LoadState
  | [], st => st
  | buffer :: rest, st => load_lines rest (load_line st buffer)

/-- `Parameter_load(self, filename)`; `present` tells whether `file_exists`
finds the file, `file` holds its bytes when it can be opened. -/
def Parameter_load (self : Parameter) (present : Bool) (file : Option (List Nat)) :
    Except ParameterError Parameter :=
  if ¬ present then .error .not_found
  else
    match file with
    | none => .error .cannot_open
    | some content =>
      let st := load_lines (load_buffers content.length content)
        { store := self, counter := 0, counter2 := 0 }
      .ok (Parameter_set_defaults st.store)

/-! ## The base name of the output (utils.c, `get_basename`) -/

/-- The function `basename` of `libgen.h`: the trailing slashes are removed
and the component after the last slash is returned; `.` for an empty path
and `/` for a path of slashes. -/
def basename (path : List Nat) : List Nat :=
  if path = [] then ascii "."
  else
    let stripped := (path.reverse.dropWhile (· = 47)).reverse
    if stripped = [] then ascii "/"
    else (stripped.reverse.takeWhile (· ≠ 47)).reverse

/-- The `else` branch of `get_basename` (lines 24-40): the name derived from
`input.data`, without its directories and its extension, or `unknown`. -/
def basename_of_input (input_parameters : Parameter) : List Nat :=
  let input_data := Parameter_get_str input_parameters (ascii "input.data")
  if input_data.length > 0 then
    let base := basename input_data
    match strrchr base 46 with
    | some dot => base.take dot
    | none => base
  else ascii "unknown"

/-- `get_basename(input_parameters)`. -/
def get_basename (input_parameters : Parameter) : List Nat :=
  let output_filename := Parameter_get_str input_parameters (ascii "output.filename")
  if output_filename.length > 0 then output_filename
  else basename_of_input input_parameters

/-! ## The header attributes (hdf5_writer.c, `SofiaHDF5_write_header`)

The function is modelled by the attributes that it asks the HDF5 library to
create, in the order of the calls. -/

def isxdigit (c : Nat) : Bool := isdigit c || (65 ≤ c && c ≤ 70) || (97 ≤ c && c ≤ 102)

/-- The characters of the sequence between the brackets of `nan(...)`:
letters, digits and the underscore. -/
def is_nchar (c : Nat) : Bool :=
  isdigit c || (65 ≤ c && c ≤ 90) || (97 ≤ c && c ≤ 122) || c == 95

/-- Number of characters of the longest sequence of digits, with at most one
decimal point, at the start of `s`; `none` when it holds no digit. -/
def mantissa_length (digit : Nat → Bool) (s : List Nat) : Option Nat :=
  let whole := (s.takeWhile digit).length
  if char_at s whole = 46 then
    let fraction := ((s.drop (whole + 1)).takeWhile digit).length
    if whole + fraction = 0 then none else some (whole + 1 + fraction)
  else if whole = 0 then none else some whole

/-- Number of characters of the exponent part at the start of `s`: the
letter `marker` in either case, an optional sign and at least one decimal
digit; zero when there is no such part. -/
def exponent_length (marker : Nat) (s : List Nat) : Nat :=
  if tolower (char_at s 0) = marker then
    let sign := if char_at s 1 = 43 ∨ char_at s 1 = 45 then 1 else 0
    let digits := ((s.drop (1 + sign)).takeWhile isdigit).length
    if digits = 0 then 0 else 1 + sign + digits
  else 0

/-- Number of characters of the bracketed sequence that may follow NAN; zero
when there is none. -/
def nan_suffix_length (s : List Nat) : Nat :=
  if char_at s 0 = 40 then
    let chars := ((s.drop 1).takeWhile is_nchar).length
    if char_at s (1 + chars) = 41 then chars + 2 else 0
  else 0

/-- Number of characters that `strtod` converts at the start of `u`, the
text behind white space and sign: INF or INFINITY, NAN with an optional
bracketed sequence, a hexadecimal number with the prefix `0x` and an optional
binary exponent, or a decimal number with an optional exponent; zero when no
conversion can be performed. -/
def number_length (u : List Nat) : Nat :=
  if starts_with_ci u (ascii "infinity") then 8
  else if starts_with_ci u (ascii "inf") then 3
  else if starts_with_ci u (ascii "nan") then 3 + nan_suffix_length (u.drop 3)
  else if char_at u 0 = 48 ∧ tolower (char_at u 1) = 120 then
    match mantissa_length isxdigit (u.drop 2) with
    | some m => 2 + m + exponent_length 112 (u.drop (2 + m))
    | none => 1
  else
    match mantissa_length isdigit u with
    | some m => m + exponent_length 101 (u.drop m)
    | none => 0

/-- The offset `endptr - s` after the call `strtod(s, &endptr)`: zero when no
conversion can be performed. -/
def strtod_end (s : List Nat) : Nat :=
  let white := (s.takeWhile isspace).length
  let sign := if char_at s white = 43 ∨ char_at s white = 45 then 1 else 0
  let number := number_length (s.drop (white + sign))
  if number = 0 then 0 else white + sign + number

/-- The value of an attribute: `H5T_NATIVE_UINT8`, `H5T_NATIVE_DOUBLE`, or
the string type of 256 characters, which the library fills from the bytes at
`value`. -/
inductive AttributeValue where
  | uint8 (v : Nat)
  | double (v : CDouble)
  | string (text : List Nat)
  deriving DecidableEq, Repr

/-- The body of the loop of `SofiaHDF5_write_header` (lines 396-438) for one
header card: the attribute that is created, `none` for a card that is
skipped. -/
def write_attribute (key value : List Nat) : Option (List Nat × AttributeValue) :=
  if key = ascii "HISTORY" ∨ key = ascii "COMMENT" then none
  else
    let is_bool := value = ascii "T" ∨ value = ascii "F"
    if is_bool then some (key, .uint8 (if value = ascii "T" then 1 else 0))
    else
      let endptr := strtod_end value
      if char_at value endptr = 0 ∧ endptr ≠ 0 then some (key, .double (strtod value))
      else some (key, .string value)

/-- The loop of `SofiaHDF5_write_header` over the header cards. -/
def write_header_loop : List (List Nat) → List (List Nat) → List (List Nat × AttributeValue)
  | key :: keys, value :: values =>
    match write_attribute key value with
    | none => write_header_loop keys values
    | some created => created :: write_header_loop keys values
  | _, _ => []

/-- `SofiaHDF5_write_header(self, group_id, fits_data)`. -/
def SofiaHDF5_write_header (fits_data : FitsFile) : List (List Nat × AttributeValue) :=
  if ¬ fits_data.header_parsed ∨ fits_data.header_count = 0 then []
  else
    write_header_loop (fits_data.header_keys.take fits_data.header_count)
      (fits_data.header_values.take fits_data.header_count)

/-! ## The extent of a header value (`parse_fits_header`, lines 287-309) -/

/-- The offsets of `value_start` and `value_end` in the line when the length
`value_end - value_start` is computed at line 309; `none` for a line that is
skipped. -/
def value_bounds (line : List Nat) : Option (Nat × Nat) :=
  if char_at line 0 = 32 ∨ strncmp_eq line (ascii "COMMENT") 7
      ∨ strncmp_eq line (ascii "HISTORY") 7 then none
  else
    match strchr line 61 with
    | none => none
    | some equals =>
      let value_start := skip_spaces line (equals + 1)
      let value_end :=
        match strchr (line.drop value_start) 47 with
        | some k => value_start + k
        | none => FITS_HEADER_LINE_SIZE
      let value_end := trim_end line value_start value_end
      let quoted := char_at line value_start = 39 ∧ char_at line (value_end - 1) = 39
      let value_start := if quoted then skip_spaces line (value_start + 1) else value_start
      let value_end :=
        if quoted then trim_end line value_start (value_end - 1) else value_end
      some (value_start, value_end)

/-! ## Auxiliary definitions used to state the theorems -/

/-- Block `k` of the stream is complete and one of its 36 lines starts with
the bytes of END. -/
def block_has_end_line (file : List Nat) (k : Nat) : Prop :=
  2880 * (k + 1) ≤ file.length ∧
    ∃ j, j < 36 ∧ (file.drop (2880 * k + 80 * j)).take 3 = [69, 78, 68]

/-- The header as `read_fits_file` hands it to `parse_fits_header`. -/
def raw_header (file : List Nat) (header_size : Nat) : FitsFile :=
  { FitsFile_new with header := file.take header_size, header_size := header_size }

/-- The axis count `dimension` of `read_fits_file`. -/
def dimension_of (fits : FitsFile) : Int :=
  long_to_int (get_fits_header_int fits (ascii "NAXIS"))

/-- The header elements extracted at lines 154-161 of `read_fits_file`. -/
def with_elements (fits : FitsFile) : FitsFile :=
  { fits with
    data_type := long_to_int (get_fits_header_int fits (ascii "BITPIX")),
    nx := long_to_size_t (get_fits_header_int fits (ascii "NAXIS1")),
    ny := if dimension_of fits > 1 then long_to_size_t (get_fits_header_int fits (ascii "NAXIS2"))
          else 1,
    nz := if dimension_of fits > 2 then long_to_size_t (get_fits_header_int fits (ascii "NAXIS3"))
          else 1,
    word_size := (long_to_int (get_fits_header_int fits (ascii "BITPIX"))).natAbs / 8,
    data_size :=
      (long_to_size_t (get_fits_header_int fits (ascii "NAXIS1"))
        * (if dimension_of fits > 1 then long_to_size_t (get_fits_header_int fits (ascii "NAXIS2"))
           else 1)
        * (if dimension_of fits > 2 then long_to_size_t (get_fits_header_int fits (ascii "NAXIS3"))
           else 1)) % SIZE_MOD }

/-- The bytes `fread` stores for an accepted file, before the byte swap. -/
def payload_bytes (file : List Nat) (fits : FitsFile) : List Nat :=
  (file.drop fits.header_size).take (fits.data_size * fits.word_size)

/-- The payload in host order: swapped on a little-endian host when the
elements have more than one byte. -/
def host_order (little_endian : Bool) (fits : FitsFile) (bytes : List Nat) : List Nat :=
  if little_endian = true ∧ fits.word_size > 1 then
    swap_fits_byte_order bytes fits.word_size fits.data_size
  else bytes

deriving instance DecidableEq for Except

/-- A two-element 16-bit cube file: seven header lines, padding to one
block, four data bytes. -/
def sample_file : List Nat :=
  fits_header
    [fits_line "SIMPLE  =                    T",
     fits_line "BITPIX  =                   16",
     fits_line "NAXIS   =                    3",
     fits_line "NAXIS1  =                    2",
     fits_line "NAXIS2  =                    1",
     fits_line "NAXIS3  =                    1",
     fits_line "END"] ++ [1, 2, 3, 4]

/-- The cube `read_fits_file` returns for `sample_file` on a little-endian
host. -/
def sample_cube : FitsFile :=
  { data := [2, 1, 4, 3], nx := 2, ny := 1, nz := 1, data_type := 16, word_size := 2,
    data_size := 2, header := sample_file.take 2880, header_size := 2880,
    header_parsed := true,
    header_keys := [ascii "SIMPLE", ascii "BITPIX", ascii "NAXIS", ascii "NAXIS1",
                    ascii "NAXIS2", ascii "NAXIS3"],
    header_values := [ascii "T", ascii "16", ascii "3", ascii "2", ascii "1", ascii "1"],
    header_count := 6 }

/-- Key of the extent of axis `i`: NAXIS followed by the digit `i`. -/
def axis_key (i : Nat) : List Nat := ascii "NAXIS" ++ [48 + i]

/-- Product of the header values NAXIS1..NAXISn. -/
def axis_product (fits : FitsFile) : Nat → Int
  | 0 => 1
  | n + 1 => axis_product fits n * get_fits_header_int fits (axis_key (n + 1))

/-- A one-byte file whose BITPIX card reads 4294967304, that is 2^32 + 8. -/
def wide_bitpix_file : List Nat :=
  fits_header
    [fits_line "SIMPLE  =                    T",
     fits_line "BITPIX  =           4294967304",
     fits_line "NAXIS   =                    1",
     fits_line "NAXIS1  =                    1",
     fits_line "END"] ++ [7]

/-- A one-byte file whose NAXIS card reads 4294967297, that is 2^32 + 1. -/
def wide_naxis_file : List Nat :=
  fits_header
    [fits_line "SIMPLE  =                    T",
     fits_line "BITPIX  =                    8",
     fits_line "NAXIS   =           4294967297",
     fits_line "NAXIS1  =                    1",
     fits_line "END"] ++ [7]

/-- A file with four axes of extents 1, 1, 1, 2 and two data bytes. -/
def four_axis_file : List Nat :=
  fits_header
    [fits_line "SIMPLE  =                    T",
     fits_line "BITPIX  =                    8",
     fits_line "NAXIS   =                    4",
     fits_line "NAXIS1  =                    1",
     fits_line "NAXIS2  =                    1",
     fits_line "NAXIS3  =                    1",
     fits_line "NAXIS4  =                    2",
     fits_line "END"] ++ [7, 9]

/-- A file declaring four axes without a NAXIS4 card. -/
def no_naxis4_file : List Nat :=
  fits_header
    [fits_line "SIMPLE  =                    T",
     fits_line "BITPIX  =                    8",
     fits_line "NAXIS   =                    4",
     fits_line "NAXIS1  =                    1",
     fits_line "NAXIS2  =                    1",
     fits_line "NAXIS3  =                    1",
     fits_line "END"] ++ [7]

/-- A file with two axes of extent -1 and one data byte. -/
def negative_axes_file : List Nat :=
  fits_header
    [fits_line "SIMPLE  =                    T",
     fits_line "BITPIX  =                    8",
     fits_line "NAXIS   =                    2",
     fits_line "NAXIS1  =                   -1",
     fits_line "NAXIS2  =                   -1",
     fits_line "END"] ++ [7]

/-- What `read_fits_file` returns for `four_axis_file`. -/
def four_axis_cube : FitsFile :=
  { data := [7], nx := 1, ny := 1, nz := 1, data_type := 8, word_size := 1,
    data_size := 1, header := four_axis_file.take 2880, header_size := 2880,
    header_parsed := true,
    header_keys := [ascii "SIMPLE", ascii "BITPIX", ascii "NAXIS", ascii "NAXIS1",
                    ascii "NAXIS2", ascii "NAXIS3", ascii "NAXIS4"],
    header_values := [ascii "T", ascii "8", ascii "4", ascii "1", ascii "1", ascii "1",
                      ascii "2"],
    header_count := 7 }

/-- What `read_fits_file` returns for `negative_axes_file`. -/
def negative_axes_cube : FitsFile :=
  { data := [7], nx := 18446744073709551615, ny := 18446744073709551615, nz := 1,
    data_type := 8, word_size := 1, data_size := 1,
    header := negative_axes_file.take 2880, header_size := 2880, header_parsed := true,
    header_keys := [ascii "SIMPLE", ascii "BITPIX", ascii "NAXIS", ascii "NAXIS1",
                    ascii "NAXIS2"],
    header_values := [ascii "T", ascii "8", ascii "2", ascii "-1", ascii "-1"],
    header_count := 5 }

/-- What `read_fits_file` returns for `no_naxis4_file`. -/
def no_naxis4_cube : FitsFile :=
  { data := [7], nx := 1, ny := 1, nz := 1, data_type := 8, word_size := 1,
    data_size := 1, header := no_naxis4_file.take 2880, header_size := 2880,
    header_parsed := true,
    header_keys := [ascii "SIMPLE", ascii "BITPIX", ascii "NAXIS", ascii "NAXIS1",
                    ascii "NAXIS2", ascii "NAXIS3"],
    header_values := [ascii "T", ascii "8", ascii "4", ascii "1", ascii "1", ascii "1"],
    header_count := 6 }

/-- What `read_fits_file` returns for `wide_bitpix_file`. -/
def wide_bitpix_cube : FitsFile :=
  { data := [7], nx := 1, ny := 1, nz := 1, data_type := 8, word_size := 1,
    data_size := 1, header := wide_bitpix_file.take 2880, header_size := 2880,
    header_parsed := true,
    header_keys := [ascii "SIMPLE", ascii "BITPIX", ascii "NAXIS", ascii "NAXIS1"],
    header_values := [ascii "T", ascii "4294967304", ascii "1", ascii "1"],
    header_count := 4 }

/-- What `read_fits_file` returns for `wide_naxis_file`. -/
def wide_naxis_cube : FitsFile :=
  { data := [7], nx := 1, ny := 1, nz := 1, data_type := 8, word_size := 1,
    data_size := 1, header := wide_naxis_file.take 2880, header_size := 2880,
    header_parsed := true,
    header_keys := [ascii "SIMPLE", ascii "BITPIX", ascii "NAXIS", ascii "NAXIS1"],
    header_values := [ascii "T", ascii "8", ascii "4294967297", ascii "1"],
    header_count := 4 }

/-- A byte that may stand in an unquoted header value: not a blank, a slash,
a quote or NUL. -/
def value_char (c : Nat) : Prop := c ≠ 32 ∧ c ≠ 47 ∧ c ≠ 39 ∧ c ≠ 0

/-- The line of a card: keyword `K`, `p` blanks, `=`, `a + 1` blanks, the
value `v`, `b` blanks. -/
def card_line (K v : List Nat) (p a b : Nat) : List Nat :=
  K ++ (List.replicate p 32 ++ 61 :: (List.replicate (a + 1) 32 ++ (v ++ List.replicate b 32)))

/-- A keyword of at most eight bytes without blank, `=` or NUL that is not
END and does not start a COMMENT or HISTORY line. -/
def card_key (key : String) : Prop :=
  ascii key ≠ [] ∧ (ascii key).length ≤ 8 ∧ (∀ x ∈ ascii key, x ≠ 32 ∧ x ≠ 61 ∧ x ≠ 0) ∧
  strncmp_eq (pad_right (ascii key) 8) (ascii "END") 3 = false ∧
  strncmp_eq (pad_right (ascii key) 8) (ascii "COMMENT") 7 = false ∧
  strncmp_eq (pad_right (ascii key) 8) (ascii "HISTORY") 7 = false

/-- A value of one to twenty bytes, none a blank, a slash, a quote or NUL. -/
def card_value (v : List Nat) : Prop :=
  v ≠ [] ∧ v.length ≤ 20 ∧ ∀ x ∈ v, value_char x

/-- A parsed header line: the 80 bytes, the key and the value. -/
structure ParsedLine where
  line : List Nat
  key : List Nat
  value : List Nat

/-- The line is 80 bytes long, is not an END line and parses to its key and
value. -/
def ParsedLine.ok (c : ParsedLine) : Prop :=
  c.line.length = 80 ∧ strncmp_eq c.line (ascii "END") 3 = false ∧
  parse_card c.line = .card c.key c.value

/-- The six cards of `cube_header` with their keys and values. -/
def cube_cards (bitpix : Int) (nx ny nz : Nat) : List ParsedLine :=
  [⟨fits_card "SIMPLE" (ascii "T"), ascii "SIMPLE", ascii "T"⟩,
   ⟨fits_card "BITPIX" (decimal_int bitpix), ascii "BITPIX", decimal_int bitpix⟩,
   ⟨fits_card "NAXIS" (decimal 3), ascii "NAXIS", decimal 3⟩,
   ⟨fits_card "NAXIS1" (decimal nx), ascii "NAXIS1", decimal nx⟩,
   ⟨fits_card "NAXIS2" (decimal ny), ascii "NAXIS2", decimal ny⟩,
   ⟨fits_card "NAXIS3" (decimal nz), ascii "NAXIS3", decimal nz⟩]

/-- The header state after `parse_fits_header` on a file starting with
`cube_header`. -/
def cube_parsed (file : List Nat) (bitpix : Int) (nx ny nz : Nat) : FitsFile :=
  { raw_header file 2880 with
    header_keys := (cube_cards bitpix nx ny nz).map (·.key),
    header_values := (cube_cards bitpix nx ny nz).map (·.value),
    header_count := 6, header_parsed := true }

/-- A cube file whose first line starts with SIMPLF instead of SIMPLE. -/
def not_fits_file : List Nat :=
  fits_header
    [fits_line "SIMPLF  =                    T",
     fits_line "BITPIX  =                    8",
     fits_line "NAXIS   =                    1",
     fits_line "NAXIS1  =                    1",
     fits_line "END"] ++ [7]

/-- A parsed header with the key NAXIS1 twice and the key naxis1 once. -/
def duplicate_keys_header : FitsFile :=
  { FitsFile_new with
    header_parsed := true,
    header_keys := [ascii "SIMPLE", ascii "naxis1", ascii "NAXIS1", ascii "NAXIS1"],
    header_values := [ascii "T", ascii "7", ascii "2", ascii "3"],
    header_count := 4 }

/-- A text that is not numeric from its first byte on: it is empty or starts
with a byte that is not a digit, a sign, a decimal point, white space or one
of the letters I, N, i, n. -/
def non_numeric_text (s : List Nat) : Prop :=
  ∀ c, s.head? = some c →
    isdigit c = false ∧ isspace c = false ∧ c ≠ 43 ∧ c ≠ 45 ∧ c ≠ 46 ∧
    c ≠ 73 ∧ c ≠ 105 ∧ c ≠ 78 ∧ c ≠ 110

/-- The text without its trailing spaces. -/
def rtrim (l : List Nat) : List Nat := (l.reverse.dropWhile (· = 32)).reverse

/-- The text without its leading spaces. -/
def ltrim (l : List Nat) : List Nat := l.dropWhile (· = 32)

/-- The text before the first byte `c`, the whole text when `c` is absent. -/
def text_before (c : Nat) (l : List Nat) : List Nat := l.takeWhile (· ≠ c)

/-- The text after the first byte `c`, empty when `c` is absent. -/
def text_after (c : Nat) (l : List Nat) : List Nat := (l.dropWhile (· ≠ c)).drop 1

/-- The key of a header line: the text before the first `=` without its
trailing spaces. -/
def line_key (line : List Nat) : List Nat := rtrim (text_before 61 line)

/-- The trimmed value of a header line: the text after the first `=` with
leading spaces skipped, cut at the first `/` if there is one, without its
trailing spaces. -/
def line_value (line : List Nat) : List Nat :=
  rtrim (text_before 47 (ltrim (text_after 61 line)))

/-- The line begins with a space, with COMMENT or with HISTORY. -/
def skipped_line (line : List Nat) : Prop :=
  line.head? = some 32 ∨ ascii "COMMENT" <+: line ∨ ascii "HISTORY" <+: line

/-- The text begins with a single quote and ends with a single quote. -/
def quote_delimited (v : List Nat) : Prop := v.head? = some 39 ∧ v.getLast? = some 39

/-- The text between the leading and the trailing byte of `v`, without its
leading and trailing spaces. -/
def unquoted (v : List Nat) : List Nat := rtrim (ltrim (v.drop 1).dropLast)

/-- A header line of text: 80 bytes, none of them NUL. -/
def text_line (line : List Nat) : Prop := line.length = 80 ∧ ∀ c ∈ line, c ≠ 0

/-- A header line whose value is quoted and followed by a comment. -/
def quoted_line : List Nat := fits_line "OBJECT  = ' NGC 1 '          / name of the object"

/-- A header line whose value is a number followed by a comment. -/
def plain_line : List Nat := fits_line "NAXIS1  =                  128 / first axis"

/-- A header line whose value is one single quote. -/
def lone_quote_line : List Nat := fits_line "KEY     = '"

/-- A cube file whose header holds a card with a single quote as value. -/
def lone_quote_file : List Nat :=
  fits_header
    [fits_line "SIMPLE  =                    T",
     fits_line "BITPIX  =                    8",
     fits_line "NAXIS   =                    1",
     fits_line "NAXIS1  =                    1",
     fits_line "KEY     = '",
     fits_line "END"] ++ [7]

instance (l : List Nat) : Decidable (skipped_line l) := by
  unfold skipped_line; exact inferInstance

instance (v : List Nat) : Decidable (quote_delimited v) := by
  unfold quote_delimited; exact inferInstance

/-- The line starts with END. -/
def is_end_line (l : List Nat) : Bool := decide ([69, 78, 68] <+: l)

/-- The line does not begin with a space, COMMENT or HISTORY and holds `=`. -/
def yields_card (l : List Nat) : Bool := decide (¬ skipped_line l ∧ 61 ∈ l)

/-- The lines of a header that give a card: those before the first END line
that are not skipped and hold `=`, in their order. -/
def header_cards (ls : List (List Nat)) : List (List Nat) :=
  (ls.takeWhile (fun l => !is_end_line l)).filter yields_card

/-- The value stored for a line: the trimmed value, or the text between its
quotes when it is delimited by single quotes. -/
def stored_value (l : List Nat) : List Nat :=
  if quote_delimited (line_value l) then unquoted (line_value l) else line_value l

/-- The parsing loop of `parse_fits_header` over a list of lines. -/
def parse_line_list : List (List Nat) → Except FitsError (List (List Nat) × List (List Nat))
  | [] => .ok ([], [])
  | l :: rest =>
    if is_end_line l then .ok ([], [])
    else
      match parse_card l with
      | .skip => parse_line_list rest
      | .wrapped => .error .value_length_wrapped
      | .card key value =>
        match parse_line_list rest with
        | .ok (keys, values) => .ok (key :: keys, value :: values)
        | .error e => .error e

/-- The lines of the header of `lone_quote_file`. -/
def lone_quote_lines : List (List Nat) :=
  [fits_line "SIMPLE  =                    T",
   fits_line "BITPIX  =                    8",
   fits_line "NAXIS   =                    1",
   fits_line "NAXIS1  =                    1",
   fits_line "KEY     = '",
   fits_line "END"] ++ List.replicate 30 (fits_line "")

/-- Where the reading of a data row stands: between two tokens, inside a
token without quotes, or inside a quoted token; with the characters of the
token read so far. -/
inductive Scan where
  | gap
  | plain (token : List Nat)
  | quoted (token : List Nat)
  deriving DecidableEq, Repr

/-- The tokens of a row as the description of the format gives them, read
character by character from left to right: spaces and tabs between tokens are
skipped; a double quote opens a token that runs up to the next double quote;
any other character opens a token that runs up to the next space or tab.
There is no result when a quoted token is not closed. -/
def scan_tokens : Scan → List Nat → Option (List (List Nat))
  | .gap, [] => some []
  | .plain token, [] => some [token]
  | .quoted _, [] => none
  | .gap, c :: rest =>
    if c = 32 ∨ c = 9 then scan_tokens .gap rest
    else if c = 34 then scan_tokens (.quoted []) rest
    else scan_tokens (.plain [c]) rest
  | .plain token, c :: rest =>
    if c = 32 ∨ c = 9 then (scan_tokens .gap rest).map (token :: ·)
    else scan_tokens (.plain (token ++ [c])) rest
  | .quoted token, c :: rest =>
    if c = 34 then (scan_tokens .gap rest).map (token :: ·)
    else scan_tokens (.quoted (token ++ [c])) rest

/-- The tokens of a data row by the description of the format. -/
def row_tokens (row : List Nat) : Option (List (List Nat)) := scan_tokens .gap row

/-- A data row of 101 fields: a quoted name followed by one hundred numbers. -/
def long_row : List Nat := ascii "\"a\"" ++ (List.replicate 100 (ascii " 1")).flatten

/-- A data row with a quoted name that holds a space. -/
def short_row : List Nat := ascii "\"NGC1 abc\" 1 10.5 20.5"

deriving instance Fintype for Field

/-- The column name that stands for a field. -/
def field_name : Field → List Nat
  | .name => ascii "name"
  | .id => ascii "id"
  | .x => ascii "x"
  | .y => ascii "y"
  | .z => ascii "z"
  | .x_min => ascii "x_min"
  | .x_max => ascii "x_max"
  | .y_min => ascii "y_min"
  | .y_max => ascii "y_max"
  | .z_min => ascii "z_min"
  | .z_max => ascii "z_max"
  | .ra => ascii "ra"
  | .dec => ascii "dec"
  | .v_app => ascii "v_app"
  | .f_sum => ascii "f_sum"
  | .err_f_sum => ascii "err_f_sum"
  | .err_x => ascii "err_x"
  | .err_y => ascii "err_y"
  | .err_z => ascii "err_z"
  | .kin_pa => ascii "kin_pa"
  | .w50 => ascii "w50"
  | .rms => ascii "rms"
  | .n_pix => ascii "n_pix"

/-- The value of a record field: a text, an `int` or a `double`. -/
inductive FieldValue where
  | text (s : List Nat)
  | int (n : Int)
  | real (d : CDouble)
  deriving DecidableEq, Repr

/-- The value that a record holds in a field. -/
def field_value (source : CatalogSource) : Field → FieldValue
  | .name => .text source.name
  | .id => .int source.id
  | .x => .real source.x
  | .y => .real source.y
  | .z => .real source.z
  | .x_min => .real source.x_min
  | .x_max => .real source.x_max
  | .y_min => .real source.y_min
  | .y_max => .real source.y_max
  | .z_min => .real source.z_min
  | .z_max => .real source.z_max
  | .ra => .real source.ra
  | .dec => .real source.dec
  | .v_app => .real source.v_app
  | .f_sum => .real source.f_sum
  | .err_f_sum => .real source.err_f_sum
  | .err_x => .real source.err_x
  | .err_y => .real source.err_y
  | .err_z => .real source.err_z
  | .kin_pa => .real source.kin_pa
  | .w50 => .real source.w50
  | .rms => .real source.rms
  | .n_pix => .int source.n_pix

/-- The parsed value of a token for a field: the text of the token for the
name, the token read as an integer for `id` and `n_pix`, the token read as a
floating-point number for every other field. -/
def parsed_value (token : List Nat) : Field → FieldValue
  | .name => .text token
  | .id => .int (atoi token)
  | .n_pix => .int (atoi token)
  | _ => .real (atof token)

/-- The reader's state with the schema name id x y and an empty catalogue. -/
def short_schema_state : ReaderState :=
  { catalog := { SofiaCatalog_new with capacity := 100 },
    input_columns := some [ascii "name", ascii "id", ascii "x", ascii "y"],
    column_locations := [6, 9, 11, 13],
    col_count := 4 }

/-- The record of `short_row` under the schema name id x y. -/
def short_row_source : CatalogSource :=
  { default_source 0 with
    name := ascii "NGC1 abc", id := 1,
    x := .of_text (ascii "10.5"), y := .of_text (ascii "20.5") }

/-- The lines of a file: the texts between its newlines; a newline at the end
of the file does not begin a further line. `line` holds the line that has
been begun. -/
def split_lines : List Nat → List Nat → List (List Nat)
  | [], line => if line = [] then [] else [line]
  | c :: rest, line =>
    if c = 10 then line :: split_lines rest [] else split_lines rest (line ++ [c])

/-- The lines of the file `content`. -/
def file_lines (content : List Nat) : List (List Nat) := split_lines content []

/-- A comment line that holds the four substrings name, id, ra and dec: the
first character after leading white space is `#`. -/
def marker_line (l : List Nat) : Prop :=
  (l.dropWhile is_trim_space).head? = some 35 ∧ ascii "name" <:+: l ∧ ascii "id" <:+: l
    ∧ ascii "ra" <:+: l ∧ ascii "dec" <:+: l

/-- The column names that a schema line gives: the tokens, separated by
spaces and tabs, of the text that follows its `#`. -/
def schema_columns (l : List Nat) : List (List Nat) := strtok_all ((string_trim l).drop 1)

/-- A well-formed quoted data row: a line of text of at most 1023 characters
that begins, after leading white space, with a double quote, in which every
quoted token is closed and no token has `MAX_STRING_LENGTH` or more
characters. -/
def well_formed_row (r : List Nat) : Prop :=
  r.length ≤ 1023 ∧ (∀ c ∈ r, c ≠ 0 ∧ c ≠ 10) ∧ (string_trim r).head? = some 34 ∧
    ∃ ts, row_tokens (string_trim r) = some ts ∧ ∀ t ∈ ts, t.length < MAX_STRING_LENGTH

/-- The state in which `read_sofia_catalogue` enters its reading loop. -/
def initial_state (filename : List Nat) : ReaderState :=
  { catalog := { SofiaCatalog_new with
      filename := filename, type := ascii "ASCII", capacity := 100 },
    input_columns := none, column_locations := [], col_count := 0 }

/-- A catalogue file whose first line has 1039 characters: 1023 letters
followed by a text that looks like a column header line; its second line is a
data row. -/
def long_line_file : List Nat :=
  List.replicate 1023 97 ++ ascii "# name id ra dec\n\"A\" 1 2 3\n"

/-- The number of records of the catalogue that the reader returns; `none`
when it does not return. -/
def catalog_size (result : Except CatalogError SofiaCatalog) : Option Nat :=
  match result with
  | .ok catalog => some catalog.size
  | .error _ => none

/-- A catalogue file whose only comment line holds name and id but neither
ra nor dec, followed by a data row. -/
def two_marker_file : List Nat := ascii "# name id\n\"A\" 1\n"

/-- A catalogue file with a comment line, a column header line without a
column named id, and two data rows. -/
def two_row_file : List Nat :=
  ascii "# SoFiA catalogue\n  # name ident ra dec\n\"A\" 5 1.5 2.5\n \"B C\" 6 3.5 4.5\n"

/-- A catalogue file whose column header line has 1035 characters, with the
markers ra and dec behind the first 1023 of them; a data row follows. -/
def long_schema_file : List Nat :=
  ascii "# name id" ++ List.replicate 1020 32 ++ ascii "ra dec\n\"A\" 1\n"

/-- The default of a record field for the record at index `position`: the
empty name, the id `position + 1`, zero for every number. -/
def default_value (position : Nat) : Field → FieldValue
  | .name => .text []
  | .id => .int ((position + 1 : Nat) : Int)
  | .n_pix => .int 0
  | _ => .real .zero

/-- The reader's state with a schema that holds a column name that is not
recognised, and an empty catalogue. -/
def mixed_schema_state : ReaderState :=
  { catalog := { SofiaCatalog_new with capacity := 100 },
    input_columns := some [ascii "name", ascii "flux", ascii "x", ascii "y"],
    column_locations := [6, 11, 13, 15],
    col_count := 4 }

/-- A column header line with two spaces before its `#`. -/
def indented_schema_line : List Nat := ascii "  # name id ra dec"

instance (l : List Nat) : Decidable (marker_line l) := by
  unfold marker_line; exact inferInstance

/-- The text of a line as the reader sees it: the bytes before the first NUL
byte or newline. -/
def line_text (buffer : List Nat) : List Nat :=
  buffer.takeWhile (fun c => c ≠ 0 ∧ c ≠ 10)

/-- The data rows among the lines: the lines that begin, after leading white
space, with a double quote and come after a column header line; `seen` tells
whether a column header line has been met. -/
def data_rows : List (List Nat) → Bool → List (List Nat)
  | [], _ => []
  | l :: ls, seen =>
    if marker_line (line_text l) then data_rows ls true
    else if seen = true ∧ (string_trim (line_text l)).head? = some 34 then
      l :: data_rows ls seen
    else data_rows ls seen

/-- What holds of the reader's state between two lines: the catalogue holds
`size` records, `size` is at most the capacity, which is positive, and a
schema that has been found has at least one column and as many names as
columns. -/
def reader_invariant (st : ReaderState) : Prop :=
  st.catalog.sources.length = st.catalog.size ∧ st.catalog.size ≤ st.catalog.capacity ∧
    0 < st.catalog.capacity ∧
    ∀ cols, st.input_columns = some cols → 0 < st.col_count ∧ st.col_count = cols.length

/-- The names of the records of the catalogue that the reader returns. -/
def catalog_names (result : Except CatalogError SofiaCatalog) : List (List Nat) :=
  match result with
  | .ok catalog => catalog.sources.map (·.name)
  | .error _ => []

/-- A catalogue file whose first data row has 1028 characters: the text after
its first 1023 characters begins with a double quote. A second data row
follows. -/
def long_row_file : List Nat :=
  ascii "# name id ra dec\n\"A\"" ++ List.replicate 1020 32 ++ ascii "\"B\" 2\n\"C\" 3\n"

/-- A catalogue file with a column header line and two data rows. -/
def plain_file : List Nat := ascii "# name id ra dec\n\"A\" 1 2 3\n\"B\" 2 4 5\n"

/-- The catalogue of `plain_file`. -/
def plain_catalog : SofiaCatalog :=
  { sources :=
      [{ default_source 0 with
          name := ascii "A", id := 1, ra := .of_text (ascii "2"), dec := .of_text (ascii "3") },
       { default_source 1 with
          name := ascii "B", id := 2, ra := .of_text (ascii "4"), dec := .of_text (ascii "5") }],
    size := 2, capacity := 100, type := ascii "ASCII", filename := ascii "cat.txt" }

/-- The arrays of the store hold exactly `size` entries. -/
def well_formed_store (s : Parameter) : Prop :=
  s.keys.length = s.size ∧ s.values.length = s.size

/-- The index of the first entry that equals `key`; the number of entries when
there is none. -/
def first_index (key : List Nat) : List (List Nat) → Nat
  | [] => 0
  | k :: ks => if k = key then 0 else first_index key ks + 1

/-- A store with two entries. -/
def sample_store : Parameter :=
  Parameter_set (Parameter_set Parameter_new (ascii "input.data") (ascii "cube.fits"))
    (ascii "output.writemask") (ascii "True")

/-- The values that stand for true, in lower case. -/
def true_words : List (List Nat) := [ascii "true", ascii "yes", ascii "1", ascii "t"]

/-- A call of the store made by a client: `Parameter_set` with a key and a
value, or `Parameter_set_defaults`. -/
inductive StoreCall where
  | set (key value : List Nat)
  | set_defaults
  deriving DecidableEq, Repr

/-- The store after one call. -/
def apply_call (s : Parameter) : StoreCall → Parameter
  | .set key value => Parameter_set s key value
  | .set_defaults => Parameter_set_defaults s

/-- The store after a sequence of calls. -/
def apply_calls (s : Parameter) (calls : List StoreCall) : Parameter :=
  calls.foldl apply_call s

/-- What holds of every store that the calls of a client produce: the arrays
hold `size` entries, the keys are pairwise distinct, and `size` is at most
the capacity, which is positive. -/
def store_invariant (s : Parameter) : Prop :=
  well_formed_store s ∧ s.keys.Nodup ∧ s.size ≤ s.capacity ∧ 0 < s.capacity

/-- The unsigned integer that the bytes of a word hold when the least
significant byte comes first. -/
def little_endian_value : List Nat → Nat
  | [] => 0
  | b :: bytes => b + 256 * little_endian_value bytes

/-- The unsigned integer that the bytes of a word hold when the most
significant byte comes first. -/
def big_endian_value (bytes : List Nat) : Nat := bytes.foldl (fun acc b => 256 * acc + b) 0

/-- Word `i` of a buffer of words of `w` bytes. -/
def word_at (data : List Nat) (w i : Nat) : List Nat := (data.drop (i * w)).take w

/-- A header line whose value is one single quote followed by a comment. -/
def lone_quote_comment_line : List Nat := fits_line "KEY     = ' / one quote"

/-- A store in which `input.data` is set and `output.filename` is present
with an empty value. -/
def empty_name_store : Parameter :=
  Parameter_set (Parameter_set Parameter_new (ascii "input.data") (ascii "data/cube.fits"))
    (ascii "output.filename") []

/-- A column header line in which the column `x` comes after the column
`x_min`. -/
def substring_schema_line : List Nat := ascii "# name id ra dec x_min x"

/-- A catalogue file with two column header lines that name the columns in
different orders, followed by one data row. -/
def two_schema_file : List Nat := ascii "# name id ra dec\n# id name ra dec\n\"A\" 7\n"

/-- The file `two_schema_file` without its second column header line. -/
def first_schema_file : List Nat := ascii "# name id ra dec\n\"A\" 7\n"

/-- The column names that the reader stores for the column header line `l`:
as many tokens of the line behind its first character as the text behind the
`#` has tokens. For a line that begins with the `#` these are
`schema_columns l`. -/
def stored_columns (l : List Nat) : List (List Nat) :=
  (strtok_all (((line_text l).takeWhile is_trim_space ++ string_trim (line_text l)).drop 1)).take
    (strtok_all ((string_trim (line_text l)).drop 1)).length

/-- A data row whose quoted name is not closed. -/
def open_quote_row : List Nat := ascii "\"NGC 1 2.5"

/-- The text of a line without its trailing white space, as `string_trim`
leaves it in the buffer. -/
def kept_text (l : List Nat) : List Nat :=
  (line_text l).takeWhile is_trim_space ++ string_trim (line_text l)

/-- A blank line: its text holds white space only. -/
def blank_line (l : List Nat) : Prop := string_trim (line_text l) = []

/-- A comment line: the first character of its text after leading white
space is `#`. -/
def comment_line (l : List Nat) : Prop := (string_trim (line_text l)).head? = some 35

/-- A line that is neither blank nor a comment and holds `=`. -/
def entry_line (l : List Nat) : Prop :=
  ¬ blank_line l ∧ ¬ comment_line l ∧ 61 ∈ line_text l

/-- The text before the first `=` of the line, without the white space around
it, in lower case. -/
def entry_key (l : List Nat) : List Nat :=
  (string_trim (text_before 61 (line_text l))).map tolower

/-- The text after the first `=` of the line, without the white space around
it. -/
def entry_value (l : List Nat) : List Nat := string_trim (text_after 61 (line_text l))

instance (l : List Nat) : Decidable (blank_line l) := by
  unfold blank_line; exact inferInstance

instance (l : List Nat) : Decidable (comment_line l) := by
  unfold comment_line; exact inferInstance

instance (l : List Nat) : Decidable (entry_line l) := by
  unfold entry_line; exact inferInstance

/-- The key of the placeholder of the blank line number `i`. -/
def empty_key (i : Nat) : List Nat := ascii "EMPTY" ++ decimal i

/-- The key of the placeholder of the comment line number `j`. -/
def hash_key (j : Nat) : List Nat := ascii "HASH" ++ decimal j

/-- The key begins with EMPTY. -/
def is_empty_key (k : List Nat) : Bool := (ascii "EMPTY").isPrefixOf k

/-- The key begins with HASH. -/
def is_hash_key (k : List Nat) : Bool := (ascii "HASH").isPrefixOf k

/-- The key holds no upper-case letter. -/
def lower_key (k : List Nat) : Prop := ∀ c ∈ k, ¬ (65 ≤ c ∧ c ≤ 90)

/-- The blank lines among the lines, in their order. -/
def blank_lines (lines : List (List Nat)) : List (List Nat) :=
  lines.filter (fun l => decide (blank_line l))

/-- The comment lines among the lines, in their order. -/
def comment_lines (lines : List (List Nat)) : List (List Nat) :=
  lines.filter (fun l => decide (comment_line l))

/-- What holds of the store while the file is loaded, `B` and `C` being the
blank lines and the comment lines read so far: the keys that begin with EMPTY
are EMPTY0, EMPTY1, ... in this order, one for each line of `B`, with the text
of the line as value, and likewise for HASH and `C`. -/
def placeholder_invariant (s : Parameter) (B C : List (List Nat)) : Prop :=
  well_formed_store s ∧
  s.keys.filter is_empty_key = (List.range B.length).map empty_key ∧
  s.keys.filter is_hash_key = (List.range C.length).map hash_key ∧
  (∀ i l, B[i]? = some l → Parameter_get_str s (empty_key i) = kept_text l) ∧
  (∀ j l, C[j]? = some l → Parameter_get_str s (hash_key j) = kept_text l)

/-- A parameter file that consists of one blank line of 1030 spaces. -/
def long_blank_file : List Nat := List.replicate 1030 32 ++ [10]

/-- A parameter file that consists of one line of 1023 letters. -/
def full_line_file : List Nat := List.replicate 1023 97 ++ [10]

/-- A parameter file with two entries for the key `a`, two blank lines and a
comment line. -/
def sample_parameter_file : List Nat := ascii "A = 1\n\n# c = d\n B=2 \n  \nA= 3\n"

/-- A parameter file whose only line, of 1030 characters, gives the key `k` a
value of 1028 letters. -/
def long_value_file : List Nat := ascii "k=" ++ List.replicate 1028 97 ++ [10]

/-- What the loaded store says of the key `k`: whether it is present, and its
value; `none` when the file is not loaded. -/
def loaded_value (result : Except ParameterError Parameter) (k : List Nat) :
    Option (Bool × List Nat) :=
  match result with
  | .ok store => some (Parameter_exists store k, Parameter_get_str store k)
  | .error _ => none

/-- All characters of the text satisfy the test. -/
def all_chars (test : Nat → Bool) (s : List Nat) : Prop := ∀ c ∈ s, test c = true

/-- An optional sign: nothing, `+` or `-`. -/
def sign_text (s : List Nat) : Prop := s = [] ∨ s = [43] ∨ s = [45]

/-- A sequence of digits with an optional decimal point that holds at least
one digit. -/
def mantissa_text (digit : Nat → Bool) (m : List Nat) : Prop :=
  ∃ a b, all_chars digit a ∧ all_chars digit b ∧ (a ≠ [] ∨ b ≠ []) ∧
    (m = a ++ 46 :: b ∨ (b = [] ∧ m = a))

/-- An optional exponent part: the letter `marker` in either case, an
optional sign and at least one decimal digit. -/
def exponent_text (marker : Nat) (e : List Nat) : Prop :=
  e = [] ∨ ∃ c sg d, tolower c = marker ∧ sign_text sg ∧ d ≠ [] ∧ all_chars isdigit d ∧
    e = c :: (sg ++ d)

/-- A number without sign as the C standard describes the subject sequence of
`strtod`: INF or INFINITY in any case, NAN in any case with an optional
bracketed sequence of letters, digits and underscores, a hexadecimal number
(`0x`, hexadecimal digits with an optional point, an optional binary
exponent) or a decimal number (digits with an optional point, an optional
exponent). -/
def number_text (u : List Nat) : Prop :=
  u.map tolower = ascii "inf" ∨ u.map tolower = ascii "infinity" ∨
  (∃ n cs, n.map tolower = ascii "nan" ∧ all_chars is_nchar cs ∧
    (u = n ∨ u = n ++ 40 :: (cs ++ [41]))) ∨
  (∃ x m e, tolower x = 120 ∧ mantissa_text isxdigit m ∧ exponent_text 112 e ∧
    u = 48 :: x :: (m ++ e)) ∨
  (∃ m e, mantissa_text isdigit m ∧ exponent_text 101 e ∧ u = m ++ e)

/-- The whole text is a floating-point number: optional white space, an
optional sign and a number, with no character after it. -/
def float_text (s : List Nat) : Prop :=
  ∃ w sg u, all_chars isspace w ∧ sign_text sg ∧ number_text u ∧ s = w ++ (sg ++ u)

/-- The first character of a number: not white space and not a sign. -/
def number_start (c : Nat) : Prop :=
  isspace c = false ∧ c ≠ 43 ∧ c ≠ 45 ∧ (tolower c = 105 ∨ tolower c = 110 ∨ c = 46 ∨ isdigit c = true)

/-- A card of a scaling keyword in fixed format: 80 bytes with BSCALE or
BZERO in columns 1 to 8 and `=` in column 9; the bytes behind it are the
value and the comment. -/
def scale_card (l : List Nat) : Prop :=
  l.length = 80 ∧ (l.take 9 = ascii "BSCALE  =" ∨ l.take 9 = ascii "BZERO   =")

/-- Two header lines that are equal, or that are cards of the same scaling
keyword and differ only behind the `=`. -/
def scale_twin (l1 l2 : List Nat) : Prop :=
  l1 = l2 ∨ (scale_card l1 ∧ scale_card l2 ∧ l1.take 9 = l2.take 9)

instance (l : List Nat) : Decidable (scale_card l) := by
  unfold scale_card; exact inferInstance

instance (l1 l2 : List Nat) : Decidable (scale_twin l1 l2) := by
  unfold scale_twin; exact inferInstance

/-- The header of a cube of two bytes whose BSCALE card holds `value`. -/
def scale_lines (card : List Nat) : List (List Nat) :=
  [fits_line "SIMPLE  =                    T",
   fits_line "BITPIX  =                    8",
   fits_line "NAXIS   =                    1",
   fits_line "NAXIS1  =                    2",
   card,
   fits_line "END"] ++ List.replicate 30 (fits_line "")

/-- A cube file of two bytes with the scale 1.0. -/
def unit_scale_file : List Nat :=
  (scale_lines (fits_line "BSCALE  =                  1.0")).flatten ++ [1, 2]

/-- The same cube file with the scale 2.5. -/
def other_scale_file : List Nat :=
  (scale_lines (fits_line "BSCALE  =                  2.5")).flatten ++ [1, 2]

/-- The same cube file with a single quote in the place of the scale. -/
def quote_scale_file : List Nat :=
  (scale_lines (fits_line "BSCALE  = '")).flatten ++ [1, 2]

/-! ## Theorems: `swap_fits_byte_order` -/

theorem swap_step_length (base w : Nat) (bytes : List Nat) (j : Nat) :
    (swap_step base w bytes j).length = bytes.length := by
  simp [swap_step]

theorem swap_step_get (base w : Nat) (bytes : List Nat) (j k : Nat)
    (hj : j < w) (hb : base + w ≤ bytes.length) :
    (swap_step base w bytes j)[k]? =
      if k = base + (w - 1 - j) then bytes[base + j]?
      else if k = base + j then bytes[base + (w - 1 - j)]?
      else bytes[k]? := by
  have h1 : base + j < bytes.length := by omega
  have h2 : base + (w - 1 - j) < bytes.length := by omega
  simp only [swap_step, List.getElem?_set, List.length_set, List.getD_eq_getElem?_getD]
  by_cases hk1 : k = base + (w - 1 - j)
  · subst hk1
    simp [h1, h2]
  · by_cases hk2 : k = base + j
    · subst hk2
      have hne : ¬ j = w - 1 - j := by omega
      have hne2 : ¬ w - 1 - j = j := by omega
      simp [h1, h2, hne, hne2]
    · simp [hk1, hk2, Ne.symm hk1, Ne.symm hk2]

theorem swap_inner_length (base w : Nat) (m : Nat) (bytes : List Nat) :
    ((List.range m).foldl (swap_step base w) bytes).length = bytes.length := by
  induction m with
  | zero => simp
  | succ m ih => simp [List.range_succ, List.foldl_append, swap_step_length, ih]

theorem swap_inner_get (base w : Nat) (bytes : List Nat) (hb : base + w ≤ bytes.length)
    (m : Nat) (hm : m ≤ w / 2) (k : Nat) :
    ((List.range m).foldl (swap_step base w) bytes)[k]? = bytes[word_idx base w m k]? := by
  induction m generalizing k with
  | zero => simp [word_idx]
  | succ m ih =>
    have hm2 : m ≤ w / 2 := by omega
    have hmw : m < w := by omega
    rw [List.range_succ, List.foldl_append]
    simp only [List.foldl_cons, List.foldl_nil]
    rw [swap_step_get base w _ m k hmw (by rw [swap_inner_length]; exact hb)]
    rw [ih hm2, ih hm2, ih hm2]
    unfold word_idx
    split_ifs <;> first | rfl | (congr 1; omega)

theorem swap_word_length (w : Nat) (bytes : List Nat) (i : Nat) :
    (swap_word w bytes i).length = bytes.length := by
  simp [swap_word, swap_inner_length]

theorem swap_outer_length (w n : Nat) (bytes : List Nat) :
    ((List.range n).foldl (swap_word w) bytes).length = bytes.length := by
  induction n with
  | zero => simp
  | succ n ih => simp [List.range_succ, List.foldl_append, swap_word_length, ih]

theorem word_idx_full (w i k : Nat) :
    word_idx (i * w) w (w / 2) k =
      if i * w ≤ k ∧ k < (i + 1) * w then i * w + (w - 1 - (k - i * w)) else k := by
  unfold word_idx
  have e : (i + 1) * w = i * w + w := by ring
  rw [e]
  split_ifs with h1 h2 h2
  · rfl
  · exact absurd ⟨h1.1, h1.2.1⟩ h2
  · omega
  · rfl

theorem swap_outer_get (w : Nat) (hw : 0 < w) (bytes : List Nat) (n : Nat)
    (hn : n * w ≤ bytes.length) (k : Nat) :
    ((List.range n).foldl (swap_word w) bytes)[k]? = bytes[swapped_idx w n k]? := by
  induction n generalizing k with
  | zero => simp [swapped_idx]
  | succ n ih =>
    have e : (n + 1) * w = n * w + w := by ring
    have hn2 : n * w ≤ bytes.length := by rw [e] at hn; omega
    rw [List.range_succ, List.foldl_append]
    simp only [List.foldl_cons, List.foldl_nil]
    change ((List.range (w / 2)).foldl (swap_step (n * w) w)
      ((List.range n).foldl (swap_word w) bytes))[k]? = _
    rw [swap_inner_get (n * w) w _ (by rw [swap_outer_length]; omega) (w / 2) (le_refl _) k]
    rw [ih hn2, word_idx_full w n k]
    unfold swapped_idx
    rw [e]
    by_cases hk : n * w ≤ k ∧ k < n * w + w
    · have hdiv : k / w = n := by
        apply Nat.div_eq_of_lt_le
        · rw [Nat.mul_comm] at hk; rw [Nat.mul_comm]; exact hk.1
        · rw [e]; exact hk.2
      have hmod : k % w = k - n * w := by
        have := Nat.div_add_mod k w
        rw [hdiv, Nat.mul_comm] at this
        omega
      rw [if_pos hk, if_pos hk.2, hdiv, hmod]
      have : ¬ (n * w + (w - 1 - (k - n * w)) < n * w) := by omega
      rw [if_neg this]
    · rw [if_neg hk]
      by_cases hlt : k < n * w
      · rw [if_pos hlt, if_pos (by omega)]
      · rw [if_neg hlt, if_neg (by omega)]

theorem swapped_idx_lt (w n k : Nat) (hk : k < n * w) : swapped_idx w n k < n * w := by
  have hw : 0 < w := by
    rcases Nat.eq_zero_or_pos w with h | h
    · subst h; simp at hk
    · exact h
  unfold swapped_idx
  rw [if_pos hk]
  have h1 : k / w < n := (Nat.div_lt_iff_lt_mul hw).2 hk
  have h2 : k % w < w := Nat.mod_lt _ hw
  have h3 : (k / w + 1) * w ≤ n * w := Nat.mul_le_mul_right w h1
  have h4 : (k / w + 1) * w = k / w * w + w := by ring
  omega

theorem swapped_idx_invol (w n k : Nat) : swapped_idx w n (swapped_idx w n k) = k := by
  by_cases hk : k < n * w
  · have hw : 0 < w := by
      rcases Nat.eq_zero_or_pos w with h | h
      · subst h; simp at hk
      · exact h
    have hlt := swapped_idx_lt w n k hk
    have h2 : k % w < w := Nat.mod_lt _ hw
    have e : swapped_idx w n k = (w - 1 - k % w) + w * (k / w) := by
      unfold swapped_idx; rw [if_pos hk]; ring
    have hd : swapped_idx w n k / w = k / w := by
      rw [e, Nat.add_mul_div_left _ _ hw, Nat.div_eq_of_lt (by omega)]; simp
    have hm : swapped_idx w n k % w = w - 1 - k % w := by
      rw [e, Nat.add_mul_mod_self_left, Nat.mod_eq_of_lt (by omega)]
    have hdm := Nat.div_add_mod k w
    have e2 : ∀ m, m < n * w → swapped_idx w n m = m / w * w + (w - 1 - m % w) := by
      intro m hmlt; unfold swapped_idx; rw [if_pos hmlt]
    rw [e2 _ hlt, hd, hm]
    have : w * (k / w) = k / w * w := Nat.mul_comm _ _
    omega
  · unfold swapped_idx
    rw [if_neg hk, if_neg hk]

theorem swap_fits_byte_order_length (data : List Nat) (w n : Nat) :
    (swap_fits_byte_order data w n).length = data.length := by
  unfold swap_fits_byte_order
  split
  · rfl
  · exact swap_outer_length w n data

theorem swap_fits_byte_order_get (data : List Nat) (w n : Nat) (hw : 2 ≤ w)
    (hn : n * w ≤ data.length) (k : Nat) :
    (swap_fits_byte_order data w n)[k]? = data[swapped_idx w n k]? := by
  unfold swap_fits_byte_order
  rw [if_neg (by omega)]
  exact swap_outer_get w (by omega) data n hn k

theorem swap_fits_byte_order_twice (data : List Nat) (w n : Nat) (hn : n * w ≤ data.length) :
    swap_fits_byte_order (swap_fits_byte_order data w n) w n = data := by
  by_cases h1 : w ≤ 1
  · simp [swap_fits_byte_order, h1]
  · have h2 : 2 ≤ w := by omega
    apply List.ext_getElem?
    intro k
    rw [swap_fits_byte_order_get _ w n h2 (by rw [swap_fits_byte_order_length]; exact hn),
      swap_fits_byte_order_get _ w n h2 hn, swapped_idx_invol]

/-- C5: for every buffer, every word size in {1, 2, 4, 8} and every count `n`
with `n * w` not exceeding the buffer length, applying `swap_fits_byte_order`
twice gives back the original buffer. -/
theorem swap_fits_byte_order_involution (data : List Nat) (w n : Nat)
    (hw : w = 1 ∨ w = 2 ∨ w = 4 ∨ w = 8) (hn : n * w ≤ data.length) :
    swap_fits_byte_order (swap_fits_byte_order data w n) w n = data := by
  rcases hw with h | h | h | h <;> subst h <;> exact swap_fits_byte_order_twice data _ n hn

/-- Witness of C5: a six-byte buffer, two words of two bytes. -/
theorem swap_fits_byte_order_involution_witness :
    (2 = 1 ∨ 2 = 2 ∨ 2 = 4 ∨ 2 = 8) ∧ 2 * 2 ≤ [1, 2, 3, 4, 5, 6].length ∧
    swap_fits_byte_order [1, 2, 3, 4, 5, 6] 2 2 = [2, 1, 4, 3, 5, 6] ∧
    swap_fits_byte_order (swap_fits_byte_order [1, 2, 3, 4, 5, 6] 2 2) 2 2
      = [1, 2, 3, 4, 5, 6] :=
  ⟨by decide, by decide, by decide,
    swap_fits_byte_order_involution [1, 2, 3, 4, 5, 6] 2 2 (by decide) (by decide)⟩

/-- C6: for every buffer, every word size `w ≥ 2` (even or odd) and every
count `n` with `n * w ≤ length`, `swap_fits_byte_order` keeps the length, puts
at index `i * w + j` the input byte of index `i * w + (w - 1 - j)` for all
`i < n`, `j < w`, and leaves every byte at an index `≥ n * w` unchanged; for
`w ≤ 1` it is the identity. -/
theorem swap_fits_byte_order_spec (data : List Nat) (w n : Nat) (hn : n * w ≤ data.length) :
    (2 ≤ w →
      (swap_fits_byte_order data w n).length = data.length ∧
      (∀ i j, i < n → j < w →
        (swap_fits_byte_order data w n)[i * w + j]? = data[i * w + (w - 1 - j)]?) ∧
      (∀ k, n * w ≤ k → (swap_fits_byte_order data w n)[k]? = data[k]?)) ∧
    (w ≤ 1 → swap_fits_byte_order data w n = data) := by
  refine ⟨fun hw => ⟨swap_fits_byte_order_length data w n, ?_, ?_⟩, fun hw => ?_⟩
  · intro i j hi hj
    rw [swap_fits_byte_order_get data w n hw hn]
    have hlt : i * w + j < n * w := by
      have h3 : (i + 1) * w ≤ n * w := Nat.mul_le_mul_right w hi
      have h4 : (i + 1) * w = i * w + w := by ring
      omega
    have hd : (i * w + j) / w = i := by
      rw [Nat.add_comm, Nat.mul_comm, Nat.add_mul_div_left _ _ (by omega : 0 < w),
        Nat.div_eq_of_lt hj]; simp
    have hm : (i * w + j) % w = j := by
      rw [Nat.add_comm, Nat.mul_comm, Nat.add_mul_mod_self_left, Nat.mod_eq_of_lt hj]
    unfold swapped_idx
    rw [if_pos hlt, hd, hm]
  · intro k hk
    rw [swap_fits_byte_order_get data w n hw hn]
    unfold swapped_idx
    rw [if_neg (by omega)]
  · simp [swap_fits_byte_order, hw]

/-- Witness of C6: three-byte words (odd width) in an eight-byte buffer. -/
theorem swap_fits_byte_order_spec_witness :
    2 * 3 ≤ [1, 2, 3, 4, 5, 6, 7, 8].length ∧
    swap_fits_byte_order [1, 2, 3, 4, 5, 6, 7, 8] 3 2 = [3, 2, 1, 6, 5, 4, 7, 8] ∧
    ((2 ≤ 3 →
      (swap_fits_byte_order [1, 2, 3, 4, 5, 6, 7, 8] 3 2).length
        = [1, 2, 3, 4, 5, 6, 7, 8].length ∧
      (∀ i j, i < 2 → j < 3 →
        (swap_fits_byte_order [1, 2, 3, 4, 5, 6, 7, 8] 3 2)[i * 3 + j]?
          = [1, 2, 3, 4, 5, 6, 7, 8][i * 3 + (3 - 1 - j)]?) ∧
      (∀ k, 2 * 3 ≤ k →
        (swap_fits_byte_order [1, 2, 3, 4, 5, 6, 7, 8] 3 2)[k]?
          = [1, 2, 3, 4, 5, 6, 7, 8][k]?)) ∧
    (3 ≤ 1 → swap_fits_byte_order [1, 2, 3, 4, 5, 6, 7, 8] 3 2 = [1, 2, 3, 4, 5, 6, 7, 8])) :=
  ⟨by decide, by decide, swap_fits_byte_order_spec [1, 2, 3, 4, 5, 6, 7, 8] 3 2 (by decide)⟩

/-! ## Theorems: reading the header blocks -/

theorem ascii_END : ascii "END" = [69, 78, 68] := by decide

theorem ascii_SIMPLE : ascii "SIMPLE" = [83, 73, 77, 80, 76, 69] := by decide

theorem strncmp_eq_END (p : List Nat) :
    strncmp_eq p (ascii "END") 3 = true ↔ p.take 3 = [69, 78, 68] := by
  rw [ascii_END]
  rcases p with _ | ⟨a, _ | ⟨b, _ | ⟨c, t⟩⟩⟩ <;>
    simp [strncmp_eq, char_at] <;> omega

theorem scan_end_iff (n : Nat) (ptr : List Nat) :
    scan_end n ptr = true ↔
      ∃ j, j < n ∧ (ptr.drop (FITS_HEADER_LINE_SIZE * j)).take 3 = [69, 78, 68] := by
  induction n generalizing ptr with
  | zero => simp [scan_end]
  | succ n ih =>
    unfold scan_end
    by_cases h : strncmp_eq ptr (ascii "END") 3 = true
    · rw [if_pos h]
      simp only [true_iff]
      exact ⟨0, by omega, by simpa using (strncmp_eq_END ptr).1 h⟩
    · rw [if_neg h, ih]
      constructor
      · rintro ⟨j, hj, he⟩
        refine ⟨j + 1, by omega, ?_⟩
        rw [List.drop_drop] at he
        rw [show FITS_HEADER_LINE_SIZE * (j + 1) = FITS_HEADER_LINE_SIZE + FITS_HEADER_LINE_SIZE * j
          by ring]
        exact he
      · rintro ⟨j, hj, he⟩
        rcases j with _ | j
        · exact absurd ((strncmp_eq_END ptr).2 (by simpa using he)) h
        · refine ⟨j, by omega, ?_⟩
          rw [List.drop_drop]
          rw [show FITS_HEADER_LINE_SIZE * (j + 1) = FITS_HEADER_LINE_SIZE + FITS_HEADER_LINE_SIZE * j
            by ring] at he
          exact he

theorem block_scan_iff (file : List Nat) (b : Nat) :
    scan_end FITS_HEADER_LINES
        ((file.drop (FITS_HEADER_BLOCK_SIZE * b)).take FITS_HEADER_BLOCK_SIZE) = true ↔
      ∃ j, j < 36 ∧ (file.drop (2880 * b + 80 * j)).take 3 = [69, 78, 68] := by
  rw [scan_end_iff]
  simp only [FITS_HEADER_LINES, FITS_HEADER_BLOCK_SIZE, FITS_HEADER_LINE_SIZE]
  constructor
  · rintro ⟨j, hj, he⟩
    refine ⟨j, hj, ?_⟩
    rw [List.drop_take, List.take_take, List.drop_drop, Nat.min_eq_left (by omega)] at he
    exact he
  · rintro ⟨j, hj, he⟩
    refine ⟨j, hj, ?_⟩
    rw [List.drop_take, List.take_take, List.drop_drop, Nat.min_eq_left (by omega)]
    exact he

theorem read_header_blocks_none (file : List Nat) (blocks b : Nat)
    (hb : b + blocks = file.length / 2880)
    (hno : ∀ k, b ≤ k → ¬ block_has_end_line file k) :
    read_header_blocks file blocks (FITS_HEADER_BLOCK_SIZE * b)
      = .error .header_ended_unexpectedly := by
  induction blocks generalizing b with
  | zero => rfl
  | succ n ih =>
    unfold read_header_blocks
    have hlen : 2880 * (b + 1) ≤ file.length := by
      have := Nat.div_mul_le_self file.length 2880
      have : (b + 1) ≤ file.length / 2880 := by omega
      have := Nat.mul_le_mul_right 2880 this
      omega
    have hscan : ¬ scan_end FITS_HEADER_LINES
        ((file.drop (FITS_HEADER_BLOCK_SIZE * b)).take FITS_HEADER_BLOCK_SIZE) = true := by
      rw [block_scan_iff]
      intro h
      exact hno b (le_refl _) ⟨hlen, h⟩
    simp only [hscan]
    rw [show FITS_HEADER_BLOCK_SIZE * b + FITS_HEADER_BLOCK_SIZE = FITS_HEADER_BLOCK_SIZE * (b + 1)
      by ring]
    exact ih (b + 1) (by omega) (fun k hk => hno k (by omega))

theorem read_header_blocks_some (file : List Nat) (blocks b k : Nat)
    (hb : b + blocks = file.length / 2880) (hbk : b ≤ k)
    (hk : block_has_end_line file k)
    (hno : ∀ j, b ≤ j → j < k → ¬ block_has_end_line file j) :
    read_header_blocks file blocks (FITS_HEADER_BLOCK_SIZE * b) = .ok (2880 * (k + 1)) := by
  induction blocks generalizing b with
  | zero =>
    exfalso
    have h1 := hk.1
    have h2 : k + 1 ≤ file.length / 2880 := (Nat.le_div_iff_mul_le (by omega)).2 (by omega)
    omega
  | succ n ih =>
    unfold read_header_blocks
    by_cases hscan : scan_end FITS_HEADER_LINES
        ((file.drop (FITS_HEADER_BLOCK_SIZE * b)).take FITS_HEADER_BLOCK_SIZE) = true
    · simp only [hscan, if_true]
      have hlen : 2880 * (b + 1) ≤ file.length := by
        have := Nat.div_mul_le_self file.length 2880
        have : (b + 1) ≤ file.length / 2880 := by omega
        have := Nat.mul_le_mul_right 2880 this
        omega
      have hbe : block_has_end_line file b := ⟨hlen, (block_scan_iff file b).1 hscan⟩
      have : b = k := by
        by_contra hne
        exact hno b (le_refl _) (by omega) hbe
      subst this
      simp [FITS_HEADER_BLOCK_SIZE]; ring
    · simp only [hscan]
      have hne : b ≠ k := by
        intro h; subst h
        exact hscan ((block_scan_iff file b).2 hk.2)
      rw [show FITS_HEADER_BLOCK_SIZE * b + FITS_HEADER_BLOCK_SIZE
        = FITS_HEADER_BLOCK_SIZE * (b + 1) by ring]
      exact ih (b + 1) (by omega) (by omega) (fun j hj hjk => hno j (by omega) hjk)

/-! ## Theorems: what an accepted file looks like -/

theorem read_fits_header_eq (file : List Nat) :
    read_fits_header file =
      match read_header file with
      | .error e => .error e
      | .ok header_size =>
        if ¬ strncmp_eq (file.take header_size) (ascii "SIMPLE") 6 then .error .missing_simple
        else
          match parse_fits_header (raw_header file header_size) with
          | .error e => .error e
          | .ok fits =>
            if ¬ valid_bitpix (with_elements fits).data_type then .error .invalid_bitpix
            else if dimension_of fits ≤ 0 ∨ dimension_of fits > 4 then
              .error .unsupported_dimension
            else if (with_elements fits).data_size ≤ 0 then .error .invalid_naxis
            else .ok (with_elements fits) := by
  rfl

theorem read_header_cases (file : List Nat) :
    ((∀ k, ¬ block_has_end_line file k) ∧
        read_header file = .error .header_ended_unexpectedly) ∨
    ∃ k, block_has_end_line file k ∧ (∀ j, j < k → ¬ block_has_end_line file j) ∧
        read_header file = .ok (2880 * (k + 1)) := by
  classical
  by_cases h : ∃ k, block_has_end_line file k
  · right
    refine ⟨Nat.find h, Nat.find_spec h, fun j hj => Nat.find_min h hj, ?_⟩
    have := read_header_blocks_some file (file.length / 2880) 0 (Nat.find h) (by omega)
      (Nat.zero_le _) (Nat.find_spec h) (fun j _ hj => Nat.find_min h hj)
    simpa [read_header, FITS_HEADER_BLOCK_SIZE] using this
  · left
    have hno : ∀ k, ¬ block_has_end_line file k := fun k hk => h ⟨k, hk⟩
    refine ⟨hno, ?_⟩
    have := read_header_blocks_none file (file.length / 2880) 0 (by omega) (fun k _ => hno k)
    simpa [read_header, FITS_HEADER_BLOCK_SIZE] using this

theorem read_header_ok (file : List Nat) (hs : Nat) (h : read_header file = .ok hs) :
    ∃ k, hs = 2880 * (k + 1) ∧ block_has_end_line file k ∧
      ∀ j, j < k → ¬ block_has_end_line file j := by
  rcases read_header_cases file with ⟨_, he⟩ | ⟨k, hk, hmin, he⟩
  · rw [he] at h; exact absurd h (by simp)
  · rw [he] at h
    injection h with h
    exact ⟨k, h.symm, hk, hmin⟩

theorem parse_raw_header_ok (file : List Nat) (hs : Nat) (fits : FitsFile) (hhs : hs ≠ 0)
    (h : parse_fits_header (raw_header file hs) = .ok fits) :
    ∃ keys values,
      parse_lines (file.take hs)
        (count_lines (file.take hs) hs ((hs + 79) / 80) 0) ((hs + 79) / 80) 0 0
        = .ok (keys, values) ∧
      fits = { raw_header file hs with header_keys := keys, header_values := values,
                                       header_count := keys.length, header_parsed := true } := by
  unfold parse_fits_header at h
  have h0 : ¬ ((raw_header file hs).header_parsed = true ∨ (raw_header file hs).header_size = 0) := by
    simp [raw_header, FitsFile_new, hhs]
  rw [if_neg h0] at h
  simp only [raw_header, FitsFile_new, FITS_HEADER_LINE_SIZE] at h ⊢
  split at h
  · exact absurd h (by simp)
  · rename_i keys values hp
    injection h with h
    exact ⟨keys, values, hp, h.symm⟩

/-- Everything `read_fits_header` has established when it succeeds. -/
theorem read_fits_header_ok (file : List Nat) (fits : FitsFile)
    (h : read_fits_header file = .ok fits) :
    ∃ hs p, read_header file = .ok hs ∧
      strncmp_eq (file.take hs) (ascii "SIMPLE") 6 = true ∧
      parse_fits_header (raw_header file hs) = .ok p ∧
      fits = with_elements p ∧
      valid_bitpix fits.data_type = true ∧
      0 < dimension_of p ∧ dimension_of p ≤ 4 ∧ 0 < fits.data_size := by
  rw [read_fits_header_eq] at h
  split at h
  · exact absurd h (by simp)
  · rename_i hs hh
    split at h
    · exact absurd h (by simp)
    · rename_i hsimple
      split at h
      · exact absurd h (by simp)
      · rename_i p hp
        split at h
        · exact absurd h (by simp)
        · rename_i hbit
          split at h
          · exact absurd h (by simp)
          · rename_i hdim
            split at h
            · exact absurd h (by simp)
            · rename_i hsize
              injection h with h
              subst h
              refine ⟨hs, p, hh, by simpa using hsimple, hp, rfl, by simpa using hbit,
                by omega, by omega, by omega⟩

theorem read_fits_data_ok (le : Bool) (file : List Nat) (fits r : FitsFile)
    (h : read_fits_data le file fits = .ok r) :
    fits.data_size ≤ (file.length - fits.header_size) / fits.word_size ∧
    r = { fits with data := host_order le fits (payload_bytes file fits) } := by
  unfold read_fits_data at h
  simp only [List.length_drop] at h
  split at h
  · exact absurd h (by simp)
  · rename_i hread
    have hmin : min fits.data_size ((file.length - fits.header_size) / fits.word_size)
        = fits.data_size := by simpa using hread
    rw [hmin] at h
    refine ⟨by omega, ?_⟩
    unfold host_order payload_bytes
    split at h <;> rename_i hc
    · injection h with h
      rw [if_pos hc]; exact h.symm
    · injection h with h
      rw [if_neg hc]; exact h.symm

theorem valid_bitpix_cases (d : Int) (h : valid_bitpix d = true) :
    d = -64 ∨ d = -32 ∨ d = 8 ∨ d = 16 ∨ d = 32 ∨ d = 64 := by
  simpa [valid_bitpix, or_assoc] using h

theorem with_elements_word_size (p : FitsFile)
    (h : valid_bitpix (with_elements p).data_type = true) :
    (with_elements p).word_size = (with_elements p).data_type.natAbs / 8 ∧
    ((with_elements p).word_size = 1 ∨ (with_elements p).word_size = 2 ∨
      (with_elements p).word_size = 4 ∨ (with_elements p).word_size = 8) := by
  refine ⟨rfl, ?_⟩
  have hw : (with_elements p).word_size = (with_elements p).data_type.natAbs / 8 := rfl
  rcases valid_bitpix_cases _ h with h | h | h | h | h | h <;> rw [hw, h] <;> decide

/-- Everything `read_fits_file` has established when it returns a cube. -/
theorem read_fits_file_ok (le : Bool) (file : List Nat) (r : FitsFile)
    (h : read_fits_file le file = .ok r) :
    ∃ hs p m, read_header file = .ok hs ∧
      strncmp_eq (file.take hs) (ascii "SIMPLE") 6 = true ∧
      parse_fits_header (raw_header file hs) = .ok p ∧
      m = with_elements p ∧ read_fits_header file = .ok m ∧
      valid_bitpix m.data_type = true ∧
      0 < dimension_of p ∧ dimension_of p ≤ 4 ∧ 0 < m.data_size ∧
      m.data_size ≤ (file.length - m.header_size) / m.word_size ∧
      r = { m with data := host_order le m (payload_bytes file m) } := by
  unfold read_fits_file at h
  split at h
  · exact absurd h (by simp)
  · rename_i m hm
    obtain ⟨hs, p, h1, h2, h3, h4, h5, h6, h7, h8⟩ := read_fits_header_ok file m hm
    obtain ⟨h9, h10⟩ := read_fits_data_ok le file m r h
    exact ⟨hs, p, m, h1, h2, h3, h4, hm, h5, h6, h7, h8, h9, h10⟩

theorem parsed_header_size (file : List Nat) (hs : Nat) (p : FitsFile)
    (hh : read_header file = .ok hs)
    (hp : parse_fits_header (raw_header file hs) = .ok p) :
    p.header_size = hs ∧ p.header = file.take hs ∧ p.header_parsed = true ∧ p.data = [] := by
  obtain ⟨k, hk, _, _⟩ := read_header_ok file hs hh
  obtain ⟨keys, values, _, he⟩ := parse_raw_header_ok file hs p (by omega) hp
  subst he
  simp [raw_header, FitsFile_new]

/-- C2: a stream without an 80-byte-aligned line starting with END inside a
complete 2880-byte block makes `read_fits_file` fail with the header
truncation error, and no cube is returned; when such a line exists, the
header read stops at the first block `k` holding one, so the header size is
`2880 * (k + 1)`. -/
theorem read_fits_file_header_end (le : Bool) (file : List Nat) :
    ((∀ k, ¬ block_has_end_line file k) →
      read_fits_file le file = .error .header_ended_unexpectedly ∧
      ∀ r, read_fits_file le file ≠ .ok r) ∧
    (∀ k, block_has_end_line file k → (∀ j, j < k → ¬ block_has_end_line file j) →
      read_header file = .ok (2880 * (k + 1)) ∧
      ∀ r, read_fits_file le file = .ok r → r.header_size = 2880 * (k + 1)) := by
  constructor
  · intro hno
    have he : read_fits_file le file = .error .header_ended_unexpectedly := by
      rcases read_header_cases file with ⟨_, he⟩ | ⟨k, hk, _, _⟩
      · simp [read_fits_file, read_fits_header, he]
      · exact absurd hk (hno k)
    exact ⟨he, fun r hr => by rw [he] at hr; exact absurd hr (by simp)⟩
  · intro k hk hmin
    have hh : read_header file = .ok (2880 * (k + 1)) := by
      rcases read_header_cases file with ⟨hno, _⟩ | ⟨k2, hk2, hmin2, he⟩
      · exact absurd hk (hno k)
      · have : k2 = k := by
          rcases Nat.lt_trichotomy k2 k with h | h | h
          · exact absurd hk2 (hmin k2 h)
          · exact h
          · exact absurd hk (hmin2 k h)
        rw [← this]; exact he
    refine ⟨hh, fun r hr => ?_⟩
    obtain ⟨hs, p, m, h1, _, h3, h4, _, _, _, _, _, _, h11⟩ := read_fits_file_ok le file r hr
    have hps := (parsed_header_size file hs p h1 h3).1
    rw [hh] at h1
    injection h1 with h1
    rw [h11, h4]
    show p.header_size = _
    rw [hps, h1]

/-- Witness of C2: a six-byte stream has no complete block; in `sample_file`
the END line is line 6 of block 0. -/
theorem read_fits_file_header_end_witness :
    ((∀ k, ¬ block_has_end_line (ascii "SIMPLE") k) ∧
      read_fits_file true (ascii "SIMPLE") = .error .header_ended_unexpectedly) ∧
    (block_has_end_line sample_file 0 ∧ (∀ j, j < 0 → ¬ block_has_end_line sample_file j) ∧
      read_header sample_file = .ok (2880 * (0 + 1))) :=
  have h1 : ∀ k, ¬ block_has_end_line (ascii "SIMPLE") k := fun k hk => by
    have := hk.1
    rw [ascii_SIMPLE] at this
    simp at this
    omega
  have h2 : block_has_end_line sample_file 0 := ⟨by decide!, 6, by decide, by decide!⟩
  have h3 : ∀ j, j < 0 → ¬ block_has_end_line sample_file j := fun j hj => absurd hj (by omega)
  ⟨⟨h1, ((read_fits_file_header_end true (ascii "SIMPLE")).1 h1).1⟩,
    h2, h3, ((read_fits_file_header_end true sample_file).2 0 h2 h3).1⟩

/-- The fields of an accepted cube in terms of its own header cards. -/
theorem read_fits_file_elements (le : Bool) (file : List Nat) (r : FitsFile)
    (h : read_fits_file le file = .ok r) :
    r.data_type = long_to_int (get_fits_header_int r (ascii "BITPIX")) ∧
    valid_bitpix r.data_type = true ∧
    0 < dimension_of r ∧ dimension_of r ≤ 4 ∧
    r.nx = long_to_size_t (get_fits_header_int r (ascii "NAXIS1")) ∧
    r.ny = (if dimension_of r > 1 then long_to_size_t (get_fits_header_int r (ascii "NAXIS2"))
            else 1) ∧
    r.nz = (if dimension_of r > 2 then long_to_size_t (get_fits_header_int r (ascii "NAXIS3"))
            else 1) ∧
    r.word_size = r.data_type.natAbs / 8 ∧
    r.data_size = (r.nx * r.ny * r.nz) % SIZE_MOD ∧ 0 < r.data_size := by
  obtain ⟨hs, p, m, _, _, _, h4, _, h6, h7, h8, h9, _, h11⟩ := read_fits_file_ok le file r h
  subst h11
  subst h4
  exact ⟨rfl, h6, h7, h8, rfl, rfl, rfl, rfl, rfl, h9⟩

theorem get_fits_header_int_absent (fits : FitsFile) (key : List Nat)
    (h : get_fits_header_value fits key = none) : get_fits_header_int fits key = 0 := by
  simp [get_fits_header_int, h]

theorem long_to_size_t_natCast (a : Nat) : long_to_size_t (a : Int) = a % SIZE_MOD := by
  unfold long_to_size_t
  rw [← Int.natCast_mod, Int.toNat_natCast]

theorem long_to_int_small (v : Int) (h1 : -2147483648 ≤ v) (h2 : v < 2147483648) :
    long_to_int v = v := by
  unfold long_to_int INT_MOD
  rw [Int.emod_eq_of_lt (by omega) (by omega)]
  omega

/-- Supporting fact for C4: what does hold of the element type of every
accepted file is stated on the narrowed `data_type`, one of the six codes,
with `word_size = |data_type| / 8` one of 1, 2, 4, 8. -/
theorem read_fits_file_word_size (le : Bool) (file : List Nat) (r : FitsFile)
    (h : read_fits_file le file = .ok r) :
    (r.data_type = -64 ∨ r.data_type = -32 ∨ r.data_type = 8 ∨ r.data_type = 16 ∨
      r.data_type = 32 ∨ r.data_type = 64) ∧
    r.word_size = r.data_type.natAbs / 8 ∧
    (r.word_size = 1 ∨ r.word_size = 2 ∨ r.word_size = 4 ∨ r.word_size = 8) := by
  obtain ⟨_, h2, _, _, _, _, _, h8, _, _⟩ := read_fits_file_elements le file r h
  have hc := valid_bitpix_cases _ h2
  refine ⟨hc, h8, ?_⟩
  rcases hc with h | h | h | h | h | h <;> rw [h8, h] <;> decide

theorem axis_key_1 : axis_key 1 = ascii "NAXIS1" := by decide

theorem axis_key_2 : axis_key 2 = ascii "NAXIS2" := by decide

theorem axis_key_3 : axis_key 3 = ascii "NAXIS3" := by decide

/-- Counterexample to C8 as stated: `four_axis_file` declares NAXIS = 4 with
extents 1, 1, 1, 2; it is accepted with `data_size = 1`, while the product of
NAXIS1..NAXIS4 is 2. -/
theorem four_axis_data_size :
    read_fits_file true four_axis_file = .ok four_axis_cube ∧
    get_fits_header_int four_axis_cube (ascii "NAXIS") = 4 ∧
    four_axis_cube.data_size = 1 ∧ axis_product four_axis_cube 4 = 2 ∧
    (four_axis_cube.data_size : Int) ≠ axis_product four_axis_cube 4 := by
  refine ⟨by decide!, by decide!, by decide!, by decide!, by decide!⟩

theorem axis_product_1 (r : FitsFile) :
    axis_product r 1 = get_fits_header_int r (ascii "NAXIS1") := by
  show 1 * get_fits_header_int r (axis_key 1) = _
  rw [axis_key_1, one_mul]

theorem axis_product_2 (r : FitsFile) :
    axis_product r 2 = get_fits_header_int r (ascii "NAXIS1")
      * get_fits_header_int r (ascii "NAXIS2") := by
  show axis_product r 1 * get_fits_header_int r (axis_key 2) = _
  rw [axis_key_2, axis_product_1]

theorem axis_product_3 (r : FitsFile) :
    axis_product r 3 = get_fits_header_int r (ascii "NAXIS1")
      * get_fits_header_int r (ascii "NAXIS2") * get_fits_header_int r (ascii "NAXIS3") := by
  show axis_product r 2 * get_fits_header_int r (axis_key 3) = _
  rw [axis_key_3, axis_product_2]

theorem size_product (a b c : Nat) (h : a * b * c < SIZE_MOD) :
    (a % SIZE_MOD * (b % SIZE_MOD) * (c % SIZE_MOD)) % SIZE_MOD = a * b * c := by
  have e : (a % SIZE_MOD * (b % SIZE_MOD) * (c % SIZE_MOD)) % SIZE_MOD
      = (a * b * c) % SIZE_MOD := by
    simp [Nat.mul_mod, Nat.mod_mod]
  rw [e, Nat.mod_eq_of_lt h]

/-- C8, amended: for every accepted file whose header declares NAXIS = n
with 1 ≤ n ≤ 4, whose extents NAXIS1..NAXISmin(n,3) are positive and have a
product below 2^64, `data_size` is the product of the extents
NAXIS1..NAXISmin(n,3); the extent NAXIS4 is not read. -/
theorem read_fits_file_data_size (le : Bool) (file : List Nat) (r : FitsFile)
    (h : read_fits_file le file = .ok r) (n : Nat)
    (hn : get_fits_header_int r (ascii "NAXIS") = n) (h1 : 1 ≤ n) (h4 : n ≤ 4)
    (hpos : ∀ i, 1 ≤ i → i ≤ min n 3 → 0 < get_fits_header_int r (axis_key i))
    (hfit : axis_product r (min n 3) < 18446744073709551616) :
    (r.data_size : Int) = axis_product r (min n 3) := by
  obtain ⟨_, _, _, _, hx, hy, hz, _, hd, _⟩ := read_fits_file_elements le file r h
  have hdim : dimension_of r = n := by
    unfold dimension_of
    rw [hn, long_to_int_small _ (by omega) (by omega)]
  rw [hdim] at hy hz
  have key : ∀ v : Int, 0 < v → ∃ a : Nat, v = a := fun v hv =>
    ⟨v.toNat, (Int.toNat_of_nonneg (le_of_lt hv)).symm⟩
  have hn4 : n = 1 ∨ n = 2 ∨ n = 3 ∨ n = 4 := by omega
  rcases hn4 with rfl | rfl | rfl | rfl
  · obtain ⟨a, ha⟩ := key _ (hpos 1 (by decide) (by decide))
    rw [axis_key_1] at ha
    rw [show min 1 3 = 1 by decide, axis_product_1, ha] at hfit ⊢
    rw [ha, long_to_size_t_natCast] at hx
    rw [if_neg (by decide)] at hy hz
    have hfit2 : a * 1 * 1 < SIZE_MOD := by unfold SIZE_MOD; omega
    have := size_product a 1 1 hfit2
    rw [hd, hx, hy, hz]
    rw [Nat.mod_eq_of_lt (show 1 < SIZE_MOD by decide)] at this
    rw [this]; simp
  · obtain ⟨a, ha⟩ := key _ (hpos 1 (by decide) (by decide))
    obtain ⟨b, hb⟩ := key _ (hpos 2 (by decide) (by decide))
    rw [axis_key_1] at ha
    rw [axis_key_2] at hb
    rw [show min 2 3 = 2 by decide, axis_product_2, ha, hb] at hfit ⊢
    rw [ha, long_to_size_t_natCast] at hx
    rw [if_pos (by decide), hb, long_to_size_t_natCast] at hy
    rw [if_neg (by decide)] at hz
    have hfit2 : a * b * 1 < SIZE_MOD := by unfold SIZE_MOD; norm_cast at hfit; omega
    have := size_product a b 1 hfit2
    rw [hd, hx, hy, hz]
    rw [Nat.mod_eq_of_lt (show 1 < SIZE_MOD by decide)] at this
    rw [this]; simp
  · obtain ⟨a, ha⟩ := key _ (hpos 1 (by decide) (by decide))
    obtain ⟨b, hb⟩ := key _ (hpos 2 (by decide) (by decide))
    obtain ⟨c, hc⟩ := key _ (hpos 3 (by decide) (by decide))
    rw [axis_key_1] at ha
    rw [axis_key_2] at hb
    rw [axis_key_3] at hc
    rw [show min 3 3 = 3 by decide, axis_product_3, ha, hb, hc] at hfit ⊢
    rw [ha, long_to_size_t_natCast] at hx
    rw [if_pos (by decide), hb, long_to_size_t_natCast] at hy
    rw [if_pos (by decide), hc, long_to_size_t_natCast] at hz
    have hfit2 : a * b * c < SIZE_MOD := by unfold SIZE_MOD; norm_cast at hfit
    rw [hd, hx, hy, hz, size_product a b c hfit2]; simp
  · obtain ⟨a, ha⟩ := key _ (hpos 1 (by decide) (by decide))
    obtain ⟨b, hb⟩ := key _ (hpos 2 (by decide) (by decide))
    obtain ⟨c, hc⟩ := key _ (hpos 3 (by decide) (by decide))
    rw [axis_key_1] at ha
    rw [axis_key_2] at hb
    rw [axis_key_3] at hc
    rw [show min 4 3 = 3 by decide, axis_product_3, ha, hb, hc] at hfit ⊢
    rw [ha, long_to_size_t_natCast] at hx
    rw [if_pos (by decide), hb, long_to_size_t_natCast] at hy
    rw [if_pos (by decide), hc, long_to_size_t_natCast] at hz
    have hfit2 : a * b * c < SIZE_MOD := by unfold SIZE_MOD; norm_cast at hfit
    rw [hd, hx, hy, hz, size_product a b c hfit2]; simp

/-- Witness of the amended C8: `four_axis_file`, where n = 4 and the product
of NAXIS1..NAXIS3 is 1. -/
theorem read_fits_file_data_size_witness :
    read_fits_file true four_axis_file = .ok four_axis_cube ∧
    get_fits_header_int four_axis_cube (ascii "NAXIS") = (4 : Nat) ∧
    (four_axis_cube.data_size : Int) = axis_product four_axis_cube (min 4 3) :=
  have h : read_fits_file true four_axis_file = .ok four_axis_cube := by decide!
  have hn : get_fits_header_int four_axis_cube (ascii "NAXIS") = (4 : Nat) := by decide!
  ⟨h, hn, read_fits_file_data_size true four_axis_file four_axis_cube h 4 hn (by decide)
    (by decide)
    (fun i h1 h3 => by
      have h3 : i ≤ 3 := h3
      have : i = 1 ∨ i = 2 ∨ i = 3 := by omega
      rcases this with rfl | rfl | rfl <;> decide!)
    (by decide!)⟩

/-- C3, failing input: the header of `wide_naxis_file` declares
NAXIS = 4294967297, which is greater than 4, yet the file is accepted: the
`long` value is narrowed to the `int` 1 before the dimension check. -/
theorem wide_naxis_accepted :
    read_fits_file true wide_naxis_file = .ok wide_naxis_cube ∧
    get_fits_header_int wide_naxis_cube (ascii "NAXIS") = 4294967297 ∧
    dimension_of wide_naxis_cube = 1 := by
  refine ⟨by decide!, by decide!, by decide!⟩

/-- C4, failing input: the header of `wide_bitpix_file` declares
BITPIX = 4294967304, none of the six supported codes, yet the file is
accepted with `data_type = 8` and `word_size = 1`, not |BITPIX| / 8. -/
theorem wide_bitpix_accepted :
    read_fits_file true wide_bitpix_file = .ok wide_bitpix_cube ∧
    get_fits_header_int wide_bitpix_cube (ascii "BITPIX") = 4294967304 ∧
    wide_bitpix_cube.data_type = 8 ∧ wide_bitpix_cube.word_size = 1 ∧
    (get_fits_header_int wide_bitpix_cube (ascii "BITPIX")).natAbs / 8 = 536870913 := by
  refine ⟨by decide!, by decide!, by decide!, by decide!, by decide!⟩

/-- C9, failing input: the header of `negative_axes_file` declares
NAXIS = 2 with NAXIS1 = NAXIS2 = -1, yet the file is accepted, with
`nx = ny = 2^64 - 1` and `data_size = 1`: the extents are stored in the
unsigned `size_t` and the test `data_size <= 0` only catches zero. -/
theorem negative_axes_accepted :
    read_fits_file true negative_axes_file = .ok negative_axes_cube ∧
    get_fits_header_int negative_axes_cube (ascii "NAXIS") = 2 ∧
    get_fits_header_int negative_axes_cube (ascii "NAXIS1") = -1 ∧
    get_fits_header_int negative_axes_cube (ascii "NAXIS2") = -1 ∧
    negative_axes_cube.nx = 18446744073709551615 ∧
    negative_axes_cube.ny = 18446744073709551615 ∧
    negative_axes_cube.data_size = 1 := by
  refine ⟨by decide!, by decide!, by decide!, by decide!, by decide!, by decide!, by decide!⟩

/-- Counterexample to C10 as stated: `no_naxis4_file` declares NAXIS = 4 and
has no NAXIS4 card, yet it is accepted. -/
theorem no_naxis4_accepted :
    read_fits_file true no_naxis4_file = .ok no_naxis4_cube ∧
    get_fits_header_int no_naxis4_cube (ascii "NAXIS") = 4 ∧
    get_fits_header_value no_naxis4_cube (axis_key 4) = none := by
  refine ⟨by decide!, by decide!, by decide!⟩

theorem long_to_size_t_zero : long_to_size_t 0 = 0 := by decide

/-- C10, amended: `read_fits_file` rejects every header that lacks BITPIX,
NAXIS, or one of the extent keywords NAXIS1..NAXISmin(n,3) for its declared
axis count n (1 ≤ n ≤ 4); NAXIS4 is never looked up. Stated on the accepted
files: each of these keywords is present. -/
theorem read_fits_file_required_keywords (le : Bool) (file : List Nat) (r : FitsFile)
    (h : read_fits_file le file = .ok r) :
    get_fits_header_value r (ascii "BITPIX") ≠ none ∧
    get_fits_header_value r (ascii "NAXIS") ≠ none ∧
    ∀ i : Nat, 1 ≤ i → i ≤ 3 → (i : Int) ≤ get_fits_header_int r (ascii "NAXIS") →
      get_fits_header_int r (ascii "NAXIS") ≤ 4 →
      get_fits_header_value r (axis_key i) ≠ none := by
  obtain ⟨hb, hv, hd0, _, hx, hy, hz, _, hd, hpos⟩ := read_fits_file_elements le file r h
  refine ⟨?_, ?_, ?_⟩
  · intro habs
    rw [get_fits_header_int_absent r _ habs] at hb
    rw [hb] at hv
    exact absurd hv (by decide)
  · intro habs
    unfold dimension_of at hd0
    rw [get_fits_header_int_absent r _ habs] at hd0
    exact absurd hd0 (by decide)
  · intro i h1 h3 hi h4 habs
    have hdim : dimension_of r = get_fits_header_int r (ascii "NAXIS") := by
      unfold dimension_of
      exact long_to_int_small _ (by omega) (by omega)
    have hi3 : i = 1 ∨ i = 2 ∨ i = 3 := by omega
    have hzero : r.nx * r.ny * r.nz = 0 := by
      rcases hi3 with rfl | rfl | rfl
      · rw [axis_key_1] at habs
        rw [get_fits_header_int_absent r _ habs, long_to_size_t_zero] at hx
        rw [hx]; simp
      · rw [axis_key_2] at habs
        rw [get_fits_header_int_absent r _ habs, long_to_size_t_zero, hdim,
          if_pos (by omega)] at hy
        rw [hy]; simp
      · rw [axis_key_3] at habs
        rw [get_fits_header_int_absent r _ habs, long_to_size_t_zero, hdim,
          if_pos (by omega)] at hz
        rw [hz]; simp
    rw [hd, hzero] at hpos
    exact absurd hpos (by decide)

/-- Witness of the amended C10: `no_naxis4_file` is accepted and has the
cards BITPIX, NAXIS and NAXIS1..NAXIS3. -/
theorem read_fits_file_required_keywords_witness :
    read_fits_file true no_naxis4_file = .ok no_naxis4_cube ∧
    get_fits_header_value no_naxis4_cube (ascii "BITPIX") ≠ none ∧
    get_fits_header_value no_naxis4_cube (ascii "NAXIS") ≠ none ∧
    get_fits_header_value no_naxis4_cube (axis_key 3) ≠ none :=
  have h : read_fits_file true no_naxis4_file = .ok no_naxis4_cube := by decide!
  have t := read_fits_file_required_keywords true no_naxis4_file no_naxis4_cube h
  ⟨h, t.1, t.2.1, t.2.2 3 (by decide) (by decide) (by decide!) (by decide!)⟩

theorem strtol_le (s : List Nat) : strtol s ≤ LONG_MAX := by
  unfold strtol
  split
  · rename_i r _
    have : (-(digits_value r 0 : Int)) ≤ LONG_MAX := by unfold LONG_MAX; omega
    exact max_le this (by decide)
  · exact min_le_right _ _
  · exact min_le_right _ _

theorem get_fits_header_int_le (fits : FitsFile) (key : List Nat) :
    get_fits_header_int fits key ≤ LONG_MAX := by
  unfold get_fits_header_int
  split
  · decide
  · exact strtol_le _

theorem long_to_size_t_nonneg (v : Int) (h0 : 0 ≤ v) (h1 : v ≤ LONG_MAX) :
    (long_to_size_t v : Int) = v := by
  obtain ⟨a, rfl⟩ := Int.eq_ofNat_of_zero_le h0
  rw [long_to_size_t_natCast, Nat.mod_eq_of_lt (by unfold LONG_MAX at h1; unfold SIZE_MOD; omega)]

/-- Supporting fact for C9: what does hold of the extents of every accepted
file. No extent is zero; an extent equals the header value of its keyword
when that value is not negative; `ny = 1` when the axis count is below 2 and
`nz = 1` when it is below 3. -/
theorem read_fits_file_extents (le : Bool) (file : List Nat) (r : FitsFile)
    (h : read_fits_file le file = .ok r) :
    0 < r.nx ∧ 0 < r.ny ∧ 0 < r.nz ∧
    (0 ≤ get_fits_header_int r (ascii "NAXIS1") →
      (r.nx : Int) = get_fits_header_int r (ascii "NAXIS1")) ∧
    (dimension_of r > 1 → 0 ≤ get_fits_header_int r (ascii "NAXIS2") →
      (r.ny : Int) = get_fits_header_int r (ascii "NAXIS2")) ∧
    (dimension_of r > 2 → 0 ≤ get_fits_header_int r (ascii "NAXIS3") →
      (r.nz : Int) = get_fits_header_int r (ascii "NAXIS3")) ∧
    (dimension_of r < 2 → r.ny = 1) ∧ (dimension_of r < 3 → r.nz = 1) := by
  obtain ⟨_, _, _, _, hx, hy, hz, _, hd, hpos⟩ := read_fits_file_elements le file r h
  have hne : r.nx * r.ny * r.nz ≠ 0 := by
    intro h0
    rw [hd, h0] at hpos
    exact absurd hpos (by decide)
  have hxyz : r.nx ≠ 0 ∧ r.ny ≠ 0 ∧ r.nz ≠ 0 := by
    refine ⟨?_, ?_, ?_⟩ <;> intro h0 <;> apply hne <;> rw [h0] <;> simp
  refine ⟨by omega, by omega, by omega, ?_, ?_, ?_, ?_, ?_⟩
  · intro h0
    rw [hx]
    exact long_to_size_t_nonneg _ h0 (get_fits_header_int_le _ _)
  · intro hd1 h0
    rw [hy, if_pos hd1]
    exact long_to_size_t_nonneg _ h0 (get_fits_header_int_le _ _)
  · intro hd2 h0
    rw [hz, if_pos hd2]
    exact long_to_size_t_nonneg _ h0 (get_fits_header_int_le _ _)
  · intro hd1
    rw [hy, if_neg (by omega)]
  · intro hd2
    rw [hz, if_neg (by omega)]

theorem digits_value_append (ds rest : List Nat) (hds : ∀ c ∈ ds, isdigit c = true)
    (acc : Nat) :
    digits_value (ds ++ rest) acc
      = digits_value rest (ds.foldl (fun a c => a * 10 + (c - 48)) acc) := by
  induction ds generalizing acc with
  | nil => rfl
  | cons c cs ih =>
    have hc : isdigit c = true := hds c (List.mem_cons_self _ _)
    simp only [List.cons_append, digits_value, hc, if_true, List.foldl_cons]
    exact ih (fun x hx => hds x (List.mem_cons_of_mem _ hx)) _

theorem decimal_loop_spec (fuel n : Nat) (acc : List Nat) (hf : n < fuel) :
    ∃ ds, decimal_loop fuel n acc = ds ++ acc ∧ ds ≠ [] ∧
      (∀ c ∈ ds, isdigit c = true) ∧
      (∀ a, ds.foldl (fun a c => a * 10 + (c - 48)) a = a * 10 ^ ds.length + n) ∧
      (∀ k, n < 10 ^ (k + 1) → ds.length ≤ k + 1) := by
  induction fuel generalizing n acc with
  | zero => omega
  | succ fuel ih =>
    unfold decimal_loop
    have hd : isdigit (48 + n % 10) = true := by
      have := Nat.mod_lt n (show 10 > 0 by decide)
      simp [isdigit]; omega
    by_cases h0 : n / 10 = 0
    · rw [if_pos h0]
      refine ⟨[48 + n % 10], rfl, by simp, ?_, ?_, ?_⟩
      · intro c hc
        simp at hc; subst hc; exact hd
      · intro a
        have := Nat.div_add_mod n 10
        simp; omega
      · intro k _; simp
    · rw [if_neg h0]
      have hlt : n / 10 < fuel := by
        have := Nat.div_add_mod n 10
        omega
      obtain ⟨ds, he, _, hdig, hval, hlen⟩ := ih (n / 10) ((48 + n % 10) :: acc) hlt
      refine ⟨ds ++ [48 + n % 10], by rw [he]; simp, by simp, ?_, ?_, ?_⟩
      · intro c hc
        rcases List.mem_append.1 hc with h | h
        · exact hdig c h
        · simp at h; subst h; exact hd
      · intro a
        rw [List.foldl_append, hval]
        have := Nat.div_add_mod n 10
        simp [pow_succ]
        ring_nf
        omega
      · intro k hk
        rcases k with _ | k
        · exfalso
          have : n < 10 := by simpa using hk
          exact h0 (Nat.div_eq_of_lt this)
        · have : n / 10 < 10 ^ (k + 1) := by
            rw [Nat.div_lt_iff_lt_mul (by decide)]
            rw [pow_succ] at hk; exact hk
          have := hlen k this
          simp; omega

/-! ## Theorems: C strings and header cards -/

theorem char_at_append_right (A t : List Nat) (i : Nat) :
    char_at (A ++ t) (A.length + i) = char_at t i := by
  unfold char_at
  rw [List.getD_eq_getElem?_getD, List.getD_eq_getElem?_getD,
    List.getElem?_append_right (by omega)]
  simp

theorem char_at_length (A : List Nat) (c : Nat) (t : List Nat) :
    char_at (A ++ c :: t) A.length = c := by
  have := char_at_append_right A (c :: t) 0
  simpa [char_at] using this

theorem strchr_append (A t : List Nat) (c : Nat) (hA : ∀ x ∈ A, x ≠ c ∧ x ≠ 0) :
    strchr (A ++ t) c = (strchr t c).map (· + A.length) := by
  induction A with
  | nil => simp
  | cons x xs ih =>
    have hx := hA x (List.mem_cons_self _ _)
    simp only [List.cons_append, strchr, hx.1, hx.2, if_false, List.length_cons, List.append_eq]
    rw [ih (fun y hy => hA y (List.mem_cons_of_mem _ hy))]
    cases strchr t c <;> simp
    omega

theorem strchr_head (c : Nat) (t : List Nat) : strchr (c :: t) c = some 0 := by
  simp [strchr]

theorem strchr_none (l : List Nat) (c : Nat) (hl : ∀ x ∈ l, x ≠ c) : strchr l c = none := by
  induction l with
  | nil => rfl
  | cons x xs ih =>
    have hx := hl x (List.mem_cons_self _ _)
    simp only [strchr, hx, if_false]
    split
    · rfl
    · rw [ih (fun y hy => hl y (List.mem_cons_of_mem _ hy))]; rfl

theorem takeWhile_spaces (m : Nat) (c : Nat) (t : List Nat) (hc : c ≠ 32) :
    (List.replicate m 32 ++ c :: t).takeWhile (· = 32) = List.replicate m 32 := by
  induction m with
  | zero => simp [List.takeWhile, hc]
  | succ m ih => simp [List.replicate_succ, List.takeWhile, ih]

theorem skip_spaces_append (A : List Nat) (m c : Nat) (t : List Nat) (hc : c ≠ 32) :
    skip_spaces (A ++ (List.replicate m 32 ++ c :: t)) A.length = A.length + m := by
  unfold skip_spaces
  rw [List.drop_left, takeWhile_spaces m c t hc, List.length_replicate]

theorem trim_end_append (B : List Nat) (c m : Nat) (t : List Nat) (lo : Nat)
    (hc : c ≠ 32) (hlo : lo ≤ B.length + 1) :
    trim_end (B ++ c :: (List.replicate m 32 ++ t)) lo (B.length + 1 + m) = B.length + 1 := by
  induction m generalizing t with
  | zero =>
    show trim_end _ lo (B.length + 1) = _
    unfold trim_end
    rw [char_at_length, if_neg (by simp [hc])]
  | succ m ih =>
    show trim_end _ lo (B.length + 1 + m + 1) = _
    unfold trim_end
    have hch : char_at (B ++ c :: (List.replicate (m + 1) 32 ++ t)) (B.length + 1 + m) = 32 := by
      have e : B ++ c :: (List.replicate (m + 1) 32 ++ t)
          = (B ++ c :: List.replicate m 32) ++ 32 :: t := by
        rw [List.replicate_succ']; simp
      rw [e]
      have hl : (B ++ c :: List.replicate m 32).length = B.length + 1 + m := by simp; omega
      rw [← hl, char_at_length]
    rw [if_pos ⟨by omega, hch⟩]
    have e2 : B ++ c :: (List.replicate (m + 1) 32 ++ t)
        = B ++ c :: (List.replicate m 32 ++ (32 :: t)) := by
      rw [List.replicate_succ']; simp
    rw [e2]
    exact ih (32 :: t)

theorem strncpy_str_append (v t : List Nat) (hv : ∀ x ∈ v, x ≠ 0) :
    strncpy_str (v ++ t) v.length = v := by
  unfold strncpy_str
  rw [List.take_left]
  rw [List.takeWhile_eq_self_iff]
  intro x hx
  simpa using hv x hx

theorem strncmp_eq_append (A t lit : List Nat) (n : Nat) (hn : n ≤ A.length) :
    strncmp_eq (A ++ t) lit n = strncmp_eq A lit n := by
  induction n generalizing A lit with
  | zero => rfl
  | succ n ih =>
    rcases A with _ | ⟨x, xs⟩
    · simp at hn
    · simp only [List.cons_append, strncmp_eq, char_at, List.getD_cons_zero, List.tail_cons]
      rw [ih xs lit.tail (by simpa using hn)]

theorem parse_card_card_line (K v : List Nat) (p a b : Nat)
    (hK : K ≠ []) (hKc : ∀ x ∈ K, x ≠ 32 ∧ x ≠ 61 ∧ x ≠ 0)
    (hv : v ≠ []) (hvc : ∀ x ∈ v, value_char x)
    (hlen : K.length + p + 1 + (a + 1) + v.length + b = 80)
    (hcom : strncmp_eq (card_line K v p a b) (ascii "COMMENT") 7 = false)
    (hhis : strncmp_eq (card_line K v p a b) (ascii "HISTORY") 7 = false) :
    parse_card (card_line K v p a b) = .card K v := by
  obtain ⟨k0, K', rfl⟩ := List.exists_cons_of_ne_nil hK
  obtain ⟨v0, v', rfl⟩ := List.exists_cons_of_ne_nil hv
  have hv0 := hvc v0 (List.mem_cons_self _ _)
  have hk0 := hKc k0 (List.mem_cons_self _ _)
  set L := card_line (k0 :: K') (v0 :: v') p a b with hL
  -- the prefix up to the value
  set P := (k0 :: K') ++ (List.replicate p 32 ++ 61 :: List.replicate (a + 1) 32) with hP
  have hPlen : P.length = (k0 :: K').length + p + 1 + (a + 1) := by
    simp [hP]; omega
  have hLP : L = P ++ (v0 :: v' ++ List.replicate b 32) := by
    simp [hL, hP, card_line]
  have hLA : L = ((k0 :: K') ++ List.replicate p 32)
      ++ 61 :: (List.replicate (a + 1) 32 ++ (v0 :: v' ++ List.replicate b 32)) := by
    simp [hL, card_line]
  have hAlen : ((k0 :: K') ++ List.replicate p 32).length = (k0 :: K').length + p := by simp; omega
  have h0 : char_at L 0 = k0 := by simp [hL, card_line, char_at]
  have hstr : strchr L 61 = some ((k0 :: K').length + p) := by
    rw [hLA, strchr_append _ _ 61, strchr_head, hAlen]
    · simp
    · intro x hx
      rcases List.mem_append.1 hx with h | h
      · exact ⟨(hKc x h).2.1, (hKc x h).2.2⟩
      · rw [List.mem_replicate] at h; rw [h.2]; decide
  have hkey : trim_end L 0 ((k0 :: K').length + p) = (k0 :: K').length := by
    obtain ⟨B, c, hBc⟩ : ∃ B c, k0 :: K' = B ++ [c] :=
      ⟨(k0 :: K').dropLast, (k0 :: K').getLast (by simp),
        (List.dropLast_append_getLast (by simp)).symm⟩
    have hc : c ≠ 32 := (hKc c (by rw [hBc]; simp)).1
    have hBl : (k0 :: K').length = B.length + 1 := by rw [hBc]; simp
    have e : L = B ++ c :: (List.replicate p 32
        ++ 61 :: (List.replicate (a + 1) 32 ++ (v0 :: v' ++ List.replicate b 32))) := by
      rw [hLA, hBc]; simp
    rw [e, hBl]
    exact trim_end_append B c p _ 0 hc (by omega)
  have hkeystr : strncpy_str L (k0 :: K').length = k0 :: K' := by
    have e : L = (k0 :: K') ++ (List.replicate p 32
        ++ 61 :: (List.replicate (a + 1) 32 ++ (v0 :: v' ++ List.replicate b 32))) := by
      simp [hL, card_line]
    rw [e]
    exact strncpy_str_append _ _ (fun x hx => (hKc x hx).2.2)
  have hvs : skip_spaces L ((k0 :: K').length + p + 1) = P.length := by
    have e : L = ((k0 :: K') ++ (List.replicate p 32 ++ [61]))
        ++ (List.replicate (a + 1) 32 ++ v0 :: (v' ++ List.replicate b 32)) := by
      simp [hL, card_line]
    have hl : ((k0 :: K') ++ (List.replicate p 32 ++ [61])).length
        = (k0 :: K').length + p + 1 := by simp; omega
    rw [e, ← hl, skip_spaces_append _ _ _ _ hv0.1, hl, hPlen]
  have hdrop : L.drop P.length = v0 :: v' ++ List.replicate b 32 := by
    rw [hLP, List.drop_left]
  have hchr : strchr (L.drop P.length) 47 = none := by
    rw [hdrop]
    apply strchr_none
    intro x hx
    rcases List.mem_append.1 hx with h | h
    · exact (hvc x h).2.1
    · rw [List.mem_replicate] at h; rw [h.2]; decide
  have hend : trim_end L P.length FITS_HEADER_LINE_SIZE = P.length + (v0 :: v').length := by
    obtain ⟨B, c, hBc⟩ : ∃ B c, v0 :: v' = B ++ [c] :=
      ⟨(v0 :: v').dropLast, (v0 :: v').getLast (by simp),
        (List.dropLast_append_getLast (by simp)).symm⟩
    have hc : c ≠ 32 := (hvc c (by rw [hBc]; simp)).1
    have hBl : (v0 :: v').length = B.length + 1 := by rw [hBc]; simp
    have e : L = (P ++ B) ++ c :: (List.replicate b 32 ++ []) := by
      rw [hLP, hBc]; simp
    have h80 : FITS_HEADER_LINE_SIZE = (P ++ B).length + 1 + b := by
      rw [List.length_append, hPlen]
      simp only [FITS_HEADER_LINE_SIZE]
      omega
    rw [e, h80, trim_end_append (P ++ B) c b [] P.length hc (by simp; omega), hBl]
    simp; omega
  have hq : char_at L P.length = v0 := by
    rw [hLP]
    exact char_at_length P v0 _
  have hval : strncpy_str (L.drop P.length) (v0 :: v').length = v0 :: v' := by
    rw [hdrop]
    exact strncpy_str_append _ _ (fun x hx => (hvc x hx).2.2.2)
  unfold parse_card
  rw [if_neg (by rw [h0, hcom, hhis]; simp [hk0.1])]
  simp only [hstr, hkey, hkeystr, hvs, hchr, hend, hq, hv0.2.2.1, false_and, if_false]
  rw [if_neg (by omega)]
  simp only [Nat.add_sub_cancel_left, hval]

theorem fits_card_eq (key : String) (v : List Nat) (hk : (ascii key).length ≤ 8)
    (hv : v.length ≤ 20) :
    fits_card key v
      = card_line (ascii key) v (8 - (ascii key).length) (20 - v.length) 50 := by
  have h1 : (pad_left v 20).length = 20 := by simp [pad_left]; omega
  unfold fits_card card_line
  unfold pad_right
  rw [h1]
  simp [pad_left, List.replicate_succ]

theorem card_line_length (K v : List Nat) (p a b : Nat) :
    (card_line K v p a b).length = K.length + p + 1 + (a + 1) + v.length + b := by
  simp [card_line]; omega

theorem fits_card_length (key : String) (v : List Nat) (hk : (ascii key).length ≤ 8)
    (hv : v.length ≤ 20) : (fits_card key v).length = 80 := by
  rw [fits_card_eq key v hk hv, card_line_length]; omega

theorem card_line_strncmp (K v : List Nat) (p a b : Nat) (lit : List Nat) (n : Nat)
    (hn : n ≤ K.length + p) :
    strncmp_eq (card_line K v p a b) lit n = strncmp_eq (K ++ List.replicate p 32) lit n := by
  have e : card_line K v p a b = (K ++ List.replicate p 32)
      ++ 61 :: (List.replicate (a + 1) 32 ++ (v ++ List.replicate b 32)) := by
    simp [card_line]
  rw [e]
  exact strncmp_eq_append _ _ lit n (by simpa using hn)

theorem parse_card_fits_card (key : String) (v : List Nat) (hk : card_key key)
    (hv : card_value v) :
    (fits_card key v).length = 80 ∧
    strncmp_eq (fits_card key v) (ascii "END") 3 = false ∧
    parse_card (fits_card key v) = .card (ascii key) v := by
  obtain ⟨hk1, hk2, hk3, hk4, hk5, hk6⟩ := hk
  obtain ⟨hv1, hv2, hv3⟩ := hv
  refine ⟨fits_card_length key v hk2 hv2, ?_, ?_⟩
  · rw [fits_card_eq key v hk2 hv2, card_line_strncmp _ _ _ _ _ _ _ (by omega)]
    exact hk4
  · rw [fits_card_eq key v hk2 hv2]
    apply parse_card_card_line _ _ _ _ _ hk1 hk3 hv1 hv3 (by omega)
    · rw [card_line_strncmp _ _ _ _ _ _ _ (by omega)]; exact hk5
    · rw [card_line_strncmp _ _ _ _ _ _ _ (by omega)]; exact hk6

theorem count_lines_cards (H : List Nat) (hs : Nat) (eline rest : List Nat)
    (he : strncmp_eq eline (ascii "END") 3 = true) (hel : 3 ≤ eline.length)
    (cs : List ParsedLine) (hcs : ∀ c ∈ cs, c.ok) (n i : Nat)
    (hH : H.drop i = (cs.map (·.line)).flatten ++ (eline ++ rest))
    (hn : cs.length < n) (hi : i + 80 * cs.length + 3 < hs) :
    count_lines H hs n i = cs.length := by
  induction cs generalizing n i with
  | nil =>
    obtain ⟨n, rfl⟩ : ∃ m, n = m + 1 := ⟨n - 1, by simp at hn; omega⟩
    unfold count_lines
    simp only [List.map_nil, List.flatten_nil, List.nil_append] at hH
    rw [hH, strncmp_eq_append _ _ _ _ hel, he]
    simp at hi
    simp [hi]
  | cons c cs ih =>
    obtain ⟨n, rfl⟩ : ∃ m, n = m + 1 := ⟨n - 1, by simp at hn; omega⟩
    obtain ⟨hc1, hc2, _⟩ := hcs c (List.mem_cons_self _ _)
    unfold count_lines
    simp only [List.map_cons, List.flatten_cons, List.append_assoc] at hH
    rw [hH, strncmp_eq_append _ _ _ _ (by omega), hc2]
    simp only [Bool.false_eq_true, and_false, if_false, List.length_cons]
    rw [ih (fun x hx => hcs x (List.mem_cons_of_mem _ hx)) n (i + FITS_HEADER_LINE_SIZE)]
    · omega
    · rw [← List.drop_drop, hH]
      simp only [FITS_HEADER_LINE_SIZE]
      rw [← hc1, List.drop_left]
    · simpa using hn
    · simp only [FITS_HEADER_LINE_SIZE, List.length_cons] at hi ⊢; omega

theorem parse_lines_cards (H : List Nat) (lc : Nat) (eline rest : List Nat)
    (he : strncmp_eq eline (ascii "END") 3 = true) (hel : eline.length = 80)
    (cs : List ParsedLine) (hcs : ∀ c ∈ cs, c.ok) (n i hc : Nat)
    (hH : H.drop i = (cs.map (·.line)).flatten ++ (eline ++ rest))
    (hn : cs.length < n) (hlc : hc + cs.length ≤ lc) :
    parse_lines H lc n i hc = .ok (cs.map (·.key), cs.map (·.value)) := by
  induction cs generalizing n i hc with
  | nil =>
    obtain ⟨n, rfl⟩ : ∃ m, n = m + 1 := ⟨n - 1, by simp at hn; omega⟩
    unfold parse_lines
    simp only [List.map_nil, List.flatten_nil, List.nil_append] at hH
    split
    · rfl
    · simp only [FITS_HEADER_LINE_SIZE]
      rw [hH, ← hel, List.take_left, he]
      simp
  | cons c cs ih =>
    obtain ⟨n, rfl⟩ : ∃ m, n = m + 1 := ⟨n - 1, by simp at hn; omega⟩
    obtain ⟨hc1, hc2, hc3⟩ := hcs c (List.mem_cons_self _ _)
    unfold parse_lines
    simp only [List.map_cons, List.flatten_cons, List.append_assoc] at hH
    simp only [List.length_cons] at hlc
    rw [if_neg (by omega)]
    simp only [FITS_HEADER_LINE_SIZE]
    have hline : (H.drop i).take 80 = c.line := by
      rw [hH, ← hc1, List.take_left]
    have hnext : H.drop (i + 80) = (cs.map (·.line)).flatten ++ (eline ++ rest) := by
      rw [← List.drop_drop, hH, ← hc1, List.drop_left]
    rw [hline, hc2]
    simp only [Bool.false_eq_true, if_false, hc3]
    rw [ih (fun x hx => hcs x (List.mem_cons_of_mem _ hx)) n (i + 80) (hc + 1) hnext
      (by simpa using hn) (by omega)]
    simp

/-! ## Theorems: decimal values and `strtol` -/

theorem isdigit_value_char (c : Nat) (h : isdigit c = true) : value_char c := by
  simp [isdigit] at h
  unfold value_char
  omega

theorem decimal_spec (n : Nat) :
    decimal n ≠ [] ∧ (∀ c ∈ decimal n, isdigit c = true) ∧
    digits_value (decimal n) 0 = n ∧
    (∀ k, n < 10 ^ (k + 1) → (decimal n).length ≤ k + 1) := by
  obtain ⟨ds, he, hne, hdig, hval, hlen⟩ := decimal_loop_spec (n + 1) n [] (by omega)
  have e : decimal n = ds := by unfold decimal; rw [he]; simp
  rw [e]
  refine ⟨hne, hdig, ?_, hlen⟩
  have := digits_value_append ds [] hdig 0
  rw [List.append_nil] at this
  rw [this, hval 0]
  simp [digits_value]

theorem strtol_decimal (n : Nat) (hn : (n : Int) ≤ LONG_MAX) : strtol (decimal n) = n := by
  obtain ⟨hne, hdig, hval, _⟩ := decimal_spec n
  obtain ⟨d, ds, hd⟩ := List.exists_cons_of_ne_nil hne
  have hdd : isdigit d = true := hdig d (by rw [hd]; exact List.mem_cons_self _ _)
  have hd2 : 48 ≤ d ∧ d ≤ 57 := by simpa [isdigit] using hdd
  have hsp : isspace d = false := by simp [isspace]; omega
  unfold strtol
  rw [hd, List.dropWhile_cons_of_neg (by simp [hsp])]
  split
  · rename_i r heq
    injection heq with h1 _
    omega
  · rename_i r heq
    injection heq with h1 _
    omega
  · rw [← hd, hval]
    exact min_eq_left hn

theorem card_value_decimal (n : Nat) (hn : n < 9223372036854775808) :
    card_value (decimal n) := by
  obtain ⟨hne, hdig, _, hlen⟩ := decimal_spec n
  refine ⟨hne, ?_, fun x hx => isdigit_value_char x (hdig x hx)⟩
  have := hlen 19 (by omega)
  omega

theorem card_value_bitpix (b : Int)
    (hb : b = 8 ∨ b = 16 ∨ b = 32 ∨ b = 64 ∨ b = -32 ∨ b = -64) :
    card_value (decimal_int b) ∧ strtol (decimal_int b) = b := by
  have hc : ∀ v : List Nat, (v = [56] ∨ v = [49, 54] ∨ v = [51, 50] ∨ v = [54, 52]
      ∨ v = [45, 51, 50] ∨ v = [45, 54, 52]) → card_value v := by
    intro v hv
    rcases hv with h | h | h | h | h | h <;> subst h <;>
      exact ⟨by simp, by simp, by
        intro x hx
        simp at hx
        unfold value_char
        omega⟩
  rcases hb with h | h | h | h | h | h <;> subst h
  · exact ⟨hc _ (Or.inl (by decide)), by decide⟩
  · exact ⟨hc _ (Or.inr (Or.inl (by decide))), by decide⟩
  · exact ⟨hc _ (Or.inr (Or.inr (Or.inl (by decide)))), by decide⟩
  · exact ⟨hc _ (Or.inr (Or.inr (Or.inr (Or.inl (by decide))))), by decide⟩
  · exact ⟨hc _ (Or.inr (Or.inr (Or.inr (Or.inr (Or.inl (by decide)))))), by decide⟩
  · exact ⟨hc _ (Or.inr (Or.inr (Or.inr (Or.inr (Or.inr (by decide)))))), by decide⟩

theorem card_key_SIMPLE : card_key "SIMPLE" := by
  refine ⟨by decide, by decide, by decide, by decide, by decide, by decide⟩

theorem card_key_BITPIX : card_key "BITPIX" := by
  refine ⟨by decide, by decide, by decide, by decide, by decide, by decide⟩

theorem card_key_NAXIS : card_key "NAXIS" := by
  refine ⟨by decide, by decide, by decide, by decide, by decide, by decide⟩

theorem card_key_NAXIS1 : card_key "NAXIS1" := by
  refine ⟨by decide, by decide, by decide, by decide, by decide, by decide⟩

theorem card_key_NAXIS2 : card_key "NAXIS2" := by
  refine ⟨by decide, by decide, by decide, by decide, by decide, by decide⟩

theorem card_key_NAXIS3 : card_key "NAXIS3" := by
  refine ⟨by decide, by decide, by decide, by decide, by decide, by decide⟩

theorem card_value_T : card_value (ascii "T") := by
  refine ⟨by decide, by decide, ?_⟩
  intro x hx
  have : x = 84 := by simpa [ascii] using hx
  subst this
  unfold value_char; omega

theorem cube_cards_ok (bitpix : Int) (nx ny nz : Nat)
    (hb : bitpix = 8 ∨ bitpix = 16 ∨ bitpix = 32 ∨ bitpix = 64 ∨ bitpix = -32 ∨ bitpix = -64)
    (hx : nx < 9223372036854775808) (hy : ny < 9223372036854775808)
    (hz : nz < 9223372036854775808) :
    ∀ c ∈ cube_cards bitpix nx ny nz, c.ok := by
  intro c hc
  simp only [cube_cards, List.mem_cons, List.mem_singleton, List.not_mem_nil, or_false] at hc
  rcases hc with h | h | h | h | h | h <;> subst h
  · exact parse_card_fits_card _ _ card_key_SIMPLE card_value_T
  · exact parse_card_fits_card _ _ card_key_BITPIX (card_value_bitpix bitpix hb).1
  · exact parse_card_fits_card _ _ card_key_NAXIS (card_value_decimal 3 (by decide))
  · exact parse_card_fits_card _ _ card_key_NAXIS1 (card_value_decimal nx hx)
  · exact parse_card_fits_card _ _ card_key_NAXIS2 (card_value_decimal ny hy)
  · exact parse_card_fits_card _ _ card_key_NAXIS3 (card_value_decimal nz hz)

theorem fits_line_END :
    (fits_line "END").length = 80 ∧ strncmp_eq (fits_line "END") (ascii "END") 3 = true := by
  decide

theorem flatten_lines_length (cs : List ParsedLine) (hcs : ∀ c ∈ cs, c.ok) :
    ((cs.map (·.line)).flatten).length = 80 * cs.length := by
  induction cs with
  | nil => rfl
  | cons c cs ih =>
    have h1 := (hcs c (List.mem_cons_self _ _)).1
    simp only [List.map_cons, List.flatten_cons, List.length_append, List.length_cons, h1]
    rw [ih (fun x hx => hcs x (List.mem_cons_of_mem _ hx))]
    omega

theorem cube_header_eq (bitpix : Int) (nx ny nz : Nat)
    (hcs : ∀ c ∈ cube_cards bitpix nx ny nz, c.ok) :
    cube_header bitpix nx ny nz
      = ((cube_cards bitpix nx ny nz).map (·.line)).flatten
        ++ (fits_line "END" ++ List.replicate 2320 32) := by
  have hl := flatten_lines_length _ hcs
  have e : [fits_card "SIMPLE" (ascii "T"), fits_card "BITPIX" (decimal_int bitpix),
      fits_card "NAXIS" (decimal 3), fits_card "NAXIS1" (decimal nx),
      fits_card "NAXIS2" (decimal ny), fits_card "NAXIS3" (decimal nz), fits_line "END"]
      = (cube_cards bitpix nx ny nz).map (·.line) ++ [fits_line "END"] := by
    simp [cube_cards]
  unfold cube_header fits_header pad_right
  rw [e, List.flatten_append]
  simp only [List.flatten_cons, List.flatten_nil, List.append_nil, List.length_append, hl,
    fits_line_END.1, FITS_HEADER_BLOCK_SIZE, List.append_assoc]
  have : (cube_cards bitpix nx ny nz).length = 6 := rfl
  rw [this]

theorem cube_header_length (bitpix : Int) (nx ny nz : Nat)
    (hcs : ∀ c ∈ cube_cards bitpix nx ny nz, c.ok) :
    (cube_header bitpix nx ny nz).length = 2880 := by
  rw [cube_header_eq bitpix nx ny nz hcs]
  simp only [List.length_append, flatten_lines_length _ hcs, fits_line_END.1,
    List.length_replicate]
  have : (cube_cards bitpix nx ny nz).length = 6 := rfl
  rw [this]

theorem read_header_first_block (file : List Nat) (h : block_has_end_line file 0) :
    read_header file = .ok 2880 := by
  have := read_header_blocks_some file (file.length / 2880) 0 0 (by omega) (le_refl _) h
    (fun j _ hj => absurd hj (by omega))
  simpa [read_header, FITS_HEADER_BLOCK_SIZE] using this

theorem file_order_length (le : Bool) (w n : Nat) (data : List Nat) :
    (file_order le w n data).length = data.length := by
  unfold file_order
  split
  · exact swap_fits_byte_order_length _ _ _
  · rfl

theorem cube_parse (file : List Nat) (bitpix : Int) (nx ny nz : Nat)
    (hcs : ∀ c ∈ cube_cards bitpix nx ny nz, c.ok)
    (htake : file.take 2880 = cube_header bitpix nx ny nz) :
    parse_fits_header (raw_header file 2880) = .ok (cube_parsed file bitpix nx ny nz) := by
  have hH := cube_header_eq bitpix nx ny nz hcs
  have h6 : (cube_cards bitpix nx ny nz).length = 6 := rfl
  have hcount : count_lines (file.take 2880) 2880 36 0 = 6 :=
    count_lines_cards (file.take 2880) 2880 (fits_line "END") (List.replicate 2320 32)
      fits_line_END.2 (by rw [fits_line_END.1]; decide) (cube_cards bitpix nx ny nz) hcs 36 0
      (by rw [List.drop_zero, htake, hH]) (by rw [h6]; decide) (by rw [h6]; decide)
  have hparse : parse_lines (file.take 2880) 6 36 0 0
      = .ok ((cube_cards bitpix nx ny nz).map (·.key),
             (cube_cards bitpix nx ny nz).map (·.value)) :=
    parse_lines_cards (file.take 2880) 6 (fits_line "END") (List.replicate 2320 32)
      fits_line_END.2 fits_line_END.1 (cube_cards bitpix nx ny nz) hcs 36 0 0
      (by rw [List.drop_zero, htake, hH]) (by rw [h6]; decide) (by rw [h6])
  unfold parse_fits_header
  rw [if_neg (by simp [raw_header, FitsFile_new])]
  simp only [raw_header, FitsFile_new, FITS_HEADER_LINE_SIZE]
  rw [show (2880 + (80 - 1)) / 80 = 36 by decide, hcount, hparse]
  rfl

theorem cube_lookup (file : List Nat) (bitpix : Int) (nx ny nz : Nat) :
    get_fits_header_int (cube_parsed file bitpix nx ny nz) (ascii "BITPIX")
      = strtol (decimal_int bitpix) ∧
    get_fits_header_int (cube_parsed file bitpix nx ny nz) (ascii "NAXIS")
      = strtol (decimal 3) ∧
    get_fits_header_int (cube_parsed file bitpix nx ny nz) (ascii "NAXIS1")
      = strtol (decimal nx) ∧
    get_fits_header_int (cube_parsed file bitpix nx ny nz) (ascii "NAXIS2")
      = strtol (decimal ny) ∧
    get_fits_header_int (cube_parsed file bitpix nx ny nz) (ascii "NAXIS3")
      = strtol (decimal nz) := by
  have k1 : ascii "SIMPLE" = [83, 73, 77, 80, 76, 69] := by decide
  have k2 : ascii "BITPIX" = [66, 73, 84, 80, 73, 88] := by decide
  have k3 : ascii "NAXIS" = [78, 65, 88, 73, 83] := by decide
  have k4 : ascii "NAXIS1" = [78, 65, 88, 73, 83, 49] := by decide
  have k5 : ascii "NAXIS2" = [78, 65, 88, 73, 83, 50] := by decide
  have k6 : ascii "NAXIS3" = [78, 65, 88, 73, 83, 51] := by decide
  simp [get_fits_header_int, get_fits_header_value, cube_parsed, cube_cards, find_value,
    k1, k2, k3, k4, k5, k6]

theorem long_to_size_t_small (a : Nat) (h : a < 9223372036854775808) :
    long_to_size_t (a : Int) = a := by
  rw [long_to_size_t_natCast]
  exact Nat.mod_eq_of_lt (by unfold SIZE_MOD; omega)

theorem cube_elements (file : List Nat) (bitpix : Int) (nx ny nz : Nat)
    (hb : bitpix = 8 ∨ bitpix = 16 ∨ bitpix = 32 ∨ bitpix = 64 ∨ bitpix = -32 ∨ bitpix = -64)
    (hn : nx * ny * nz < 9223372036854775808)
    (hx : nx < 9223372036854775808) (hy : ny < 9223372036854775808)
    (hz : nz < 9223372036854775808) :
    dimension_of (cube_parsed file bitpix nx ny nz) = 3 ∧
    with_elements (cube_parsed file bitpix nx ny nz)
      = { cube_parsed file bitpix nx ny nz with
          data_type := bitpix, nx := nx, ny := ny, nz := nz,
          word_size := bitpix.natAbs / 8, data_size := nx * ny * nz } := by
  obtain ⟨l1, l2, l3, l4, l5⟩ := cube_lookup file bitpix nx ny nz
  have hB : get_fits_header_int (cube_parsed file bitpix nx ny nz) (ascii "BITPIX") = bitpix := by
    rw [l1, (card_value_bitpix bitpix hb).2]
  have hN : get_fits_header_int (cube_parsed file bitpix nx ny nz) (ascii "NAXIS") = 3 := by
    rw [l2]; decide
  have hX : get_fits_header_int (cube_parsed file bitpix nx ny nz) (ascii "NAXIS1") = nx := by
    rw [l3, strtol_decimal nx (by unfold LONG_MAX; omega)]
  have hY : get_fits_header_int (cube_parsed file bitpix nx ny nz) (ascii "NAXIS2") = ny := by
    rw [l4, strtol_decimal ny (by unfold LONG_MAX; omega)]
  have hZ : get_fits_header_int (cube_parsed file bitpix nx ny nz) (ascii "NAXIS3") = nz := by
    rw [l5, strtol_decimal nz (by unfold LONG_MAX; omega)]
  have hdim : dimension_of (cube_parsed file bitpix nx ny nz) = 3 := by
    unfold dimension_of; rw [hN]; decide
  have hbp : long_to_int bitpix = bitpix := by
    rcases hb with h | h | h | h | h | h <;> subst h <;> decide
  refine ⟨hdim, ?_⟩
  unfold with_elements
  rw [hdim, hB, hX, hY, hZ, hbp, long_to_size_t_small nx hx, long_to_size_t_small ny hy,
    long_to_size_t_small nz hz]
  simp only [show (3 : Int) > 1 from by decide, show (3 : Int) > 2 from by decide, if_true]
  rw [Nat.mod_eq_of_lt (by unfold SIZE_MOD; omega)]

/-- C1: for every cube with positive extents `(nx, ny, nz)`, a supported type
code and a payload of `nx * ny * nz` elements (held in memory, so shorter
than 2^63 bytes), `read_fits_file` applied to the file made of the
block-padded header (SIMPLE, BITPIX, NAXIS = 3, NAXIS1..NAXIS3, END cards)
followed by the payload in big-endian order returns exactly those extents,
that type code and that payload in host byte order. -/
theorem read_fits_file_roundtrip (le : Bool) (bitpix : Int) (nx ny nz : Nat)
    (data : List Nat) (hx : 0 < nx) (hy : 0 < ny) (hz : 0 < nz)
    (hb : bitpix = 8 ∨ bitpix = 16 ∨ bitpix = 32 ∨ bitpix = 64 ∨ bitpix = -32 ∨ bitpix = -64)
    (hlen : data.length = nx * ny * nz * (bitpix.natAbs / 8))
    (hbig : data.length < 9223372036854775808) :
    ∃ r, read_fits_file le (write_cube_file le bitpix nx ny nz data) = .ok r ∧
      r.nx = nx ∧ r.ny = ny ∧ r.nz = nz ∧ r.data_type = bitpix ∧
      r.word_size = bitpix.natAbs / 8 ∧ r.data_size = nx * ny * nz ∧ r.data = data := by
  have hw : 1 ≤ bitpix.natAbs / 8 := by
    rcases hb with h | h | h | h | h | h <;> subst h <;> decide
  generalize hwd : bitpix.natAbs / 8 = w at hlen hw
  -- sizes
  have hxy : 0 < nx * ny := Nat.mul_pos hx hy
  have hn0 : 0 < nx * ny * nz := Nat.mul_pos hxy hz
  have h1 : nx * ny * nz ≤ nx * ny * nz * w := Nat.le_mul_of_pos_right _ hw
  have h2 : nx * ny ≤ nx * ny * nz := Nat.le_mul_of_pos_right _ hz
  have h3 : nx ≤ nx * ny := Nat.le_mul_of_pos_right _ hy
  have h4 : ny ≤ nx * ny := Nat.le_mul_of_pos_left _ hx
  have h5 : nz ≤ nx * ny * nz := Nat.le_mul_of_pos_left _ hxy
  have hnb : nx * ny * nz < 9223372036854775808 := by omega
  have hcs := cube_cards_ok bitpix nx ny nz hb (by omega) (by omega) (by omega)
  have hHlen := cube_header_length bitpix nx ny nz hcs
  have hH := cube_header_eq bitpix nx ny nz hcs
  -- the file
  set D := file_order le w (nx * ny * nz) data with hD
  have hDlen : D.length = nx * ny * nz * w := by rw [hD, file_order_length, hlen]
  have hfile : write_cube_file le bitpix nx ny nz data = cube_header bitpix nx ny nz ++ D := by
    unfold write_cube_file; rw [hwd]
  rw [hfile]
  set file := cube_header bitpix nx ny nz ++ D with hf
  have htake : file.take 2880 = cube_header bitpix nx ny nz := by
    rw [hf, ← hHlen, List.take_left]
  have hdrop : file.drop 2880 = D := by
    rw [hf, ← hHlen, List.drop_left]
  have hflen : file.length = 2880 + nx * ny * nz * w := by
    rw [hf, List.length_append, hHlen, hDlen]
  have h480 : ((cube_cards bitpix nx ny nz).map (·.line)).flatten.length = 480 := by
    rw [flatten_lines_length _ hcs]; rfl
  have hend : block_has_end_line file 0 := by
    refine ⟨by omega, 6, by decide, ?_⟩
    rw [hf, hH]
    simp only [List.append_assoc]
    rw [show 2880 * 0 + 80 * 6 = 480 by decide, ← h480, List.drop_left]
    rw [List.take_append_of_le_length (by rw [fits_line_END.1]; decide)]
    decide
  have hread := read_header_first_block file hend
  have hsimple : strncmp_eq (file.take 2880) (ascii "SIMPLE") 6 = true := by
    rw [htake, hH]
    simp only [cube_cards, List.map_cons, List.flatten_cons, List.append_assoc]
    rw [strncmp_eq_append _ _ _ _ (by decide)]
    decide
  have hparse := cube_parse file bitpix nx ny nz hcs htake
  obtain ⟨hdim, hE⟩ := cube_elements file bitpix nx ny nz hb hnb (by omega) (by omega) (by omega)
  have hvalid : valid_bitpix bitpix = true := by
    rcases hb with h | h | h | h | h | h <;> subst h <;> decide
  have hheader : read_fits_header file
      = .ok (with_elements (cube_parsed file bitpix nx ny nz)) := by
    rw [read_fits_header_eq, hread]
    simp only [hsimple, not_true_eq_false, if_false, hparse, hdim]
    rw [hE]
    simp only [hvalid, not_true_eq_false, if_false]
    rw [if_neg (by decide), if_neg (by omega)]
  rw [hE, hwd] at hheader
  refine ⟨{ cube_parsed file bitpix nx ny nz with
      data := data, data_type := bitpix, nx := nx, ny := ny, nz := nz,
      word_size := w, data_size := nx * ny * nz }, ?_, rfl, rfl, rfl, rfl, rfl, rfl, rfl⟩
  unfold read_fits_file
  rw [hheader]
  unfold read_fits_data
  simp only [cube_parsed, raw_header, hdrop, hDlen]
  rw [Nat.mul_div_cancel _ (by omega : 0 < w), Nat.min_self, if_neg (by simp)]
  rw [← hDlen, List.take_length]
  by_cases hc : le = true ∧ w > 1
  · rw [if_pos hc]
    have hDs : D = swap_fits_byte_order data w (nx * ny * nz) := by
      rw [hD]; unfold file_order; rw [if_pos hc]
    rw [hDs, swap_fits_byte_order_twice data w (nx * ny * nz) (by omega)]
  · rw [if_neg hc]
    have hDs : D = data := by
      rw [hD]; unfold file_order; rw [if_neg hc]
    rw [hDs]

/-- Witness of C1: the two-element 16-bit cube with payload `[2, 1, 4, 3]` on
a little-endian host; its file is `sample_file`. -/
theorem read_fits_file_roundtrip_witness :
    (0 < 2 ∧ 0 < 1 ∧ 0 < 1) ∧
    [2, 1, 4, 3].length = 2 * 1 * 1 * ((16 : Int).natAbs / 8) ∧
    write_cube_file true 16 2 1 1 [2, 1, 4, 3] = sample_file ∧
    ∃ r, read_fits_file true (write_cube_file true 16 2 1 1 [2, 1, 4, 3]) = .ok r ∧
      r.nx = 2 ∧ r.ny = 1 ∧ r.nz = 1 ∧ r.data_type = 16 ∧
      r.word_size = (16 : Int).natAbs / 8 ∧ r.data_size = 2 * 1 * 1 ∧
      r.data = [2, 1, 4, 3] :=
  ⟨⟨by decide, by decide, by decide⟩, by decide, by decide!,
    read_fits_file_roundtrip true 16 2 1 1 [2, 1, 4, 3] (by decide) (by decide) (by decide)
      (by decide) (by decide) (by decide)⟩

/-- Supporting fact for C3: when the header is read and parsed and BITPIX is
accepted, a NAXIS value in the `int` range that is not one of 1, 2, 3, 4 is
rejected with the dimension error. -/
theorem read_fits_file_rejects_dimension (le : Bool) (file : List Nat) (hs : Nat)
    (p : FitsFile) (hh : read_header file = .ok hs)
    (hsimple : strncmp_eq (file.take hs) (ascii "SIMPLE") 6 = true)
    (hp : parse_fits_header (raw_header file hs) = .ok p)
    (hbit : valid_bitpix (with_elements p).data_type = true)
    (hlo : -2147483648 ≤ get_fits_header_int p (ascii "NAXIS"))
    (hhi : get_fits_header_int p (ascii "NAXIS") < 2147483648)
    (hbad : get_fits_header_int p (ascii "NAXIS") ≤ 0 ∨ 4 < get_fits_header_int p (ascii "NAXIS")) :
    read_fits_file le file = .error .unsupported_dimension := by
  have hdim : dimension_of p = get_fits_header_int p (ascii "NAXIS") := by
    unfold dimension_of
    exact long_to_int_small _ hlo hhi
  unfold read_fits_file
  rw [read_fits_header_eq, hh]
  simp only [hsimple, not_true_eq_false, if_false, hp, hbit]
  rw [if_pos (by rw [hdim]; omega)]

/-- Supporting fact for C3: when the header is read and parsed, BITPIX is
accepted, the narrowed axis count is one of 1, 2, 3, 4, the element count is
not zero and the file holds that many elements after the header, the file is
accepted. -/
theorem read_fits_file_accepts (le : Bool) (file : List Nat) (hs : Nat)
    (p : FitsFile) (hh : read_header file = .ok hs)
    (hsimple : strncmp_eq (file.take hs) (ascii "SIMPLE") 6 = true)
    (hp : parse_fits_header (raw_header file hs) = .ok p)
    (hbit : valid_bitpix (with_elements p).data_type = true)
    (hd1 : 0 < dimension_of p) (hd4 : dimension_of p ≤ 4)
    (hsize : 0 < (with_elements p).data_size)
    (hdata : (with_elements p).data_size
      ≤ (file.length - (with_elements p).header_size) / (with_elements p).word_size) :
    ∃ r, read_fits_file le file = .ok r := by
  have hheader : read_fits_header file = .ok (with_elements p) := by
    rw [read_fits_header_eq, hh]
    simp only [hsimple, not_true_eq_false, if_false, hp, hbit]
    rw [if_neg (by omega), if_neg (by omega)]
  unfold read_fits_file
  rw [hheader]
  unfold read_fits_data
  simp only [List.length_drop]
  rw [Nat.min_eq_left hdata, if_neg (by simp)]
  split
  · exact ⟨_, rfl⟩
  · exact ⟨_, rfl⟩

/-! ## Theorems: the SIMPLE check and the lookup of header values -/

theorem strncmp_eq_SIMPLE (p : List Nat) :
    strncmp_eq p (ascii "SIMPLE") 6 = true ↔ p.take 6 = [83, 73, 77, 80, 76, 69] := by
  rw [ascii_SIMPLE]
  rcases p with _ | ⟨a, _ | ⟨b, _ | ⟨c, _ | ⟨d, _ | ⟨e, _ | ⟨f, t⟩⟩⟩⟩⟩⟩ <;>
    simp [strncmp_eq, char_at] <;> omega

/-- C11: for every input whose header region terminates (an 80-byte-aligned
END line exists in a complete block) but whose first 6 bytes are not SIMPLE,
`read_fits_file` fails with the error of the missing SIMPLE keyword, whatever
the rest of the file contains. -/
theorem read_fits_file_not_fits (le : Bool) (file : List Nat)
    (hend : ∃ k, block_has_end_line file k)
    (hsimple : file.take 6 ≠ [83, 73, 77, 80, 76, 69]) :
    read_fits_file le file = .error .missing_simple := by
  rcases read_header_cases file with ⟨hno, _⟩ | ⟨k, _, _, he⟩
  · obtain ⟨k, hk⟩ := hend
    exact absurd hk (hno k)
  · have hns : ¬ strncmp_eq (file.take (2880 * (k + 1))) (ascii "SIMPLE") 6 = true := by
      rw [strncmp_eq_SIMPLE, List.take_take, Nat.min_eq_left (by omega)]
      exact hsimple
    unfold read_fits_file
    rw [read_fits_header_eq, he]
    simp [hns]

/-- Witness of C11: `not_fits_file` has its END line in block 0 and starts
with SIMPLF. -/
theorem read_fits_file_not_fits_witness :
    block_has_end_line not_fits_file 0 ∧
    not_fits_file.take 6 ≠ [83, 73, 77, 80, 76, 69] ∧
    read_fits_file true not_fits_file = .error .missing_simple :=
  have h1 : block_has_end_line not_fits_file 0 := ⟨by decide!, 4, by decide, by decide!⟩
  have h2 : not_fits_file.take 6 ≠ [83, 73, 77, 80, 76, 69] := by decide!
  ⟨h1, h2, read_fits_file_not_fits true not_fits_file ⟨0, h1⟩ h2⟩

theorem find_value_none (key : List Nat) (keys values : List (List Nat))
    (h : ∀ k ∈ keys, k ≠ key) : find_value key keys values = none := by
  induction keys generalizing values with
  | nil => rfl
  | cons k ks ih =>
    rcases values with _ | ⟨v, vs⟩
    · rfl
    · have hk := h k (List.mem_cons_self _ _)
      simp only [find_value, hk, if_false]
      exact ih vs (fun x hx => h x (List.mem_cons_of_mem _ hx))

theorem find_value_first (key : List Nat) (keys values : List (List Nat))
    (hlen : keys.length = values.length) (i : Nat) (hi : keys[i]? = some key)
    (hfirst : ∀ j, j < i → keys[j]? ≠ some key) :
    find_value key keys values = values[i]? := by
  induction keys generalizing values i with
  | nil => simp at hi
  | cons k ks ih =>
    rcases values with _ | ⟨v, vs⟩
    · simp at hlen
    · rcases i with _ | i
      · have : k = key := by simpa using hi
        simp [find_value, this]
      · have hk : k ≠ key := by
          intro h
          exact hfirst 0 (by omega) (by simp [h])
        simp only [find_value, hk, if_false, List.getElem?_cons_succ]
        apply ih vs (by simpa using hlen) i (by simpa using hi)
        intro j hj
        have := hfirst (j + 1) (by omega)
        simpa using this

/-- C15: for every parsed header (keys and values in parallel, in on-disk
order) and every key, `get_fits_header_value` returns the value of the first
card whose key equals the given key byte for byte, later duplicates being
ignored; it returns no value when no card has that key or when the header
has not been parsed. -/
theorem get_fits_header_value_first (self : FitsFile) (key : List Nat)
    (hlen : self.header_keys.length = self.header_values.length) :
    (self.header_parsed = false → get_fits_header_value self key = none) ∧
    (self.header_parsed = true → (∀ k ∈ self.header_keys, k ≠ key) →
      get_fits_header_value self key = none) ∧
    (self.header_parsed = true → ∀ i : Nat, self.header_keys[i]? = some key →
      (∀ j, j < i → self.header_keys[j]? ≠ some key) →
      get_fits_header_value self key = self.header_values[i]? ∧
      ∃ v, self.header_values[i]? = some v) := by
  refine ⟨fun h => ?_, fun h hno => ?_, fun h i hi hfirst => ⟨?_, ?_⟩⟩
  · simp [get_fits_header_value, h]
  · simp only [get_fits_header_value, h, not_true_eq_false, if_false]
    exact find_value_none key _ _ hno
  · simp only [get_fits_header_value, h, not_true_eq_false, if_false]
    exact find_value_first key _ _ hlen i hi hfirst
  · have hi2 : i < self.header_keys.length := by
      rcases Nat.lt_or_ge i self.header_keys.length with h1 | h1
      · exact h1
      · rw [List.getElem?_eq_none h1] at hi; exact absurd hi (by simp)
    rw [List.getElem?_eq_getElem (show i < self.header_values.length by omega)]
    exact ⟨_, rfl⟩

/-- Witness of C15: in `duplicate_keys_header` the first card with key NAXIS1
is card 2 (card 1 has the key in lower case), with value 2; the key BITPIX is
absent. -/
theorem get_fits_header_value_first_witness :
    duplicate_keys_header.header_keys.length = duplicate_keys_header.header_values.length ∧
    get_fits_header_value duplicate_keys_header (ascii "NAXIS1") = some (ascii "2") ∧
    get_fits_header_value duplicate_keys_header (ascii "BITPIX") = none ∧
    get_fits_header_value { duplicate_keys_header with header_parsed := false }
      (ascii "NAXIS1") = none :=
  have hlen : duplicate_keys_header.header_keys.length
      = duplicate_keys_header.header_values.length := by decide
  have t := get_fits_header_value_first duplicate_keys_header (ascii "NAXIS1") hlen
  have t2 := get_fits_header_value_first duplicate_keys_header (ascii "BITPIX") hlen
  have t3 := get_fits_header_value_first { duplicate_keys_header with header_parsed := false }
    (ascii "NAXIS1") hlen
  ⟨hlen,
    ((t.2.2 (by decide) 2 (by decide) (fun j hj => by
      have : j = 0 ∨ j = 1 := by omega
      rcases this with rfl | rfl <;> decide)).1).trans (by decide),
    t2.2.1 (by decide) (by decide),
    t3.1 (by decide)⟩

/-! ## Theorems: BSCALE and BZERO -/

theorem strncmp_eq_prefix (lit : List Nat) (hlit : ∀ c ∈ lit, c ≠ 0) (p : List Nat) :
    strncmp_eq p lit lit.length = true ↔ lit <+: p := by
  induction lit generalizing p with
  | nil => simp [strncmp_eq]
  | cons c cs ih =>
    have hc : c ≠ 0 := hlit c (List.mem_cons_self _ _)
    rcases p with _ | ⟨x, xs⟩
    · simp [strncmp_eq, char_at, Ne.symm hc]
    · simp only [List.length_cons, strncmp_eq, char_at, List.getD_cons_zero, List.tail_cons]
      by_cases hx : x = c
      · subst hx
        simp only [ne_eq, not_true_eq_false, if_false, hc]
        rw [ih (fun y hy => hlit y (List.mem_cons_of_mem _ hy)) xs]
        simp [List.cons_prefix_cons]
      · simp [hx, List.cons_prefix_cons]
        intro h
        exact absurd h.symm hx

theorem rtrim_append_singleton (l : List Nat) (c : Nat) :
    rtrim (l ++ [c]) = if c = 32 then rtrim l else l ++ [c] := by
  unfold rtrim
  rw [List.reverse_append]
  by_cases h : c = 32
  · simp [h, List.dropWhile]
  · simp [h, List.dropWhile]

theorem rtrim_length_le (l : List Nat) : (rtrim l).length ≤ l.length := by
  unfold rtrim
  rw [List.length_reverse]
  have := List.Sublist.length_le (List.dropWhile_sublist (fun x => decide (x = 32)) (l := l.reverse))
  simpa using this

theorem rtrim_initial (l : List Nat) : rtrim l <+: l := by
  unfold rtrim
  have h := List.dropWhile_suffix (fun x => decide (x = 32)) (l := l.reverse)
  have := List.reverse_prefix.2 h
  simpa using this

theorem drop_length_takeWhile (p : Nat → Bool) (l : List Nat) :
    l.drop (l.takeWhile p).length = l.dropWhile p := by
  induction l with
  | nil => rfl
  | cons x xs ih =>
    by_cases h : p x
    · simp [List.takeWhile, List.dropWhile, h, ih]
    · simp [List.takeWhile, List.dropWhile, h]

theorem take_length_takeWhile (p : Nat → Bool) (l : List Nat) :
    l.take (l.takeWhile p).length = l.takeWhile p := by
  induction l with
  | nil => rfl
  | cons x xs ih =>
    by_cases h : p x
    · simp [List.takeWhile, h, ih]
    · simp [List.takeWhile, h]

theorem strchr_eq (l : List Nat) (c : Nat) (hl : ∀ x ∈ l, x ≠ 0) :
    strchr l c = if c ∈ l then some (text_before c l).length else none := by
  induction l with
  | nil => simp [strchr]
  | cons x xs ih =>
    have hx : x ≠ 0 := hl x (List.mem_cons_self _ _)
    have ih2 := ih (fun y hy => hl y (List.mem_cons_of_mem _ hy))
    unfold strchr
    by_cases hxc : x = c
    · subst hxc
      simp [text_before, List.takeWhile]
    · rw [if_neg hxc, if_neg hx, ih2]
      have hcx : ¬ c = x := fun h => hxc h.symm
      by_cases hm : c ∈ xs
      · simp [hm, text_before, List.takeWhile, hxc, hcx]
      · simp [hm, hcx]

theorem trim_end_eq (line : List Nat) (lo e : Nat) (hlo : lo ≤ e) (he : e ≤ line.length) :
    trim_end line lo e = lo + (rtrim ((line.drop lo).take (e - lo))).length := by
  induction e with
  | zero =>
    have : lo = 0 := by omega
    subst this
    simp [trim_end, rtrim]
  | succ e ih =>
    unfold trim_end
    by_cases hle : lo ≤ e
    · have hget : (line.drop lo).take (e + 1 - lo)
          = (line.drop lo).take (e - lo) ++ [char_at line e] := by
        have h1 : e + 1 - lo = (e - lo) + 1 := by omega
        have h2 : e - lo < (line.drop lo).length := by simp; omega
        rw [h1, List.take_succ, List.getElem?_eq_getElem h2]
        simp only [Option.toList_some, char_at, List.getD_eq_getElem?_getD, List.getElem_drop]
        rw [List.getElem?_eq_getElem (by omega)]
        simp
        congr 1
        omega
      rw [hget, rtrim_append_singleton]
      by_cases hc : char_at line e = 32
      · rw [if_pos ⟨by omega, hc⟩, if_pos hc]
        exact ih hle (by omega)
      · rw [if_neg (fun h => hc h.2), if_neg hc]
        simp
        omega
    · have : lo = e + 1 := by omega
      subst this
      simp [rtrim]

theorem take_of_initial (P l : List Nat) (h : P <+: l) : l.take P.length = P := by
  obtain ⟨t, rfl⟩ := h
  exact List.take_left _ _

theorem strncpy_str_initial (P l : List Nat) (h : P <+: l) (hP : ∀ c ∈ P, c ≠ 0) :
    strncpy_str l P.length = P := by
  unfold strncpy_str
  rw [take_of_initial P l h, List.takeWhile_eq_self_iff]
  intro x hx
  simpa using hP x hx

theorem char_at_drop (l : List Nat) (a i : Nat) : char_at l (a + i) = char_at (l.drop a) i := by
  simp [char_at, List.getD_eq_getElem?_getD, List.getElem?_drop]

theorem char_at_prefix (P l : List Nat) (h : P <+: l) (i : Nat) (hi : i < P.length) :
    char_at l i = char_at P i := by
  obtain ⟨t, rfl⟩ := h
  simp [char_at, List.getD_eq_getElem?_getD, List.getElem?_append_left hi]

theorem skip_spaces_drop (line : List Nat) (s : Nat) :
    line.drop (skip_spaces line s) = ltrim (line.drop s) := by
  unfold skip_spaces ltrim
  rw [← List.drop_drop, drop_length_takeWhile]

theorem skip_spaces_le (line : List Nat) (s : Nat) (hs : s ≤ line.length) :
    s ≤ skip_spaces line s ∧ skip_spaces line s ≤ line.length := by
  unfold skip_spaces
  have h := List.Sublist.length_le
    (List.takeWhile_sublist (fun x => decide (x = 32)) (l := line.drop s))
  simp only [List.length_drop] at h
  omega

theorem takeWhile_append_stop (p : Nat → Bool) (a : List Nat) (c : Nat) (r : List Nat)
    (hc : p c = false) : (a ++ c :: r).takeWhile p = a.takeWhile p := by
  induction a with
  | nil => simp [List.takeWhile, hc]
  | cons x xs ih =>
    by_cases hx : p x
    · simp [List.takeWhile, hx, ih]
    · simp [List.takeWhile, hx]

theorem dropWhile_append_stop (p : Nat → Bool) (a : List Nat) (c : Nat) (r : List Nat)
    (hc : p c = false) : (a ++ c :: r).dropWhile p = a.dropWhile p ++ c :: r := by
  induction a with
  | nil => simp [List.dropWhile, hc]
  | cons x xs ih =>
    by_cases hx : p x
    · simp [List.dropWhile, hx, ih]
    · simp [List.dropWhile, hx]

theorem rtrim_ne_nil (T : List Nat) (c : Nat) (t : List Nat) (hT : T = c :: t) (hc : c ≠ 32) :
    ∃ t2, rtrim T = c :: t2 := by
  subst hT
  induction t using List.reverseRecOn with
  | nil => exact ⟨[], by simp [rtrim, List.dropWhile, hc]⟩
  | append_singleton t x ih =>
    rw [← List.cons_append, rtrim_append_singleton]
    split
    · exact ih
    · exact ⟨t ++ [x], rfl⟩

/-- The extent of the trimmed value in a header line without NUL bytes that
holds `=`: `value_start`, `value_end` and the bytes between them before the
quotes are looked at. -/
theorem value_extent (line : List Nat) (hnul : ∀ c ∈ line, c ≠ 0) (heq : 61 ∈ line) :
    ∃ eq vs ve,
      strchr line 61 = some eq ∧
      trim_end line 0 eq = (line_key line).length ∧
      strncpy_str line (line_key line).length = line_key line ∧
      skip_spaces line (eq + 1) = vs ∧ vs ≤ line.length ∧
      (match strchr (line.drop vs) 47 with
        | some k => vs + k
        | none => line.length) = ve ∧
      trim_end line vs ve = vs + (line_value line).length ∧
      line_value line <+: line.drop vs ∧
      (char_at line vs = 39 ↔ (line_value line).head? = some 39) := by
  have hstr := strchr_eq line 61 hnul
  rw [if_pos heq] at hstr
  have heqlt : (text_before 61 line).length < line.length := by
    have h1 : text_before 61 line ++ line.dropWhile (· ≠ 61) = line :=
      List.takeWhile_append_dropWhile _ _
    have h2 : line.dropWhile (· ≠ 61) ≠ [] := by
      intro h
      rw [List.dropWhile_eq_nil_iff] at h
      have := h 61 heq
      simp at this
    have h3 := congrArg List.length h1
    rw [List.length_append] at h3
    have : 0 < (line.dropWhile (· ≠ 61)).length := List.length_pos.2 h2
    omega
  have hkpre : line_key line <+: line :=
    (rtrim_initial _).trans (List.takeWhile_prefix _)
  have hkey : trim_end line 0 (text_before 61 line).length = (line_key line).length := by
    rw [trim_end_eq line 0 _ (Nat.zero_le _) (by omega)]
    simp only [List.drop_zero, Nat.sub_zero, Nat.zero_add]
    unfold text_before
    rw [take_length_takeWhile]
    rfl
  have hA : line.drop ((text_before 61 line).length + 1) = text_after 61 line := by
    unfold text_after text_before
    rw [← List.drop_drop, drop_length_takeWhile]
  have hvsle := skip_spaces_le line ((text_before 61 line).length + 1) (by omega)
  have hV0 : line.drop (skip_spaces line ((text_before 61 line).length + 1))
      = ltrim (text_after 61 line) := by
    rw [skip_spaces_drop, hA]
  have hV0nul : ∀ c ∈ ltrim (text_after 61 line), c ≠ 0 := by
    intro c hc
    rw [← hV0] at hc
    exact hnul c (List.mem_of_mem_drop hc)
  have hV0len : (ltrim (text_after 61 line)).length
      = line.length - skip_spaces line ((text_before 61 line).length + 1) := by
    rw [← hV0, List.length_drop]
  -- the text up to the slash
  have hTpre : text_before 47 (ltrim (text_after 61 line)) <+: ltrim (text_after 61 line) :=
    List.takeWhile_prefix _
  have hTlen := List.IsPrefix.length_le hTpre
  have hWpre : line_value line <+: ltrim (text_after 61 line) :=
    (rtrim_initial _).trans hTpre
  refine ⟨_, _, _, hstr, hkey, strncpy_str_initial _ _ hkpre (fun c hc => hnul c (hkpre.subset hc)),
    rfl, hvsle.2, rfl, ?_, by rw [hV0]; exact hWpre, ?_⟩
  · -- the end of the value
    rw [hV0, strchr_eq _ 47 hV0nul]
    by_cases hs : 47 ∈ ltrim (text_after 61 line)
    · rw [if_pos hs]
      show trim_end line (skip_spaces line ((text_before 61 line).length + 1))
        (skip_spaces line ((text_before 61 line).length + 1)
          + (text_before 47 (ltrim (text_after 61 line))).length) = _
      rw [trim_end_eq line _ _ (by omega) (by omega), hV0, Nat.add_sub_cancel_left]
      unfold text_before
      rw [take_length_takeWhile]
      rfl
    · rw [if_neg hs]
      show trim_end line (skip_spaces line ((text_before 61 line).length + 1)) line.length = _
      rw [trim_end_eq line _ _ hvsle.2 (le_refl _), hV0, ← hV0len, List.take_length]
      have hT : text_before 47 (ltrim (text_after 61 line)) = ltrim (text_after 61 line) := by
        unfold text_before
        rw [List.takeWhile_eq_self_iff]
        intro x hx
        have : x ≠ 47 := fun h => hs (h ▸ hx)
        simpa using this
      unfold line_value
      rw [hT]
  · -- the first byte of the value
    rw [show skip_spaces line ((text_before 61 line).length + 1)
      = skip_spaces line ((text_before 61 line).length + 1) + 0 by rfl, char_at_drop, hV0]
    rcases hV : ltrim (text_after 61 line) with _ | ⟨v0, V⟩
    · have hW : line_value line = [] := by
        unfold line_value; rw [hV]; rfl
      simp [hW, char_at]
    · have hv0 : v0 ≠ 32 := by
        have := List.head_dropWhile_not (fun x => decide (x = 32)) (text_after 61 line)
        unfold ltrim at hV
        simp only [hV] at this
        simpa using this (by simp)
      by_cases h47 : v0 = 47
      · have hW : line_value line = [] := by
          unfold line_value; rw [hV]
          simp [text_before, List.takeWhile, h47, rtrim]
        simp [hW, char_at, h47]
      · have hT : text_before 47 (v0 :: V) = v0 :: text_before 47 V := by
          simp [text_before, List.takeWhile, h47]
        obtain ⟨t2, ht2⟩ := rtrim_ne_nil _ v0 _ hT hv0
        have hW : line_value line = v0 :: t2 := by
          unfold line_value; rw [hV]; exact ht2
        simp [hW, char_at]

theorem skip_test_iff (line : List Nat) :
    (char_at line 0 = 32 ∨ strncmp_eq line (ascii "COMMENT") 7 = true
      ∨ strncmp_eq line (ascii "HISTORY") 7 = true) ↔ skipped_line line := by
  have h1 : char_at line 0 = 32 ↔ line.head? = some 32 := by
    rcases line with _ | ⟨x, xs⟩ <;> simp [char_at]
  have h2 := strncmp_eq_prefix (ascii "COMMENT") (by decide) line
  have h3 := strncmp_eq_prefix (ascii "HISTORY") (by decide) line
  rw [show (ascii "COMMENT").length = 7 by decide] at h2
  rw [show (ascii "HISTORY").length = 7 by decide] at h3
  unfold skipped_line
  rw [h1, h2, h3]

theorem parse_card_skipped (line : List Nat) (h : skipped_line line) :
    parse_card line = .skip := by
  unfold parse_card
  rw [if_pos ((skip_test_iff line).2 h)]

theorem parse_card_no_equals (line : List Nat) (h : 61 ∉ line) : parse_card line = .skip := by
  unfold parse_card
  rw [strchr_none line 61 (fun x hx hx61 => h (hx61 ▸ hx))]
  split <;> rfl

theorem char_at_last (W : List Nat) (hW : W ≠ []) (c : Nat) :
    char_at W (W.length - 1) = c ↔ W.getLast? = some c := by
  rw [List.getLast?_eq_getLast _ hW, List.getLast_eq_getElem]
  have : W.length - 1 < W.length := by
    have := List.length_pos.2 hW
    omega
  simp [char_at, List.getD_eq_getElem?_getD, List.getElem?_eq_getElem this]

/-- The body of the parsing loop on a line of text that is not skipped and
holds `=`, in terms of the key and the trimmed value of the line. -/
theorem parse_card_eq (line : List Nat) (hlen : line.length = 80)
    (hnul : ∀ c ∈ line, c ≠ 0) (hns : ¬ skipped_line line) (heq : 61 ∈ line) :
    ∃ vs, vs ≤ 80 ∧ line_value line <+: line.drop vs ∧
      (char_at line vs = 39 ↔ (line_value line).head? = some 39) ∧
      parse_card line =
        if char_at line vs = 39 ∧ char_at line (vs + (line_value line).length - 1) = 39 then
          if trim_end line (skip_spaces line (vs + 1)) (vs + (line_value line).length - 1)
              < skip_spaces line (vs + 1) then .wrapped
          else .card (line_key line)
            (strncpy_str (line.drop (skip_spaces line (vs + 1)))
              (trim_end line (skip_spaces line (vs + 1)) (vs + (line_value line).length - 1)
                - skip_spaces line (vs + 1)))
        else .card (line_key line) (line_value line) := by
  obtain ⟨eq, vs, ve, h1, h2, h3, h4, h5, h6, h7, h8, h9⟩ := value_extent line hnul heq
  refine ⟨vs, by omega, h8, h9, ?_⟩
  subst h6
  rw [hlen] at h7
  unfold parse_card
  rw [if_neg (fun h => hns ((skip_test_iff line).1 h))]
  simp only [h1, h2, h3, h4, FITS_HEADER_LINE_SIZE]
  rcases hs : strchr (List.drop vs line) 47 with _ | k <;>
    simp only [hs] at h7 ⊢ <;> simp only [h7] <;>
    by_cases hq : char_at line vs = 39 ∧ char_at line (vs + (line_value line).length - 1) = 39
  · simp only [hq, and_self, if_true]
  · simp only [hq, if_false]
    rw [if_neg (by omega), Nat.add_sub_cancel_left,
      strncpy_str_initial _ _ h8 (fun c hc => hnul c (List.mem_of_mem_drop (h8.subset hc)))]
  · simp only [hq, and_self, if_true]
  · simp only [hq, if_false]
    rw [if_neg (by omega), Nat.add_sub_cancel_left,
      strncpy_str_initial _ _ h8 (fun c hc => hnul c (List.mem_of_mem_drop (h8.subset hc)))]

theorem quote_test_iff (line : List Nat) (vs : Nat)
    (hpre : line_value line <+: line.drop vs)
    (hhead : char_at line vs = 39 ↔ (line_value line).head? = some 39) :
    (char_at line vs = 39 ∧ char_at line (vs + (line_value line).length - 1) = 39)
      ↔ quote_delimited (line_value line) := by
  unfold quote_delimited
  rw [hhead]
  constructor
  · rintro ⟨ha, hb⟩
    refine ⟨ha, ?_⟩
    have hW : line_value line ≠ [] := by
      intro h; rw [h] at ha; simp at ha
    have hl := List.length_pos.2 hW
    rw [← char_at_last _ hW, ← char_at_prefix _ _ hpre _ (by omega), ← char_at_drop]
    rw [← hb]
    congr 1
    omega
  · rintro ⟨ha, hb⟩
    refine ⟨ha, ?_⟩
    have hW : line_value line ≠ [] := by
      intro h; rw [h] at ha; simp at ha
    have hl := List.length_pos.2 hW
    rw [← char_at_last _ hW, ← char_at_prefix _ _ hpre _ (by omega), ← char_at_drop] at hb
    rw [← hb]
    congr 1
    omega

theorem trim_end_of_le (line : List Nat) (lo e : Nat) (h : e ≤ lo) : trim_end line lo e = e := by
  rcases e with _ | e
  · rfl
  · unfold trim_end
    rw [if_neg (by omega)]

theorem parse_card_plain (line : List Nat) (ht : text_line line)
    (hns : ¬ skipped_line line) (heq : 61 ∈ line)
    (hq : ¬ quote_delimited (line_value line)) :
    parse_card line = .card (line_key line) (line_value line) := by
  obtain ⟨vs, _, hpre, hhead, hp⟩ := parse_card_eq line ht.1 ht.2 hns heq
  rw [hp, if_neg (fun h => hq ((quote_test_iff line vs hpre hhead).1 h))]

theorem parse_card_quoted (line : List Nat) (ht : text_line line)
    (hns : ¬ skipped_line line) (heq : 61 ∈ line)
    (hq : quote_delimited (line_value line)) (h2 : 2 ≤ (line_value line).length) :
    parse_card line = .card (line_key line) (unquoted (line_value line)) := by
  obtain ⟨vs, hvs, hpre, hhead, hp⟩ := parse_card_eq line ht.1 ht.2 hns heq
  rw [hp, if_pos ((quote_test_iff line vs hpre hhead).2 hq)]
  -- the shape of the trimmed value
  obtain ⟨inner, hW⟩ : ∃ inner, line_value line = 39 :: (inner ++ [39]) := by
    rcases hWc : line_value line with _ | ⟨w0, W'⟩
    · rw [hWc] at h2; simp at h2
    · have h0 : w0 = 39 := by
        have := hq.1; rw [hWc] at this; simpa using this
      have hne : W' ≠ [] := by
        intro h; rw [hWc, h] at h2; simp at h2
      have hl : W'.getLast? = some 39 := by
        have := hq.2
        rw [hWc] at this
        obtain ⟨x, xs, hx⟩ := List.exists_cons_of_ne_nil hne
        rw [hx] at this ⊢
        simpa [List.getLast?_cons_cons] using this
      refine ⟨W'.dropLast, ?_⟩
      rw [h0]
      congr 1
      have hl2 : W'.getLast hne = 39 := by
        rw [List.getLast?_eq_getLast _ hne] at hl
        exact Option.some.inj hl
      rw [← hl2, List.dropLast_append_getLast]
  obtain ⟨R, hR⟩ := hpre
  rw [hW] at hR
  have hlenW : (line_value line).length = inner.length + 2 := by rw [hW]; simp
  have hdrop1 : line.drop (vs + 1) = inner ++ 39 :: R := by
    rw [← List.drop_drop, ← hR]; simp
  have hS : skip_spaces line (vs + 1)
      = vs + 1 + (inner.takeWhile (· = 32)).length := by
    unfold skip_spaces
    rw [hdrop1, takeWhile_append_stop _ _ _ _ (by decide)]
  have hL : line.drop (skip_spaces line (vs + 1)) = ltrim inner ++ 39 :: R := by
    rw [skip_spaces_drop, hdrop1]
    unfold ltrim
    rw [dropWhile_append_stop _ _ _ _ (by decide)]
  have hsum : (inner.takeWhile (· = 32)).length + (ltrim inner).length = inner.length := by
    have := congrArg List.length (List.takeWhile_append_dropWhile (fun x => decide (x = 32)) inner)
    rw [List.length_append] at this
    exact this
  have hll : vs + (inner.length + 2) ≤ line.length := by
    have := congrArg List.length hR
    simp only [List.length_append, List.length_cons, List.length_drop, List.length_nil] at this
    omega
  have hte : trim_end line (skip_spaces line (vs + 1)) (vs + (line_value line).length - 1)
      = skip_spaces line (vs + 1) + (rtrim (ltrim inner)).length := by
    rw [trim_end_eq line _ _ (by rw [hS, hlenW]; omega) (by rw [hlenW]; omega), hL]
    have : vs + (line_value line).length - 1 - skip_spaces line (vs + 1)
        = (ltrim inner).length := by rw [hS, hlenW]; omega
    rw [this, List.take_left]
  rw [hte, if_neg (by omega), Nat.add_sub_cancel_left, hL]
  have hpre2 : rtrim (ltrim inner) <+: ltrim inner ++ 39 :: R :=
    (rtrim_initial _).trans (List.prefix_append _ _)
  rw [strncpy_str_initial _ _ hpre2 (fun c hc => by
    have h1 : c ∈ ltrim inner ++ 39 :: R := hpre2.subset hc
    rw [← hL] at h1
    exact ht.2 c (List.mem_of_mem_drop h1))]
  unfold unquoted
  rw [hW]
  simp

theorem parse_card_lone_quote (line : List Nat) (ht : text_line line)
    (hns : ¬ skipped_line line) (heq : 61 ∈ line) (hq : line_value line = [39]) :
    parse_card line = .wrapped := by
  obtain ⟨vs, hvs, hpre, hhead, hp⟩ := parse_card_eq line ht.1 ht.2 hns heq
  have hqd : quote_delimited (line_value line) := by rw [hq]; exact ⟨rfl, rfl⟩
  rw [hp, if_pos ((quote_test_iff line vs hpre hhead).2 hqd), hq]
  have hlen : line.length = 80 := ht.1
  have hs := skip_spaces_le line (vs + 1) (by
    obtain ⟨R, hR⟩ := hpre
    rw [hq] at hR
    have := congrArg List.length hR
    simp only [List.length_append, List.length_cons, List.length_drop, List.length_nil] at this
    omega)
  simp only [List.length_singleton, Nat.add_sub_cancel]
  rw [trim_end_of_le line _ vs (by omega), if_pos (by omega)]

/-- Counterexample to C12 as stated: `quoted_line` is a line of text that is
not skipped and holds `=`; its value text, trimmed and cut at the slash, is
the quoted text, but the stored value is the text between the quotes. -/
theorem quoted_line_stored :
    text_line quoted_line ∧ ¬ skipped_line quoted_line ∧ 61 ∈ quoted_line ∧
    line_value quoted_line = ascii "' NGC 1 '" ∧
    parse_card quoted_line = .card (ascii "OBJECT") (ascii "NGC 1") ∧
    parse_card quoted_line ≠ .card (line_key quoted_line) (line_value quoted_line) := by
  refine ⟨?_, ?_, by decide!, by decide!, by decide!, by decide!⟩
  · unfold text_line; decide!
  · unfold skipped_line; decide!

/-- C12, amended: for every 80-byte header line of text that is not skipped,
holds `=` and whose trimmed value is not delimited by single quotes, the
stored key is the text before the first `=` without its trailing spaces, and
the stored value is the text after that `=` with leading spaces skipped, cut
at the first `/` if there is one (otherwise at the line end), without its
trailing spaces. -/
theorem parse_card_key_value (line : List Nat) (ht : text_line line)
    (hns : ¬ skipped_line line) (heq : 61 ∈ line)
    (hq : ¬ quote_delimited (line_value line)) :
    parse_card line
      = .card (rtrim (text_before 61 line))
          (rtrim (text_before 47 (ltrim (text_after 61 line)))) :=
  parse_card_plain line ht hns heq hq

/-- Witness of the amended C12: `plain_line` stores the key NAXIS1 and the
value 128. -/
theorem parse_card_key_value_witness :
    text_line plain_line ∧ ¬ skipped_line plain_line ∧ 61 ∈ plain_line ∧
    ¬ quote_delimited (line_value plain_line) ∧
    rtrim (text_before 61 plain_line) = ascii "NAXIS1" ∧
    rtrim (text_before 47 (ltrim (text_after 61 plain_line))) = ascii "128" ∧
    parse_card plain_line
      = .card (rtrim (text_before 61 plain_line))
          (rtrim (text_before 47 (ltrim (text_after 61 plain_line)))) :=
  have h1 : text_line plain_line := by unfold text_line; decide!
  have h2 : ¬ skipped_line plain_line := by unfold skipped_line; decide!
  have h3 : 61 ∈ plain_line := by decide!
  have h4 : ¬ quote_delimited (line_value plain_line) := by unfold quote_delimited; decide!
  ⟨h1, h2, h3, h4, by decide!, by decide!, parse_card_key_value plain_line h1 h2 h3 h4⟩

/-- C13, failing input: the trimmed value of `lone_quote_line` is one single
quote, which begins and ends with a single quote; the value end then lies
before the value start and nothing is stored: `read_fits_file` does not
survive the header of `lone_quote_file`. -/
theorem lone_quote_line_wrapped :
    text_line lone_quote_line ∧ ¬ skipped_line lone_quote_line ∧ 61 ∈ lone_quote_line ∧
    line_value lone_quote_line = [39] ∧ quote_delimited (line_value lone_quote_line) ∧
    parse_card lone_quote_line = .wrapped ∧
    read_fits_file true lone_quote_file = .error .value_length_wrapped := by
  refine ⟨?_, ?_, by decide!, by decide!, ?_, by decide!, by decide!⟩
  · unfold text_line; decide!
  · unfold skipped_line; decide!
  · unfold quote_delimited; decide!

/-- Supporting fact for C13: for every 80-byte header line of text that is
not skipped, holds `=` and whose trimmed value has at least two bytes, begins
with a single quote and ends with a single quote, the stored value is the text
between the two quotes without its leading and trailing spaces. -/
theorem parse_card_quoted_value (line : List Nat) (ht : text_line line)
    (hns : ¬ skipped_line line) (heq : 61 ∈ line)
    (hq : quote_delimited (line_value line)) (h2 : 2 ≤ (line_value line).length) :
    parse_card line
      = .card (line_key line) (rtrim (ltrim ((line_value line).drop 1).dropLast)) :=
  parse_card_quoted line ht hns heq hq h2

/-! ## Theorems: the lines of a header (`parse_fits_header`) -/

theorem is_end_line_iff (l : List Nat) :
    strncmp_eq l (ascii "END") 3 = true ↔ is_end_line l = true := by
  have h := strncmp_eq_prefix (ascii "END") (by decide) l
  rw [show (ascii "END").length = 3 by decide] at h
  rw [ascii_END] at h
  simp [is_end_line, h, ascii_END]

theorem count_lines_list (H : List Nat) (hs : Nat) (ls : List (List Nat))
    (h80 : ∀ l ∈ ls, l.length = 80) (n i : Nat)
    (hH : H.drop i = ls.flatten) (hn : n = ls.length) (hi : i + 80 * ls.length = hs) :
    count_lines H hs n i = (ls.takeWhile (fun l => !is_end_line l)).length := by
  induction ls generalizing n i with
  | nil => subst hn; rfl
  | cons l rest ih =>
    subst hn
    have hl : l.length = 80 := h80 l (List.mem_cons_self _ _)
    simp only [List.length_cons] at hi ⊢
    unfold count_lines
    simp only [List.flatten_cons] at hH
    have hnext : H.drop (i + FITS_HEADER_LINE_SIZE) = rest.flatten := by
      rw [← List.drop_drop, hH]
      simp only [FITS_HEADER_LINE_SIZE]
      rw [← hl, List.drop_left]
    rw [hH, strncmp_eq_append _ _ _ _ (by omega)]
    by_cases he : is_end_line l = true
    · rw [if_pos ⟨by omega, (is_end_line_iff l).2 he⟩]
      simp [List.takeWhile, he]
    · rw [if_neg (fun h => he ((is_end_line_iff l).1 h.2))]
      rw [ih (fun x hx => h80 x (List.mem_cons_of_mem _ hx)) rest.length
        (i + FITS_HEADER_LINE_SIZE) hnext rfl (by simp only [FITS_HEADER_LINE_SIZE]; omega)]
      simp [List.takeWhile, he]
      omega

theorem parse_lines_list (H : List Nat) (lc : Nat) (ls : List (List Nat))
    (h80 : ∀ l ∈ ls, l.length = 80) (n i hc : Nat)
    (hH : H.drop i = ls.flatten) (hn : n = ls.length)
    (hlc : hc + (ls.takeWhile (fun l => !is_end_line l)).length ≤ lc) :
    parse_lines H lc n i hc = parse_line_list ls := by
  induction ls generalizing n i hc with
  | nil => subst hn; rfl
  | cons l rest ih =>
    subst hn
    have hl : l.length = 80 := h80 l (List.mem_cons_self _ _)
    simp only [List.flatten_cons] at hH
    have hline : (H.drop i).take 80 = l := by rw [hH, ← hl, List.take_left]
    have hnext : H.drop (i + 80) = rest.flatten := by
      rw [← List.drop_drop, hH, ← hl, List.drop_left]
    simp only [List.length_cons]
    unfold parse_lines parse_line_list
    simp only [FITS_HEADER_LINE_SIZE, hline]
    by_cases he : is_end_line l = true
    · have he2 := (is_end_line_iff l).2 he
      simp only [he2, he, if_true]
      split <;> rfl
    · have he2 : ¬ strncmp_eq l (ascii "END") 3 = true := fun h => he ((is_end_line_iff l).1 h)
      have hlt : hc < lc := by
        simp only [List.takeWhile, he] at hlc
        simp at hlc
        omega
      have hlc2 : hc + 1 + (rest.takeWhile (fun l => !is_end_line l)).length ≤ lc := by
        simp only [List.takeWhile, he] at hlc
        simp at hlc
        omega
      rw [if_neg (by omega)]
      simp only [he2, he, if_false]
      have r1 := ih (fun x hx => h80 x (List.mem_cons_of_mem _ hx)) rest.length (i + 80) hc
        hnext rfl (by omega)
      have r2 := ih (fun x hx => h80 x (List.mem_cons_of_mem _ hx)) rest.length (i + 80)
        (hc + 1) hnext rfl hlc2
      rcases hp : parse_card l with _ | ⟨k, v⟩ | _
      · simp only [r1]
      · simp only [r2]
      · rfl

theorem quote_delimited_length (v : List Nat) (hq : quote_delimited v) (h : v ≠ [39]) :
    2 ≤ v.length := by
  rcases v with _ | ⟨a, _ | ⟨b, t⟩⟩
  · simp [quote_delimited] at hq
  · simp [quote_delimited] at hq
    exact absurd (by rw [hq]) h
  · simp

theorem header_cards_cons (l : List Nat) (rest : List (List Nat)) :
    header_cards (l :: rest)
      = if is_end_line l then []
        else if yields_card l then l :: header_cards rest else header_cards rest := by
  unfold header_cards
  by_cases he : is_end_line l = true
  · simp [List.takeWhile, he]
  · by_cases hy : yields_card l = true
    · simp [List.takeWhile, he, hy]
    · simp [List.takeWhile, he, hy]

theorem parse_line_list_cards (ls : List (List Nat)) (ht : ∀ l ∈ ls, text_line l)
    (hw : ∀ l ∈ header_cards ls, line_value l ≠ [39]) :
    parse_line_list ls
      = .ok ((header_cards ls).map line_key, (header_cards ls).map stored_value) := by
  induction ls with
  | nil => rfl
  | cons l rest ih =>
    have htl : text_line l := ht l (List.mem_cons_self _ _)
    have htr : ∀ x ∈ rest, text_line x := fun x hx => ht x (List.mem_cons_of_mem _ hx)
    rw [header_cards_cons] at hw ⊢
    unfold parse_line_list
    by_cases he : is_end_line l = true
    · simp [he]
    · simp only [he, if_false, Bool.false_eq_true] at hw ⊢
      by_cases hy : yields_card l = true
      · simp only [hy, if_true] at hw ⊢
        have hy2 : ¬ skipped_line l ∧ 61 ∈ l := by simpa [yields_card] using hy
        have ihr := ih htr (fun x hx => hw x (List.mem_cons_of_mem _ hx))
        have hne : line_value l ≠ [39] := hw l (List.mem_cons_self _ _)
        by_cases hq : quote_delimited (line_value l)
        · rw [parse_card_quoted l htl hy2.1 hy2.2 hq (quote_delimited_length _ hq hne)]
          simp only [ihr, List.map_cons, stored_value, if_pos hq]
        · rw [parse_card_plain l htl hy2.1 hy2.2 hq]
          simp only [ihr, List.map_cons, stored_value, if_neg hq]
      · simp only [hy, if_false, Bool.false_eq_true] at hw ⊢
        have ihr := ih htr hw
        have hskip : parse_card l = .skip := by
          by_cases hs : skipped_line l
          · exact parse_card_skipped l hs
          · have : 61 ∉ l := fun h => hy (by simp [yields_card, hs, h])
            exact parse_card_no_equals l this
        rw [hskip]
        exact ihr

theorem parse_fits_header_list (self : FitsFile) (ls : List (List Nat))
    (hp : self.header_parsed = false) (hne : ls ≠ [])
    (hh : self.header = ls.flatten) (hs : self.header_size = 80 * ls.length)
    (ht : ∀ l ∈ ls, text_line l) (hw : ∀ l ∈ header_cards ls, line_value l ≠ [39]) :
    parse_fits_header self
      = .ok { self with
          header_keys := (header_cards ls).map line_key,
          header_values := (header_cards ls).map stored_value,
          header_count := (header_cards ls).length,
          header_parsed := true } := by
  have hlen : 0 < ls.length := List.length_pos.2 hne
  have h80 : ∀ l ∈ ls, l.length = 80 := fun l hl => (ht l hl).1
  unfold parse_fits_header
  have hcond : ¬ (self.header_parsed = true ∨ self.header_size = 0) := by
    rw [hp, hs]
    intro h
    rcases h with h | h
    · exact absurd h (by decide)
    · omega
  rw [if_neg hcond]
  have hlines : (self.header_size + (FITS_HEADER_LINE_SIZE - 1)) / FITS_HEADER_LINE_SIZE
      = ls.length := by
    rw [hs]
    show (80 * ls.length + (80 - 1)) / 80 = ls.length
    omega
  simp only [hlines]
  rw [count_lines_list self.header self.header_size ls h80 ls.length 0 (by simpa using hh) rfl
    (by omega)]
  rw [parse_lines_list self.header _ ls h80 ls.length 0 0 (by simpa using hh) rfl (by omega)]
  rw [parse_line_list_cards ls ht hw]
  simp

theorem line_key_prefix (l : List Nat) : line_key l <+: l := by
  unfold line_key text_before
  exact (rtrim_initial _).trans (List.takeWhile_prefix _)

theorem header_cards_not_end (ls : List (List Nat)) (l : List Nat) (h : l ∈ header_cards ls) :
    ¬ is_end_line l = true ∧ ¬ skipped_line l ∧ 61 ∈ l := by
  unfold header_cards at h
  rw [List.mem_filter] at h
  have h1 := List.mem_takeWhile_imp h.1
  have h2 : ¬ skipped_line l ∧ 61 ∈ l := by simpa [yields_card] using h.2
  exact ⟨by simpa using h1, h2⟩

theorem header_cards_key (ls : List (List Nat)) (l : List Nat) (h : l ∈ header_cards ls) :
    (line_key l).head? ≠ some 32 ∧ ¬ ascii "COMMENT" <+: line_key l
      ∧ ¬ ascii "HISTORY" <+: line_key l ∧ ¬ ascii "END" <+: line_key l := by
  obtain ⟨he, hs, _⟩ := header_cards_not_end ls l h
  have hp := line_key_prefix l
  unfold skipped_line at hs
  push_neg at hs
  refine ⟨?_, fun hc => hs.2.1 (hc.trans hp), fun hc => hs.2.2 (hc.trans hp), fun hc => he ?_⟩
  · intro hk
    apply hs.1
    obtain ⟨t, ht⟩ := hp
    rcases hkl : line_key l with _ | ⟨a, r⟩
    · rw [hkl] at hk; simp at hk
    · rw [hkl] at hk ht
      simp at hk
      rw [← ht, hk]; rfl
  · have := hc.trans hp
    rw [ascii_END] at this
    simpa [is_end_line] using this

/-- General statement behind C14, for headers of text without a card whose
value is a lone single quote: `parse_fits_header` stores exactly the cards of
the lines before the first END line that do not begin with a space, COMMENT
or HISTORY and hold `=`, in their order, and no stored key begins with a
space, COMMENT, HISTORY or END. -/
theorem parse_fits_header_cards (self : FitsFile) (ls : List (List Nat))
    (hp : self.header_parsed = false) (hne : ls ≠ [])
    (hh : self.header = ls.flatten) (hs : self.header_size = 80 * ls.length)
    (ht : ∀ l ∈ ls, text_line l) (hw : ∀ l ∈ header_cards ls, line_value l ≠ [39]) :
    ∃ parsed, parse_fits_header self = .ok parsed ∧
      parsed.header_keys = (header_cards ls).map line_key ∧
      parsed.header_values = (header_cards ls).map stored_value ∧
      parsed.header_count = (header_cards ls).length ∧
      ∀ key ∈ parsed.header_keys,
        key.head? ≠ some 32 ∧ ¬ ascii "COMMENT" <+: key ∧ ¬ ascii "HISTORY" <+: key
          ∧ ¬ ascii "END" <+: key := by
  refine ⟨_, parse_fits_header_list self ls hp hne hh hs ht hw, rfl, rfl, rfl, ?_⟩
  intro key hkey
  simp only [List.mem_map] at hkey
  obtain ⟨l, hl, rfl⟩ := hkey
  exact header_cards_key ls l hl

/-- Failing input of C14: the header of `lone_quote_file` has five lines
before its END line that do not begin with a space, COMMENT or HISTORY and
hold `=`, and `parse_fits_header` stores no card at all: it stops with the
fatal error of the allocation of a wrapped value length. -/
theorem lone_quote_header_no_cards :
    lone_quote_file.take 2880 = lone_quote_lines.flatten ∧
    (∀ l ∈ lone_quote_lines, text_line l) ∧
    (header_cards lone_quote_lines).map line_key
      = [ascii "SIMPLE", ascii "BITPIX", ascii "NAXIS", ascii "NAXIS1", ascii "KEY"] ∧
    parse_fits_header
        { FitsFile_new with header := lone_quote_file.take 2880, header_size := 2880 }
      = .error .value_length_wrapped := by
  refine ⟨by decide!, ?_, by decide!, by decide!⟩
  unfold text_line
  decide!

/-! ## Theorems: the tokens of a data row (`read_sofia_catalogue`, lines 550-579) -/

theorem is_delim_iff (c : Nat) : is_delim c = true ↔ (c = 32 ∨ c = 9) := by
  simp [is_delim]

theorem scan_tokens_plain (s token : List Nat) :
    scan_tokens (.plain token) s
      = if s.dropWhile (fun c => !is_delim c) = [] then some [token ++ s]
        else (scan_tokens .gap ((s.dropWhile (fun c => !is_delim c)).drop 1)).map
          ((token ++ s.takeWhile (fun c => !is_delim c)) :: ·) := by
  induction s generalizing token with
  | nil => simp [scan_tokens]
  | cons c rest ih =>
    conv_lhs => unfold scan_tokens
    by_cases hc : is_delim c = true
    · have hc2 := (is_delim_iff c).1 hc
      simp [hc, hc2, List.dropWhile, List.takeWhile]
    · have hc2 : ¬ (c = 32 ∨ c = 9) := fun h => hc ((is_delim_iff c).2 h)
      rw [if_neg hc2, ih]
      simp [hc, List.dropWhile, List.takeWhile]

theorem scan_tokens_quoted (s token : List Nat) :
    scan_tokens (.quoted token) s
      = if s.dropWhile (· ≠ 34) = [] then none
        else (scan_tokens .gap ((s.dropWhile (· ≠ 34)).drop 1)).map
          ((token ++ s.takeWhile (· ≠ 34)) :: ·) := by
  induction s generalizing token with
  | nil => simp [scan_tokens]
  | cons c rest ih =>
    conv_lhs => unfold scan_tokens
    by_cases hc : c = 34
    · simp [hc, List.dropWhile, List.takeWhile]
    · rw [if_neg hc, ih]
      simp [hc, List.dropWhile, List.takeWhile]

theorem scan_tokens_gap (s : List Nat) :
    scan_tokens .gap s = scan_tokens .gap (s.dropWhile is_delim) := by
  induction s with
  | nil => rfl
  | cons c rest ih =>
    by_cases hc : is_delim c = true
    · have hc2 := (is_delim_iff c).1 hc
      rw [List.dropWhile_cons_of_pos hc, ← ih]
      conv_lhs => unfold scan_tokens
      rw [if_pos hc2]
    · rw [List.dropWhile_cons_of_neg hc]

theorem scan_tokens_open (c : Nat) (rest : List Nat) (hc : ¬ is_delim c = true) :
    scan_tokens .gap (c :: rest)
      = if c = 34 then scan_tokens (.quoted []) rest
        else if (c :: rest).dropWhile (fun c => !is_delim c) = [] then some [c :: rest]
        else (scan_tokens .gap (((c :: rest).dropWhile (fun c => !is_delim c)).drop 1)).map
          (((c :: rest).takeWhile (fun c => !is_delim c)) :: ·) := by
  have hc2 : ¬ (c = 32 ∨ c = 9) := fun h => hc ((is_delim_iff c).2 h)
  conv_lhs => unfold scan_tokens
  rw [if_neg hc2]
  by_cases hq : c = 34
  · rw [if_pos hq, if_pos hq]
  · rw [if_neg hq, if_neg hq, scan_tokens_plain]
    simp [hc, List.dropWhile, List.takeWhile]

theorem tokenize_loop_scan (fuel : Nat) :
    ∀ (start : List Nat) (tokens ts : List (List Nat)),
      start.length < fuel → tokens.length ≤ 100 → scan_tokens .gap start = some ts →
      tokenize_loop fuel start tokens = (tokens ++ ts).take 100 := by
  induction fuel with
  | zero => intro start tokens ts h; omega
  | succ fuel ih =>
    intro start tokens ts hfuel hlen hscan
    unfold tokenize_loop
    by_cases h0 : start = [] ∨ tokens.length ≥ 100
    · rw [if_pos h0]
      rcases h0 with h0 | h0
      · subst h0
        simp only [scan_tokens, Option.some.injEq] at hscan
        subst hscan
        rw [List.append_nil, List.take_of_length_le hlen]
      · rw [List.take_append_of_le_length (by omega), List.take_of_length_le hlen]
    · rw [if_neg h0]
      push_neg at h0
      rw [scan_tokens_gap] at hscan
      have hdrop : (start.dropWhile is_delim).length ≤ start.length :=
        (List.dropWhile_suffix _).length_le
      simp only []
      rcases hs : start.dropWhile is_delim with _ | ⟨c, rest⟩
      · rw [hs] at hscan
        simp only [scan_tokens, Option.some.injEq] at hscan
        subst hscan
        simp only [if_true]
        rw [List.append_nil, List.take_of_length_le hlen]
      · rw [hs] at hscan hdrop
        have hc : ¬ is_delim c = true := by
          have := List.head_dropWhile_not is_delim start (by rw [hs]; simp)
          simpa [hs] using this
        rw [scan_tokens_open c rest hc] at hscan
        simp only [List.length_cons] at hdrop
        rw [if_neg (by simp)]
        by_cases hq : c = 34
        · subst hq
          rw [if_pos rfl, scan_tokens_quoted] at hscan
          rw [if_pos (by simp [char_at])]
          simp only [List.drop_one, List.tail_cons, List.nil_append] at hscan ⊢
          by_cases hr : rest.dropWhile (· ≠ 34) = []
          · rw [if_pos hr] at hscan
            exact absurd hscan (by simp)
          · rw [if_neg hr] at hscan
            rw [if_pos hr]
            rcases hsc : scan_tokens .gap (rest.dropWhile (· ≠ 34)).tail with _ | ts2
            · rw [hsc] at hscan; simp at hscan
            · rw [hsc] at hscan
              simp only [Option.map_some', Option.some.injEq] at hscan
              subst hscan
              have hl : (rest.dropWhile (· ≠ 34)).tail.length < fuel := by
                have h1 : (rest.dropWhile (· ≠ 34)).length ≤ rest.length :=
                  (List.dropWhile_suffix _).length_le
                rw [List.length_tail]
                omega
              rw [ih _ (tokens ++ [rest.takeWhile (· ≠ 34)]) ts2 hl (by simp; omega) hsc]
              simp
        · rw [if_neg hq] at hscan
          rw [if_neg (by simpa [char_at] using hq)]
          by_cases hr : (c :: rest).dropWhile (fun c => !is_delim c) = []
          · rw [if_pos hr] at hscan
            simp only [Option.some.injEq] at hscan
            subst hscan
            rw [if_neg (by simpa using hr)]
            rw [List.take_of_length_le (by simp; omega)]
          · rw [if_neg hr] at hscan
            rw [if_pos hr]
            simp only [List.drop_one] at hscan ⊢
            rcases hsc : scan_tokens .gap ((c :: rest).dropWhile (fun c => !is_delim c)).tail
              with _ | ts2
            · rw [hsc] at hscan; simp at hscan
            · rw [hsc] at hscan
              simp only [Option.map_some', Option.some.injEq] at hscan
              subst hscan
              have hl : ((c :: rest).dropWhile (fun c => !is_delim c)).tail.length < fuel := by
                have h1 : ((c :: rest).dropWhile (fun c => !is_delim c)).length
                    ≤ (c :: rest).length := (List.dropWhile_suffix _).length_le
                rw [List.length_tail]
                simp only [List.length_cons] at h1
                omega
              rw [ih _ (tokens ++ [(c :: rest).takeWhile (fun c => !is_delim c)]) ts2 hl
                (by simp; omega) hsc]
              simp

theorem tokenize_row_scan (row : List Nat) (ts : List (List Nat))
    (h : row_tokens row = some ts) : tokenize_row row = ts.take 100 := by
  unfold tokenize_row
  rw [tokenize_loop_scan _ row [] ts (by omega) (by simp) h]
  simp

/-- Counterexample to C20 as stated: `long_row` is a data row of 101 fields;
read as the claim describes it has 101 tokens, and the reader takes the first
100 of them only. -/
theorem long_row_tokens :
    char_at long_row 0 = 34 ∧
    row_tokens long_row = some (ascii "a" :: List.replicate 100 (ascii "1")) ∧
    tokenize_row long_row = ascii "a" :: List.replicate 99 (ascii "1") ∧
    (tokenize_row long_row).length = 100 := by
  refine ⟨by decide!, by decide!, by decide!, by decide!⟩

/-- C20, amended: for every data row in which every quoted token is closed,
the tokens taken are the first 100 of the tokens obtained from left to right
by skipping spaces and tabs and then, if the next character is a double
quote, taking the text up to (not including) the next double quote with
embedded white space kept, and otherwise taking the text up to the next space
or tab. -/
theorem tokenize_row_tokens (row : List Nat) (ts : List (List Nat))
    (h : row_tokens row = some ts) : tokenize_row row = ts.take 100 :=
  tokenize_row_scan row ts h

/-- Witness of the amended C20: the four tokens of `short_row`, the first of
them with its embedded space. -/
theorem tokenize_row_tokens_witness :
    row_tokens short_row
      = some [ascii "NGC1 abc", ascii "1", ascii "10.5", ascii "20.5"] ∧
    tokenize_row short_row
      = [ascii "NGC1 abc", ascii "1", ascii "10.5", ascii "20.5"].take 100 :=
  ⟨by decide!, tokenize_row_tokens short_row _ (by decide!)⟩

/-! ## Theorems: the fields of a record (`read_sofia_catalogue`, lines 582-652) -/

theorem column_field_name (f : Field) : column_field (field_name f) = some f := by
  cases f <;> rfl

theorem field_name_injective (f g : Field) (h : field_name f = field_name g) : f = g := by
  have hf := column_field_name f
  rw [h, column_field_name g] at hf
  exact (Option.some.inj hf).symm

theorem strrchr_none (s : List Nat) (c : Nat) (h : c ∉ s) : strrchr s c = none := by
  induction s with
  | nil => rfl
  | cons x rest ih =>
    simp only [List.mem_cons, not_or] at h
    unfold strrchr
    rw [ih h.2]
    simp only [if_neg (Ne.symm h.1)]

theorem assign_field_spec (source : CatalogSource) (token : List Nat) (f : Field)
    (hlen : token.length < MAX_STRING_LENGTH) (hq : 34 ∉ token) :
    ∃ s, assign_field source token f = .ok s ∧ field_value s f = parsed_value token f ∧
      ∀ g, g ≠ f → field_value s g = field_value source g := by
  cases f
  case name =>
    have h0 : char_at token 0 ≠ 34 := by
      rcases token with _ | ⟨c, r⟩
      · simp [char_at]
      · simp only [List.mem_cons, not_or] at hq
        simpa [char_at] using Ne.symm hq.1
    refine ⟨{ source with name := token }, ?_, rfl, ?_⟩
    · unfold assign_field
      simp only [if_neg h0, strrchr_none token 34 hq]
      rw [if_neg (by omega)]
    · intro g hg
      cases g <;> first | rfl | exact absurd rfl hg
  all_goals
    refine ⟨_, rfl, rfl, ?_⟩
    intro g hg
    cases g <;> first | rfl | exact absurd rfl hg

theorem assign_columns_spec (cols : List (List Nat)) :
    ∀ (toks : List (List Nat)) (source : CatalogSource),
      toks.length = cols.length → (∀ c ∈ cols, ∃ f, c = field_name f) → cols.Nodup →
      (∀ t ∈ toks, t.length < MAX_STRING_LENGTH ∧ 34 ∉ t) →
      ∃ s, assign_columns cols.length cols toks source = .ok s ∧
        (∀ (i : Nat) (f : Field), cols[i]? = some (field_name f) →
          ∃ t, toks[i]? = some t ∧ field_value s f = parsed_value t f) ∧
        (∀ f, field_name f ∉ cols → field_value s f = field_value source f) := by
  induction cols with
  | nil =>
    intro toks source _ _ _ _
    exact ⟨source, rfl, fun i f h => by simp at h, fun f _ => rfl⟩
  | cons c cs ih =>
    intro toks source hlen hrec hnd hwf
    rcases toks with _ | ⟨t, ts⟩
    · simp at hlen
    obtain ⟨f0, hf0⟩ := hrec c (List.mem_cons_self _ _)
    subst hf0
    have ht := hwf t (List.mem_cons_self _ _)
    obtain ⟨s1, hs1, hv1, hframe⟩ := assign_field_spec source t f0 ht.1 ht.2
    rw [List.nodup_cons] at hnd
    obtain ⟨s, hs, hfields, hrest⟩ := ih ts s1 (by simpa using hlen)
      (fun x hx => hrec x (List.mem_cons_of_mem _ hx)) hnd.2
      (fun x hx => hwf x (List.mem_cons_of_mem _ hx))
    refine ⟨s, ?_, ?_, ?_⟩
    · simp only [List.length_cons]
      unfold assign_columns
      simp only [column_field_name, hs1, hs]
    · intro i f hi
      rcases i with _ | i
      · simp only [List.getElem?_cons_zero, Option.some.injEq] at hi
        have hff : f = f0 := (field_name_injective _ _ hi).symm
        subst hff
        exact ⟨t, by simp, by rw [hrest f hnd.1, hv1]⟩
      · simp only [List.getElem?_cons_succ] at hi ⊢
        exact hfields i f hi
    · intro f hf
      simp only [List.mem_cons, not_or] at hf
      rw [hrest f hf.2]
      exact hframe f (fun h => hf.1 (by rw [h]))

theorem recognised_columns_length (cols : List (List Nat))
    (hrec : ∀ c ∈ cols, ∃ f, c = field_name f) (hnd : cols.Nodup) : cols.length ≤ 23 := by
  have hmap : ∃ fs : List Field, cols = fs.map field_name := by
    induction cols with
    | nil => exact ⟨[], rfl⟩
    | cons c cs ih =>
      obtain ⟨f, hf⟩ := hrec c (List.mem_cons_self _ _)
      obtain ⟨fs, hfs⟩ := ih (fun x hx => hrec x (List.mem_cons_of_mem _ hx))
        (List.nodup_cons.1 hnd).2
      exact ⟨f :: fs, by rw [hf, hfs]; rfl⟩
  obtain ⟨fs, rfl⟩ := hmap
  have h := (List.Nodup.of_map _ hnd).length_le_card
  rw [List.length_map]
  exact h.trans (by decide)

theorem read_row_spec (st : ReaderState) (cols : List (List Nat)) (row : List Nat)
    (ts : List (List Nat)) (hcount : st.col_count = cols.length)
    (hrec : ∀ c ∈ cols, ∃ f, c = field_name f) (hnd : cols.Nodup)
    (hts : row_tokens row = some ts) (hlen : ts.length = cols.length)
    (hwf : ∀ t ∈ ts, t.length < MAX_STRING_LENGTH ∧ 34 ∉ t) :
    ∃ st1 source, read_row st cols row = .ok st1 ∧
      st1.catalog.sources = st.catalog.sources.take st.catalog.size ++ [source] ∧
      st1.catalog.size = st.catalog.size + 1 ∧
      ∀ (i : Nat) (f : Field), cols[i]? = some (field_name f) →
        ∃ t, ts[i]? = some t ∧ field_value source f = parsed_value t f := by
  have h23 := recognised_columns_length cols hrec hnd
  have htok : tokenize_row row = ts := by
    rw [tokenize_row_scan row ts hts, List.take_of_length_le (by omega)]
  obtain ⟨s, hs, hfields, _⟩ := assign_columns_spec cols ts (default_source st.catalog.size)
    hlen hrec hnd hwf
  refine ⟨{ st with
      catalog := { st.catalog with
        sources := st.catalog.sources.take st.catalog.size ++ [s],
        size := st.catalog.size + 1,
        capacity := if st.catalog.size ≥ st.catalog.capacity then st.catalog.capacity * 2
          else st.catalog.capacity } }, s, ?_, rfl, rfl, hfields⟩
  unfold read_row
  simp only [htok, hcount, hs]

/-! ## Theorems: one line of the catalogue (`read_sofia_catalogue`, lines 469-531) -/

theorem text_takeWhile (b : List Nat) :
    (b.takeWhile (· ≠ 10)).takeWhile (fun c => decide (c ≠ 0 ∧ c ≠ 10))
      = b.takeWhile (fun c => decide (c ≠ 0 ∧ c ≠ 10)) := by
  induction b with
  | nil => rfl
  | cons c rest ih =>
    by_cases h10 : c = 10
    · simp [List.takeWhile, h10]
    · by_cases h0 : c = 0
      · simp [List.takeWhile, h10, h0]
      · simp only [List.takeWhile, h10, h0, ne_eq, not_false_eq_true, decide_True, and_self]
        rw [ih]

theorem text_prefix (b : List Nat) :
    b.takeWhile (fun c => decide (c ≠ 0 ∧ c ≠ 10)) <+: b.takeWhile (· ≠ 10) := by
  rw [← text_takeWhile]
  exact List.takeWhile_prefix _

theorem text_of_clean (l : List Nat) (h : ∀ c ∈ l, c ≠ 0 ∧ c ≠ 10) :
    l.takeWhile (fun c => decide (c ≠ 0 ∧ c ≠ 10)) = l := by
  rw [List.takeWhile_eq_self_iff]
  intro c hc
  simpa using h c hc

theorem process_line_takeWhile (st : ReaderState) (buffer : List Nat) :
    process_line st (buffer.takeWhile (· ≠ 10)) = process_line st buffer := by
  unfold process_line
  simp only [text_takeWhile]

theorem trim_trailing_initial (s : List Nat) : trim_trailing s <+: s := by
  rcases s with _ | ⟨c, rest⟩
  · exact List.prefix_refl _
  · unfold trim_trailing
    have h := List.dropWhile_suffix is_trim_space (l := rest.reverse)
    have h2 := List.reverse_prefix.2 h
    rw [List.reverse_reverse] at h2
    exact (List.prefix_cons_inj c).2 h2

theorem string_trim_part (s : List Nat) : string_trim s <:+: s :=
  (trim_trailing_initial _).isInfix.trans (List.dropWhile_suffix _).isInfix

theorem string_trim_head (s : List Nat) :
    (string_trim s).head? = (s.dropWhile is_trim_space).head? := by
  unfold string_trim
  rcases s.dropWhile is_trim_space with _ | ⟨c, rest⟩ <;> rfl

theorem strstr_isSome_iff (hay needle : List Nat) :
    (strstr hay needle).isSome = true ↔ needle <:+: hay := by
  induction hay with
  | nil =>
    unfold strstr
    by_cases h : needle = [] <;> simp [h]
  | cons c rest ih =>
    unfold strstr
    rw [List.infix_cons_iff]
    by_cases hp : needle.isPrefixOf (c :: rest) = true
    · rw [if_pos hp]
      simp [List.isPrefixOf_iff_prefix.1 hp]
    · rw [if_neg hp]
      have hp2 : ¬ needle <+: c :: rest := fun h => hp (List.isPrefixOf_iff_prefix.2 h)
      simp only [Option.isSome_map', ih, hp2, false_or]

theorem char_at_zero (s : List Nat) (c : Nat) (hc : c ≠ 0) :
    char_at s 0 = c ↔ s.head? = some c := by
  rcases s with _ | ⟨x, r⟩
  · simp [char_at, Ne.symm hc]
  · simp [char_at]

theorem dropWhile_prefix_head (p : Nat → Bool) (a l : List Nat) (c : Nat) (h : a <+: l)
    (hc : (a.dropWhile p).head? = some c) : (l.dropWhile p).head? = some c := by
  obtain ⟨t, rfl⟩ := h
  rcases hd : a.dropWhile p with _ | ⟨x, r⟩
  · rw [hd] at hc; simp at hc
  · rw [hd] at hc
    simp only [List.head?_cons, Option.some.injEq] at hc
    subst hc
    have hx : p x = false := by
      have := List.head_dropWhile_not p a (by rw [hd]; simp)
      simpa [hd] using this
    have ha : a = a.takeWhile p ++ x :: r := by
      rw [← hd, List.takeWhile_append_dropWhile]
    have htw : (a.takeWhile p).dropWhile p = [] := by
      rw [List.dropWhile_eq_nil_iff]
      intro y hy
      exact List.mem_takeWhile_imp hy
    rw [ha, List.append_assoc, List.cons_append,
      dropWhile_append_stop p (a.takeWhile p) x (r ++ t) hx, htw]
    rfl

theorem process_line_no_schema (st : ReaderState) (buffer : List Nat)
    (hnone : st.input_columns = none) (h : ¬ marker_line (buffer.takeWhile (· ≠ 10))) :
    process_line st buffer = .ok st := by
  unfold process_line
  simp only []
  split
  · rfl
  · split
    · rename_i hskip hsch
      exfalso
      apply h
      obtain ⟨h35, _, hn, hi, hr, hd⟩ := hsch
      have hpre := text_prefix buffer
      have hinf : string_trim (buffer.takeWhile (fun c => decide (c ≠ 0 ∧ c ≠ 10)))
          <:+: buffer.takeWhile (· ≠ 10) := (string_trim_part _).trans hpre.isInfix
      refine ⟨?_, ?_, ?_, ?_, ?_⟩
      · apply dropWhile_prefix_head _ _ _ _ hpre
        rw [← string_trim_head]
        exact (char_at_zero _ 35 (by decide)).1 h35
      · exact ((strstr_isSome_iff _ _).1 hn).trans hinf
      · exact ((strstr_isSome_iff _ _).1 hi).trans hinf
      · exact ((strstr_isSome_iff _ _).1 hr).trans hinf
      · exact ((strstr_isSome_iff _ _).1 hd).trans hinf
    · rw [hnone]

theorem process_line_row (st : ReaderState) (cols : List (List Nat)) (line : List Nat)
    (hcols : st.input_columns = some cols) (hcount : 0 < st.col_count)
    (htext : ∀ c ∈ line, c ≠ 0 ∧ c ≠ 10) (hquote : (string_trim line).head? = some 34) :
    process_line st line = read_row st cols (string_trim line) := by
  unfold process_line
  simp only [text_of_clean line htext]
  rcases hT : string_trim line with _ | ⟨c, r⟩
  · rw [hT] at hquote; simp at hquote
  · rw [hT] at hquote
    simp only [List.head?_cons, Option.some.injEq] at hquote
    subst hquote
    rw [if_neg (by simp [ascii])]
    rw [if_neg (by simp [char_at])]
    rw [hcols]
    simp only []
    rw [if_pos ⟨hcount, by simp [char_at]⟩]

/-- C17: for every schema of distinct recognised column names and every data
row that gives one well-formed token per column (shorter than
`MAX_STRING_LENGTH`, without a double quote inside), the row is stored as one
more record, and each field of the record that has a column equals the parsed
value of the token at the position of that column. -/
theorem process_line_fields (st : ReaderState) (cols : List (List Nat)) (line : List Nat)
    (ts : List (List Nat)) (hcols : st.input_columns = some cols)
    (hcount : st.col_count = cols.length) (hne : cols ≠ [])
    (hrec : ∀ c ∈ cols, ∃ f, c = field_name f) (hnd : cols.Nodup)
    (htext : ∀ c ∈ line, c ≠ 0 ∧ c ≠ 10) (hquote : (string_trim line).head? = some 34)
    (hts : row_tokens (string_trim line) = some ts) (hlen : ts.length = cols.length)
    (hwf : ∀ t ∈ ts, t.length < MAX_STRING_LENGTH ∧ 34 ∉ t) :
    ∃ st1 source, process_line st line = .ok st1 ∧
      st1.catalog.sources = st.catalog.sources.take st.catalog.size ++ [source] ∧
      st1.catalog.size = st.catalog.size + 1 ∧
      ∀ (i : Nat) (f : Field), cols[i]? = some (field_name f) →
        ∃ t, ts[i]? = some t ∧ field_value source f = parsed_value t f := by
  have hpos : 0 < st.col_count := by
    rw [hcount]
    exact List.length_pos.2 hne
  rw [process_line_row st cols line hcols hpos htext hquote]
  exact read_row_spec st cols (string_trim line) ts hcount hrec hnd hts hlen hwf

/-- Witness of C17: with the schema name id x y, the row `short_row` gives
the record with name NGC1 abc, id 1, x 10.5 and y 20.5. -/
theorem process_line_fields_witness :
    process_line short_schema_state short_row
      = .ok { short_schema_state with
          catalog := { short_schema_state.catalog with
            sources := [short_row_source], size := 1 } } ∧
    field_value short_row_source .name = .text (ascii "NGC1 abc") ∧
    field_value short_row_source .id = .int 1 ∧
    field_value short_row_source .x = .real (.of_text (ascii "10.5")) ∧
    field_value short_row_source .y = .real (.of_text (ascii "20.5")) ∧
    ∃ st1 source, process_line short_schema_state short_row = .ok st1 ∧
      st1.catalog.sources
        = short_schema_state.catalog.sources.take short_schema_state.catalog.size
          ++ [source] ∧
      st1.catalog.size = short_schema_state.catalog.size + 1 ∧
      ∀ (i : Nat) (f : Field),
        [ascii "name", ascii "id", ascii "x", ascii "y"][i]? = some (field_name f) →
        ∃ t, [ascii "NGC1 abc", ascii "1", ascii "10.5", ascii "20.5"][i]? = some t ∧
          field_value source f = parsed_value t f :=
  ⟨by decide!, by decide!, by decide!, by decide!, by decide!,
    process_line_fields short_schema_state [ascii "name", ascii "id", ascii "x", ascii "y"]
      short_row [ascii "NGC1 abc", ascii "1", ascii "10.5", ascii "20.5"] rfl rfl (by simp)
      (fun c hc => by
        simp only [List.mem_cons, List.mem_singleton, List.not_mem_nil, or_false] at hc
        rcases hc with rfl | rfl | rfl | rfl
        exacts [⟨.name, rfl⟩, ⟨.id, rfl⟩, ⟨.x, rfl⟩, ⟨.y, rfl⟩])
      (by decide!) (by decide!) (by decide!) (by decide!) rfl (by decide!)⟩

/-! ## Theorems: the lines of the catalogue file (`read_sofia_catalogue`) -/

theorem split_lines_eq (s : List Nat) :
    ∀ acc : List Nat, split_lines s acc
      = if s.dropWhile (· ≠ 10) = [] then (if acc ++ s = [] then [] else [acc ++ s])
        else (acc ++ s.takeWhile (· ≠ 10)) :: split_lines ((s.dropWhile (· ≠ 10)).drop 1) [] := by
  induction s with
  | nil => intro acc; simp [split_lines]
  | cons c rest ih =>
    intro acc
    conv_lhs => unfold split_lines
    by_cases hc : c = 10
    · simp [hc, List.dropWhile, List.takeWhile]
    · rw [if_neg hc, ih]
      simp [hc, List.dropWhile, List.takeWhile]

theorem dropWhile_head_false (p : Nat → Bool) (l : List Nat) (x : Nat) (r : List Nat)
    (h : l.dropWhile p = x :: r) : p x = false := by
  have := List.head_dropWhile_not p l (by rw [h]; simp)
  simpa [h] using this

theorem takeWhile_idem (p : Nat → Bool) (l : List Nat) :
    (l.takeWhile p).takeWhile p = l.takeWhile p :=
  List.takeWhile_eq_self_iff.2 (fun _ hx => List.mem_takeWhile_imp hx)

theorem fgets_lines_nil (fuel : Nat) : fgets_lines fuel [] = [] := by
  cases fuel <;> rfl

theorem takeWhile_length_add (p : Nat → Bool) (l : List Nat) :
    (l.takeWhile p).length + (l.dropWhile p).length = l.length := by
  have h := congrArg List.length (List.takeWhile_append_dropWhile p l)
  rw [List.length_append] at h
  exact h

theorem read_lines_cons (b : List Nat) (bs : List (List Nat)) (st : ReaderState) :
    read_lines (b :: bs) st
      = match process_line st b with
        | .error e => .error e
        | .ok st1 => read_lines bs st1 := rfl

theorem process_line_nil (st : ReaderState) : process_line st [] = .ok st := rfl

theorem read_lines_fgets (fuel : Nat) :
    ∀ (content : List Nat) (st : ReaderState), content.length ≤ fuel →
      (∀ l ∈ file_lines content, l.length ≤ 1023) →
      read_lines (fgets_lines fuel content) st = read_lines (file_lines content) st := by
  induction fuel with
  | zero =>
    intro content st hlen _
    have : content = [] := List.length_eq_zero.1 (by omega)
    subst this
    rfl
  | succ fuel ih =>
    intro content st hlen hl
    rcases hc : content with _ | ⟨c, rest⟩
    · rfl
    rw [← hc]
    have hne : content ≠ [] := by rw [hc]; simp
    have hsplit := split_lines_eq content []
    have hadd := takeWhile_length_add (· ≠ 10) content
    have hcat := List.takeWhile_append_dropWhile (· ≠ 10) content
    unfold fgets_lines fgets
    simp only [if_neg hne, MAX_LINE_LENGTH]
    unfold file_lines at hl ⊢
    by_cases hd : content.dropWhile (· ≠ 10) = []
    · rw [hd, List.append_nil] at hcat
      rw [hsplit, if_pos hd, List.nil_append, if_neg hne] at hl ⊢
      have h23 : content.length ≤ 1023 := hl content (List.mem_singleton.2 rfl)
      rw [hcat]
      rw [List.take_of_length_le (by omega), List.drop_of_length_le (by omega),
        fgets_lines_nil]
    · rw [hsplit, if_neg hd, List.nil_append] at hl ⊢
      have h23 : (content.takeWhile (· ≠ 10)).length ≤ 1023 :=
        hl _ (List.mem_cons_self _ _)
      obtain ⟨x, r, hxr⟩ := List.exists_cons_of_ne_nil hd
      have hx : x = 10 := by simpa using dropWhile_head_false _ _ _ _ hxr
      subst hx
      have htwtw : (content.takeWhile (· ≠ 10) ++ [10]).takeWhile (· ≠ 10)
          = content.takeWhile (· ≠ 10) := by
        rw [takeWhile_append_stop _ _ 10 [] (by simp), takeWhile_idem]
      obtain ⟨tw, htw⟩ : ∃ tw, tw = content.takeWhile (· ≠ 10) := ⟨_, rfl⟩
      rw [← htw] at hcat hadd h23 hl htwtw ⊢
      rw [hxr] at hcat hadd hl ⊢
      simp only [List.drop_one, List.tail_cons, List.length_cons] at hl hadd ⊢
      have hlr : ∀ l ∈ file_lines r, l.length ≤ 1023 :=
        fun l hl2 => hl l (List.mem_cons_of_mem _ hl2)
      by_cases h22 : tw.length ≤ 1022
      · have hmin : min (1024 - 1) (tw.length + 1) = tw.length + 1 := by omega
        rw [hmin]
        have htake : content.take (tw.length + 1) = tw ++ [10] := by
          rw [← hcat, List.take_append_eq_append_take, List.take_of_length_le (by omega)]
          simp
        have hdrop : content.drop (tw.length + 1) = r := by
          rw [← hcat, List.drop_append_eq_append_drop, List.drop_of_length_le (by omega)]
          simp
        rw [htake, hdrop]
        rw [read_lines_cons, read_lines_cons, ← process_line_takeWhile, htwtw]
        rcases process_line st tw with e | st1
        · rfl
        · exact ih r st1 (by omega) hlr
      · have hmin : min (1024 - 1) (tw.length + 1) = tw.length := by omega
        rw [hmin]
        have htake : content.take tw.length = tw := by
          rw [← hcat, List.take_left]
        have hdrop : content.drop tw.length = 10 :: r := by
          rw [← hcat, List.drop_left]
        rw [htake, hdrop]
        rw [read_lines_cons, read_lines_cons]
        rcases process_line st tw with e | st1
        · rfl
        · have h10 : file_lines (10 :: r) = [] :: file_lines r := by
            unfold file_lines
            conv_lhs => unfold split_lines
            simp
          have := ih (10 :: r) st1 (by simp only [List.length_cons]; omega)
            (by
              rw [h10]
              intro l hl2
              rcases List.mem_cons.1 hl2 with rfl | hl2
              · simp
              · exact hlr l hl2)
          simp only []
          rw [this, h10, read_lines_cons, process_line_nil]
          rfl

theorem read_lines_append (a b : List (List Nat)) :
    ∀ st, read_lines (a ++ b) st
      = match read_lines a st with
        | .error e => .error e
        | .ok st1 => read_lines b st1 := by
  induction a with
  | nil => intro st; rfl
  | cons x rest ih =>
    intro st
    have h1 : read_lines (x :: (rest ++ b)) st
        = match process_line st x with
          | .error e => .error e
          | .ok st1 => read_lines (rest ++ b) st1 := rfl
    have h2 : read_lines (x :: rest) st
        = match process_line st x with
          | .error e => .error e
          | .ok st1 => read_lines rest st1 := rfl
    rw [List.cons_append, h1, h2]
    rcases process_line st x with e | st1
    · rfl
    · exact ih st1

theorem read_sofia_catalogue_lines (filename content : List Nat)
    (hlen : ∀ l ∈ file_lines content, l.length ≤ 1023) :
    read_sofia_catalogue filename (some content) false
      = match read_lines (file_lines content) (initial_state filename) with
        | .error e => .error e
        | .ok st => .ok st.catalog := by
  unfold read_sofia_catalogue
  simp only [Bool.false_eq_true, if_false]
  have h := read_lines_fgets content.length content (initial_state filename) (Nat.le_refl _) hlen
  unfold initial_state at h ⊢
  rw [h]

theorem marker_line_mono (a l : List Nat) (h : a <+: l) (hm : marker_line a) :
    marker_line l :=
  ⟨dropWhile_prefix_head _ _ _ _ h hm.1, hm.2.1.trans h.isInfix, hm.2.2.1.trans h.isInfix,
    hm.2.2.2.1.trans h.isInfix, hm.2.2.2.2.trans h.isInfix⟩

theorem read_lines_no_schema (lines : List (List Nat)) (st : ReaderState)
    (hnone : st.input_columns = none) (hno : ∀ l ∈ lines, ¬ marker_line l) :
    read_lines lines st = .ok st := by
  induction lines with
  | nil => rfl
  | cons l rest ih =>
    unfold read_lines
    rw [process_line_no_schema st l hnone
      (fun hm => hno l (List.mem_cons_self _ _)
        (marker_line_mono _ _ (List.takeWhile_prefix _) hm))]
    exact ih (fun x hx => hno x (List.mem_cons_of_mem _ hx))

/-- Counterexample to C19 as stated: neither line of `long_line_file` is a
comment line, the first one begins with a letter and the second one with a
double quote; the reader takes the first line in two pieces, finds the column
names in the second piece and returns a catalogue of one record. -/
theorem long_line_schema :
    file_lines long_line_file
      = [List.replicate 1023 97 ++ ascii "# name id ra dec", ascii "\"A\" 1 2 3"] ∧
    (∀ l ∈ file_lines long_line_file, ¬ marker_line l) ∧
    catalog_size (read_sofia_catalogue (ascii "cat.txt") (some long_line_file) false)
      = some 1 := by
  have h : file_lines long_line_file
      = [List.replicate 1023 97 ++ ascii "# name id ra dec", ascii "\"A\" 1 2 3"] := by
    decide!
  refine ⟨h, ?_, by decide!⟩
  rw [h]
  intro l hl hm
  simp only [List.mem_cons, List.mem_singleton, List.not_mem_nil, or_false] at hl
  have h1 := hm.1
  rcases hl with rfl | rfl
  · exact absurd h1 (by decide!)
  · exact absurd h1 (by decide!)

/-- C19, amended: for every catalogue file whose lines have at most 1023
characters and that contains no comment line holding all four substrings
name, id, ra and dec, `read_sofia_catalogue` does not fail and returns a
catalogue with zero records, whatever other lines the file has. -/
theorem read_sofia_catalogue_no_schema (filename content : List Nat)
    (hlen : ∀ l ∈ file_lines content, l.length ≤ 1023)
    (hno : ∀ l ∈ file_lines content, ¬ marker_line l) :
    read_sofia_catalogue filename (some content) false
      = .ok { sources := [], size := 0, capacity := 100, type := ascii "ASCII",
              filename := filename } := by
  rw [read_sofia_catalogue_lines filename content hlen,
    read_lines_no_schema _ _ rfl hno]
  rfl

/-- Witness of the amended C19: `two_marker_file` gives a catalogue without
records. -/
theorem read_sofia_catalogue_no_schema_witness :
    file_lines two_marker_file = [ascii "# name id", ascii "\"A\" 1"] ∧
    (∀ l ∈ file_lines two_marker_file, l.length ≤ 1023) ∧
    (∀ l ∈ file_lines two_marker_file, ¬ marker_line l) ∧
    read_sofia_catalogue (ascii "cat.txt") (some two_marker_file) false
      = .ok { sources := [], size := 0, capacity := 100, type := ascii "ASCII",
              filename := ascii "cat.txt" } :=
  have h1 : ∀ l ∈ file_lines two_marker_file, l.length ≤ 1023 := by decide!
  have h2 : ∀ l ∈ file_lines two_marker_file, ¬ marker_line l := by
    unfold marker_line
    decide!
  ⟨by decide!, h1, h2, read_sofia_catalogue_no_schema (ascii "cat.txt") two_marker_file h1 h2⟩

/-! ## Theorems: the column header line (`read_sofia_catalogue`, lines 479-528) -/

theorem strtok_loop_eq (s : List Nat) :
    ∀ token : List Nat, strtok_loop s token
      = (if token ++ s.takeWhile (fun c => !is_delim c) = [] then []
          else [token ++ s.takeWhile (fun c => !is_delim c)])
        ++ strtok_loop ((s.dropWhile (fun c => !is_delim c)).drop 1) [] := by
  induction s with
  | nil => intro token; simp [strtok_loop]
  | cons c rest ih =>
    intro token
    conv_lhs => unfold strtok_loop
    by_cases hc : is_delim c = true
    · by_cases ht : token = [] <;> simp [hc, ht, List.takeWhile, List.dropWhile]
    · rw [if_neg hc, ih]
      simp [hc, List.takeWhile, List.dropWhile]

theorem strtok_loop_nil (s : List Nat) :
    ∀ token : List Nat, strtok_loop s token = [] →
      token = [] ∧ ∀ c ∈ s, is_delim c = true := by
  induction s with
  | nil =>
    intro token h
    unfold strtok_loop at h
    by_cases ht : token = []
    · exact ⟨ht, fun c hc => absurd hc (List.not_mem_nil _)⟩
    · rw [if_neg ht] at h; simp at h
  | cons c rest ih =>
    intro token h
    unfold strtok_loop at h
    by_cases hc : is_delim c = true
    · rw [if_pos hc] at h
      by_cases ht : token = []
      · rw [if_pos ht] at h
        refine ⟨ht, fun x hx => ?_⟩
        rcases List.mem_cons.1 hx with rfl | hx
        · exact hc
        · exact (ih [] h).2 x hx
      · rw [if_neg ht] at h; simp at h
    · rw [if_neg hc] at h
      have := (ih _ h).1
      simp at this

theorem strtok_loop_lead (p r : List Nat) (hp : ∀ c ∈ p, is_trim_space c = true) :
    ∀ token : List Nat, (∀ c ∈ token, is_trim_space c = true) →
      ∃ pre w, strtok_loop (p ++ 35 :: r) token
          = pre ++ (w ++ 35 :: r.takeWhile (fun c => !is_delim c))
            :: strtok_loop ((r.dropWhile (fun c => !is_delim c)).drop 1) []
        ∧ ∀ t ∈ pre, ∀ c ∈ t, is_trim_space c = true := by
  induction p with
  | nil =>
    intro token _
    refine ⟨[], token, ?_, fun t ht => absurd ht (List.not_mem_nil _)⟩
    rw [List.nil_append]
    conv_lhs => unfold strtok_loop
    rw [if_neg (by decide), strtok_loop_eq]
    simp
  | cons c rest ih =>
    intro token htoken
    have hc := hp c (List.mem_cons_self _ _)
    have hrest : ∀ x ∈ rest, is_trim_space x = true := fun x hx => hp x (List.mem_cons_of_mem _ hx)
    rw [List.cons_append]
    conv in strtok_loop (c :: (rest ++ 35 :: r)) token => unfold strtok_loop
    by_cases hd : is_delim c = true
    · rw [if_pos hd]
      obtain ⟨pre, w, h, hpre⟩ := ih hrest [] (fun x hx => absurd hx (List.not_mem_nil _))
      by_cases ht : token = []
      · rw [if_pos ht]
        exact ⟨pre, w, h, hpre⟩
      · rw [if_neg ht]
        refine ⟨token :: pre, w, by rw [h]; rfl, ?_⟩
        intro t ht2
        rcases List.mem_cons.1 ht2 with rfl | ht2
        · exact htoken
        · exact hpre t ht2
    · rw [if_neg hd]
      exact ih hrest (token ++ [c]) (fun x hx => by
        rcases List.mem_append.1 hx with hx | hx
        · exact htoken x hx
        · rw [List.mem_singleton.1 hx]; exact hc)

theorem columns_spec (lead r : List Nat) (hlead : ∀ c ∈ lead, is_trim_space c = true) :
    (strtok_all r).length ≤ (strtok_all ((lead ++ 35 :: r).drop 1)).length ∧
    ∀ k : List Nat, 35 ∉ k → (∃ c ∈ k, is_trim_space c = false) →
      k ∈ strtok_all ((lead ++ 35 :: r).drop 1) → k ∈ strtok_all r := by
  rcases lead with _ | ⟨c, p⟩
  · exact ⟨Nat.le_refl _, fun k _ _ h => h⟩
  · have hp : ∀ x ∈ p, is_trim_space x = true := fun x hx => hlead x (List.mem_cons_of_mem _ hx)
    obtain ⟨pre, w, h, hpre⟩ := strtok_loop_lead p r hp []
      (fun x hx => absurd hx (List.not_mem_nil _))
    have hr := strtok_loop_eq r []
    simp only [List.cons_append, List.drop_one, List.tail_cons]
    unfold strtok_all
    rw [h, hr]
    constructor
    · simp only [List.length_append, List.length_cons, List.nil_append]
      split <;> simp <;> omega
    · intro k h35 hk hmem
      rcases List.mem_append.1 hmem with hmem | hmem
      · obtain ⟨x, hx, hxw⟩ := hk
        rw [hpre k hmem x hx] at hxw
        exact absurd hxw (by decide)
      · rcases List.mem_cons.1 hmem with rfl | hmem
        · exact absurd (List.mem_append_right _ (List.mem_cons_self _ _)) h35
        · exact List.mem_append_right _ hmem

theorem rtrim_space_append (u n b : List Nat) (hn : n ≠ [])
    (hl : ∀ y, n.getLast? = some y → is_trim_space y = false) :
    ((u ++ n ++ b).reverse.dropWhile is_trim_space).reverse
      = u ++ n ++ (b.reverse.dropWhile is_trim_space).reverse := by
  obtain ⟨m, y, rfl⟩ : ∃ m y, n = m ++ [y] := by
    rcases List.eq_nil_or_concat n with h | ⟨m, y, h⟩
    · exact absurd h hn
    · exact ⟨m, y, by rw [h, List.concat_eq_append]⟩
  have hy : is_trim_space y = false := hl y (by simp)
  have h1 : (u ++ (m ++ [y]) ++ b).reverse = b.reverse ++ y :: (m.reverse ++ u.reverse) := by
    simp
  rw [h1, dropWhile_append_stop _ _ y _ hy]
  simp

theorem infix_string_trim (n s : List Nat) (x : Nat) (n1 : List Nat) (hn : n = x :: n1)
    (hx : is_trim_space x = false)
    (hl : ∀ y, n.getLast? = some y → is_trim_space y = false) (h : n <:+: s) :
    n <:+: string_trim s := by
  obtain ⟨a, b, rfl⟩ := h
  subst hn
  unfold string_trim
  rw [List.append_assoc, List.cons_append, dropWhile_append_stop _ a x (n1 ++ b) hx]
  rcases a.dropWhile is_trim_space with _ | ⟨c, a2⟩
  · rw [List.nil_append]
    rcases n1 with _ | ⟨z, n2⟩
    · exact ⟨[], (b.reverse.dropWhile is_trim_space).reverse, by simp [trim_trailing]⟩
    · have hl2 : ∀ y, (z :: n2).getLast? = some y → is_trim_space y = false := by
        intro y hy
        apply hl y
        rw [List.getLast?_cons_cons]
        exact hy
      have := rtrim_space_append [] (z :: n2) b (by simp) hl2
      rw [List.nil_append] at this
      show x :: z :: n2 <:+: x :: (((z :: n2) ++ b).reverse.dropWhile is_trim_space).reverse
      rw [this]
      exact ⟨[], (b.reverse.dropWhile is_trim_space).reverse, by simp⟩
  · have := rtrim_space_append a2 (x :: n1) b (by simp) hl
    have e : (c :: a2) ++ x :: (n1 ++ b) = c :: (a2 ++ (x :: n1) ++ b) := by simp
    rw [e]
    show x :: n1 <:+: c :: ((a2 ++ (x :: n1) ++ b).reverse.dropWhile is_trim_space).reverse
    rw [this]
    exact ⟨c :: a2, (b.reverse.dropWhile is_trim_space).reverse, by simp⟩

theorem marker_line_trimmed (l : List Nat) (h : marker_line l) :
    (string_trim l).head? = some 35 ∧ ascii "name" <:+: string_trim l
      ∧ ascii "id" <:+: string_trim l ∧ ascii "ra" <:+: string_trim l
      ∧ ascii "dec" <:+: string_trim l := by
  obtain ⟨h35, hn, hi, hr, hd⟩ := h
  refine ⟨by rw [string_trim_head]; exact h35, ?_, ?_, ?_, ?_⟩
  · exact infix_string_trim _ l 110 (ascii "ame") rfl (by decide)
      (fun y hy => by
        have : y = 101 := by
          have h2 : (ascii "name").getLast? = some 101 := by decide
          rw [h2] at hy
          exact (Option.some.inj hy).symm
        subst this
        decide) hn
  · exact infix_string_trim _ l 105 (ascii "d") rfl (by decide)
      (fun y hy => by
        have : y = 100 := by
          have h2 : (ascii "id").getLast? = some 100 := by decide
          rw [h2] at hy
          exact (Option.some.inj hy).symm
        subst this
        decide) hi
  · exact infix_string_trim _ l 114 (ascii "a") rfl (by decide)
      (fun y hy => by
        have : y = 97 := by
          have h2 : (ascii "ra").getLast? = some 97 := by decide
          rw [h2] at hy
          exact (Option.some.inj hy).symm
        subst this
        decide) hr
  · exact infix_string_trim _ l 100 (ascii "ec") rfl (by decide)
      (fun y hy => by
        have : y = 99 := by
          have h2 : (ascii "dec").getLast? = some 99 := by decide
          rw [h2] at hy
          exact (Option.some.inj hy).symm
        subst this
        decide) hd

theorem process_line_schema (st : ReaderState) (l : List Nat)
    (htext : ∀ c ∈ l, c ≠ 0 ∧ c ≠ 10) (hm : marker_line l) :
    process_line st l
      = .ok (read_columns st (l.takeWhile is_trim_space ++ string_trim l) (string_trim l)) := by
  obtain ⟨h35, hn, hi, hr, hd⟩ := marker_line_trimmed l hm
  unfold process_line
  simp only [text_of_clean l htext]
  have hlen : 4 ≤ (string_trim l).length := by
    have := hn.length_le
    simpa [ascii] using this
  rw [if_neg (by
    intro h
    rcases h with h | h
    · omega
    · rw [h] at hlen; simp [ascii] at hlen)]
  rw [if_pos ⟨(char_at_zero _ 35 (by decide)).2 h35, by omega,
    (strstr_isSome_iff _ _).2 hn, (strstr_isSome_iff _ _).2 hi,
    (strstr_isSome_iff _ _).2 hr, (strstr_isSome_iff _ _).2 hd⟩]

theorem read_columns_spec (st : ReaderState) (l : List Nat) (hm : marker_line l) :
    ∃ cols,
      (read_columns st (l.takeWhile is_trim_space ++ string_trim l) (string_trim l)).input_columns
        = some cols ∧
      (read_columns st (l.takeWhile is_trim_space ++ string_trim l) (string_trim l)).col_count
        = cols.length ∧
      (read_columns st (l.takeWhile is_trim_space ++ string_trim l) (string_trim l)).catalog
        = st.catalog ∧
      0 < cols.length ∧
      (ascii "id" ∉ schema_columns l → ascii "id" ∉ cols) := by
  obtain ⟨h35, hn, _, _, _⟩ := marker_line_trimmed l hm
  obtain ⟨r, hT⟩ : ∃ r, string_trim l = 35 :: r := by
    rcases hs : string_trim l with _ | ⟨c, r⟩
    · rw [hs] at h35; simp at h35
    · rw [hs] at h35
      simp only [List.head?_cons, Option.some.injEq] at h35
      exact ⟨r, by rw [h35]⟩
  have hlead : ∀ c ∈ l.takeWhile is_trim_space, is_trim_space c = true :=
    fun c hc => List.mem_takeWhile_imp hc
  obtain ⟨hle, hid⟩ := columns_spec (l.takeWhile is_trim_space) r hlead
  have hpos : 0 < (strtok_all r).length := by
    rcases hs : strtok_all r with _ | ⟨t, ts⟩
    · exfalso
      have hall := (strtok_loop_nil r [] hs).2
      rw [hT, List.infix_cons_iff] at hn
      rcases hn with hn | hn
      · obtain ⟨t, ht⟩ := hn
        simp [ascii] at ht
      · have := hall 110 (hn.subset (by decide))
        exact absurd this (by decide)
    · simp
  unfold schema_columns
  rw [hT]
  have hr : (35 :: r).drop 1 = r := rfl
  refine ⟨(strtok_all ((l.takeWhile is_trim_space ++ 35 :: r).drop 1)).take
    (strtok_all r).length, rfl, ?_, rfl, ?_, ?_⟩
  · show (strtok_all ((35 :: r).drop 1)).length = _
    rw [hr, List.length_take, Nat.min_eq_left hle]
  · rw [List.length_take, Nat.min_eq_left hle]
    exact hpos
  · intro hno hmem
    rw [hr] at hno
    exact hno (hid (ascii "id") (by decide) ⟨105, by decide, by decide⟩
      (List.mem_of_mem_take hmem))

/-! ## Theorems: the records of a catalogue file (`read_sofia_catalogue`) -/

theorem ite_some_ne (p : Prop) [Decidable p] (a b : Field) (rest : Option Field)
    (hxy : a ≠ b) (h : (if p then some a else rest) = some b) : rest = some b := by
  by_cases hp : p
  · rw [if_pos hp] at h
    exact absurd (Option.some.inj h) hxy
  · rw [if_neg hp] at h
    exact h

theorem column_field_id (c : List Nat) (h : column_field c = some .id) : c = ascii "id" := by
  unfold column_field at h
  by_contra hc
  have this := ite_some_ne _ _ _ _ (by decide) h
  rw [if_neg hc] at this
  repeat (replace this := ite_some_ne _ _ _ _ (by decide) this)
  cases this

theorem assign_field_ok (source : CatalogSource) (token : List Nat) (f : Field)
    (hlen : token.length < MAX_STRING_LENGTH) :
    ∃ s, assign_field source token f = .ok s ∧ (f ≠ .id → s.id = source.id) := by
  cases f
  case name =>
    unfold assign_field
    simp only []
    have hl : ¬ (if char_at token 0 = 34 then token.drop 1 else token).length
        ≥ MAX_STRING_LENGTH := by
      split
      · rw [List.length_drop]; omega
      · omega
    rw [if_neg hl]
    split
    · exact ⟨_, rfl, fun _ => rfl⟩
    · exact ⟨_, rfl, fun _ => rfl⟩
  case id => exact ⟨_, rfl, fun h => absurd rfl h⟩
  all_goals exact ⟨_, rfl, fun _ => rfl⟩

theorem assign_columns_ok (n : Nat) :
    ∀ (cols toks : List (List Nat)) (s : CatalogSource), n ≤ cols.length →
      (∀ t ∈ toks, t.length < MAX_STRING_LENGTH) →
      ∃ s1, assign_columns n cols toks s = .ok s1 ∧ (ascii "id" ∉ cols → s1.id = s.id) := by
  induction n with
  | zero =>
    intro cols toks s _ _
    exact ⟨s, by unfold assign_columns; rfl, fun _ => rfl⟩
  | succ n ih =>
    intro cols toks s hle htoks
    rcases cols with _ | ⟨c, cs⟩
    · simp at hle
    rcases toks with _ | ⟨t, ts⟩
    · exact ⟨s, by unfold assign_columns; rfl, fun _ => rfl⟩
    have hts : ∀ x ∈ ts, x.length < MAX_STRING_LENGTH :=
      fun x hx => htoks x (List.mem_cons_of_mem _ hx)
    simp only [List.length_cons, Nat.add_le_add_iff_right] at hle
    unfold assign_columns
    rcases hcf : column_field c with _ | f
    · obtain ⟨s1, hs1, hid1⟩ := ih cs ts s hle hts
      exact ⟨s1, hs1, fun hno => hid1 (fun h => hno (List.mem_cons_of_mem _ h))⟩
    · obtain ⟨s0, hs0, hid0⟩ := assign_field_ok s t f (htoks t (List.mem_cons_self _ _))
      obtain ⟨s1, hs1, hid1⟩ := ih cs ts s0 hle hts
      refine ⟨s1, by simp only [hs0, hs1], fun hno => ?_⟩
      rw [hid1 (fun h => hno (List.mem_cons_of_mem _ h))]
      apply hid0
      intro hf
      subst hf
      exact hno (by rw [column_field_id c hcf]; exact List.mem_cons_self _ _)

theorem process_line_well_formed (st : ReaderState) (cols : List (List Nat)) (r : List Nat)
    (hcols : st.input_columns = some cols) (hpos : 0 < st.col_count)
    (hle : st.col_count ≤ cols.length)
    (hlen : st.catalog.sources.length = st.catalog.size) (hr : well_formed_row r) :
    ∃ source,
      process_line st r
        = .ok { st with
            catalog := { st.catalog with
              sources := st.catalog.sources ++ [source],
              size := st.catalog.size + 1,
              capacity := if st.catalog.size ≥ st.catalog.capacity
                then st.catalog.capacity * 2 else st.catalog.capacity } } ∧
      (ascii "id" ∉ cols → source.id = long_to_int ((st.catalog.size + 1 : Nat) : Int)) := by
  obtain ⟨_, htext, hquote, ts, hts, hshort⟩ := hr
  rw [process_line_row st cols r hcols hpos htext hquote]
  have htok : ∀ t ∈ tokenize_row (string_trim r), t.length < MAX_STRING_LENGTH := by
    rw [tokenize_row_scan _ ts hts]
    exact fun t ht => hshort t (List.mem_of_mem_take ht)
  obtain ⟨s1, hs1, hid1⟩ := assign_columns_ok st.col_count cols (tokenize_row (string_trim r))
    (default_source st.catalog.size) hle htok
  refine ⟨s1, ?_, fun hno => by rw [hid1 hno]; rfl⟩
  unfold read_row
  simp only [hs1]
  rw [List.take_of_length_le (by omega)]

theorem read_lines_rows (rows : List (List Nat)) (cols : List (List Nat)) :
    ∀ st : ReaderState, st.input_columns = some cols → 0 < st.col_count →
      st.col_count ≤ cols.length → st.catalog.sources.length = st.catalog.size →
      (∀ r ∈ rows, well_formed_row r) →
      ∃ st1 srcs, read_lines rows st = .ok st1 ∧
        st1.catalog.sources = st.catalog.sources ++ srcs ∧
        st1.catalog.size = st.catalog.size + rows.length ∧
        srcs.length = rows.length ∧
        (ascii "id" ∉ cols → ∀ k : Nat, k < rows.length →
          ∃ src, srcs[k]? = some src
            ∧ src.id = long_to_int ((st.catalog.size + k + 1 : Nat) : Int)) := by
  induction rows with
  | nil =>
    intro st _ _ _ _ _
    exact ⟨st, [], rfl, by simp, rfl, rfl, fun _ k hk => absurd hk (by simp)⟩
  | cons r rest ih =>
    intro st hcols hpos hle hlen hrows
    obtain ⟨src, hsrc, hid⟩ := process_line_well_formed st cols r hcols hpos hle hlen
      (hrows r (List.mem_cons_self _ _))
    obtain ⟨st1, srcs, h1, h2, h3, h4, h5⟩ := ih
      { st with
        catalog := { st.catalog with
          sources := st.catalog.sources ++ [src],
          size := st.catalog.size + 1,
          capacity := if st.catalog.size ≥ st.catalog.capacity
            then st.catalog.capacity * 2 else st.catalog.capacity } }
      hcols hpos hle (by simp [hlen]) (fun x hx => hrows x (List.mem_cons_of_mem _ hx))
    refine ⟨st1, src :: srcs, ?_, ?_, ?_, ?_, ?_⟩
    · unfold read_lines
      simp only [hsrc]
      exact h1
    · rw [h2]; simp
    · rw [h3]; simp; omega
    · simp [h4]
    · intro hno k hk
      rcases k with _ | k
      · exact ⟨src, by simp, by simpa using hid hno⟩
      · obtain ⟨s, hs, hsid⟩ := h5 hno k (by simpa using hk)
        refine ⟨s, by simpa using hs, ?_⟩
        rw [hsid]
        congr 2
        simp only []
        omega

/-- Counterexample to C18 as stated: the first line of `long_schema_file` is a
comment line that holds the four markers, the second one is a well-formed
quoted data row, and the catalogue that is returned has no record. -/
theorem long_schema_line :
    file_lines long_schema_file
      = [ascii "# name id" ++ List.replicate 1020 32 ++ ascii "ra dec", ascii "\"A\" 1"] ∧
    marker_line (ascii "# name id" ++ List.replicate 1020 32 ++ ascii "ra dec") ∧
    well_formed_row (ascii "\"A\" 1") ∧
    catalog_size (read_sofia_catalogue (ascii "cat.txt") (some long_schema_file) false)
      = some 0 := by
  refine ⟨by decide!, ⟨by decide!, ?_, ?_, ?_, ?_⟩, ?_, by decide!⟩
  · exact ⟨ascii "# ", ascii " id" ++ List.replicate 1020 32 ++ ascii "ra dec", by decide!⟩
  · exact ⟨ascii "# name ", List.replicate 1020 32 ++ ascii "ra dec", by decide!⟩
  · exact ⟨ascii "# name id" ++ List.replicate 1020 32, ascii " dec", by decide!⟩
  · exact ⟨ascii "# name id" ++ List.replicate 1020 32 ++ ascii "ra ", [], by decide!⟩
  · exact ⟨by decide!, by decide!, by decide!, [ascii "A", ascii "1"], by decide!, by decide!⟩

/-- C18, amended: for every catalogue file whose lines have at most 1023
characters and that consists of lines that are no column header lines, then a
line of text that is a comment line holding the four markers, then N
well-formed quoted data rows, `read_sofia_catalogue` returns a catalogue of
exactly N records; when the header line gives no column named id (and N is
below 2^31), the k-th record, counted from 1, has id k. -/
theorem read_sofia_catalogue_rows (filename content : List Nat) (pre : List (List Nat))
    (schema : List Nat) (rows : List (List Nat))
    (hlines : file_lines content = pre ++ schema :: rows)
    (hpre : ∀ l ∈ pre, l.length ≤ 1023 ∧ ¬ marker_line l)
    (hlen : schema.length ≤ 1023) (htext : ∀ c ∈ schema, c ≠ 0 ∧ c ≠ 10)
    (hmark : marker_line schema) (hrows : ∀ r ∈ rows, well_formed_row r) :
    ∃ catalog, read_sofia_catalogue filename (some content) false = .ok catalog ∧
      catalog.size = rows.length ∧ catalog.sources.length = rows.length ∧
      (ascii "id" ∉ schema_columns schema → rows.length < 2147483648 →
        ∀ k : Nat, k < rows.length →
          ∃ source, catalog.sources[k]? = some source ∧ source.id = ((k + 1 : Nat) : Int)) := by
  have hall : ∀ l ∈ file_lines content, l.length ≤ 1023 := by
    rw [hlines]
    intro l hl
    rcases List.mem_append.1 hl with hl | hl
    · exact (hpre l hl).1
    · rcases List.mem_cons.1 hl with rfl | hl
      · exact hlen
      · exact (hrows l hl).1
  obtain ⟨cols, hc1, hc2, hc3, hc4, hc5⟩ := read_columns_spec (initial_state filename) schema hmark
  obtain ⟨st1, srcs, h1, h2, h3, h4, h5⟩ := read_lines_rows rows cols _ hc1
    (by rw [hc2]; exact hc4) (by rw [hc2]) (by rw [hc3]; rfl) hrows
  have hrun : read_lines (pre ++ schema :: rows) (initial_state filename) = .ok st1 := by
    rw [read_lines_append, read_lines_no_schema pre _ rfl (fun l hl => (hpre l hl).2)]
    simp only []
    unfold read_lines
    rw [process_line_schema _ schema htext hmark]
    exact h1
  rw [hc3] at h2 h3 h5
  refine ⟨st1.catalog, ?_, ?_, ?_, ?_⟩
  · rw [read_sofia_catalogue_lines filename content hall, hlines, hrun]
  · rw [h3]
    show 0 + rows.length = rows.length
    omega
  · rw [h2, List.length_append, h4]
    show 0 + rows.length = rows.length
    omega
  · intro hno hN k hk
    obtain ⟨src, hsrc, hid⟩ := h5 (hc5 hno) k hk
    refine ⟨src, by rw [h2]; simpa [initial_state, SofiaCatalog_new] using hsrc, ?_⟩
    rw [hid]
    have e : (initial_state filename).catalog.size = 0 := rfl
    rw [e, long_to_int_small _ (by omega) (by omega)]
    congr 1
    omega

/-- Witness of the amended C18: `two_row_file` has a comment line, a column header line
without a column named id and two data rows; the catalogue has two records
with the ids 1 and 2. -/
theorem read_sofia_catalogue_rows_witness :
    file_lines two_row_file
      = [ascii "# SoFiA catalogue"] ++ ascii "  # name ident ra dec"
          :: [ascii "\"A\" 5 1.5 2.5", ascii " \"B C\" 6 3.5 4.5"] ∧
    schema_columns (ascii "  # name ident ra dec")
      = [ascii "name", ascii "ident", ascii "ra", ascii "dec"] ∧
    ∃ catalog, read_sofia_catalogue (ascii "cat.txt") (some two_row_file) false = .ok catalog ∧
      catalog.size = [ascii "\"A\" 5 1.5 2.5", ascii " \"B C\" 6 3.5 4.5"].length ∧
      catalog.sources.length = [ascii "\"A\" 5 1.5 2.5", ascii " \"B C\" 6 3.5 4.5"].length ∧
      (ascii "id" ∉ schema_columns (ascii "  # name ident ra dec") →
        [ascii "\"A\" 5 1.5 2.5", ascii " \"B C\" 6 3.5 4.5"].length < 2147483648 →
        ∀ k : Nat, k < [ascii "\"A\" 5 1.5 2.5", ascii " \"B C\" 6 3.5 4.5"].length →
          ∃ source, catalog.sources[k]? = some source ∧ source.id = ((k + 1 : Nat) : Int)) :=
  ⟨by decide!, by decide!,
    read_sofia_catalogue_rows (ascii "cat.txt") two_row_file [ascii "# SoFiA catalogue"]
      (ascii "  # name ident ra dec") [ascii "\"A\" 5 1.5 2.5", ascii " \"B C\" 6 3.5 4.5"]
      (by decide!)
      (by unfold marker_line; decide!)
      (by decide!) (by decide!)
      (by unfold marker_line; decide!)
      (fun r hr => by
        simp only [List.mem_cons, List.mem_singleton, List.not_mem_nil, or_false] at hr
        rcases hr with rfl | rfl
        · exact ⟨by decide!, by decide!, by decide!,
            [ascii "A", ascii "5", ascii "1.5", ascii "2.5"], by decide!, by decide!⟩
        · exact ⟨by decide!, by decide!, by decide!,
            [ascii "B C", ascii "6", ascii "3.5", ascii "4.5"], by decide!, by decide!⟩)⟩

/-! ## Theorems: the columns of a data row (`read_sofia_catalogue`, lines 581-652) -/

theorem column_field_some (c : List Nat) (f : Field) (h : column_field c = some f) :
    c = field_name f := by
  unfold column_field at h
  by_contra hc
  cases f <;> simp only [field_name] at hc <;>
    (repeat (first
      | rw [if_neg hc] at h
      | (replace h := ite_some_ne _ _ _ _ (by decide) h))) <;>
    cases h

theorem assign_field_frame (s s0 : CatalogSource) (t : List Nat) (f : Field)
    (h : assign_field s t f = .ok s0) :
    (∀ g, g ≠ f → field_value s0 g = field_value s g) ∧ s0.v_sofia = s.v_sofia := by
  cases f
  case name =>
    unfold assign_field at h
    simp only [] at h
    by_cases hl : (if char_at t 0 = 34 then t.drop 1 else t).length ≥ MAX_STRING_LENGTH
    · rw [if_pos hl] at h
      cases h
    · rw [if_neg hl] at h
      rcases hq : strrchr (if char_at t 0 = 34 then t.drop 1 else t) 34 with _ | q
      · simp only [hq] at h
        injection h with h
        subst h
        exact ⟨fun g hg => by cases g <;> first | rfl | exact absurd rfl hg, rfl⟩
      · simp only [hq] at h
        injection h with h
        subst h
        exact ⟨fun g hg => by cases g <;> first | rfl | exact absurd rfl hg, rfl⟩
  all_goals
    cases h
    exact ⟨fun g hg => by cases g <;> first | rfl | exact absurd rfl hg, rfl⟩

theorem assign_field_short (s : CatalogSource) (t : List Nat) (f : Field)
    (h : f = .name → t.length < MAX_STRING_LENGTH) : ∃ s0, assign_field s t f = .ok s0 := by
  cases f
  case name =>
    obtain ⟨s0, h0, _⟩ := assign_field_ok s t .name (h rfl)
    exact ⟨s0, h0⟩
  all_goals exact ⟨_, rfl⟩

theorem assign_columns_succ (n : Nat) (c t : List Nat) (cs ts : List (List Nat))
    (s : CatalogSource) :
    assign_columns (n + 1) (c :: cs) (t :: ts) s
      = match column_field c with
        | none => assign_columns n cs ts s
        | some field =>
          match assign_field s t field with
          | .error e => .error e
          | .ok s0 => assign_columns n cs ts s0 := by
  rfl

theorem assign_columns_nil (n : Nat) (cols : List (List Nat)) (s : CatalogSource) :
    assign_columns n cols [] s = .ok s := by
  cases n <;> cases cols <;> rfl

theorem assign_columns_zero (cols toks : List (List Nat)) (s : CatalogSource) :
    assign_columns 0 cols toks s = .ok s := by
  unfold assign_columns; rfl

theorem assign_columns_short (n : Nat) :
    ∀ (cols toks : List (List Nat)) (s : CatalogSource), n ≤ cols.length →
      (∀ (i : Nat) (t : List Nat), i < n → cols[i]? = some (ascii "name") →
        toks[i]? = some t → t.length < MAX_STRING_LENGTH) →
      ∃ s1, assign_columns n cols toks s = .ok s1 := by
  induction n with
  | zero => intro cols toks s _ _; exact ⟨s, assign_columns_zero _ _ _⟩
  | succ n ih =>
    intro cols toks s hle hname
    rcases toks with _ | ⟨t, ts⟩
    · exact ⟨s, assign_columns_nil _ _ _⟩
    rcases cols with _ | ⟨c, cs⟩
    · simp at hle
    simp only [List.length_cons, Nat.add_le_add_iff_right] at hle
    have hrest : ∀ (i : Nat) (t : List Nat), i < n → cs[i]? = some (ascii "name") →
        ts[i]? = some t → t.length < MAX_STRING_LENGTH :=
      fun i x hi hc ht => hname (i + 1) x (by omega) (by simpa using hc) (by simpa using ht)
    rw [assign_columns_succ]
    rcases hcf : column_field c with _ | f
    · exact ih cs ts s hle hrest
    · obtain ⟨s0, hs0⟩ := assign_field_short s t f (fun hf => by
        subst hf
        exact hname 0 t (by omega) (by simp [column_field_some c _ hcf, field_name]) (by simp))
      simp only [hs0]
      exact ih cs ts s0 hle hrest

theorem assign_columns_frame (n : Nat) :
    ∀ (cols toks : List (List Nat)) (s s1 : CatalogSource),
      assign_columns n cols toks s = .ok s1 →
      (∀ f : Field, (∀ i : Nat, i < min n toks.length → cols[i]? ≠ some (field_name f)) →
        field_value s1 f = field_value s f) ∧ s1.v_sofia = s.v_sofia := by
  induction n with
  | zero =>
    intro cols toks s s1 h
    rw [assign_columns_zero] at h
    cases h
    exact ⟨fun _ _ => rfl, rfl⟩
  | succ n ih =>
    intro cols toks s s1 h
    rcases toks with _ | ⟨t, ts⟩
    · rw [assign_columns_nil] at h
      cases h
      exact ⟨fun _ _ => rfl, rfl⟩
    rcases cols with _ | ⟨c, cs⟩
    · unfold assign_columns at h
      cases h
    rw [assign_columns_succ] at h
    have hshift : ∀ f : Field,
        (∀ i : Nat, i < min (n + 1) (t :: ts).length → (c :: cs)[i]? ≠ some (field_name f)) →
        ∀ i : Nat, i < min n ts.length → cs[i]? ≠ some (field_name f) := by
      intro f hf i hi
      have := hf (i + 1) (by simp only [List.length_cons]; omega)
      simpa using this
    rcases hcf : column_field c with _ | f0
    · simp only [hcf] at h
      obtain ⟨h1, h2⟩ := ih cs ts s s1 h
      exact ⟨fun f hf => h1 f (hshift f hf), h2⟩
    · simp only [hcf] at h
      rcases hs0 : assign_field s t f0 with e | s0
      · simp only [hs0] at h; cases h
      · simp only [hs0] at h
        obtain ⟨h1, h2⟩ := ih cs ts s0 s1 h
        obtain ⟨hf1, hf2⟩ := assign_field_frame s s0 t f0 hs0
        refine ⟨fun f hf => ?_, by rw [h2, hf2]⟩
        rw [h1 f (hshift f hf)]
        apply hf1
        intro hff
        subst hff
        have := hf 0 (by simp only [List.length_cons]; omega)
        exact this (by simp [column_field_some c _ hcf])

theorem assign_columns_id (n : Nat) :
    ∀ (cols toks : List (List Nat)) (s s1 : CatalogSource),
      assign_columns n cols toks s = .ok s1 →
      ∀ (i : Nat) (t : List Nat), i < min n toks.length → cols[i]? = some (ascii "id") →
        (∀ j : Nat, i < j → j < min n toks.length → cols[j]? ≠ some (ascii "id")) →
        toks[i]? = some t → s1.id = atoi t := by
  induction n with
  | zero => intro cols toks s s1 _ i t hi; simp at hi
  | succ n ih =>
    intro cols toks s s1 h i x hi hc hlast ht
    rcases toks with _ | ⟨t, ts⟩
    · simp at hi
    rcases cols with _ | ⟨c, cs⟩
    · simp at hc
    rw [assign_columns_succ] at h
    simp only [List.length_cons] at hi hlast
    rcases i with _ | i
    · simp only [List.getElem?_cons_zero, Option.some.injEq] at hc ht
      subst hc
      subst ht
      have hcf : column_field (ascii "id") = some .id := rfl
      simp only [hcf] at h
      have hs0 : assign_field s t .id = .ok { s with id := atoi t } := rfl
      simp only [hs0] at h
      obtain ⟨h1, _⟩ := assign_columns_frame n cs ts _ s1 h
      have := h1 .id (fun j hj => by
        have := hlast (j + 1) (by omega) (by omega)
        simpa [field_name] using this)
      simp only [field_value, FieldValue.int.injEq] at this
      exact this
    · have hrest : assign_columns n cs ts s = .ok s1 ∨
          ∃ s0, assign_columns n cs ts s0 = .ok s1 := by
        rcases hcf : column_field c with _ | f0
        · simp only [hcf] at h; exact Or.inl h
        · simp only [hcf] at h
          rcases hs0 : assign_field s t f0 with e | s0
          · simp only [hs0] at h; cases h
          · simp only [hs0] at h; exact Or.inr ⟨s0, h⟩
      have hlast2 : ∀ j : Nat, i < j → j < min n ts.length → cs[j]? ≠ some (ascii "id") := by
        intro j hij hj
        have := hlast (j + 1) (by omega) (by omega)
        simpa using this
      rcases hrest with h | ⟨s0, h⟩
      · exact ih cs ts s s1 h i x (by omega) (by simpa using hc) hlast2 (by simpa using ht)
      · exact ih cs ts s0 s1 h i x (by omega) (by simpa using hc) hlast2 (by simpa using ht)

theorem atoi_non_numeric (s : List Nat) (h : non_numeric_text s) : atoi s = 0 := by
  rcases s with _ | ⟨c, t⟩
  · decide
  · obtain ⟨h1, h2, h3, h4, _⟩ := h c rfl
    unfold atoi strtol
    rw [List.dropWhile_cons_of_neg (by simp [h2])]
    have hd : digits_value (c :: t) 0 = 0 := by
      unfold digits_value
      simp [h1]
    split
    · rename_i heq; injection heq with hc _; exact absurd hc h4
    · rename_i heq; injection heq with hc _; exact absurd hc h3
    · rw [hd]
      decide

theorem field_value_default (k : Nat) (hk : k + 1 < 2147483648) (f : Field) :
    field_value (default_source k) f = default_value k f := by
  cases f
  case id =>
    show FieldValue.int (long_to_int ((k + 1 : Nat) : Int)) = FieldValue.int ((k + 1 : Nat) : Int)
    rw [long_to_int_small _ (by omega) (by omega)]
  all_goals rfl

theorem read_row_source (st : ReaderState) (cols : List (List Nat)) (trimmed : List Nat)
    (source : CatalogSource)
    (h : assign_columns st.col_count cols (tokenize_row trimmed)
      (default_source st.catalog.size) = .ok source) :
    read_row st cols trimmed
      = .ok { st with
          catalog := { st.catalog with
            sources := st.catalog.sources.take st.catalog.size ++ [source],
            size := st.catalog.size + 1,
            capacity := if st.catalog.size ≥ st.catalog.capacity
              then st.catalog.capacity * 2 else st.catalog.capacity } } := by
  unfold read_row
  simp only [h]

theorem process_line_source (st : ReaderState) (cols : List (List Nat)) (line : List Nat)
    (hcols : st.input_columns = some cols) (hpos : 0 < st.col_count)
    (hle : st.col_count ≤ cols.length)
    (htext : ∀ c ∈ line, c ≠ 0 ∧ c ≠ 10) (hquote : (string_trim line).head? = some 34)
    (hname : ∀ (i : Nat) (t : List Nat), i < st.col_count → cols[i]? = some (ascii "name") →
      (tokenize_row (string_trim line))[i]? = some t → t.length < MAX_STRING_LENGTH) :
    ∃ st1 source, process_line st line = .ok st1 ∧
      st1.catalog.sources = st.catalog.sources.take st.catalog.size ++ [source] ∧
      st1.catalog.size = st.catalog.size + 1 ∧
      assign_columns st.col_count cols (tokenize_row (string_trim line))
        (default_source st.catalog.size) = .ok source := by
  obtain ⟨source, hs⟩ := assign_columns_short st.col_count cols
    (tokenize_row (string_trim line)) (default_source st.catalog.size) hle hname
  refine ⟨{ st with
      catalog := { st.catalog with
        sources := st.catalog.sources.take st.catalog.size ++ [source],
        size := st.catalog.size + 1,
        capacity := if st.catalog.size ≥ st.catalog.capacity
          then st.catalog.capacity * 2 else st.catalog.capacity } }, source, ?_, rfl, rfl, hs⟩
  rw [process_line_row st cols line hcols hpos htext hquote]
  exact read_row_source st cols _ source hs

/-- Counterexample to C21 as stated: with the schema name id x y and an empty
catalogue, the row with the non-numeric text abc under the id column gives a
record with id 0, not with id 1. -/
theorem text_id_zero :
    non_numeric_text (ascii "abc") ∧
    process_line short_schema_state (ascii "\"A\" abc 1 2")
      = .ok { short_schema_state with
          catalog := { short_schema_state.catalog with
            sources := [{ default_source 0 with
              name := ascii "A", id := 0,
              x := .of_text (ascii "1"), y := .of_text (ascii "2") }],
            size := 1 } } ∧
    (0 : Int) ≠ ((short_schema_state.catalog.size + 1 : Nat) : Int) := by
  refine ⟨?_, by decide!, by decide⟩
  intro c hc
  have : c = 97 := by simpa [ascii] using hc.symm
  subst this
  decide

/-- C21, amended: for every data row whose name tokens fit the name buffer,
stored at a position below 2^31 - 1, the record's id equals the position in
the catalogue + 1 when none of the columns that get a token is named id; when
a column named id gets a token, the id is the integer read from the token of
the last such column, which is 0 when that token is non-numeric text. -/
theorem process_line_id (st : ReaderState) (cols : List (List Nat)) (line : List Nat)
    (hcols : st.input_columns = some cols) (hpos : 0 < st.col_count)
    (hle : st.col_count ≤ cols.length)
    (htext : ∀ c ∈ line, c ≠ 0 ∧ c ≠ 10) (hquote : (string_trim line).head? = some 34)
    (hname : ∀ (i : Nat) (t : List Nat), i < st.col_count → cols[i]? = some (ascii "name") →
      (tokenize_row (string_trim line))[i]? = some t → t.length < MAX_STRING_LENGTH)
    (hsize : st.catalog.size + 1 < 2147483648) :
    ∃ st1 source, process_line st line = .ok st1 ∧
      st1.catalog.sources = st.catalog.sources.take st.catalog.size ++ [source] ∧
      ((∀ i : Nat, i < min st.col_count (tokenize_row (string_trim line)).length →
          cols[i]? ≠ some (ascii "id")) →
        source.id = ((st.catalog.size + 1 : Nat) : Int)) ∧
      (∀ (i : Nat) (t : List Nat),
        i < min st.col_count (tokenize_row (string_trim line)).length →
        cols[i]? = some (ascii "id") →
        (∀ j : Nat, i < j → j < min st.col_count (tokenize_row (string_trim line)).length →
          cols[j]? ≠ some (ascii "id")) →
        (tokenize_row (string_trim line))[i]? = some t →
        source.id = atoi t ∧ (non_numeric_text t → source.id = 0)) := by
  obtain ⟨st1, source, h1, h2, _, hs⟩ :=
    process_line_source st cols line hcols hpos hle htext hquote hname
  refine ⟨st1, source, h1, h2, ?_, ?_⟩
  · intro hno
    have := (assign_columns_frame _ _ _ _ _ hs).1 .id hno
    rw [field_value_default _ hsize] at this
    simpa [field_value, default_value] using this
  · intro i t hi hc hlast ht
    have := assign_columns_id _ _ _ _ _ hs i t hi hc hlast ht
    exact ⟨this, fun hn => by rw [this, atoi_non_numeric t hn]⟩

/-- Witness of the amended C21: under the schema name id x y the row
`short_row` has id 1 from its token, and under a schema without a column named
id a row gets the id 1 from its position 0. -/
theorem process_line_id_witness :
    (∃ st1 source, process_line short_schema_state short_row = .ok st1 ∧
      st1.catalog.sources = [source] ∧ source.id = atoi (ascii "1")) ∧
    (∃ st1 source, process_line mixed_schema_state (ascii "\"A\" 7") = .ok st1 ∧
      st1.catalog.sources = [source] ∧ source.id = 1) := by
  have h4t : tokenize_row (string_trim short_row)
      = [ascii "NGC1 abc", ascii "1", ascii "10.5", ascii "20.5"] := by decide!
  have g4t : tokenize_row (string_trim (ascii "\"A\" 7")) = [ascii "A", ascii "7"] := by
    decide!
  obtain ⟨st1, source, h1, h2, _, h4⟩ := process_line_id short_schema_state
    [ascii "name", ascii "id", ascii "x", ascii "y"] short_row rfl (by decide) (by decide)
    (by decide!) (by decide!)
    (fun i t _ _ ht =>
      (by decide! : ∀ t ∈ tokenize_row (string_trim short_row), t.length < MAX_STRING_LENGTH)
        t (List.getElem?_mem ht))
    (by decide)
  obtain ⟨st2, source2, g1, g2, g3, _⟩ := process_line_id mixed_schema_state
    [ascii "name", ascii "flux", ascii "x", ascii "y"] (ascii "\"A\" 7") rfl (by decide)
    (by decide) (by decide!) (by decide!)
    (fun i t _ _ ht =>
      (by decide! : ∀ t ∈ tokenize_row (string_trim (ascii "\"A\" 7")),
          t.length < MAX_STRING_LENGTH) t (List.getElem?_mem ht))
    (by decide)
  refine ⟨⟨st1, source, h1, h2, ?_⟩, ⟨st2, source2, g1, g2, ?_⟩⟩
  · rw [h4t] at h4
    exact (h4 1 (ascii "1") (by decide) rfl (fun j hj1 hj2 => by
      have hj : j < 4 := Nat.lt_of_lt_of_le hj2 (Nat.min_le_right _ _)
      have : j = 2 ∨ j = 3 := by omega
      rcases this with rfl | rfl <;> decide) rfl).1
  · rw [g4t] at g3
    exact g3 (fun i hi => by
      have hi2 : i < 2 := Nat.lt_of_lt_of_le hi (Nat.min_le_right _ _)
      have : i = 0 ∨ i = 1 := by omega
      rcases this with rfl | rfl <;> decide)

/-- C22: for every schema and every data row (stored at a position below
2^31 - 1, the tokens under columns named name fitting the name buffer), the
row is stored without an error, and each record field that is not named by one
of the first min(number of columns, number of tokens) schema columns keeps its
default: 0 for the numbers, the empty name, the id position + 1. Tokens under
column names that are not recognised and missing trailing tokens hence change
no field and cause no error; `v_sofia` is never set. -/
theorem process_line_defaults (st : ReaderState) (cols : List (List Nat)) (line : List Nat)
    (hcols : st.input_columns = some cols) (hpos : 0 < st.col_count)
    (hle : st.col_count ≤ cols.length)
    (htext : ∀ c ∈ line, c ≠ 0 ∧ c ≠ 10) (hquote : (string_trim line).head? = some 34)
    (hname : ∀ (i : Nat) (t : List Nat), i < st.col_count → cols[i]? = some (ascii "name") →
      (tokenize_row (string_trim line))[i]? = some t → t.length < MAX_STRING_LENGTH)
    (hsize : st.catalog.size + 1 < 2147483648) :
    ∃ st1 source, process_line st line = .ok st1 ∧
      st1.catalog.sources = st.catalog.sources.take st.catalog.size ++ [source] ∧
      st1.catalog.size = st.catalog.size + 1 ∧
      (∀ f : Field,
        (∀ i : Nat, i < min st.col_count (tokenize_row (string_trim line)).length →
          cols[i]? ≠ some (field_name f)) →
        field_value source f = default_value st.catalog.size f) ∧
      source.v_sofia = .zero := by
  obtain ⟨st1, source, h1, h2, h3, hs⟩ :=
    process_line_source st cols line hcols hpos hle htext hquote hname
  obtain ⟨hf, hv⟩ := assign_columns_frame _ _ _ _ _ hs
  refine ⟨st1, source, h1, h2, h3, fun f hno => ?_, by rw [hv]; rfl⟩
  rw [hf f hno, field_value_default _ hsize]

/-- Witness of C22: under the schema name flux x y the row with the two tokens
A and 7 gives the record with the name A and every other field at its
default; the token under the column flux, which is not recognised, and the
missing tokens of x and y change nothing. -/
theorem process_line_defaults_witness :
    process_line mixed_schema_state (ascii "\"A\" 7")
      = .ok { mixed_schema_state with
          catalog := { mixed_schema_state.catalog with
            sources := [{ default_source 0 with name := ascii "A" }], size := 1 } } ∧
    ∃ st1 source, process_line mixed_schema_state (ascii "\"A\" 7") = .ok st1 ∧
      st1.catalog.sources
        = mixed_schema_state.catalog.sources.take mixed_schema_state.catalog.size
          ++ [source] ∧
      st1.catalog.size = mixed_schema_state.catalog.size + 1 ∧
      (∀ f : Field,
        (∀ i : Nat,
          i < min mixed_schema_state.col_count
            (tokenize_row (string_trim (ascii "\"A\" 7"))).length →
          [ascii "name", ascii "flux", ascii "x", ascii "y"][i]? ≠ some (field_name f)) →
        field_value source f = default_value mixed_schema_state.catalog.size f) ∧
      source.v_sofia = .zero :=
  ⟨by decide!,
    process_line_defaults mixed_schema_state
      [ascii "name", ascii "flux", ascii "x", ascii "y"] (ascii "\"A\" 7") rfl (by decide)
      (by decide) (by decide!) (by decide!)
      (fun i t _ _ ht =>
        (by decide! : ∀ t ∈ tokenize_row (string_trim (ascii "\"A\" 7")),
            t.length < MAX_STRING_LENGTH) t (List.getElem?_mem ht))
      (by decide)⟩

/-! ## Theorems: the column names of a header line -/

/-- Failing input of C23: the trimmed form of `indented_schema_line` starts
with `#` and holds the four markers; the tokens of the text that follows the
`#` are name, id, ra, dec, and the column names that the reader stores are
`#`, name, id, ra. -/
theorem indented_schema_columns :
    string_trim indented_schema_line = ascii "# name id ra dec" ∧
    schema_columns indented_schema_line = [ascii "name", ascii "id", ascii "ra", ascii "dec"] ∧
    (∃ st, process_line (initial_state (ascii "cat.txt")) indented_schema_line = .ok st ∧
      st.input_columns = some [ascii "#", ascii "name", ascii "id", ascii "ra"] ∧
      st.col_count = 4) := by
  refine ⟨by decide!, by decide!, _, rfl, by decide!, by decide!⟩

/-- What holds of C23: for every line of text that begins with `#` itself and
holds the four markers, the column names that the reader stores are the
tokens, separated by spaces and tabs, of the text that follows the `#`, in
their order. -/
theorem process_line_columns (st : ReaderState) (l : List Nat)
    (htext : ∀ c ∈ l, c ≠ 0 ∧ c ≠ 10) (hm : marker_line l) (h35 : l.head? = some 35) :
    ∃ st1, process_line st l = .ok st1 ∧ st1.input_columns = some (schema_columns l) ∧
      st1.col_count = (schema_columns l).length ∧ st1.catalog = st.catalog := by
  rw [process_line_schema st l htext hm]
  have hlead : l.takeWhile is_trim_space = [] := by
    rcases l with _ | ⟨c, r⟩
    · rfl
    · simp only [List.head?_cons, Option.some.injEq] at h35
      subst h35
      rfl
  refine ⟨_, rfl, ?_, rfl, rfl⟩
  unfold read_columns schema_columns
  simp only [hlead, List.nil_append, List.take_length]

/-! ## Theorems: the records in the order of the data rows -/

theorem line_text_clean (buffer : List Nat) : ∀ c ∈ line_text buffer, c ≠ 0 ∧ c ≠ 10 := by
  intro c hc
  have := List.mem_takeWhile_imp hc
  simpa using this

theorem process_line_text (st : ReaderState) (buffer : List Nat) :
    process_line st (line_text buffer) = process_line st buffer := by
  unfold process_line line_text
  simp only [takeWhile_idem]

theorem process_line_marker (st : ReaderState) (buffer : List Nat)
    (hm : marker_line (line_text buffer)) :
    process_line st buffer
      = .ok (read_columns st
          ((line_text buffer).takeWhile is_trim_space ++ string_trim (line_text buffer))
          (string_trim (line_text buffer))) := by
  rw [← process_line_text]
  exact process_line_schema st _ (line_text_clean buffer) hm

theorem process_line_data (st : ReaderState) (cols : List (List Nat)) (buffer : List Nat)
    (hcols : st.input_columns = some cols) (hpos : 0 < st.col_count)
    (hquote : (string_trim (line_text buffer)).head? = some 34) :
    process_line st buffer = read_row st cols (string_trim (line_text buffer)) := by
  rw [← process_line_text]
  exact process_line_row st cols _ hcols hpos (line_text_clean buffer) hquote

theorem marker_line_of_test (t : List Nat)
    (h : char_at (string_trim t) 0 = 35 ∧ (string_trim t).length > 1
      ∧ (strstr (string_trim t) (ascii "name")).isSome = true
      ∧ (strstr (string_trim t) (ascii "id")).isSome = true
      ∧ (strstr (string_trim t) (ascii "ra")).isSome = true
      ∧ (strstr (string_trim t) (ascii "dec")).isSome = true) : marker_line t := by
  obtain ⟨h35, _, hn, hi, hr, hd⟩ := h
  have hinf := string_trim_part t
  refine ⟨?_, ?_, ?_, ?_, ?_⟩
  · rw [← string_trim_head]
    exact (char_at_zero _ 35 (by decide)).1 h35
  · exact ((strstr_isSome_iff _ _).1 hn).trans hinf
  · exact ((strstr_isSome_iff _ _).1 hi).trans hinf
  · exact ((strstr_isSome_iff _ _).1 hr).trans hinf
  · exact ((strstr_isSome_iff _ _).1 hd).trans hinf

theorem process_line_idle (st : ReaderState) (buffer : List Nat)
    (hm : ¬ marker_line (line_text buffer))
    (h : st.input_columns = none ∨ (string_trim (line_text buffer)).head? ≠ some 34) :
    process_line st buffer = .ok st := by
  unfold process_line
  simp only []
  split
  · rfl
  · split
    · rename_i hsch
      exact absurd (marker_line_of_test _ hsch) hm
    · rcases hc : st.input_columns with _ | cols
      · rfl
      · rcases h with h | h
        · rw [hc] at h; cases h
        · simp only []
          rw [if_neg]
          intro hq
          exact h ((char_at_zero _ 34 (by decide)).1 hq.2)

theorem step_marker (st : ReaderState) (buffer : List Nat) (hinv : reader_invariant st)
    (hm : marker_line (line_text buffer)) :
    ∃ st1, process_line st buffer = .ok st1 ∧ reader_invariant st1 ∧
      st1.catalog = st.catalog ∧ st1.input_columns.isSome = true := by
  obtain ⟨cols, h1, h2, h3, h4, _⟩ := read_columns_spec st (line_text buffer) hm
  refine ⟨_, process_line_marker st buffer hm, ?_, h3, by rw [h1]; rfl⟩
  obtain ⟨i1, i2, i3, _⟩ := hinv
  refine ⟨by rw [h3]; exact i1, by rw [h3]; exact i2, by rw [h3]; exact i3, ?_⟩
  intro c hc
  rw [h1] at hc
  cases hc
  exact ⟨by rw [h2]; exact h4, h2⟩

theorem step_data (st st1 : ReaderState) (buffer : List Nat) (hinv : reader_invariant st)
    (hseen : st.input_columns.isSome = true)
    (hquote : (string_trim (line_text buffer)).head? = some 34)
    (h : process_line st buffer = .ok st1) :
    reader_invariant st1 ∧ st1.input_columns = st.input_columns ∧
      st1.catalog.size = st.catalog.size + 1 ∧
      ∃ source, st1.catalog.sources = st.catalog.sources ++ [source] := by
  obtain ⟨i1, i2, i3, i4⟩ := hinv
  obtain ⟨cols, hcols⟩ := Option.isSome_iff_exists.1 hseen
  obtain ⟨hpos, hcount⟩ := i4 cols hcols
  rw [process_line_data st cols buffer hcols hpos hquote] at h
  unfold read_row at h
  simp only [] at h
  rcases ha : assign_columns st.col_count cols (tokenize_row (string_trim (line_text buffer)))
    (default_source st.catalog.size) with e | source
  · exact absurd h (by rw [ha]; intro h2; cases h2)
  · have h2 : st1 = { st with
        catalog := { st.catalog with
          sources := st.catalog.sources.take st.catalog.size ++ [source],
          size := st.catalog.size + 1,
          capacity := if st.catalog.size ≥ st.catalog.capacity
            then st.catalog.capacity * 2 else st.catalog.capacity } } := by
      rw [ha] at h
      injection h with h
      exact h.symm
    subst h2
    rw [List.take_of_length_le (by omega)]
    refine ⟨⟨by simp [i1], ?_, ?_, fun c hc => i4 c hc⟩, rfl, rfl, source, rfl⟩
    · show st.catalog.size + 1 ≤ (if st.catalog.size ≥ st.catalog.capacity
        then st.catalog.capacity * 2 else st.catalog.capacity)
      split <;> omega
    · show 0 < (if st.catalog.size ≥ st.catalog.capacity then st.catalog.capacity * 2
        else st.catalog.capacity)
      split <;> omega

theorem step_idle (st : ReaderState) (buffer : List Nat)
    (hm : ¬ marker_line (line_text buffer))
    (h : ¬ (st.input_columns.isSome = true
      ∧ (string_trim (line_text buffer)).head? = some 34)) :
    process_line st buffer = .ok st := by
  apply process_line_idle st buffer hm
  by_cases hs : st.input_columns.isSome = true
  · exact Or.inr (fun hq => h ⟨hs, hq⟩)
  · left
    rcases hc : st.input_columns with _ | c
    · rfl
    · rw [hc] at hs; simp at hs

theorem read_lines_cons_ok (b : List Nat) (bs : List (List Nat)) (st st3 : ReaderState)
    (h : read_lines (b :: bs) st = .ok st3) :
    ∃ st1, process_line st b = .ok st1 ∧ read_lines bs st1 = .ok st3 := by
  rw [read_lines_cons] at h
  rcases hp : process_line st b with e | st1
  · rw [hp] at h
    exact absurd h (by intro h2; cases h2)
  · rw [hp] at h
    exact ⟨st1, rfl, h⟩

theorem read_lines_data_rows (lines : List (List Nat)) :
    ∀ st st3 : ReaderState, reader_invariant st → read_lines lines st = .ok st3 →
      reader_invariant st3 ∧ st.catalog.sources <+: st3.catalog.sources ∧
      st3.catalog.size = st.catalog.size + (data_rows lines st.input_columns.isSome).length ∧
      ∀ (k : Nat) (row : List Nat),
        (data_rows lines st.input_columns.isSome)[k]? = some row →
        ∃ pre post st1 st2 source, lines = pre ++ row :: post ∧
          (data_rows pre st.input_columns.isSome).length = k ∧
          read_lines pre st = .ok st1 ∧ reader_invariant st1 ∧
          st1.catalog.size = st.catalog.size + k ∧
          process_line st1 row = .ok st2 ∧ reader_invariant st2 ∧
          st2.catalog.sources = st1.catalog.sources ++ [source] ∧
          read_lines post st2 = .ok st3 ∧
          st3.catalog.sources[st.catalog.size + k]? = some source := by
  induction lines with
  | nil =>
    intro st st3 hinv h
    cases h
    exact ⟨hinv, List.prefix_refl _, rfl, fun k row hk => by simp [data_rows] at hk⟩
  | cons l ls ih =>
    intro st st3 hinv h
    obtain ⟨st', hp, h⟩ := read_lines_cons_ok l ls st st3 h
    by_cases hm : marker_line (line_text l)
    · obtain ⟨st'', hp', hinv', hcat, hsome⟩ := step_marker st l hinv hm
      rw [hp] at hp'
      injection hp' with hp'
      subst hp'
      obtain ⟨j1, j2, j3, j4⟩ := ih st' st3 hinv' h
      have hd : data_rows (l :: ls) st.input_columns.isSome = data_rows ls true := by
        conv_lhs => unfold data_rows
        rw [if_pos hm]
      rw [hsome] at j3 j4
      rw [hcat] at j2 j3 j4
      refine ⟨j1, j2, by rw [hd]; exact j3, ?_⟩
      intro k row hk
      rw [hd] at hk
      obtain ⟨pre, post, st1, st2, source, e1, e2, e3, e4, e5, e6, e7, e8, e9, e10⟩ :=
        j4 k row hk
      refine ⟨l :: pre, post, st1, st2, source, by rw [e1]; rfl, ?_, ?_, e4, e5, e6, e7, e8,
        e9, e10⟩
      · conv_lhs => unfold data_rows
        rw [if_pos hm]
        exact e2
      · rw [read_lines_cons, hp]
        exact e3
    · by_cases hdata : st.input_columns.isSome = true
          ∧ (string_trim (line_text l)).head? = some 34
      · obtain ⟨hinv', hcols', hsize', source, hsrc⟩ :=
          step_data st st' l hinv hdata.1 hdata.2 hp
        obtain ⟨j1, j2, j3, j4⟩ := ih st' st3 hinv' h
        have hd : data_rows (l :: ls) st.input_columns.isSome
            = l :: data_rows ls st.input_columns.isSome := by
          conv_lhs => unfold data_rows
          rw [if_neg hm, if_pos hdata]
        rw [hcols'] at j3 j4
        have hpre : st.catalog.sources <+: st3.catalog.sources :=
          (List.prefix_append _ _).trans (hsrc ▸ j2)
        refine ⟨j1, hpre, ?_, ?_⟩
        · rw [hd, j3, hsize']
          simp only [List.length_cons]
          omega
        · intro k row hk
          rw [hd] at hk
          rcases k with _ | k
          · simp only [List.getElem?_cons_zero, Option.some.injEq] at hk
            subst hk
            refine ⟨[], ls, st, st', source, rfl, rfl, rfl, hinv, rfl, hp, hinv', hsrc, h, ?_⟩
            obtain ⟨t, ht⟩ := j2
            rw [← ht, hsrc, List.append_assoc, Nat.add_zero, ← hinv.1,
              List.getElem?_append_right (Nat.le_refl _)]
            simp
          · simp only [List.getElem?_cons_succ] at hk
            obtain ⟨pre, post, st1, st2, src, e1, e2, e3, e4, e5, e6, e7, e8, e9, e10⟩ :=
              j4 k row hk
            refine ⟨l :: pre, post, st1, st2, src, by rw [e1]; rfl, ?_, ?_, e4, ?_, e6, e7, e8,
              e9, ?_⟩
            · conv_lhs => unfold data_rows
              rw [if_neg hm, if_pos hdata]
              simp only [List.length_cons, e2]
            · rw [read_lines_cons, hp]
              exact e3
            · rw [e5, hsize']; omega
            · rw [hsize'] at e10
              rw [← e10]
              congr 1
              omega
      · have hp' := step_idle st l hm hdata
        have hst : st' = st := by
          rw [hp] at hp'
          injection hp' with hp'
        rw [hst] at h
        obtain ⟨j1, j2, j3, j4⟩ := ih st st3 hinv h
        have hd : ∀ xs : List (List Nat), data_rows (l :: xs) st.input_columns.isSome
            = data_rows xs st.input_columns.isSome := by
          intro xs
          conv_lhs => unfold data_rows
          rw [if_neg hm, if_neg hdata]
        refine ⟨j1, j2, by rw [hd]; exact j3, ?_⟩
        intro k row hk
        rw [hd] at hk
        obtain ⟨pre, post, st1, st2, src, e1, e2, e3, e4, e5, e6, e7, e8, e9, e10⟩ :=
          j4 k row hk
        refine ⟨l :: pre, post, st1, st2, src, by rw [e1]; rfl, by rw [hd]; exact e2, ?_, e4,
          e5, e6, e7, e8, e9, e10⟩
        rw [read_lines_cons, hp']
        exact e3

theorem read_lines_append_ok (a b : List (List Nat)) (st st3 : ReaderState)
    (h : read_lines (a ++ b) st = .ok st3) :
    ∃ st1, read_lines a st = .ok st1 ∧ read_lines b st1 = .ok st3 := by
  rw [read_lines_append] at h
  rcases ha : read_lines a st with e | st1
  · rw [ha] at h
    exact absurd h (by intro h2; cases h2)
  · rw [ha] at h
    exact ⟨st1, rfl, h⟩

theorem initial_state_invariant (filename : List Nat) :
    reader_invariant (initial_state filename) :=
  ⟨rfl, Nat.zero_le _, by show 0 < 100; omega, fun c hc => by cases hc⟩

theorem read_sofia_catalogue_state (filename content : List Nat) (catalog : SofiaCatalog)
    (hlen : ∀ l ∈ file_lines content, l.length ≤ 1023)
    (hret : read_sofia_catalogue filename (some content) false = .ok catalog) :
    ∃ st3, read_lines (file_lines content) (initial_state filename) = .ok st3 ∧
      st3.catalog = catalog := by
  rw [read_sofia_catalogue_lines filename content hlen] at hret
  rcases hr : read_lines (file_lines content) (initial_state filename) with e | st3
  · rw [hr] at hret
    exact absurd hret (by intro h2; cases h2)
  · rw [hr] at hret
    injection hret with hret
    exact ⟨st3, rfl, hret⟩

/-- Counterexample to C24 as stated: `long_row_file` has two data rows after
its column header line, the first of them of 1028 characters; the reader takes
that row in two pieces, stores a record for each piece, and returns three
records, so that the second record (B) does not come from the second data row
(C). -/
theorem long_row_records :
    file_lines long_row_file
      = [ascii "# name id ra dec",
         ascii "\"A\"" ++ List.replicate 1020 32 ++ ascii "\"B\" 2",
         ascii "\"C\" 3"] ∧
    data_rows (file_lines long_row_file) false
      = [ascii "\"A\"" ++ List.replicate 1020 32 ++ ascii "\"B\" 2", ascii "\"C\" 3"] ∧
    catalog_size (read_sofia_catalogue (ascii "cat.txt") (some long_row_file) false)
      = some 3 ∧
    catalog_names (read_sofia_catalogue (ascii "cat.txt") (some long_row_file) false)
      = [ascii "A", ascii "B", ascii "C"] := by
  have h1 : file_lines long_row_file
      = [ascii "# name id ra dec",
         ascii "\"A\"" ++ List.replicate 1020 32 ++ ascii "\"B\" 2",
         ascii "\"C\" 3"] := by decide!
  have h2 : data_rows [ascii "# name id ra dec",
         ascii "\"A\"" ++ List.replicate 1020 32 ++ ascii "\"B\" 2",
         ascii "\"C\" 3"] false
      = [ascii "\"A\"" ++ List.replicate 1020 32 ++ ascii "\"B\" 2", ascii "\"C\" 3"] := by
    decide!
  have h3 : catalog_size (read_sofia_catalogue (ascii "cat.txt") (some long_row_file) false)
      = some 3 := by decide!
  have h4 : catalog_names (read_sofia_catalogue (ascii "cat.txt") (some long_row_file) false)
      = [ascii "A", ascii "B", ascii "C"] := by decide!
  exact ⟨h1, by rw [h1]; exact h2, h3, h4⟩

/-- C24, amended: for every catalogue file whose lines have at most 1023
characters and for which `read_sofia_catalogue` returns, the returned
catalogue holds as many records as the file has data rows (lines that begin,
after leading white space, with a double quote and come after a column header
line), and its k-th record is the record that was stored when the k-th data
row was read; after every number of lines read the records stored so far are
the first records of the returned catalogue, their number is at most the
final number, the catalogue holds exactly `size` records and `size` is at
most the capacity. -/
theorem read_sofia_catalogue_records (filename content : List Nat) (catalog : SofiaCatalog)
    (hlen : ∀ l ∈ file_lines content, l.length ≤ 1023)
    (hret : read_sofia_catalogue filename (some content) false = .ok catalog) :
    catalog.sources.length = catalog.size ∧ catalog.size ≤ catalog.capacity ∧
    catalog.size = (data_rows (file_lines content) false).length ∧
    (∀ pre post : List (List Nat), file_lines content = pre ++ post →
      ∃ st1, read_lines pre (initial_state filename) = .ok st1 ∧
        st1.catalog.sources <+: catalog.sources ∧ st1.catalog.size ≤ catalog.size ∧
        st1.catalog.sources.length = st1.catalog.size ∧
        st1.catalog.size ≤ st1.catalog.capacity) ∧
    (∀ (k : Nat) (row : List Nat), (data_rows (file_lines content) false)[k]? = some row →
      ∃ pre post st1 st2 source, file_lines content = pre ++ row :: post ∧
        (data_rows pre false).length = k ∧
        read_lines pre (initial_state filename) = .ok st1 ∧ st1.catalog.size = k ∧
        process_line st1 row = .ok st2 ∧
        st2.catalog.sources = st1.catalog.sources ++ [source] ∧
        catalog.sources[k]? = some source) := by
  obtain ⟨st3, hrun, hcat⟩ := read_sofia_catalogue_state filename content catalog hlen hret
  have hinit := initial_state_invariant filename
  obtain ⟨⟨i1, i2, _, _⟩, _, j3, j4⟩ :=
    read_lines_data_rows (file_lines content) (initial_state filename) st3 hinit hrun
  have hsize0 : (initial_state filename).catalog.size = 0 := rfl
  have hnone : (initial_state filename).input_columns.isSome = false := rfl
  rw [hsize0, hnone, Nat.zero_add] at j3
  rw [hnone] at j4
  rw [hcat] at i1 i2 j3
  refine ⟨i1, i2, j3, ?_, ?_⟩
  · intro pre post hsplit
    rw [hsplit] at hrun
    obtain ⟨st1, h1, h2⟩ := read_lines_append_ok pre post _ st3 hrun
    obtain ⟨hinv1, _, _, _⟩ := read_lines_data_rows pre (initial_state filename) st1 hinit h1
    obtain ⟨_, p2, p3, _⟩ := read_lines_data_rows post st1 st3 hinv1 h2
    rw [hcat] at p2 p3
    exact ⟨st1, h1, p2, by omega, hinv1.1, hinv1.2.1⟩
  · intro k row hk
    obtain ⟨pre, post, st1, st2, source, e1, e2, e3, _, e5, e6, _, e8, _, e10⟩ := j4 k row hk
    rw [hsize0, Nat.zero_add] at e5 e10
    rw [hcat] at e10
    exact ⟨pre, post, st1, st2, source, e1, e2, e3, e5, e6, e8, e10⟩

/-- Witness of the amended C24: `plain_file` has two data rows and the
reader returns `plain_catalog`, with the records of the rows A and B in that
order. -/
theorem read_sofia_catalogue_records_witness :
    read_sofia_catalogue (ascii "cat.txt") (some plain_file) false = .ok plain_catalog ∧
    data_rows (file_lines plain_file) false = [ascii "\"A\" 1 2 3", ascii "\"B\" 2 4 5"] ∧
    plain_catalog.sources.length = plain_catalog.size ∧
    plain_catalog.size ≤ plain_catalog.capacity ∧
    plain_catalog.size = (data_rows (file_lines plain_file) false).length :=
  have h : read_sofia_catalogue (ascii "cat.txt") (some plain_file) false = .ok plain_catalog := by
    decide!
  have t := read_sofia_catalogue_records (ascii "cat.txt") plain_file plain_catalog
    (by decide!) h
  ⟨h, by decide!, t.1, t.2.1, t.2.2.1⟩

/-! ## Theorems: the choice of the reader by the file name (`read_catalog`) -/

theorem string_ends_with_iff (str suffix : List Nat) :
    string_ends_with str suffix = true ↔ suffix <:+ str := by
  unfold string_ends_with
  by_cases h : suffix.length > str.length
  · rw [if_pos h]
    constructor
    · intro hf; cases hf
    · intro hs
      have := hs.length_le
      omega
  · rw [if_neg h, List.suffix_iff_eq_drop]
    simp only [beq_iff_eq]
    exact ⟨fun e => e.symm, fun e => e.symm⟩

theorem sql_not_xml (filename : List Nat) (h : ascii ".sql" <:+ filename) :
    ¬ ascii ".xml" <:+ filename := by
  intro hx
  rw [List.suffix_iff_eq_drop] at h hx
  have h4 : (ascii ".sql").length = (ascii ".xml").length := by decide
  rw [h4, ← hx] at h
  exact absurd h (by decide)

/-- Counterexample to C25 as stated: the file `plain_file` under a name with
the suffix .sql is read as an ASCII catalogue, and the catalogue that is
returned has two records. -/
theorem sql_catalog_records :
    ascii ".sql" <:+ ascii "cat.sql" ∧
    read_catalog (ascii "cat.sql") true (some plain_file)
      = .ok { plain_catalog with filename := ascii "cat.sql" } ∧
    catalog_size (read_catalog (ascii "cat.sql") true (some plain_file)) = some 2 := by
  refine ⟨⟨ascii "cat", by decide⟩, by decide!, by decide!⟩

/-- C25, amended: for every existing catalogue file whose name has the suffix
.xml, `read_catalog` returns a catalogue with zero records and does not
abort, whatever the file contains; a file whose name has the suffix .sql is
read as an ASCII catalogue, like every file whose name does not end in
.xml. -/
theorem read_catalog_by_suffix (filename : List Nat) (file : Option (List Nat)) :
    (ascii ".xml" <:+ filename →
      read_catalog filename true file = .ok SofiaCatalog_new ∧
      SofiaCatalog_new.size = 0 ∧ SofiaCatalog_new.sources = []) ∧
    (ascii ".sql" <:+ filename →
      read_catalog filename true file = read_sofia_catalogue filename file false) ∧
    (¬ ascii ".xml" <:+ filename →
      read_catalog filename true file = read_sofia_catalogue filename file false) := by
  have hno : ¬ ascii ".xml" <:+ filename →
      read_catalog filename true file = read_sofia_catalogue filename file false := by
    intro h
    have hf : string_ends_with filename (ascii ".xml") = false := by
      rcases hb : string_ends_with filename (ascii ".xml") with _ | _
      · rfl
      · exact absurd ((string_ends_with_iff _ _).1 hb) h
    unfold read_catalog
    simp [hf]
  refine ⟨fun h => ⟨?_, rfl, rfl⟩, fun h => hno (sql_not_xml filename h), hno⟩
  have hx := (string_ends_with_iff _ _).2 h
  unfold read_catalog read_sofia_catalogue
  simp [hx]

/-- Witness of the amended C25: under the name cat.xml the file `plain_file`
gives the empty catalogue, under the name cat.sql it is read as an ASCII
catalogue. -/
theorem read_catalog_by_suffix_witness :
    ascii ".xml" <:+ ascii "cat.xml" ∧ ascii ".sql" <:+ ascii "cat.sql" ∧
    read_catalog (ascii "cat.xml") true (some plain_file) = .ok SofiaCatalog_new ∧
    read_catalog (ascii "cat.sql") true (some plain_file)
      = read_sofia_catalogue (ascii "cat.sql") (some plain_file) false :=
  have h1 : ascii ".xml" <:+ ascii "cat.xml" := ⟨ascii "cat", by decide⟩
  have h2 : ascii ".sql" <:+ ascii "cat.sql" := ⟨ascii "cat", by decide⟩
  ⟨h1, h2, ((read_catalog_by_suffix (ascii "cat.xml") (some plain_file)).1 h1).1,
    (read_catalog_by_suffix (ascii "cat.sql") (some plain_file)).2.1 h2⟩

/-! ## Theorems: the parameter store (`Parameter_set`, `Parameter_get_str`) -/

theorem first_index_lt (key : List Nat) (l : List (List Nat)) :
    first_index key l < l.length ↔ key ∈ l := by
  induction l with
  | nil => simp [first_index]
  | cons k ks ih =>
    unfold first_index
    by_cases hk : k = key
    · simp [hk]
    · rw [if_neg hk, List.length_cons, Nat.add_lt_add_iff_right, ih]
      simp only [List.mem_cons]
      exact ⟨fun h => Or.inr h, fun h => h.elim (fun e => absurd e.symm hk) id⟩

theorem first_index_get (key : List Nat) (l : List (List Nat)) (h : key ∈ l) :
    l[first_index key l]? = some key := by
  induction l with
  | nil => cases h
  | cons k ks ih =>
    unfold first_index
    by_cases hk : k = key
    · simp [hk]
    · rw [if_neg hk]
      rcases List.mem_cons.1 h with h | h
      · exact absurd h.symm hk
      · simpa using ih h

theorem first_index_inj (a b : List Nat) (l : List (List Nat)) (ha : a ∈ l) (hb : b ∈ l)
    (h : first_index a l = first_index b l) : a = b := by
  have h1 := first_index_get a l ha
  have h2 := first_index_get b l hb
  rw [h, h2] at h1
  exact (Option.some.inj h1).symm

theorem first_index_append_mem (key : List Nat) (l m : List (List Nat)) (h : key ∈ l) :
    first_index key (l ++ m) = first_index key l := by
  induction l with
  | nil => cases h
  | cons k ks ih =>
    rw [List.cons_append]
    unfold first_index
    by_cases hk : k = key
    · rw [if_pos hk, if_pos hk]
    · rw [if_neg hk, if_neg hk]
      rcases List.mem_cons.1 h with h | h
      · exact absurd h.symm hk
      · rw [ih h]

theorem first_index_append_self (key : List Nat) (l : List (List Nat)) (h : key ∉ l) :
    first_index key (l ++ [key]) = l.length := by
  induction l with
  | nil => simp [first_index]
  | cons k ks ih =>
    rw [List.cons_append]
    unfold first_index
    simp only [List.mem_cons, not_or] at h
    rw [if_neg (fun e => h.1 e.symm), ih h.2]
    rfl

theorem find_index_loop_eq (key : List Nat) (size : Nat) :
    ∀ (l : List (List Nat)) (i : Nat), i + l.length = size →
      find_index_loop key size l i = i + first_index key l := by
  intro l
  induction l with
  | nil => intro i h; simpa [find_index_loop, first_index] using h.symm
  | cons k ks ih =>
    intro i h
    unfold find_index_loop first_index
    by_cases hk : k = key
    · rw [if_pos hk, if_pos hk]
      rfl
    · rw [if_neg hk, if_neg hk, ih (i + 1) (by simp only [List.length_cons] at h; omega)]
      omega

theorem find_index_eq (s : Parameter) (key : List Nat) (h : well_formed_store s) :
    Parameter_find_index s key = first_index key s.keys := by
  unfold Parameter_find_index
  rw [List.take_of_length_le (by rw [h.1]),
    find_index_loop_eq key s.size s.keys 0 (by rw [h.1]; omega)]
  omega

theorem find_index_lt (s : Parameter) (key : List Nat) (h : well_formed_store s) :
    Parameter_find_index s key < s.size ↔ key ∈ s.keys := by
  rw [find_index_eq s key h, ← h.1]
  exact first_index_lt key s.keys

theorem exists_iff (s : Parameter) (key : List Nat) (h : well_formed_store s) :
    Parameter_exists s key = true ↔ key ∈ s.keys := by
  unfold Parameter_exists
  rw [decide_eq_true_iff]
  exact find_index_lt s key h

theorem get_str_absent (s : Parameter) (key : List Nat) (h : well_formed_store s)
    (hk : key ∉ s.keys) : Parameter_get_str s key = [] := by
  unfold Parameter_get_str
  simp only []
  rw [if_neg (fun hlt => hk ((find_index_lt s key h).1 hlt))]

theorem get_str_present (s : Parameter) (key : List Nat) (h : well_formed_store s)
    (hk : key ∈ s.keys) :
    Parameter_get_str s key = s.values.getD (first_index key s.keys) [] := by
  unfold Parameter_get_str
  simp only []
  rw [if_pos ((find_index_lt s key h).2 hk), find_index_eq s key h]

theorem set_present (s : Parameter) (key value : List Nat) (h : well_formed_store s)
    (hk : key ∈ s.keys) :
    Parameter_set s key value
      = { s with values := s.values.set (first_index key s.keys) value } := by
  unfold Parameter_set
  simp only []
  rw [if_pos ((find_index_lt s key h).2 hk), find_index_eq s key h]

theorem set_absent (s : Parameter) (key value : List Nat) (h : well_formed_store s)
    (hk : key ∉ s.keys) :
    Parameter_set s key value
      = { keys := s.keys ++ [key], values := s.values ++ [value], size := s.size + 1,
          capacity := if s.size ≥ s.capacity then s.capacity * 2 else s.capacity } := by
  unfold Parameter_set
  simp only []
  rw [if_neg (fun hlt => hk ((find_index_lt s key h).1 hlt))]
  by_cases hc : s.size ≥ s.capacity
  · simp only [if_pos hc, Parameter_expand_capacity]
    rw [List.take_of_length_le (by rw [h.1]), List.take_of_length_le (by rw [h.2])]
  · simp only [if_neg hc]
    rw [List.take_of_length_le (by rw [h.1]), List.take_of_length_le (by rw [h.2])]

theorem set_well_formed (s : Parameter) (key value : List Nat) (h : well_formed_store s) :
    well_formed_store (Parameter_set s key value) := by
  by_cases hk : key ∈ s.keys
  · rw [set_present s key value h hk]
    exact ⟨h.1, by simp [h.2]⟩
  · rw [set_absent s key value h hk]
    exact ⟨by simp [h.1], by simp [h.2]⟩

theorem set_keys (s : Parameter) (key value : List Nat) (h : well_formed_store s) :
    (Parameter_set s key value).keys = if key ∈ s.keys then s.keys else s.keys ++ [key] := by
  by_cases hk : key ∈ s.keys
  · rw [set_present s key value h hk, if_pos hk]
  · rw [set_absent s key value h hk, if_neg hk]

theorem get_str_set (s : Parameter) (key value key2 : List Nat) (h : well_formed_store s) :
    Parameter_get_str (Parameter_set s key value) key2
      = if key2 = key then value else Parameter_get_str s key2 := by
  have hw := set_well_formed s key value h
  by_cases hk : key ∈ s.keys
  · have hidx : first_index key s.keys < s.values.length := by
      rw [h.2, ← h.1]; exact (first_index_lt _ _).2 hk
    by_cases h2 : key2 = key
    · subst h2
      rw [if_pos rfl, get_str_present _ _ hw (by rw [set_keys s _ value h, if_pos hk]; exact hk)]
      rw [set_present s key2 value h hk]
      simp only []
      rw [List.getD_eq_getElem _ _ (by rw [List.length_set]; exact hidx)]
      simp
    · rw [if_neg h2]
      by_cases hk2 : key2 ∈ s.keys
      · rw [get_str_present _ _ hw (by rw [set_keys s _ value h, if_pos hk]; exact hk2),
          get_str_present _ _ h hk2, set_present s key value h hk]
        simp only []
        have hne : first_index key s.keys ≠ first_index key2 s.keys := by
          intro e
          exact h2 (first_index_inj _ _ _ hk2 hk e.symm)
        rw [List.getD_eq_getElem?_getD, List.getD_eq_getElem?_getD,
          List.getElem?_set_ne hne]
      · rw [get_str_absent _ _ hw (by rw [set_keys s _ value h, if_pos hk]; exact hk2),
          get_str_absent _ _ h hk2]
  · have hkeys : (Parameter_set s key value).keys = s.keys ++ [key] := by
      rw [set_keys s _ value h, if_neg hk]
    by_cases h2 : key2 = key
    · subst h2
      rw [if_pos rfl, get_str_present _ _ hw (by rw [hkeys]; simp)]
      rw [set_absent s key2 value h hk]
      simp only []
      rw [first_index_append_self _ _ hk, h.1, ← h.2]
      simp
    · rw [if_neg h2]
      by_cases hk2 : key2 ∈ s.keys
      · rw [get_str_present _ _ hw (by rw [hkeys]; exact List.mem_append_left _ hk2),
          get_str_present _ _ h hk2, set_absent s key value h hk]
        simp only []
        rw [first_index_append_mem _ _ _ hk2]
        have hidx : first_index key2 s.keys < s.values.length := by
          rw [h.2, ← h.1]; exact (first_index_lt _ _).2 hk2
        rw [List.getD_eq_getElem?_getD, List.getD_eq_getElem?_getD,
          List.getElem?_append_left hidx]
      · rw [get_str_absent _ _ hw (by
            rw [hkeys]
            intro hm
            rcases List.mem_append.1 hm with hm | hm
            · exact hk2 hm
            · exact h2 (List.mem_singleton.1 hm)),
          get_str_absent _ _ h hk2]

theorem exists_false_iff (s : Parameter) (key : List Nat) (h : well_formed_store s) :
    Parameter_exists s key = false ↔ key ∉ s.keys := by
  rw [← exists_iff s key h]
  simp

/-- C26: for every store, keys k and k2 and value v, after
`Parameter_set(s, k, v)` the call `Parameter_get_str(k2)` returns v when
k2 = k and what it returned before when k2 differs from k; when k was absent
the size grows by one and k is appended as the last key, when k was present
the size, the keys and the position of k are unchanged. -/
theorem parameter_set_spec (s : Parameter) (k k2 v : List Nat) (h : well_formed_store s) :
    Parameter_get_str (Parameter_set s k v) k2
      = (if k2 = k then v else Parameter_get_str s k2) ∧
    (Parameter_exists s k = false →
      (Parameter_set s k v).size = s.size + 1 ∧ (Parameter_set s k v).keys = s.keys ++ [k]) ∧
    (Parameter_exists s k = true →
      (Parameter_set s k v).size = s.size ∧ (Parameter_set s k v).keys = s.keys ∧
      Parameter_find_index (Parameter_set s k v) k = Parameter_find_index s k) := by
  refine ⟨get_str_set s k v k2 h, fun ha => ?_, fun hp => ?_⟩
  · have hk := (exists_false_iff s k h).1 ha
    rw [set_absent s k v h hk]
    exact ⟨rfl, rfl⟩
  · have hk := (exists_iff s k h).1 hp
    have hw := set_well_formed s k v h
    rw [find_index_eq _ k hw, find_index_eq s k h, set_present s k v h hk]
    exact ⟨rfl, rfl, rfl⟩

/-- Witness of C26: in `sample_store` the key output.writemask is present and
the key output.filename is absent. -/
theorem parameter_set_spec_witness :
    well_formed_store sample_store ∧
    Parameter_get_str (Parameter_set sample_store (ascii "output.writemask") (ascii "no"))
      (ascii "output.writemask") = ascii "no" ∧
    Parameter_get_str (Parameter_set sample_store (ascii "output.writemask") (ascii "no"))
      (ascii "input.data") = ascii "cube.fits" ∧
    (Parameter_set sample_store (ascii "output.filename") (ascii "out")).size = 3 :=
  have h : well_formed_store sample_store := ⟨by decide, by decide⟩
  ⟨h,
    (parameter_set_spec sample_store (ascii "output.writemask")
      (ascii "output.writemask") (ascii "no") h).1.trans (by decide),
    (parameter_set_spec sample_store (ascii "output.writemask")
      (ascii "input.data") (ascii "no") h).1.trans (by decide),
    ((parameter_set_spec sample_store (ascii "output.filename")
      (ascii "output.filename") (ascii "out") h).2.1 (by decide)).1.trans (by decide)⟩

/-- C27: for every store and every key that is not present in it,
`Parameter_get_str` returns the empty string and `Parameter_exists` returns
false; `Parameter_exists` returns true exactly when some stored key equals
the given key. -/
theorem parameter_get_absent (s : Parameter) (key : List Nat) (h : well_formed_store s) :
    (key ∉ s.keys → Parameter_get_str s key = [] ∧ Parameter_exists s key = false) ∧
    (Parameter_exists s key = true ↔ ∃ k ∈ s.keys, k = key) := by
  refine ⟨fun hk => ⟨get_str_absent s key h hk, (exists_false_iff s key h).2 hk⟩, ?_⟩
  rw [exists_iff s key h]
  exact ⟨fun hk => ⟨key, hk, rfl⟩, fun ⟨k, hk, e⟩ => e ▸ hk⟩

/-- Witness of C27: `sample_store` has the key input.data and has no key
output.filename. -/
theorem parameter_get_absent_witness :
    well_formed_store sample_store ∧ ascii "output.filename" ∉ sample_store.keys ∧
    Parameter_get_str sample_store (ascii "output.filename") = [] ∧
    Parameter_exists sample_store (ascii "output.filename") = false ∧
    Parameter_exists sample_store (ascii "input.data") = true :=
  have h : well_formed_store sample_store := ⟨by decide, by decide⟩
  have hk : ascii "output.filename" ∉ sample_store.keys := by decide
  have t := (parameter_get_absent sample_store (ascii "output.filename") h).1 hk
  ⟨h, hk, t.1, t.2,
    (parameter_get_absent sample_store (ascii "input.data") h).2.2
      ⟨ascii "input.data", by decide, rfl⟩⟩

theorem true_words_length (w : List Nat) (h : w ∈ true_words) : w.length ≤ 4 := by
  simp only [true_words, List.mem_cons, List.mem_singleton, List.not_mem_nil, or_false] at h
  rcases h with rfl | rfl | rfl | rfl <;> decide

theorem get_bool_eq (s : Parameter) (key : List Nat) :
    Parameter_get_bool s key = true ↔
      (Parameter_get_str s key).length ≠ 0
        ∧ ((Parameter_get_str s key).take 31).map tolower ∈ true_words := by
  unfold Parameter_get_bool
  simp only []
  by_cases hv : (Parameter_get_str s key).length = 0
  · rw [if_pos hv]
    simp [hv]
  · rw [if_neg hv]
    simp only [true_words, List.mem_cons, List.mem_singleton, List.not_mem_nil, or_false,
      Bool.or_eq_true, decide_eq_true_eq, ne_eq, hv, not_false_eq_true, true_and, or_assoc]

/-- C28: for every store and key, `Parameter_get_bool` returns true exactly
when the key is present and its value, converted to lower case, is one of
true, yes, 1, t; it returns false for every other value, of any length, and
for a key that is absent. -/
theorem parameter_get_bool_spec (s : Parameter) (key : List Nat) (h : well_formed_store s) :
    Parameter_get_bool s key = true ↔
      key ∈ s.keys ∧ (Parameter_get_str s key).map tolower ∈ true_words := by
  rw [get_bool_eq]
  have hlow : ((Parameter_get_str s key).take 31).map tolower ∈ true_words ↔
      (Parameter_get_str s key).map tolower ∈ true_words := by
    by_cases h31 : (Parameter_get_str s key).length ≤ 31
    · rw [List.take_of_length_le h31]
    · constructor
      · intro hm
        have := true_words_length _ hm
        rw [List.length_map, List.length_take] at this
        omega
      · intro hm
        have := true_words_length _ hm
        rw [List.length_map] at this
        omega
  rw [hlow]
  constructor
  · intro ⟨hne, hm⟩
    refine ⟨?_, hm⟩
    by_contra hk
    rw [get_str_absent s key h hk] at hne
    exact hne rfl
  · intro ⟨_, hm⟩
    refine ⟨?_, hm⟩
    intro h0
    have : Parameter_get_str s key = [] := List.length_eq_zero.1 h0
    rw [this] at hm
    exact absurd hm (by decide)

/-- Witness of C28: in `sample_store` the value True of output.writemask is
true in lower case, the value of input.data is not one of the four words, and
output.filename is absent. -/
theorem parameter_get_bool_spec_witness :
    well_formed_store sample_store ∧
    Parameter_get_bool sample_store (ascii "output.writemask") = true ∧
    Parameter_get_bool sample_store (ascii "input.data") = false ∧
    Parameter_get_bool sample_store (ascii "output.filename") = false :=
  have h : well_formed_store sample_store := ⟨by decide, by decide⟩
  ⟨h,
    (parameter_get_bool_spec sample_store (ascii "output.writemask") h).2
      ⟨by decide, by decide⟩,
    by decide, by decide⟩

theorem set_invariant (s : Parameter) (key value : List Nat) (h : store_invariant s) :
    store_invariant (Parameter_set s key value) := by
  obtain ⟨hw, hnd, hle, hpos⟩ := h
  refine ⟨set_well_formed s key value hw, ?_, ?_, ?_⟩
  · rw [set_keys s key value hw]
    by_cases hk : key ∈ s.keys
    · rw [if_pos hk]; exact hnd
    · rw [if_neg hk]
      exact List.Nodup.append hnd (List.nodup_singleton _)
        (by
          intro a ha hb
          rw [List.mem_singleton.1 hb] at ha
          exact hk ha)
  · by_cases hk : key ∈ s.keys
    · rw [set_present s key value hw hk]; exact hle
    · rw [set_absent s key value hw hk]
      show s.size + 1 ≤ (if s.size ≥ s.capacity then s.capacity * 2 else s.capacity)
      split <;> omega
  · by_cases hk : key ∈ s.keys
    · rw [set_present s key value hw hk]; exact hpos
    · rw [set_absent s key value hw hk]
      show 0 < (if s.size ≥ s.capacity then s.capacity * 2 else s.capacity)
      split <;> omega

theorem set_defaults_loop_invariant (l : List (List Nat)) :
    ∀ s, store_invariant s → store_invariant (set_defaults_loop l s) := by
  induction l with
  | nil => intro s h; exact h
  | cons k ks ih =>
    intro s h
    unfold set_defaults_loop
    apply ih
    split
    · exact set_invariant s k _ h
    · exact h

theorem apply_calls_invariant (calls : List StoreCall) :
    ∀ s, store_invariant s → store_invariant (apply_calls s calls) := by
  induction calls with
  | nil => intro s h; exact h
  | cons c cs ih =>
    intro s h
    unfold apply_calls
    rw [List.foldl_cons]
    apply ih
    cases c
    · exact set_invariant s _ _ h
    · exact set_defaults_loop_invariant required s h

/-- C29: in every store reached from `Parameter_new` by a sequence of calls
of `Parameter_set` and `Parameter_set_defaults`, the stored keys are pairwise
distinct and `size` is at most the capacity; the store holds `size` keys and
`size` values. -/
theorem reachable_store_invariant (calls : List StoreCall) :
    (apply_calls Parameter_new calls).keys.Nodup ∧
    (apply_calls Parameter_new calls).size ≤ (apply_calls Parameter_new calls).capacity ∧
    (apply_calls Parameter_new calls).keys.length = (apply_calls Parameter_new calls).size ∧
    (apply_calls Parameter_new calls).values.length = (apply_calls Parameter_new calls).size := by
  have hnew : store_invariant Parameter_new :=
    ⟨⟨rfl, rfl⟩, List.nodup_nil, Nat.zero_le _, by decide⟩
  obtain ⟨hw, hnd, hle, _⟩ := apply_calls_invariant calls Parameter_new hnew
  exact ⟨hnd, hle, hw.1, hw.2⟩

theorem set_defaults_loop_spec (l : List (List Nat)) :
    ∀ s, well_formed_store s →
      well_formed_store (set_defaults_loop l s) ∧
      ∀ k, (k ∈ (set_defaults_loop l s).keys ↔ k ∈ s.keys ∨ k ∈ l) ∧
        Parameter_get_str (set_defaults_loop l s) k
          = if k ∈ l ∧ k ∉ s.keys then ascii "false" else Parameter_get_str s k := by
  induction l with
  | nil =>
    intro s h
    exact ⟨h, fun k => ⟨by simp [set_defaults_loop], by simp [set_defaults_loop]⟩⟩
  | cons key rest ih =>
    intro s h
    have hstep : ∃ s1, (if ¬ Parameter_exists s key = true
          then Parameter_set s key (ascii "false") else s) = s1 ∧ well_formed_store s1 ∧
        (∀ k, k ∈ s1.keys ↔ k ∈ s.keys ∨ k = key) ∧
        ∀ k, Parameter_get_str s1 k
          = if k = key ∧ key ∉ s.keys then ascii "false" else Parameter_get_str s k := by
      by_cases he : Parameter_exists s key = true
      · have hk := (exists_iff s key h).1 he
        refine ⟨s, by rw [if_neg (by simpa using he)], h, fun k => ?_, fun k => ?_⟩
        · exact ⟨fun hm => Or.inl hm, fun hm => hm.elim id (fun e => e ▸ hk)⟩
        · rw [if_neg (fun hc => hc.2 hk)]
      · have hk : key ∉ s.keys := fun hm => he ((exists_iff s key h).2 hm)
        refine ⟨Parameter_set s key (ascii "false"), by rw [if_pos he],
          set_well_formed s key _ h, fun k => ?_, fun k => ?_⟩
        · rw [set_keys s key _ h, if_neg hk]
          simp
        · rw [get_str_set s key _ k h]
          by_cases e : k = key
          · rw [if_pos e, if_pos ⟨e, hk⟩]
          · rw [if_neg e, if_neg (fun hc => e hc.1)]
    obtain ⟨s1, hs1, hw1, hkeys1, hget1⟩ := hstep
    unfold set_defaults_loop
    rw [hs1]
    obtain ⟨hw2, h2⟩ := ih s1 hw1
    refine ⟨hw2, fun k => ⟨?_, ?_⟩⟩
    · rw [(h2 k).1, hkeys1 k, List.mem_cons]
      constructor
      · rintro ((hm | hm) | hm)
        · exact Or.inl hm
        · exact Or.inr (Or.inl hm)
        · exact Or.inr (Or.inr hm)
      · rintro (hm | hm | hm)
        · exact Or.inl (Or.inl hm)
        · exact Or.inl (Or.inr hm)
        · exact Or.inr hm
    · rw [(h2 k).2, hget1 k]
      by_cases hks : k ∈ s.keys
      · rw [if_neg (fun hc => hc.2 ((hkeys1 k).2 (Or.inl hks))),
          if_neg (fun hc => hc.2 (hc.1 ▸ hks)),
          if_neg (fun hc => hc.2 hks)]
      · by_cases e : k = key
        · rw [if_neg (fun hc => hc.2 ((hkeys1 k).2 (Or.inr e))),
            if_pos ⟨e, e ▸ hks⟩, if_pos ⟨by rw [e]; exact List.mem_cons_self _ _, hks⟩]
        · by_cases hr : k ∈ rest
          · rw [if_pos ⟨hr, fun hm => ((hkeys1 k).1 hm).elim hks e⟩,
              if_pos ⟨List.mem_cons_of_mem _ hr, hks⟩]
          · rw [if_neg (fun hc => hr hc.1), if_neg (fun hc => e hc.1),
              if_neg (fun hc => (List.mem_cons.1 hc.1).elim e hr)]

theorem get_bool_false_word (s : Parameter) (key : List Nat)
    (h : Parameter_get_str s key = ascii "false") : Parameter_get_bool s key = false := by
  unfold Parameter_get_bool
  rw [h]
  decide

/-- Counterexample to C30 as stated: the array of the required keys has
seventeen entries, pairwise distinct; in the store made by `Parameter_new`
none of them has a value, and after `Parameter_set_defaults` each of the
seventeen has the value false, so that the values of seventeen keys change. -/
theorem required_keys_count :
    required.length = 17 ∧ required.Nodup ∧
    (Parameter_set_defaults Parameter_new).size = 17 ∧
    ∀ k ∈ required, Parameter_get_str Parameter_new k = [] ∧
      Parameter_get_str (Parameter_set_defaults Parameter_new) k = ascii "false" := by
  refine ⟨by decide, by decide, by decide!, by decide!⟩

/-- C30, amended: for every store, after `Parameter_set_defaults` each of
the seventeen required keys exists; each one that was absent has the value
false, so that `Parameter_get_bool` on it returns false, each one that was
present keeps its value, and the value of no other key changes, nor does
another key come to exist. -/
theorem parameter_set_defaults_spec (s : Parameter) (h : well_formed_store s) :
    required.length = 17 ∧
    (∀ k ∈ required,
      Parameter_exists (Parameter_set_defaults s) k = true ∧
      (Parameter_exists s k = false →
        Parameter_get_str (Parameter_set_defaults s) k = ascii "false" ∧
        Parameter_get_bool (Parameter_set_defaults s) k = false) ∧
      (Parameter_exists s k = true →
        Parameter_get_str (Parameter_set_defaults s) k = Parameter_get_str s k)) ∧
    (∀ k, k ∉ required →
      Parameter_get_str (Parameter_set_defaults s) k = Parameter_get_str s k ∧
      Parameter_exists (Parameter_set_defaults s) k = Parameter_exists s k) := by
  obtain ⟨hw, hspec⟩ := set_defaults_loop_spec required s h
  refine ⟨by decide, fun k hk => ⟨?_, fun ha => ?_, fun hp => ?_⟩, fun k hk => ⟨?_, ?_⟩⟩
  · exact (exists_iff _ k hw).2 ((hspec k).1.2 (Or.inr hk))
  · have hks := (exists_false_iff s k h).1 ha
    have hg : Parameter_get_str (Parameter_set_defaults s) k = ascii "false" := by
      unfold Parameter_set_defaults
      rw [(hspec k).2, if_pos ⟨hk, hks⟩]
    exact ⟨hg, get_bool_false_word _ k hg⟩
  · have hks := (exists_iff s k h).1 hp
    unfold Parameter_set_defaults
    rw [(hspec k).2, if_neg (fun hc => hc.2 hks)]
  · unfold Parameter_set_defaults
    rw [(hspec k).2, if_neg (fun hc => hk hc.1)]
  · have e1 := exists_iff (Parameter_set_defaults s) k hw
    have e2 := exists_iff s k h
    have e3 : k ∈ (Parameter_set_defaults s).keys ↔ k ∈ s.keys := by
      unfold Parameter_set_defaults
      rw [(hspec k).1]
      exact ⟨fun hm => hm.elim id (fun hr => absurd hr hk), Or.inl⟩
    rcases hb : Parameter_exists s k with _ | _
    · rcases hb2 : Parameter_exists (Parameter_set_defaults s) k with _ | _
      · rfl
      · have := e2.2 (e3.1 (e1.1 hb2))
        rw [hb] at this
        cases this
    · exact e1.2 (e3.2 (e2.1 hb))

/-- Witness of the amended C30: in `sample_store` output.writemask is present
with the value True and keeps it, output.filename is absent and gets the value
false, and input.data, which is not a required key, keeps its value. -/
theorem parameter_set_defaults_spec_witness :
    well_formed_store sample_store ∧
    Parameter_get_str (Parameter_set_defaults sample_store) (ascii "output.writemask")
      = ascii "True" ∧
    Parameter_get_str (Parameter_set_defaults sample_store) (ascii "output.filename")
      = ascii "false" ∧
    Parameter_get_bool (Parameter_set_defaults sample_store) (ascii "output.filename")
      = false ∧
    Parameter_get_str (Parameter_set_defaults sample_store) (ascii "input.data")
      = ascii "cube.fits" :=
  have h : well_formed_store sample_store := ⟨by decide, by decide⟩
  have t := parameter_set_defaults_spec sample_store h
  have t1 := t.2.1 (ascii "output.writemask") (by decide)
  have t2 := t.2.1 (ascii "output.filename") (by decide)
  ⟨h, (t1.2.2 (by decide)).trans (by decide), (t2.2.1 (by decide)).1, (t2.2.1 (by decide)).2,
    (t.2.2 (ascii "input.data") (by decide)).1.trans (by decide)⟩

/-! ## Theorems: the value of a swapped word (`swap_fits_byte_order`) -/

theorem little_endian_value_append (a b : List Nat) :
    little_endian_value (a ++ b)
      = little_endian_value a + 256 ^ a.length * little_endian_value b := by
  induction a with
  | nil => simp [little_endian_value]
  | cons x xs ih =>
    show x + 256 * little_endian_value (xs ++ b)
      = (x + 256 * little_endian_value xs) + 256 ^ (xs.length + 1) * little_endian_value b
    rw [ih]
    ring

theorem big_endian_value_fold (l : List Nat) :
    ∀ acc : Nat, l.foldl (fun acc b => 256 * acc + b) acc
      = 256 ^ l.length * acc + little_endian_value l.reverse := by
  induction l with
  | nil => intro acc; simp [little_endian_value]
  | cons x xs ih =>
    intro acc
    rw [List.foldl_cons, ih, List.reverse_cons, little_endian_value_append]
    simp only [little_endian_value, List.length_reverse, List.length_cons]
    ring

theorem little_endian_value_reverse (l : List Nat) :
    little_endian_value l.reverse = big_endian_value l := by
  unfold big_endian_value
  rw [big_endian_value_fold]
  simp

theorem word_at_length (data : List Nat) (w n i : Nat) (hn : n * w ≤ data.length)
    (hi : i < n) : (word_at data w i).length = w := by
  have h3 : (i + 1) * w ≤ n * w := Nat.mul_le_mul_right w hi
  have h4 : (i + 1) * w = i * w + w := by ring
  simp only [word_at, List.length_take, List.length_drop]
  omega

theorem word_at_swap (data : List Nat) (w n i : Nat) (hw : 2 ≤ w)
    (hn : n * w ≤ data.length) (hi : i < n) :
    word_at (swap_fits_byte_order data w n) w i = (word_at data w i).reverse := by
  have h3 : (i + 1) * w ≤ n * w := Nat.mul_le_mul_right w hi
  have h4 : (i + 1) * w = i * w + w := by ring
  have hlen := word_at_length data w n i hn hi
  apply List.ext_getElem?
  intro j
  by_cases hj : j < w
  · rw [List.getElem?_reverse (by omega), hlen]
    have hj2 : w - 1 - j < w := by omega
    simp only [word_at, List.getElem?_take, hj, hj2, if_true, List.getElem?_drop]
    rw [swap_fits_byte_order_get data w n hw hn]
    have hlt : i * w + j < n * w := by omega
    have hd : (i * w + j) / w = i := by
      rw [Nat.add_comm, Nat.mul_comm, Nat.add_mul_div_left _ _ (by omega : 0 < w),
        Nat.div_eq_of_lt hj]; simp
    have hm : (i * w + j) % w = j := by
      rw [Nat.add_comm, Nat.mul_comm, Nat.add_mul_mod_self_left, Nat.mod_eq_of_lt hj]
    unfold swapped_idx
    rw [if_pos hlt, hd, hm]
  · have h1 : (word_at (swap_fits_byte_order data w n) w i).length = w :=
      word_at_length _ w n i (by rw [swap_fits_byte_order_length]; exact hn) hi
    rw [List.getElem?_eq_none (by omega), List.getElem?_eq_none (by rw [List.length_reverse]; omega)]

theorem single_byte_value (l : List Nat) (h : l.length ≤ 1) :
    little_endian_value l = big_endian_value l := by
  rcases l with _ | ⟨x, _ | ⟨y, r⟩⟩
  · rfl
  · simp [little_endian_value, big_endian_value]
  · simp at h

theorem word_value_swap (data : List Nat) (w n i : Nat) (hw : 2 ≤ w)
    (hn : n * w ≤ data.length) (hi : i < n) :
    little_endian_value (word_at (swap_fits_byte_order data w n) w i)
      = big_endian_value (word_at data w i) := by
  rw [word_at_swap data w n i hw hn hi, little_endian_value_reverse]

theorem host_order_value (file : List Nat) (r : FitsFile)
    (h : read_fits_file true file = .ok r) (i : Nat) (hi : i < r.data_size) :
    little_endian_value (word_at r.data r.word_size i)
      = big_endian_value (word_at (payload_bytes file r) r.word_size i) := by
  obtain ⟨hs, p, m, _, _, _, h4, _, _, _, _, _, h10, h11⟩ := read_fits_file_ok true file r h
  have hle : m.data_size * m.word_size ≤ file.length - m.header_size :=
    le_trans (Nat.mul_le_mul_right _ h10) (Nat.div_mul_le_self _ _)
  have hlen : (payload_bytes file m).length = m.data_size * m.word_size := by
    simp only [payload_bytes, List.length_take, List.length_drop]
    omega
  subst h11
  show little_endian_value (word_at (host_order true m (payload_bytes file m)) m.word_size i)
    = big_endian_value (word_at (payload_bytes file m) m.word_size i)
  have hi2 : i < m.data_size := hi
  unfold host_order
  by_cases hw : m.word_size > 1
  · rw [if_pos ⟨rfl, hw⟩]
    exact word_value_swap _ _ _ _ hw (by rw [hlen]) hi2
  · rw [if_neg (fun hc => hw hc.2)]
    apply single_byte_value
    simp only [word_at, List.length_take]
    omega

/-- C39: for every buffer of `n` words of `w` bytes, `w` in {2, 4, 8}, the
little-endian value of each word after `swap_fits_byte_order` is the
big-endian value of the same word before it; hence every element of the
payload that `read_fits_file` returns on a little-endian host, read in host
order, has the value that the file stores in big-endian order. -/
theorem swap_fits_byte_order_value :
    (∀ (data : List Nat) (w n i : Nat), (w = 2 ∨ w = 4 ∨ w = 8) → n * w ≤ data.length →
      i < n →
      little_endian_value (word_at (swap_fits_byte_order data w n) w i)
        = big_endian_value (word_at data w i)) ∧
    (∀ (file : List Nat) (r : FitsFile) (i : Nat), read_fits_file true file = .ok r →
      i < r.data_size →
      little_endian_value (word_at r.data r.word_size i)
        = big_endian_value (word_at (payload_bytes file r) r.word_size i)) := by
  refine ⟨fun data w n i hw hn hi => ?_, fun file r i h hi => host_order_value file r h i hi⟩
  exact word_value_swap data w n i (by omega) hn hi

/-- Witness of C39: the words 01 02 and 03 04 of a four-byte buffer, and the
two elements of `sample_file`, whose payload is 01 02 03 04: the first
element has the value 258 = 1 * 256 + 2. -/
theorem swap_fits_byte_order_value_witness :
    swap_fits_byte_order [1, 2, 3, 4] 2 2 = [2, 1, 4, 3] ∧
    little_endian_value (word_at (swap_fits_byte_order [1, 2, 3, 4] 2 2) 2 0)
      = big_endian_value (word_at [1, 2, 3, 4] 2 0) ∧
    big_endian_value (word_at [1, 2, 3, 4] 2 0) = 258 ∧
    read_fits_file true sample_file = .ok sample_cube ∧
    payload_bytes sample_file sample_cube = [1, 2, 3, 4] ∧
    little_endian_value (word_at sample_cube.data sample_cube.word_size 1)
      = big_endian_value (word_at (payload_bytes sample_file sample_cube)
          sample_cube.word_size 1) := by
  have h : read_fits_file true sample_file = .ok sample_cube := by decide!
  have h1 := swap_fits_byte_order_value.1 [1, 2, 3, 4] 2 2 0 (Or.inl rfl) (by decide) (by decide)
  have h2 := swap_fits_byte_order_value.2 sample_file sample_cube 1 h (by decide)
  exact ⟨by decide, h1, by decide, h, by decide!, h2⟩

/-! ## Theorems: the extent of a header value (`parse_fits_header`, lines 287-309) -/

theorem parse_card_bounds (line : List Nat) :
    (value_bounds line = none → parse_card line = .skip) ∧
    (∀ s e, value_bounds line = some (s, e) →
      (e < s → parse_card line = .wrapped) ∧
      (¬ e < s → ∃ key, parse_card line = .card key (strncpy_str (line.drop s) (e - s)))) := by
  unfold value_bounds parse_card
  by_cases hskip : char_at line 0 = 32 ∨ strncmp_eq line (ascii "COMMENT") 7 = true
      ∨ strncmp_eq line (ascii "HISTORY") 7 = true
  · rw [if_pos hskip, if_pos hskip]
    exact ⟨fun _ => rfl, fun s e h => by cases h⟩
  · rw [if_neg hskip, if_neg hskip]
    rcases heq : strchr line 61 with _ | equals
    · exact ⟨fun _ => rfl, fun s e h => by cases h⟩
    · refine ⟨fun h => (by cases h), fun s e h => ?_⟩
      simp only [Option.some.injEq, Prod.mk.injEq] at h
      obtain ⟨hs, he⟩ := h
      subst hs
      subst he
      exact ⟨fun hlt => if_pos hlt, fun hlt => ⟨_, if_neg hlt⟩⟩

theorem strchr_lt (l : List Nat) (c k : Nat) (h : strchr l c = some k) : k < l.length := by
  induction l generalizing k with
  | nil => simp [strchr] at h
  | cons x xs ih =>
    unfold strchr at h
    by_cases hx : x = c
    · rw [if_pos hx] at h
      injection h with h
      subst h
      simp
    · rw [if_neg hx] at h
      by_cases h0 : x = 0
      · rw [if_pos h0] at h
        cases h
      · rw [if_neg h0] at h
        rcases hr : strchr xs c with _ | j
        · rw [hr] at h
          cases h
        · rw [hr] at h
          injection h with h
          subst h
          have := ih j hr
          simp only [List.length_cons]
          omega

theorem trim_end_le (line : List Nat) (lo e : Nat) : trim_end line lo e ≤ e := by
  induction e with
  | zero => exact Nat.le_refl _
  | succ e ih =>
    unfold trim_end
    by_cases hc : lo < e + 1 ∧ char_at line e = 32
    · rw [if_pos hc]
      omega
    · rw [if_neg hc]

theorem char_at_lt (l : List Nat) (i : Nat) (h : char_at l i ≠ 0) : i < l.length := by
  by_contra hge
  apply h
  unfold char_at
  rw [List.getD_eq_getElem?_getD, List.getElem?_eq_none (by omega)]
  rfl

theorem value_bounds_le (line : List Nat) (hlen : line.length = 80) (s e : Nat)
    (h : value_bounds line = some (s, e)) : s ≤ 80 ∧ e ≤ 80 := by
  unfold value_bounds at h
  split at h
  · cases h
  rcases heq : strchr line 61 with _ | equals
  · rw [heq] at h
    cases h
  rw [heq] at h
  have hlt := strchr_lt line 61 equals heq
  obtain ⟨hv1, hv2⟩ := skip_spaces_le line (equals + 1) (by omega)
  obtain ⟨vs, hvs⟩ : ∃ vs, vs = skip_spaces line (equals + 1) := ⟨_, rfl⟩
  rw [← hvs] at hv1 hv2
  obtain ⟨ve0, hve0⟩ : ∃ ve0, ve0 = (match strchr (line.drop vs) 47 with
      | some k => vs + k
      | none => FITS_HEADER_LINE_SIZE) := ⟨_, rfl⟩
  have hve0b : ve0 ≤ 80 := by
    rcases hs : strchr (line.drop vs) 47 with _ | k
    · rw [hs] at hve0
      have h5 : ve0 = 80 := hve0
      omega
    · rw [hs] at hve0
      have h5 : ve0 = vs + k := hve0
      have hk := strchr_lt _ _ _ hs
      rw [List.length_drop] at hk
      omega
  obtain ⟨ve1, hve1⟩ : ∃ ve1, ve1 = trim_end line vs ve0 := ⟨_, rfl⟩
  have ht2 : ve1 ≤ ve0 := by rw [hve1]; exact trim_end_le line vs ve0
  simp only [← hvs, ← hve0, ← hve1] at h
  by_cases hq : char_at line vs = 39 ∧ char_at line (ve1 - 1) = 39
  · simp only [hq, and_self, if_true, Option.some.injEq, Prod.mk.injEq] at h
    obtain ⟨hs, he⟩ := h
    have hvlt : vs < line.length := char_at_lt line vs (by rw [hq.1]; decide)
    obtain ⟨hs1, hs2⟩ := skip_spaces_le line (vs + 1) (by omega)
    have he2 := trim_end_le line (skip_spaces line (vs + 1)) (ve1 - 1)
    omega
  · rw [if_neg hq, if_neg hq] at h
    simp only [Option.some.injEq, Prod.mk.injEq] at h
    obtain ⟨hs, he⟩ := h
    omega

/-- Supporting fact for C37: for every 80-byte header line of text that is
not skipped and holds `=`, the value start and the value end lie inside the
line, and the start lies beyond the end exactly when the trimmed value is one
single quote. -/
theorem value_bounds_spec (line : List Nat) (ht : text_line line)
    (hns : ¬ skipped_line line) (heq : 61 ∈ line) :
    ∃ s e, value_bounds line = some (s, e) ∧ s ≤ 80 ∧ e ≤ 80 ∧
      (e < s ↔ line_value line = [39]) := by
  rcases hb : value_bounds line with _ | ⟨s, e⟩
  · have h1 := (parse_card_bounds line).1 hb
    by_cases hq : quote_delimited (line_value line)
    · by_cases h39 : line_value line = [39]
      · rw [parse_card_lone_quote line ht hns heq h39] at h1
        cases h1
      · rw [parse_card_quoted line ht hns heq hq (quote_delimited_length _ hq h39)] at h1
        cases h1
    · rw [parse_card_plain line ht hns heq hq] at h1
      cases h1
  · obtain ⟨h1, h2⟩ := value_bounds_le line ht.1 s e hb
    obtain ⟨h3, h4⟩ := (parse_card_bounds line).2 s e hb
    refine ⟨s, e, rfl, h1, h2, ?_⟩
    constructor
    · intro hlt
      have hw := h3 hlt
      by_contra h39
      by_cases hq : quote_delimited (line_value line)
      · rw [parse_card_quoted line ht hns heq hq (quote_delimited_length _ hq h39)] at hw
        cases hw
      · rw [parse_card_plain line ht hns heq hq] at hw
        cases hw
    · intro h39
      by_contra hlt
      obtain ⟨key, hk⟩ := h4 hlt
      rw [parse_card_lone_quote line ht hns heq h39] at hk
      cases hk

/-- Failing input of C37: in the 80-byte line `KEY     = '` the value start is
at offset 80 and the value end at offset 10, so that the length
`value_end - value_start`, a `size_t`, is 2^64 - 70; the same happens when a
comment follows the quote. -/
theorem lone_quote_bounds :
    lone_quote_line.length = 80 ∧ 61 ∈ lone_quote_line ∧
    value_bounds lone_quote_line = some (80, 10) ∧
    long_to_size_t (10 - 80) = 18446744073709551546 ∧
    parse_card lone_quote_line = .wrapped ∧
    lone_quote_comment_line.length = 80 ∧
    value_bounds lone_quote_comment_line = some (12, 10) := by
  refine ⟨by decide!, by decide!, by decide!, by decide!, by decide!, by decide!, by decide!⟩

/-! ## Theorems: the base name of the output (`get_basename`) -/

theorem output_filename_required : ascii "output.filename" ∈ required := by decide

theorem get_str_defaults (s : Parameter) (h : well_formed_store s) (k : List Nat) :
    Parameter_get_str (Parameter_set_defaults s) k
      = if k ∈ required ∧ k ∉ s.keys then ascii "false" else Parameter_get_str s k :=
  ((set_defaults_loop_spec required s h).2 k).2

theorem get_basename_absent (s : Parameter) (h : well_formed_store s)
    (hk : Parameter_exists s (ascii "output.filename") = false) :
    get_basename (Parameter_set_defaults s) = ascii "false" := by
  have hmem : ascii "output.filename" ∉ s.keys := (exists_false_iff s _ h).1 hk
  unfold get_basename
  simp only [get_str_defaults s h, output_filename_required, hmem, not_false_eq_true,
    and_self, if_true]
  rfl

/-- C40: for every store in which `output.filename` is absent, after
`Parameter_set_defaults` the function `get_basename` returns the string
`false`, whatever value `input.data` has; after `Parameter_set_defaults` the
value of `output.filename` is empty, so that `get_basename` goes on to
`input.data`, exactly when the key was present with an empty value before;
when the value is not empty it is returned as it is. -/
theorem get_basename_defaults (s : Parameter) (h : well_formed_store s) :
    (Parameter_exists s (ascii "output.filename") = false →
      get_basename (Parameter_set_defaults s) = ascii "false" ∧
      ∀ v, get_basename (Parameter_set_defaults (Parameter_set s (ascii "input.data") v))
        = ascii "false") ∧
    ((Parameter_get_str (Parameter_set_defaults s) (ascii "output.filename")).length > 0 ↔
      ¬ (Parameter_exists s (ascii "output.filename") = true ∧
          Parameter_get_str s (ascii "output.filename") = [])) ∧
    ((Parameter_get_str (Parameter_set_defaults s) (ascii "output.filename")).length > 0 →
      get_basename (Parameter_set_defaults s)
        = Parameter_get_str (Parameter_set_defaults s) (ascii "output.filename")) ∧
    (Parameter_exists s (ascii "output.filename") = true →
      Parameter_get_str s (ascii "output.filename") = [] →
      get_basename (Parameter_set_defaults s) = basename_of_input (Parameter_set_defaults s)) := by
  refine ⟨fun hk => ⟨get_basename_absent s h hk, fun v => ?_⟩, ?_, ?_, ?_⟩
  · apply get_basename_absent _ (set_well_formed s _ v h)
    rw [exists_false_iff _ _ (set_well_formed s _ v h), set_keys s _ v h]
    have hmem : ascii "output.filename" ∉ s.keys := (exists_false_iff s _ h).1 hk
    split
    · exact hmem
    · intro hc
      rcases List.mem_append.1 hc with hc | hc
      · exact hmem hc
      · rw [List.mem_singleton] at hc
        revert hc
        decide
  · rw [get_str_defaults s h]
    by_cases hmem : ascii "output.filename" ∈ s.keys
    · have hex : Parameter_exists s (ascii "output.filename") = true := (exists_iff s _ h).2 hmem
      rw [if_neg (fun hc => hc.2 hmem)]
      simp only [hex, true_and, gt_iff_lt, List.length_pos]
    · have hex : Parameter_exists s (ascii "output.filename") = false :=
        (exists_false_iff s _ h).2 hmem
      rw [if_pos ⟨output_filename_required, hmem⟩]
      simp only [hex, Bool.false_eq_true, false_and, not_false_eq_true, iff_true]
      decide
  · intro hlen
    unfold get_basename
    simp only [hlen, if_true]
  · intro hex hempty
    have hmem : ascii "output.filename" ∈ s.keys := (exists_iff s _ h).1 hex
    unfold get_basename
    simp only [get_str_defaults s h, hmem, not_true_eq_false, and_false, if_false, hempty,
      List.length_nil, gt_iff_lt, Nat.lt_irrefl]

/-- Witness of C40: in `sample_store` the key `output.filename` is absent and
`input.data` is `cube.fits`; after `Parameter_set_defaults` the base name is
`false`, while the store as it is gives `cube`. In `empty_name_store` the key
is present with an empty value and the base name is derived from
`input.data`. -/
theorem get_basename_defaults_witness :
    well_formed_store sample_store ∧
    Parameter_exists sample_store (ascii "output.filename") = false ∧
    get_basename (Parameter_set_defaults sample_store) = ascii "false" ∧
    get_basename sample_store = ascii "cube" ∧
    Parameter_exists empty_name_store (ascii "output.filename") = true ∧
    Parameter_get_str empty_name_store (ascii "output.filename") = [] ∧
    get_basename (Parameter_set_defaults empty_name_store) = ascii "cube" := by
  have hw : well_formed_store sample_store := by unfold well_formed_store; decide!
  have hk : Parameter_exists sample_store (ascii "output.filename") = false := by decide!
  exact ⟨hw, hk, ((get_basename_defaults sample_store hw).1 hk).1, by decide!, by decide!,
    by decide!, by decide!⟩

/-! ## Theorems: the column locations (`read_sofia_catalogue`, lines 503-522) -/

/-- Failing input of C36: in the line `# name id ra dec x_min x` the token `x`
stands at the offsets 23 to 24, but the location recorded for the column `x`
is 18, the offset after the first letter of `x_min`, which stands at the
offsets 17 to 22. The locations of the other columns are the offsets after
their tokens. -/
theorem substring_column_location :
    (∃ st1, process_line (initial_state (ascii "cat.txt")) substring_schema_line = .ok st1 ∧
      st1.input_columns = some [ascii "name", ascii "id", ascii "ra", ascii "dec",
        ascii "x_min", ascii "x"] ∧
      st1.column_locations = [6, 9, 12, 16, 22, 18]) ∧
    (substring_schema_line.take 24).drop 23 = ascii "x" ∧
    substring_schema_line.length = 24 ∧
    (substring_schema_line.take 22).drop 17 = ascii "x_min" ∧
    (substring_schema_line.take 18).drop 17 = ascii "x" := by
  refine ⟨⟨_, rfl, by decide!, by decide!⟩, by decide!, by decide!, by decide!, by decide!⟩

/-! ## Theorems: the column header line in force (`read_sofia_catalogue`, lines 479-531) -/

theorem process_line_stored_columns (st : ReaderState) (buffer : List Nat)
    (hinv : reader_invariant st) (hm : marker_line (line_text buffer)) :
    ∃ st1, process_line st buffer = .ok st1 ∧ reader_invariant st1 ∧
      st1.catalog = st.catalog ∧ st1.input_columns = some (stored_columns buffer) := by
  obtain ⟨st1, h1, h2, h3, _⟩ := step_marker st buffer hinv hm
  refine ⟨st1, h1, h2, h3, ?_⟩
  rw [process_line_marker st buffer hm] at h1
  injection h1 with h1
  rw [← h1]
  rfl

theorem process_line_keeps_schema (st st1 : ReaderState) (buffer : List Nat)
    (hinv : reader_invariant st) (hm : ¬ marker_line (line_text buffer))
    (h : process_line st buffer = .ok st1) :
    reader_invariant st1 ∧ st1.input_columns = st.input_columns := by
  by_cases hd : st.input_columns.isSome = true
      ∧ (string_trim (line_text buffer)).head? = some 34
  · obtain ⟨h1, h2, _⟩ := step_data st st1 buffer hinv hd.1 hd.2 h
    exact ⟨h1, h2⟩
  · rw [step_idle st buffer hm hd] at h
    injection h with h
    subst h
    exact ⟨hinv, rfl⟩

theorem read_lines_keeps_schema (lines : List (List Nat)) :
    ∀ st st3 : ReaderState, reader_invariant st →
      (∀ l ∈ lines, ¬ marker_line (line_text l)) → read_lines lines st = .ok st3 →
      reader_invariant st3 ∧ st3.input_columns = st.input_columns := by
  induction lines with
  | nil =>
    intro st st3 hinv _ h
    have : st3 = st := by
      have h2 : read_lines [] st = .ok st := rfl
      rw [h2] at h
      injection h with h
      exact h.symm
    subst this
    exact ⟨hinv, rfl⟩
  | cons l rest ih =>
    intro st st3 hinv hno h
    obtain ⟨st1, h1, h2⟩ := read_lines_cons_ok l rest st st3 h
    obtain ⟨hi1, hc1⟩ := process_line_keeps_schema st st1 l hinv
      (hno l (List.mem_cons_self _ _)) h1
    obtain ⟨hi3, hc3⟩ := ih st1 st3 hi1 (fun x hx => hno x (List.mem_cons_of_mem _ hx)) h2
    exact ⟨hi3, hc3.trans hc1⟩

theorem read_lines_invariant (lines : List (List Nat)) (st st3 : ReaderState)
    (hinv : reader_invariant st) (h : read_lines lines st = .ok st3) :
    reader_invariant st3 ∧ st.catalog.sources <+: st3.catalog.sources :=
  ⟨(read_lines_data_rows lines st st3 hinv h).1, (read_lines_data_rows lines st st3 hinv h).2.1⟩

/-- Counterexample to C35 as stated: `two_schema_file` has two comment lines
that hold name, id, ra and dec; the data row that follows them is read with
the columns of the second one (id, name), which gives the name 7 and the id
0, and not with those of the first one (name, id), which give the name A and
the id 7 when the second comment line is left out. -/
theorem second_schema_applied :
    file_lines two_schema_file
      = [ascii "# name id ra dec", ascii "# id name ra dec", ascii "\"A\" 7"] ∧
    marker_line (ascii "# name id ra dec") ∧ marker_line (ascii "# id name ra dec") ∧
    read_sofia_catalogue (ascii "cat.txt") (some two_schema_file) false
      = .ok { sources := [{ default_source 0 with name := ascii "7", id := 0 }],
              size := 1, capacity := 100, type := ascii "ASCII", filename := ascii "cat.txt" } ∧
    read_sofia_catalogue (ascii "cat.txt") (some first_schema_file) false
      = .ok { sources := [{ default_source 0 with name := ascii "A", id := 7 }],
              size := 1, capacity := 100, type := ascii "ASCII", filename := ascii "cat.txt" } := by
  have h1 : file_lines two_schema_file
      = [ascii "# name id ra dec", ascii "# id name ra dec", ascii "\"A\" 7"] := by decide!
  have h2 : marker_line (ascii "# name id ra dec") := by unfold marker_line; decide!
  have h3 : marker_line (ascii "# id name ra dec") := by unfold marker_line; decide!
  have h4 : read_sofia_catalogue (ascii "cat.txt") (some two_schema_file) false
      = .ok { sources := [{ default_source 0 with name := ascii "7", id := 0 }],
              size := 1, capacity := 100, type := ascii "ASCII",
              filename := ascii "cat.txt" } := by decide!
  have h5 : read_sofia_catalogue (ascii "cat.txt") (some first_schema_file) false
      = .ok { sources := [{ default_source 0 with name := ascii "A", id := 7 }],
              size := 1, capacity := 100, type := ascii "ASCII",
              filename := ascii "cat.txt" } := by decide!
  exact ⟨h1, h2, h3, h4, h5⟩

/-- C35, amended: in a catalogue file whose lines have at most 1023
characters and which the reader accepts, a data row is read with the columns
of the last comment line before it that holds name, id, ra and dec: when `m`
is such a line, no line of `mid` is one, and `row` begins with a double quote,
the reader reaches `row` in a state whose columns are those stored for `m`,
and the record of `row` is the one that `read_row` makes with these columns;
it stands in the returned catalogue at the index that the record count had
when `row` was reached. -/
theorem read_sofia_catalogue_schema (filename content : List Nat) (catalog : SofiaCatalog)
    (pre mid post : List (List Nat)) (m row : List Nat)
    (hlen : ∀ l ∈ file_lines content, l.length ≤ 1023)
    (hret : read_sofia_catalogue filename (some content) false = .ok catalog)
    (hlines : file_lines content = pre ++ m :: mid ++ row :: post)
    (hm : marker_line (line_text m))
    (hmid : ∀ l ∈ mid, ¬ marker_line (line_text l))
    (hrow : (string_trim (line_text row)).head? = some 34) :
    ∃ st st1 source,
      read_lines (pre ++ m :: mid) (initial_state filename) = .ok st ∧
      st.input_columns = some (stored_columns m) ∧
      st.col_count = (stored_columns m).length ∧
      process_line st row = .ok st1 ∧
      read_row st (stored_columns m) (string_trim (line_text row)) = .ok st1 ∧
      st1.catalog.sources = st.catalog.sources ++ [source] ∧
      catalog.sources[st.catalog.size]? = some source := by
  obtain ⟨st3, hr, hcat⟩ := read_sofia_catalogue_state filename content catalog hlen hret
  rw [hlines] at hr
  obtain ⟨st, hst, hrest⟩ := read_lines_append_ok _ _ _ _ hr
  obtain ⟨st0, hst0, hmmid⟩ := read_lines_append_ok _ _ _ _ hst
  obtain ⟨stm, hstm, hmidr⟩ := read_lines_cons_ok _ _ _ _ hmmid
  have hinv0 := (read_lines_invariant pre _ st0 (initial_state_invariant filename) hst0).1
  obtain ⟨stm2, hp, hinvm, _, hcols⟩ := process_line_stored_columns st0 m hinv0 hm
  rw [hp] at hstm
  injection hstm with hstm
  subst hstm
  obtain ⟨hinv, hkeep⟩ := read_lines_keeps_schema mid stm2 st hinvm hmid hmidr
  have hc : st.input_columns = some (stored_columns m) := hkeep.trans hcols
  obtain ⟨hpos, hcount⟩ := hinv.2.2.2 _ hc
  obtain ⟨st1, hrow1, hpost⟩ := read_lines_cons_ok _ _ _ _ hrest
  obtain ⟨hinv1, _, _, source, hsrc⟩ := step_data st st1 row hinv
    (by rw [hc]; rfl) hrow hrow1
  have hpre := (read_lines_invariant post st1 st3 hinv1 hpost).2
  refine ⟨st, st1, source, hst, hc, hcount, hrow1, ?_, hsrc, ?_⟩
  · rw [← process_line_data st _ row hc hpos hrow]
    exact hrow1
  · obtain ⟨t, ht⟩ := hpre
    rw [← hcat, ← ht, hsrc, ← hinv.1, List.append_assoc,
      List.getElem?_append_right (Nat.le_refl _)]
    simp

/-- Witness of C35, amended: in `two_schema_file` the data row follows the
second column header line, whose columns are id, name, ra and dec. -/
theorem read_sofia_catalogue_schema_witness :
    file_lines two_schema_file
      = [ascii "# name id ra dec"] ++ ascii "# id name ra dec" :: [] ++ ascii "\"A\" 7" :: [] ∧
    marker_line (line_text (ascii "# id name ra dec")) ∧
    stored_columns (ascii "# id name ra dec")
      = [ascii "id", ascii "name", ascii "ra", ascii "dec"] ∧
    ∃ st st1 source,
      read_lines ([ascii "# name id ra dec"] ++ ascii "# id name ra dec" :: [])
        (initial_state (ascii "cat.txt")) = .ok st ∧
      st.input_columns = some (stored_columns (ascii "# id name ra dec")) ∧
      st.col_count = (stored_columns (ascii "# id name ra dec")).length ∧
      process_line st (ascii "\"A\" 7") = .ok st1 ∧
      read_row st (stored_columns (ascii "# id name ra dec"))
        (string_trim (line_text (ascii "\"A\" 7"))) = .ok st1 ∧
      st1.catalog.sources = st.catalog.sources ++ [source] ∧
      ({ sources := [{ default_source 0 with name := ascii "7", id := 0 }],
         size := 1, capacity := 100, type := ascii "ASCII",
         filename := ascii "cat.txt" } : SofiaCatalog).sources[st.catalog.size]?
        = some source := by
  have hlines : file_lines two_schema_file
      = [ascii "# name id ra dec"] ++ ascii "# id name ra dec" :: []
        ++ ascii "\"A\" 7" :: [] := by decide!
  have hlen : ∀ l ∈ file_lines two_schema_file, l.length ≤ 1023 := by
    rw [hlines]
    decide
  have hret : read_sofia_catalogue (ascii "cat.txt") (some two_schema_file) false
      = .ok { sources := [{ default_source 0 with name := ascii "7", id := 0 }],
              size := 1, capacity := 100, type := ascii "ASCII",
              filename := ascii "cat.txt" } := by decide!
  have hm : marker_line (line_text (ascii "# id name ra dec")) := by
    unfold marker_line
    decide!
  exact ⟨hlines, hm, by decide!,
    read_sofia_catalogue_schema (ascii "cat.txt") two_schema_file _
      [ascii "# name id ra dec"] [] [] (ascii "# id name ra dec") (ascii "\"A\" 7")
      hlen hret hlines hm (fun l hl => by cases hl) (by decide!)⟩

/-! ## Theorems: the tokenizer loop ends (`read_sofia_catalogue`, lines 550-579) -/

/-- Examples for C38: a row whose quote is not closed gives the tokens behind
the quote, and a row of 101 fields gives 100 tokens. -/
theorem tokenize_row_examples :
    tokenize_row open_quote_row = [ascii "NGC", ascii "1", ascii "2.5"] ∧
    tokenize_loop 1000 open_quote_row [] = tokenize_row open_quote_row ∧
    (tokenize_row long_row).length = 100 := by
  refine ⟨by decide!, by decide!, by decide!⟩

theorem load_buffers_eq (fuel : Nat) :
    ∀ stream : List Nat, load_buffers fuel stream = fgets_lines fuel stream := by
  induction fuel with
  | zero => intro stream; rfl
  | succ fuel ih =>
    intro stream
    unfold load_buffers fgets_lines
    have h : PARAMETER_MAX_LINE_SIZE = MAX_LINE_LENGTH := rfl
    rw [h]
    rcases fgets MAX_LINE_LENGTH stream with _ | ⟨line, rest⟩
    · rfl
    · simp only [ih]

theorem file_lines_clean (content : List Nat) : ∀ l ∈ file_lines content, ∀ c ∈ l, c ≠ 10 := by
  have h : ∀ (s acc : List Nat), (∀ c ∈ acc, c ≠ 10) →
      ∀ l ∈ split_lines s acc, ∀ c ∈ l, c ≠ 10 := by
    intro s
    induction s with
    | nil =>
      intro acc hacc l hl
      unfold split_lines at hl
      split at hl
      · cases hl
      · rw [List.mem_singleton] at hl
        subst hl
        exact hacc
    | cons x xs ih =>
      intro acc hacc l hl
      unfold split_lines at hl
      by_cases hx : x = 10
      · rw [if_pos hx] at hl
        rcases List.mem_cons.1 hl with rfl | hl
        · exact hacc
        · exact ih [] (fun c hc => by cases hc) l hl
      · rw [if_neg hx] at hl
        refine ih (acc ++ [x]) (fun c hc => ?_) l hl
        rcases List.mem_append.1 hc with hc | hc
        · exact hacc c hc
        · rw [List.mem_singleton] at hc
          subst hc
          exact hx
  exact h content [] (fun c hc => by cases hc)

theorem fgets_lines_short (fuel : Nat) :
    ∀ content : List Nat, content.length ≤ fuel →
      (∀ l ∈ file_lines content, l.length ≤ 1022) →
      (fgets_lines fuel content).map (List.takeWhile (· ≠ 10)) = file_lines content := by
  induction fuel with
  | zero =>
    intro content hlen _
    have : content = [] := List.length_eq_zero.1 (by omega)
    subst this
    rfl
  | succ fuel ih =>
    intro content hlen hl
    rcases hc : content with _ | ⟨c, rest⟩
    · rfl
    rw [← hc]
    have hne : content ≠ [] := by rw [hc]; simp
    have hsplit := split_lines_eq content []
    have hadd := takeWhile_length_add (· ≠ 10) content
    have hcat := List.takeWhile_append_dropWhile (· ≠ 10) content
    unfold fgets_lines fgets
    simp only [if_neg hne, MAX_LINE_LENGTH]
    unfold file_lines at hl ⊢
    by_cases hd : content.dropWhile (· ≠ 10) = []
    · rw [hd, List.append_nil] at hcat
      rw [hsplit, if_pos hd, List.nil_append, if_neg hne] at hl ⊢
      have h23 : content.length ≤ 1022 := hl content (List.mem_singleton.2 rfl)
      rw [hcat]
      rw [List.take_of_length_le (by omega), List.drop_of_length_le (by omega),
        fgets_lines_nil]
      simp only [List.map_cons, List.map_nil, hcat]
    · rw [hsplit, if_neg hd, List.nil_append] at hl ⊢
      have h23 : (content.takeWhile (· ≠ 10)).length ≤ 1022 :=
        hl _ (List.mem_cons_self _ _)
      obtain ⟨x, r, hxr⟩ := List.exists_cons_of_ne_nil hd
      have hx : x = 10 := by simpa using dropWhile_head_false _ _ _ _ hxr
      subst hx
      have htwtw : (content.takeWhile (· ≠ 10) ++ [10]).takeWhile (· ≠ 10)
          = content.takeWhile (· ≠ 10) := by
        rw [takeWhile_append_stop _ _ 10 [] (by simp), takeWhile_idem]
      obtain ⟨tw, htw⟩ : ∃ tw, tw = content.takeWhile (· ≠ 10) := ⟨_, rfl⟩
      rw [← htw] at hcat hadd h23 hl htwtw ⊢
      rw [hxr] at hcat hadd hl ⊢
      simp only [List.drop_one, List.tail_cons, List.length_cons] at hl hadd ⊢
      have hlr : ∀ l ∈ file_lines r, l.length ≤ 1022 :=
        fun l hl2 => hl l (List.mem_cons_of_mem _ hl2)
      have hmin : min (1024 - 1) (tw.length + 1) = tw.length + 1 := by omega
      rw [hmin]
      have htake : content.take (tw.length + 1) = tw ++ [10] := by
        rw [← hcat, List.take_append_eq_append_take, List.take_of_length_le (by omega)]
        simp
      have hdrop : content.drop (tw.length + 1) = r := by
        rw [← hcat, List.drop_append_eq_append_drop, List.drop_of_length_le (by omega)]
        simp
      rw [htake, hdrop]
      simp only [List.map_cons]
      rw [htwtw, ih r (by omega) hlr]
      rfl

theorem load_line_takeWhile (st : LoadState) (buffer : List Nat) :
    load_line st (buffer.takeWhile (· ≠ 10)) = load_line st buffer := by
  unfold load_line
  rw [text_takeWhile]

theorem load_lines_map (bs : List (List Nat)) :
    ∀ st, load_lines (bs.map (List.takeWhile (· ≠ 10))) st = load_lines bs st := by
  induction bs with
  | nil => intro st; rfl
  | cons b rest ih =>
    intro st
    show load_lines (rest.map (List.takeWhile (· ≠ 10))) (load_line st (b.takeWhile (· ≠ 10)))
      = load_lines rest (load_line st b)
    rw [load_line_takeWhile, ih]

theorem load_lines_file (content : List Nat) (st : LoadState)
    (hlen : ∀ l ∈ file_lines content, l.length ≤ 1022) :
    load_lines (load_buffers content.length content) st = load_lines (file_lines content) st := by
  rw [load_buffers_eq, ← load_lines_map, fgets_lines_short _ content (Nat.le_refl _) hlen]

theorem load_lines_append (a b : List (List Nat)) :
    ∀ st, load_lines (a ++ b) st = load_lines b (load_lines a st) := by
  induction a with
  | nil => intro st; rfl
  | cons x rest ih =>
    intro st
    show load_lines (rest ++ b) (load_line st x) = load_lines b (load_lines rest (load_line st x))
    exact ih _

theorem Parameter_load_lines (self : Parameter) (content : List Nat)
    (hlen : ∀ l ∈ file_lines content, l.length ≤ 1022) :
    Parameter_load self true (some content)
      = .ok (Parameter_set_defaults
          (load_lines (file_lines content) { store := self, counter := 0, counter2 := 0 }).store) := by
  unfold Parameter_load
  simp only [not_true_eq_false, if_false]
  rw [load_lines_file content _ hlen]

theorem takeWhile_append_of_stop (p : Nat → Bool) (a b : List Nat)
    (h : ∃ x ∈ a, p x = false) : (a ++ b).takeWhile p = a.takeWhile p := by
  induction a with
  | nil => obtain ⟨x, hx, _⟩ := h; cases hx
  | cons y ys ih =>
    rw [List.cons_append]
    unfold List.takeWhile
    rcases hy : p y with _ | _
    · rfl
    · simp only []
      congr 1
      apply ih
      obtain ⟨x, hx, hpx⟩ := h
      rcases List.mem_cons.1 hx with rfl | hx
      · rw [hy] at hpx
        cases hpx
      · exact ⟨x, hx, hpx⟩

theorem dropWhile_append_of_stop (p : Nat → Bool) (a b : List Nat)
    (h : ∃ x ∈ a, p x = false) : (a ++ b).dropWhile p = a.dropWhile p ++ b := by
  induction a with
  | nil => obtain ⟨x, hx, _⟩ := h; cases hx
  | cons y ys ih =>
    rw [List.cons_append]
    unfold List.dropWhile
    rcases hy : p y with _ | _
    · rfl
    · simp only []
      apply ih
      obtain ⟨x, hx, hpx⟩ := h
      rcases List.mem_cons.1 hx with rfl | hx
      · rw [hy] at hpx
        cases hpx
      · exact ⟨x, hx, hpx⟩

theorem dropWhile_append_all (p : Nat → Bool) (a b : List Nat) (h : ∀ x ∈ a, p x = true) :
    (a ++ b).dropWhile p = b.dropWhile p := by
  induction a with
  | nil => rfl
  | cons y ys ih =>
    rw [List.cons_append, List.dropWhile_cons_of_pos (h y (List.mem_cons_self _ _))]
    exact ih (fun x hx => h x (List.mem_cons_of_mem _ hx))

theorem rstrip_append_space (b trail : List Nat) (h : ∀ c ∈ trail, is_trim_space c = true) :
    ((b ++ trail).reverse.dropWhile is_trim_space).reverse
      = (b.reverse.dropWhile is_trim_space).reverse := by
  rw [List.reverse_append, dropWhile_append_all _ _ _ (fun x hx => h x (List.mem_reverse.1 hx))]

theorem rstrip_split (r : List Nat) :
    ∃ trail, r = (r.reverse.dropWhile is_trim_space).reverse ++ trail ∧
      ∀ c ∈ trail, is_trim_space c = true := by
  refine ⟨(r.reverse.takeWhile is_trim_space).reverse, ?_, ?_⟩
  · have h := List.takeWhile_append_dropWhile is_trim_space r.reverse
    have h2 := congrArg List.reverse h
    rw [List.reverse_append, List.reverse_reverse] at h2
    exact h2.symm
  · intro c hc
    exact List.mem_takeWhile_imp (List.mem_reverse.1 hc)

theorem dropWhile_eq_nil_all (p : Nat → Bool) (l : List Nat) (h : l.dropWhile p = []) :
    ∀ x ∈ l, p x = true := by
  intro x hx
  have := List.dropWhile_eq_nil_iff.1 h x hx
  exact this

theorem string_trim_append_space (v trail : List Nat)
    (h : ∀ c ∈ trail, is_trim_space c = true) : string_trim (v ++ trail) = string_trim v := by
  unfold string_trim
  rcases hv : v.dropWhile is_trim_space with _ | ⟨x, b⟩
  · rw [dropWhile_append_all _ _ _ (dropWhile_eq_nil_all _ _ hv),
      List.dropWhile_eq_nil_iff.2 (fun c hc => h c hc)]
  · have hx : is_trim_space x = false := dropWhile_head_false _ _ _ _ hv
    have hstop : ∃ y ∈ v, is_trim_space y = false := by
      refine ⟨x, ?_, hx⟩
      have : x ∈ v.dropWhile is_trim_space := by rw [hv]; exact List.mem_cons_self _ _
      exact (List.dropWhile_sublist _).subset this
    rw [dropWhile_append_of_stop _ _ _ hstop, hv, List.cons_append]
    show x :: ((b ++ trail).reverse.dropWhile is_trim_space).reverse
      = x :: (b.reverse.dropWhile is_trim_space).reverse
    rw [rstrip_append_space b trail h]

theorem text_split (t : List Nat) :
    ∃ trail, t = (t.takeWhile is_trim_space ++ string_trim t) ++ trail ∧
      ∀ c ∈ trail, is_trim_space c = true := by
  have h := List.takeWhile_append_dropWhile is_trim_space t
  unfold string_trim
  rcases hb : t.dropWhile is_trim_space with _ | ⟨x, r⟩
  · refine ⟨[], ?_, fun c hc => by cases hc⟩
    rw [hb] at h
    simp only [trim_trailing, List.append_nil] at h ⊢
    exact h.symm
  · obtain ⟨trail, hr, htrail⟩ := rstrip_split r
    refine ⟨trail, ?_, htrail⟩
    rw [hb] at h
    unfold trim_trailing
    rw [List.append_assoc, List.cons_append, ← hr]
    exact h.symm

theorem entry_core (t : List Nat) (hclean : ∀ c ∈ t, c ≠ 0) (h61 : 61 ∈ t) :
    ∃ n, strchr (t.takeWhile is_trim_space ++ string_trim t) 61 = some n ∧
      (t.takeWhile is_trim_space ++ string_trim t).take n = text_before 61 t ∧
      string_trim ((t.takeWhile is_trim_space ++ string_trim t).drop (n + 1))
        = string_trim (text_after 61 t) := by
  obtain ⟨trail, hsplit, htrail⟩ := text_split t
  obtain ⟨kept, hkept⟩ : ∃ kept, kept = t.takeWhile is_trim_space ++ string_trim t := ⟨_, rfl⟩
  rw [← hkept] at hsplit ⊢
  have hk61 : 61 ∈ kept := by
    rw [hsplit] at h61
    rcases List.mem_append.1 h61 with h | h
    · exact h
    · have := htrail 61 h
      exact absurd this (by decide)
  have hkclean : ∀ x ∈ kept, x ≠ 0 := by
    intro x hx
    apply hclean
    rw [hsplit]
    exact List.mem_append_left _ hx
  have hstop : ∃ x ∈ kept, (fun c => decide (c ≠ 61)) x = false := ⟨61, hk61, by simp⟩
  have hbefore : text_before 61 t = text_before 61 kept := by
    unfold text_before
    conv_lhs => rw [hsplit]
    exact takeWhile_append_of_stop _ _ _ hstop
  have hafter : text_after 61 t = text_after 61 kept ++ trail := by
    unfold text_after
    conv_lhs => rw [hsplit]
    rw [dropWhile_append_of_stop _ _ _ hstop]
    rcases hd : kept.dropWhile (fun c => decide (c ≠ 61)) with _ | ⟨y, r⟩
    · exfalso
      have := dropWhile_eq_nil_all _ _ hd 61 hk61
      simp at this
    · rfl
  refine ⟨(text_before 61 kept).length, ?_, ?_, ?_⟩
  · rw [strchr_eq kept 61 hkclean, if_pos hk61]
  · rw [hbefore]
    unfold text_before
    exact take_length_takeWhile _ _
  · rw [hafter, string_trim_append_space _ _ htrail]
    unfold text_after text_before
    rw [← List.drop_drop, drop_length_takeWhile]

theorem load_line_blank (st : LoadState) (l : List Nat) (h : blank_line l) :
    load_line st l
      = { st with
          store := Parameter_set st.store (ascii "EMPTY" ++ decimal_int st.counter) (kept_text l),
          counter := long_to_int (st.counter + 1) } := by
  unfold blank_line line_text at h
  unfold load_line
  simp only []
  rw [if_pos (by rw [h]; rfl)]
  rfl

theorem load_line_comment (st : LoadState) (l : List Nat) (h : comment_line l) :
    load_line st l
      = { st with
          store := Parameter_set st.store (ascii "HASH" ++ decimal_int st.counter2) (kept_text l),
          counter2 := long_to_int (st.counter2 + 1) } := by
  unfold comment_line line_text at h
  unfold load_line
  simp only []
  rcases hs : string_trim (l.takeWhile (fun c => decide (c ≠ 0 ∧ c ≠ 10))) with _ | ⟨x, r⟩
  · rw [hs] at h
    cases h
  · rw [hs] at h
    simp only [List.head?_cons, Option.some.injEq] at h
    subst h
    rw [if_neg (by simp), if_pos (by rfl)]
    unfold kept_text line_text
    rw [hs]

theorem load_line_entry (st : LoadState) (l : List Nat) (h : entry_line l) :
    load_line st l
      = { st with store := Parameter_set st.store (entry_key l) (entry_value l) } := by
  obtain ⟨hb, hc, h61⟩ := h
  obtain ⟨n, h1, h2, h3⟩ := entry_core (line_text l) (fun c hc => (line_text_clean l c hc).1) h61
  unfold entry_key entry_value
  rw [← h2, ← h3]
  unfold blank_line at hb
  unfold comment_line at hc
  unfold line_text at h1 hb hc ⊢
  unfold load_line
  simp only []
  rcases hs : string_trim (l.takeWhile (fun c => decide (c ≠ 0 ∧ c ≠ 10))) with _ | ⟨x, r⟩
  · exact absurd hs hb
  · rw [hs] at hc h1
    have hx : x ≠ 35 := by
      intro hx
      apply hc
      rw [hx]
      rfl
    rw [if_neg (by simp), if_neg (by simpa [char_at] using hx), h1]

theorem load_line_other (st : LoadState) (l : List Nat) (hb : ¬ blank_line l)
    (hc : ¬ comment_line l) (h61 : 61 ∉ line_text l) : load_line st l = st := by
  obtain ⟨trail, hsplit, _⟩ := text_split (line_text l)
  have hk : 61 ∉ (line_text l).takeWhile is_trim_space ++ string_trim (line_text l) := by
    intro hm
    apply h61
    rw [hsplit]
    exact List.mem_append_left _ hm
  have h1 := strchr_none _ 61 (fun x hx hx61 => hk (hx61 ▸ hx))
  unfold blank_line at hb
  unfold comment_line at hc
  unfold line_text at h1 hb hc
  unfold load_line
  simp only []
  rcases hs : string_trim (l.takeWhile (fun c => decide (c ≠ 0 ∧ c ≠ 10))) with _ | ⟨x, r⟩
  · exact absurd hs hb
  · rw [hs] at hc h1
    have hx : x ≠ 35 := by
      intro hx
      apply hc
      rw [hx]
      rfl
    rw [if_neg (by simp), if_neg (by simpa [char_at] using hx), h1]

theorem decimal_injective (a b : Nat) (h : decimal a = decimal b) : a = b := by
  have ha := (decimal_spec a).2.2.1
  have hb := (decimal_spec b).2.2.1
  rw [h] at ha
  exact ha.symm.trans hb

theorem empty_key_injective (a b : Nat) (h : empty_key a = empty_key b) : a = b :=
  decimal_injective a b (List.append_cancel_left h)

theorem hash_key_injective (a b : Nat) (h : hash_key a = hash_key b) : a = b :=
  decimal_injective a b (List.append_cancel_left h)

theorem is_empty_key_empty (i : Nat) : is_empty_key (empty_key i) = true := by
  unfold is_empty_key empty_key
  rw [List.isPrefixOf_iff_prefix]
  exact List.prefix_append _ _

theorem is_hash_key_hash (i : Nat) : is_hash_key (hash_key i) = true := by
  unfold is_hash_key hash_key
  rw [List.isPrefixOf_iff_prefix]
  exact List.prefix_append _ _

theorem is_hash_key_empty (i : Nat) : is_hash_key (empty_key i) = false := rfl

theorem is_empty_key_hash (i : Nat) : is_empty_key (hash_key i) = false := rfl

theorem lower_key_foreign (k : List Nat) (h : lower_key k) :
    is_empty_key k = false ∧ is_hash_key k = false := by
  rcases k with _ | ⟨c, r⟩
  · exact ⟨rfl, rfl⟩
  · have hc := h c (List.mem_cons_self _ _)
    have h69 : c ≠ 69 := by omega
    have h72 : c ≠ 72 := by omega
    constructor
    · show (List.isPrefixOf (69 :: _) (c :: r)) = false
      unfold List.isPrefixOf
      simp [Ne.symm h69]
    · show (List.isPrefixOf (72 :: _) (c :: r)) = false
      unfold List.isPrefixOf
      simp [Ne.symm h72]

theorem required_foreign : ∀ k ∈ required, is_empty_key k = false ∧ is_hash_key k = false := by
  decide

theorem entry_key_lower (l : List Nat) : lower_key (entry_key l) := by
  intro c hc
  unfold entry_key at hc
  obtain ⟨x, _, hx⟩ := List.mem_map.1 hc
  unfold tolower at hx
  split at hx <;> omega

theorem placeholder_set_foreign (s : Parameter) (B C : List (List Nat)) (k v : List Nat)
    (h : placeholder_invariant s B C) (he : is_empty_key k = false)
    (hh : is_hash_key k = false) : placeholder_invariant (Parameter_set s k v) B C := by
  obtain ⟨hwf, h1, h2, h3, h4⟩ := h
  have hkeys := set_keys s k v hwf
  refine ⟨set_well_formed s k v hwf, ?_, ?_, ?_, ?_⟩
  · rw [hkeys]
    split
    · exact h1
    · rw [List.filter_append, h1]
      simp [List.filter, he]
  · rw [hkeys]
    split
    · exact h2
    · rw [List.filter_append, h2]
      simp [List.filter, hh]
  · intro i l hl
    rw [get_str_set s k v _ hwf, if_neg, h3 i l hl]
    intro hc
    rw [← hc, is_empty_key_empty] at he
    cases he
  · intro j l hl
    rw [get_str_set s k v _ hwf, if_neg, h4 j l hl]
    intro hc
    rw [← hc, is_hash_key_hash] at hh
    cases hh

theorem placeholder_set_empty (s : Parameter) (B C : List (List Nat)) (l : List Nat)
    (h : placeholder_invariant s B C) :
    placeholder_invariant (Parameter_set s (empty_key B.length) (kept_text l)) (B ++ [l]) C := by
  obtain ⟨hwf, h1, h2, h3, h4⟩ := h
  have hkeys := set_keys s (empty_key B.length) (kept_text l) hwf
  have hnew : empty_key B.length ∉ s.keys := by
    intro hm
    have hf : empty_key B.length ∈ s.keys.filter is_empty_key :=
      List.mem_filter.2 ⟨hm, is_empty_key_empty _⟩
    rw [h1] at hf
    obtain ⟨i, hi, hie⟩ := List.mem_map.1 hf
    have := empty_key_injective _ _ hie
    rw [List.mem_range] at hi
    omega
  rw [if_neg hnew] at hkeys
  refine ⟨set_well_formed s _ _ hwf, ?_, ?_, ?_, ?_⟩
  · rw [hkeys, List.filter_append, h1, List.length_append, List.length_singleton,
      List.range_succ, List.map_append]
    simp [List.filter, is_empty_key_empty]
  · rw [hkeys, List.filter_append, h2]
    simp [List.filter, is_hash_key_empty]
  · intro i l2 hl
    rw [get_str_set s _ _ _ hwf]
    by_cases hi : i < B.length
    · rw [List.getElem?_append_left hi] at hl
      rw [if_neg (fun hc => by have := empty_key_injective _ _ hc; omega), h3 i l2 hl]
    · by_cases hi2 : i = B.length
      · subst hi2
        rw [List.getElem?_append_right (Nat.le_refl _)] at hl
        simp only [Nat.sub_self, List.getElem?_cons_zero, Option.some.injEq] at hl
        subst hl
        rw [if_pos rfl]
      · rw [List.getElem?_eq_none (by rw [List.length_append, List.length_singleton]; omega)]
          at hl
        cases hl
  · intro j l2 hl
    rw [get_str_set s _ _ _ hwf, if_neg, h4 j l2 hl]
    intro hc
    have := is_hash_key_hash j
    rw [hc, is_hash_key_empty] at this
    cases this

theorem placeholder_set_hash (s : Parameter) (B C : List (List Nat)) (l : List Nat)
    (h : placeholder_invariant s B C) :
    placeholder_invariant (Parameter_set s (hash_key C.length) (kept_text l)) B (C ++ [l]) := by
  obtain ⟨hwf, h1, h2, h3, h4⟩ := h
  have hkeys := set_keys s (hash_key C.length) (kept_text l) hwf
  have hnew : hash_key C.length ∉ s.keys := by
    intro hm
    have hf : hash_key C.length ∈ s.keys.filter is_hash_key :=
      List.mem_filter.2 ⟨hm, is_hash_key_hash _⟩
    rw [h2] at hf
    obtain ⟨i, hi, hie⟩ := List.mem_map.1 hf
    have := hash_key_injective _ _ hie
    rw [List.mem_range] at hi
    omega
  rw [if_neg hnew] at hkeys
  refine ⟨set_well_formed s _ _ hwf, ?_, ?_, ?_, ?_⟩
  · rw [hkeys, List.filter_append, h1]
    simp [List.filter, is_empty_key_hash]
  · rw [hkeys, List.filter_append, h2, List.length_append, List.length_singleton,
      List.range_succ, List.map_append]
    simp [List.filter, is_hash_key_hash]
  · intro i l2 hl
    rw [get_str_set s _ _ _ hwf, if_neg, h3 i l2 hl]
    intro hc
    have := is_empty_key_empty i
    rw [hc, is_empty_key_hash] at this
    cases this
  · intro j l2 hl
    rw [get_str_set s _ _ _ hwf]
    by_cases hj : j < C.length
    · rw [List.getElem?_append_left hj] at hl
      rw [if_neg (fun hc => by have := hash_key_injective _ _ hc; omega), h4 j l2 hl]
    · by_cases hj2 : j = C.length
      · subst hj2
        rw [List.getElem?_append_right (Nat.le_refl _)] at hl
        simp only [Nat.sub_self, List.getElem?_cons_zero, Option.some.injEq] at hl
        subst hl
        rw [if_pos rfl]
      · rw [List.getElem?_eq_none (by rw [List.length_append, List.length_singleton]; omega)]
          at hl
        cases hl

theorem placeholder_set_defaults (ks : List (List Nat)) :
    ∀ (s : Parameter) (B C : List (List Nat)), placeholder_invariant s B C →
      (∀ k ∈ ks, is_empty_key k = false ∧ is_hash_key k = false) →
      placeholder_invariant (set_defaults_loop ks s) B C := by
  induction ks with
  | nil => intro s B C h _; exact h
  | cons k rest ih =>
    intro s B C h hk
    unfold set_defaults_loop
    apply ih _ B C _ (fun x hx => hk x (List.mem_cons_of_mem _ hx))
    split
    · exact placeholder_set_foreign s B C k _ h (hk k (List.mem_cons_self _ _)).1
        (hk k (List.mem_cons_self _ _)).2
    · exact h

theorem decimal_int_nat (n : Nat) : decimal_int (n : Int) = decimal n := by
  unfold decimal_int
  rw [if_neg (by omega), Int.toNat_ofNat]

theorem line_cases (l : List Nat) :
    blank_line l ∨ (¬ blank_line l ∧ comment_line l) ∨ entry_line l
      ∨ (¬ blank_line l ∧ ¬ comment_line l ∧ 61 ∉ line_text l) := by
  unfold entry_line
  by_cases h1 : blank_line l
  · exact Or.inl h1
  · by_cases h2 : comment_line l
    · exact Or.inr (Or.inl ⟨h1, h2⟩)
    · by_cases h3 : 61 ∈ line_text l
      · exact Or.inr (Or.inr (Or.inl ⟨h1, h2, h3⟩))
      · exact Or.inr (Or.inr (Or.inr ⟨h1, h2, h3⟩))

theorem blank_not_comment (l : List Nat) (h : blank_line l) : ¬ comment_line l := by
  unfold blank_line at h
  unfold comment_line
  rw [h]
  intro hc
  cases hc

theorem load_lines_placeholders (lines : List (List Nat)) :
    ∀ (st : LoadState) (B C : List (List Nat)), placeholder_invariant st.store B C →
      st.counter = (B.length : Int) → st.counter2 = (C.length : Int) →
      B.length + lines.length < 2147483648 → C.length + lines.length < 2147483648 →
      placeholder_invariant (load_lines lines st).store (B ++ blank_lines lines)
        (C ++ comment_lines lines) := by
  induction lines with
  | nil =>
    intro st B C h _ _ _ _
    unfold blank_lines comment_lines
    simp only [List.filter_nil, List.append_nil]
    exact h
  | cons l rest ih =>
    intro st B C h hb hc hbl hcl
    simp only [List.length_cons] at hbl hcl
    show placeholder_invariant (load_lines rest (load_line st l)).store _ _
    rcases line_cases l with h1 | ⟨h1, h2⟩ | h3 | ⟨h1, h2, h3⟩
    · have hnc := blank_not_comment l h1
      have hB : blank_lines (l :: rest) = l :: blank_lines rest := by
        unfold blank_lines
        rw [List.filter_cons_of_pos (by simpa using h1)]
      have hC : comment_lines (l :: rest) = comment_lines rest := by
        unfold comment_lines
        rw [List.filter_cons_of_neg (by simpa using hnc)]
      rw [hB, hC, load_line_blank st l h1, hb, decimal_int_nat,
        long_to_int_small _ (by omega) (by omega)]
      have := ih { st with
          store := Parameter_set st.store (ascii "EMPTY" ++ decimal B.length) (kept_text l),
          counter := (B.length : Int) + 1 } (B ++ [l]) C
        (placeholder_set_empty st.store B C l h)
        (by simp) hc (by simp only [List.length_append, List.length_singleton]; omega) (by omega)
      rw [List.append_assoc] at this
      exact this
    · have hB : blank_lines (l :: rest) = blank_lines rest := by
        unfold blank_lines
        rw [List.filter_cons_of_neg (by simpa using h1)]
      have hC : comment_lines (l :: rest) = l :: comment_lines rest := by
        unfold comment_lines
        rw [List.filter_cons_of_pos (by simpa using h2)]
      rw [hB, hC, load_line_comment st l h2, hc, decimal_int_nat,
        long_to_int_small _ (by omega) (by omega)]
      have := ih { st with
          store := Parameter_set st.store (ascii "HASH" ++ decimal C.length) (kept_text l),
          counter2 := (C.length : Int) + 1 } B (C ++ [l])
        (placeholder_set_hash st.store B C l h)
        hb (by simp) (by omega) (by simp only [List.length_append, List.length_singleton]; omega)
      rw [List.append_assoc] at this
      exact this
    · have hB : blank_lines (l :: rest) = blank_lines rest := by
        unfold blank_lines
        rw [List.filter_cons_of_neg (by simpa using h3.1)]
      have hC : comment_lines (l :: rest) = comment_lines rest := by
        unfold comment_lines
        rw [List.filter_cons_of_neg (by simpa using h3.2.1)]
      rw [hB, hC, load_line_entry st l h3]
      obtain ⟨hf1, hf2⟩ := lower_key_foreign _ (entry_key_lower l)
      exact ih _ B C (placeholder_set_foreign st.store B C _ _ h hf1 hf2) hb hc (by omega)
        (by omega)
    · have hB : blank_lines (l :: rest) = blank_lines rest := by
        unfold blank_lines
        rw [List.filter_cons_of_neg (by simpa using h1)]
      have hC : comment_lines (l :: rest) = comment_lines rest := by
        unfold comment_lines
        rw [List.filter_cons_of_neg (by simpa using h2)]
      rw [hB, hC, load_line_other st l h1 h2 h3]
      exact ih st B C h hb hc (by omega) (by omega)

theorem placeholder_invariant_new : placeholder_invariant Parameter_new [] [] := by
  refine ⟨⟨rfl, rfl⟩, rfl, rfl, fun i l h => ?_, fun j l h => ?_⟩
  · cases h
  · cases h

/-- Counterexample to C32 as stated: `long_blank_file` has one line, a blank
line of 1030 spaces, and no comment line, but the loaded store holds the two
placeholders EMPTY0 and EMPTY1, the first for the first 1023 spaces and the
second for the rest; `full_line_file` has one line of 1023 letters and no
blank line, but the loaded store holds the placeholder EMPTY0. -/
theorem long_blank_placeholders :
    file_lines long_blank_file = [List.replicate 1030 32] ∧
    blank_lines (file_lines long_blank_file) = [List.replicate 1030 32] ∧
    (∃ result, Parameter_load Parameter_new true (some long_blank_file) = .ok result ∧
      result.keys.filter is_empty_key = [empty_key 0, empty_key 1] ∧
      Parameter_get_str result (empty_key 0) = List.replicate 1023 32 ∧
      Parameter_get_str result (empty_key 1) = List.replicate 7 32) ∧
    file_lines full_line_file = [List.replicate 1023 97] ∧
    blank_lines (file_lines full_line_file) = [] ∧
    (∃ result, Parameter_load Parameter_new true (some full_line_file) = .ok result ∧
      result.keys.filter is_empty_key = [empty_key 0]) := by
  have h1 : file_lines long_blank_file = [List.replicate 1030 32] := by decide!
  have h2 : blank_lines [List.replicate 1030 32] = [List.replicate 1030 32] := by decide!
  have h3 : ((Parameter_load Parameter_new true (some long_blank_file)).toOption.map
      (fun result => (result.keys.filter is_empty_key,
        Parameter_get_str result (empty_key 0), Parameter_get_str result (empty_key 1))))
      = some ([empty_key 0, empty_key 1], List.replicate 1023 32, List.replicate 7 32) := by
    decide!
  have h4 : file_lines full_line_file = [List.replicate 1023 97] := by decide!
  have h5 : blank_lines [List.replicate 1023 97] = [] := by decide!
  have h6 : ((Parameter_load Parameter_new true (some full_line_file)).toOption.map
      (fun result => result.keys.filter is_empty_key)) = some [empty_key 0] := by decide!
  refine ⟨h1, by rw [h1]; exact h2, ?_, h4, by rw [h4]; exact h5, ?_⟩
  · rcases hr : Parameter_load Parameter_new true (some long_blank_file) with e | result
    · rw [hr] at h3
      cases h3
    · rw [hr] at h3
      simp only [Except.toOption, Option.map_some', Option.some.injEq, Prod.mk.injEq] at h3
      exact ⟨result, rfl, h3.1, h3.2.1, h3.2.2⟩
  · rcases hr : Parameter_load Parameter_new true (some full_line_file) with e | result
    · rw [hr] at h6
      cases h6
    · rw [hr] at h6
      simp only [Except.toOption, Option.map_some', Option.some.injEq] at h6
      exact ⟨result, rfl, h6⟩

/-- C32, amended: after loading a parameter file of fewer than 2^31 lines,
each of at most 1022 characters, with b blank lines and c comment lines into
an empty store, the keys of the store that begin with EMPTY are
EMPTY0..EMPTY(b-1) in this order and those that begin with HASH are
HASH0..HASH(c-1) in this order; the value of EMPTYi is the text of the i-th
blank line and the value of HASHj the text of the j-th comment line without
its trailing white space; the key of a key=value line is none of these
keys. -/
theorem parameter_load_placeholders (content : List Nat)
    (hlen : ∀ l ∈ file_lines content, l.length ≤ 1022)
    (hcount : (file_lines content).length < 2147483648) :
    ∃ result, Parameter_load Parameter_new true (some content) = .ok result ∧
      result.keys.filter is_empty_key
        = (List.range (blank_lines (file_lines content)).length).map empty_key ∧
      result.keys.filter is_hash_key
        = (List.range (comment_lines (file_lines content)).length).map hash_key ∧
      (∀ i l, (blank_lines (file_lines content))[i]? = some l →
        Parameter_get_str result (empty_key i) = kept_text l) ∧
      (∀ j l, (comment_lines (file_lines content))[j]? = some l →
        Parameter_get_str result (hash_key j) = kept_text l) ∧
      (∀ l i, entry_line l → entry_key l ≠ empty_key i ∧ entry_key l ≠ hash_key i) := by
  have h := load_lines_placeholders (file_lines content)
    { store := Parameter_new, counter := 0, counter2 := 0 } [] [] placeholder_invariant_new
    rfl rfl (by simpa using hcount) (by simpa using hcount)
  rw [List.nil_append, List.nil_append] at h
  obtain ⟨_, h1, h2, h3, h4⟩ := placeholder_set_defaults required _ _ _ h required_foreign
  refine ⟨_, Parameter_load_lines Parameter_new content hlen, h1, h2, h3, h4, ?_⟩
  intro l i _
  obtain ⟨hf1, hf2⟩ := lower_key_foreign _ (entry_key_lower l)
  constructor
  · intro hc
    rw [hc, is_empty_key_empty] at hf1
    cases hf1
  · intro hc
    rw [hc, is_hash_key_hash] at hf2
    cases hf2

/-- Witness of C32, amended: `sample_parameter_file` has two blank lines and
one comment line. -/
theorem parameter_load_placeholders_witness :
    (∀ l ∈ file_lines sample_parameter_file, l.length ≤ 1022) ∧
    (file_lines sample_parameter_file).length < 2147483648 ∧
    blank_lines (file_lines sample_parameter_file) = [[], ascii "  "] ∧
    comment_lines (file_lines sample_parameter_file) = [ascii "# c = d"] ∧
    ∃ result, Parameter_load Parameter_new true (some sample_parameter_file) = .ok result ∧
      result.keys.filter is_empty_key
        = (List.range (blank_lines (file_lines sample_parameter_file)).length).map empty_key ∧
      result.keys.filter is_hash_key
        = (List.range (comment_lines (file_lines sample_parameter_file)).length).map hash_key ∧
      (∀ i l, (blank_lines (file_lines sample_parameter_file))[i]? = some l →
        Parameter_get_str result (empty_key i) = kept_text l) ∧
      (∀ j l, (comment_lines (file_lines sample_parameter_file))[j]? = some l →
        Parameter_get_str result (hash_key j) = kept_text l) ∧
      (∀ l i, entry_line l → entry_key l ≠ empty_key i ∧ entry_key l ≠ hash_key i) := by
  have hlen : ∀ l ∈ file_lines sample_parameter_file, l.length ≤ 1022 := by decide!
  have hcount : (file_lines sample_parameter_file).length < 2147483648 := by decide!
  exact ⟨hlen, hcount, by decide!, by decide!,
    parameter_load_placeholders sample_parameter_file hlen hcount⟩

theorem set_keeps_entry (s : Parameter) (k v k2 v2 : List Nat) (hwf : well_formed_store s)
    (hk : k ∈ s.keys) (hv : Parameter_get_str s k = v) (hne : k ≠ k2) :
    well_formed_store (Parameter_set s k2 v2) ∧ k ∈ (Parameter_set s k2 v2).keys ∧
      Parameter_get_str (Parameter_set s k2 v2) k = v := by
  refine ⟨set_well_formed s k2 v2 hwf, ?_, ?_⟩
  · rw [set_keys s k2 v2 hwf]
    split
    · exact hk
    · exact List.mem_append_left _ hk
  · rw [get_str_set s k2 v2 k hwf, if_neg hne, hv]

theorem set_makes_entry (s : Parameter) (k v : List Nat) (hwf : well_formed_store s) :
    well_formed_store (Parameter_set s k v) ∧ k ∈ (Parameter_set s k v).keys ∧
      Parameter_get_str (Parameter_set s k v) k = v := by
  refine ⟨set_well_formed s k v hwf, ?_, ?_⟩
  · rw [set_keys s k v hwf]
    split
    · assumption
    · exact List.mem_append_right _ (List.mem_singleton.2 rfl)
  · rw [get_str_set s k v k hwf, if_pos rfl]

theorem lower_key_ne_placeholder (k : List Nat) (h : lower_key k) (d : List Nat) :
    k ≠ ascii "EMPTY" ++ d ∧ k ≠ ascii "HASH" ++ d := by
  constructor
  · intro hc
    have := h 69 (by rw [hc]; exact List.mem_append_left _ (by decide))
    omega
  · intro hc
    have := h 72 (by rw [hc]; exact List.mem_append_left _ (by decide))
    omega

theorem load_line_well_formed (st : LoadState) (l : List Nat)
    (hwf : well_formed_store st.store) : well_formed_store (load_line st l).store := by
  rcases line_cases l with h1 | ⟨h1, h2⟩ | h3 | ⟨h1, h2, h3⟩
  · rw [load_line_blank st l h1]
    exact set_well_formed _ _ _ hwf
  · rw [load_line_comment st l h2]
    exact set_well_formed _ _ _ hwf
  · rw [load_line_entry st l h3]
    exact set_well_formed _ _ _ hwf
  · rw [load_line_other st l h1 h2 h3]
    exact hwf

theorem load_lines_well_formed (lines : List (List Nat)) :
    ∀ st : LoadState, well_formed_store st.store →
      well_formed_store (load_lines lines st).store := by
  induction lines with
  | nil => intro st h; exact h
  | cons l rest ih =>
    intro st h
    exact ih _ (load_line_well_formed st l h)

theorem load_lines_keep_entry (k v : List Nat) (hlow : lower_key k) (lines : List (List Nat)) :
    ∀ st : LoadState, well_formed_store st.store → k ∈ st.store.keys →
      Parameter_get_str st.store k = v →
      (∀ l ∈ lines, entry_line l → entry_key l ≠ k) →
      well_formed_store (load_lines lines st).store ∧ k ∈ (load_lines lines st).store.keys ∧
        Parameter_get_str (load_lines lines st).store k = v := by
  induction lines with
  | nil => intro st h1 h2 h3 _; exact ⟨h1, h2, h3⟩
  | cons l rest ih =>
    intro st hwf hk hv hno
    have hcons : load_lines (l :: rest) st = load_lines rest (load_line st l) := rfl
    rw [hcons]
    have hrest : ∀ x ∈ rest, entry_line x → entry_key x ≠ k :=
      fun x hx => hno x (List.mem_cons_of_mem _ hx)
    rcases line_cases l with h1 | ⟨h1, h2⟩ | h3 | ⟨h1, h2, h3⟩
    · rw [load_line_blank st l h1]
      obtain ⟨a, b, c⟩ := set_keeps_entry st.store k v _ (kept_text l) hwf hk hv
        (lower_key_ne_placeholder k hlow (decimal_int st.counter)).1
      refine ih _ ?_ ?_ ?_ hrest
      · exact a
      · exact b
      · exact c
    · rw [load_line_comment st l h2]
      obtain ⟨a, b, c⟩ := set_keeps_entry st.store k v _ (kept_text l) hwf hk hv
        (lower_key_ne_placeholder k hlow (decimal_int st.counter2)).2
      refine ih _ ?_ ?_ ?_ hrest
      · exact a
      · exact b
      · exact c
    · rw [load_line_entry st l h3]
      obtain ⟨a, b, c⟩ := set_keeps_entry st.store k v _ (entry_value l) hwf hk hv
        (fun hc => hno l (List.mem_cons_self _ _) h3 hc.symm)
      refine ih _ ?_ ?_ ?_ hrest
      · exact a
      · exact b
      · exact c
    · rw [load_line_other st l h1 h2 h3]
      exact ih st hwf hk hv hrest

/-- Counterexample to C31 as stated: the only line of `long_value_file` is
neither blank nor a comment and holds `=`; the text after the `=` has 1028
letters, but the value stored under the key `k` has the first 1021 of them
only. -/
theorem long_value_cut :
    file_lines long_value_file = [ascii "k=" ++ List.replicate 1028 97] ∧
    entry_line (ascii "k=" ++ List.replicate 1028 97) ∧
    entry_key (ascii "k=" ++ List.replicate 1028 97) = ascii "k" ∧
    entry_value (ascii "k=" ++ List.replicate 1028 97) = List.replicate 1028 97 ∧
    loaded_value (Parameter_load Parameter_new true (some long_value_file)) (ascii "k")
      = some (true, List.replicate 1021 97) := by
  have h1 : file_lines long_value_file = [ascii "k=" ++ List.replicate 1028 97] := by decide!
  have h2 : entry_line (ascii "k=" ++ List.replicate 1028 97) := by decide!
  have h3 : entry_key (ascii "k=" ++ List.replicate 1028 97) = ascii "k" := by decide!
  have h4 : entry_value (ascii "k=" ++ List.replicate 1028 97) = List.replicate 1028 97 := by
    decide!
  have h5 : loaded_value (Parameter_load Parameter_new true (some long_value_file)) (ascii "k")
      = some (true, List.replicate 1021 97) := by decide!
  exact ⟨h1, h2, h3, h4, h5⟩

/-- C31, amended: for every parameter file whose lines have at most 1022
characters and every line of it that is neither blank nor a comment and
holds `=`, after `Parameter_load` the key made of the text before the first
`=`, without the white space around it and in lower case, is present, and
when no later line of this kind gives the same key, `Parameter_get_str`
returns for it the text after the first `=` without the white space around
it; so of several lines with the same key the last one decides. -/
theorem parameter_load_entries (self : Parameter) (content : List Nat)
    (hwf : well_formed_store self)
    (hlen : ∀ l ∈ file_lines content, l.length ≤ 1022) :
    ∃ result, Parameter_load self true (some content) = .ok result ∧
      ∀ (pre post : List (List Nat)) (l : List Nat),
        file_lines content = pre ++ l :: post → entry_line l →
        (∀ l2 ∈ post, entry_line l2 → entry_key l2 ≠ entry_key l) →
        Parameter_exists result (entry_key l) = true ∧
        Parameter_get_str result (entry_key l) = entry_value l := by
  refine ⟨_, Parameter_load_lines self content hlen, ?_⟩
  intro pre post l hlines hl hlast
  rw [hlines, load_lines_append]
  have hcons : ∀ st, load_lines (l :: post) st = load_lines post (load_line st l) :=
    fun _ => rfl
  rw [hcons]
  have hwf1 := load_lines_well_formed pre { store := self, counter := 0, counter2 := 0 } hwf
  obtain ⟨stp, hstp⟩ : ∃ stp, stp = load_lines pre { store := self, counter := 0, counter2 := 0 } :=
    ⟨_, rfl⟩
  rw [← hstp] at hwf1 ⊢
  rw [load_line_entry stp l hl]
  obtain ⟨a, b, c⟩ := set_makes_entry stp.store (entry_key l) (entry_value l) hwf1
  obtain ⟨a2, b2, c2⟩ := load_lines_keep_entry (entry_key l) (entry_value l)
    (entry_key_lower l) post
    { stp with store := Parameter_set stp.store (entry_key l) (entry_value l) } a b c hlast
  obtain ⟨hwf3, hspec⟩ := set_defaults_loop_spec required _ a2
  constructor
  · exact (exists_iff (Parameter_set_defaults _) _ hwf3).2
      (((hspec (entry_key l)).1).2 (Or.inl b2))
  · rw [get_str_defaults _ a2, if_neg (fun hc => hc.2 b2), c2]

/-- Witness of C31, amended: in `sample_parameter_file` the lines `A = 1` and
`A= 3` give the key `a`, and the value of `a` is 3; the line ` B=2 ` gives
the key `b` the value 2. -/
theorem parameter_load_entries_witness :
    well_formed_store Parameter_new ∧
    (∀ l ∈ file_lines sample_parameter_file, l.length ≤ 1022) ∧
    file_lines sample_parameter_file
      = [ascii "A = 1", [], ascii "# c = d", ascii " B=2 ", ascii "  "] ++ ascii "A= 3" :: [] ∧
    entry_line (ascii "A= 3") ∧ entry_key (ascii "A= 3") = ascii "a" ∧
    entry_value (ascii "A= 3") = ascii "3" ∧
    entry_key (ascii "A = 1") = ascii "a" ∧ ¬ entry_line (ascii "# c = d") ∧
    loaded_value (Parameter_load Parameter_new true (some sample_parameter_file)) (ascii "b")
      = some (true, ascii "2") ∧
    ∃ result, Parameter_load Parameter_new true (some sample_parameter_file) = .ok result ∧
      Parameter_exists result (entry_key (ascii "A= 3")) = true ∧
      Parameter_get_str result (entry_key (ascii "A= 3")) = entry_value (ascii "A= 3") := by
  have hwf : well_formed_store Parameter_new := ⟨rfl, rfl⟩
  have hlen : ∀ l ∈ file_lines sample_parameter_file, l.length ≤ 1022 := by decide!
  have hlines : file_lines sample_parameter_file
      = [ascii "A = 1", [], ascii "# c = d", ascii " B=2 ", ascii "  "] ++ ascii "A= 3" :: [] := by
    decide!
  have hentry : entry_line (ascii "A= 3") := by decide!
  obtain ⟨result, hr, hspec⟩ := parameter_load_entries Parameter_new sample_parameter_file
    hwf hlen
  exact ⟨hwf, hlen, hlines, hentry, by decide!, by decide!, by decide!, by decide!, by decide!,
    result, hr, hspec _ [] _ hlines hentry (fun l2 h2 => by cases h2)⟩

/-! ## Theorems: the text that `strtod` converts entirely -/

theorem takeWhile_append_digits (p : Nat → Bool) (a r : List Nat) (ha : all_chars p a)
    (hr : ∀ c, r.head? = some c → p c = false) : (a ++ r).takeWhile p = a := by
  induction a with
  | nil =>
    rcases r with _ | ⟨c, t⟩
    · rfl
    · rw [List.nil_append, List.takeWhile_cons_of_neg]
      rw [hr c rfl]
      simp
  | cons x xs ih =>
    rw [List.cons_append, List.takeWhile_cons_of_pos (ha x (List.mem_cons_self _ _))]
    rw [ih (fun c hc => ha c (List.mem_cons_of_mem _ hc))]

theorem takeWhile_all (p : Nat → Bool) (a : List Nat) (ha : all_chars p a) :
    a.takeWhile p = a := by
  have := takeWhile_append_digits p a [] ha (fun c hc => by cases hc)
  rwa [List.append_nil] at this

theorem char_at_append (a r : List Nat) (i : Nat) :
    char_at (a ++ r) (a.length + i) = char_at r i := by
  rw [char_at_drop, List.drop_left]

theorem char_at_append_zero (a r : List Nat) : char_at (a ++ r) a.length = char_at r 0 := by
  have := char_at_append a r 0
  rwa [Nat.add_zero] at this

theorem char_at_head (r : List Nat) (c : Nat) (h : char_at r 0 = c) (hc : c ≠ 0) :
    ∃ t, r = c :: t := by
  rcases r with _ | ⟨x, t⟩
  · exact absurd h.symm hc
  · exact ⟨t, by rw [show x = c from h]⟩

theorem head_of_dropWhile (p : Nat → Bool) (s : List Nat) :
    ∀ c, (s.dropWhile p).head? = some c → p c = false := by
  intro c hc
  rcases hd : s.dropWhile p with _ | ⟨x, t⟩
  · rw [hd] at hc
    cases hc
  · rw [hd] at hc
    simp only [List.head?_cons, Option.some.injEq] at hc
    subst hc
    exact dropWhile_head_false p s x t hd

theorem mantissa_length_complete (digit : Nat → Bool) (h46 : digit 46 = false)
    (m r : List Nat) (hm : mantissa_text digit m)
    (hr : ∀ c, r.head? = some c → digit c = false ∧ c ≠ 46) :
    mantissa_length digit (m ++ r) = some m.length := by
  obtain ⟨a, b, ha, hb, hne, hm | ⟨hb0, hm⟩⟩ := hm
  · subst hm
    have hs : (a ++ 46 :: b) ++ r = a ++ (46 :: (b ++ r)) := by simp
    have htw : ((a ++ 46 :: b) ++ r).takeWhile digit = a := by
      rw [hs]
      exact takeWhile_append_digits digit a _ ha (fun c hc => by
        simp only [List.head?_cons, Option.some.injEq] at hc
        rw [← hc]
        exact h46)
    unfold mantissa_length
    simp only []
    rw [htw, hs, char_at_append_zero, if_pos (by rfl)]
    have hdrop : (a ++ 46 :: (b ++ r)).drop (a.length + 1) = b ++ r := by
      rw [← List.drop_drop, List.drop_left]
      rfl
    rw [hdrop, takeWhile_append_digits digit b r hb (fun c hc => (hr c hc).1)]
    rw [if_neg (by
      rcases hne with h | h
      · have := List.length_pos.2 h
        omega
      · have := List.length_pos.2 h
        omega)]
    simp only [List.length_append, List.length_cons]
    congr 1
    omega
  · subst hb0
    rw [hm]
    have ha0 : a ≠ [] := by
      rcases hne with h | h
      · exact h
      · exact absurd rfl h
    have htw : (a ++ r).takeWhile digit = a :=
      takeWhile_append_digits digit a r ha (fun c hc => (hr c hc).1)
    unfold mantissa_length
    simp only []
    rw [htw, char_at_append_zero]
    have hn46 : char_at r 0 ≠ 46 := by
      rcases r with _ | ⟨c, t⟩
      · decide
      · exact (hr c rfl).2
    rw [if_neg hn46, if_neg (by have := List.length_pos.2 ha0; omega)]

theorem mantissa_length_sound (digit : Nat → Bool) (s : List Nat) (n : Nat)
    (h : mantissa_length digit s = some n) :
    n ≤ s.length ∧ mantissa_text digit (s.take n) ∧
      ∀ c, (s.drop n).head? = some c → digit c = false := by
  have hcat := List.takeWhile_append_dropWhile digit s
  obtain ⟨a, ha⟩ : ∃ a, a = s.takeWhile digit := ⟨_, rfl⟩
  obtain ⟨rest, hrest⟩ : ∃ rest, rest = s.dropWhile digit := ⟨_, rfl⟩
  have hall : all_chars digit a := by
    intro c hc
    rw [ha] at hc
    exact List.mem_takeWhile_imp hc
  have hhead := head_of_dropWhile digit s
  rw [← hrest] at hhead
  rw [← ha, ← hrest] at hcat
  unfold mantissa_length at h
  simp only [] at h
  rw [← ha] at h
  by_cases h46 : char_at s a.length = 46
  · rw [if_pos h46] at h
    have h46r : char_at rest 0 = 46 := by
      rw [← hcat, char_at_append_zero] at h46
      exact h46
    obtain ⟨rest2, hrest2⟩ := char_at_head rest 46 h46r (by decide)
    have hdrop : s.drop (a.length + 1) = rest2 := by
      rw [← hcat, hrest2, ← List.drop_drop, List.drop_left]
      rfl
    rw [hdrop] at h
    obtain ⟨b, hb⟩ : ∃ b, b = rest2.takeWhile digit := ⟨_, rfl⟩
    rw [← hb] at h
    have hballl : all_chars digit b := by
      intro c hc
      rw [hb] at hc
      exact List.mem_takeWhile_imp hc
    have hcat2 := List.takeWhile_append_dropWhile digit rest2
    rw [← hb] at hcat2
    by_cases h0 : a.length + b.length = 0
    · rw [if_pos h0] at h
      cases h
    · rw [if_neg h0] at h
      injection h with h
      subst h
      have hs : s = (a ++ 46 :: b) ++ rest2.dropWhile digit := by
        have h5 : rest2 = b ++ rest2.dropWhile digit := hcat2.symm
        rw [← hcat, hrest2, List.append_assoc, List.cons_append, ← h5]
      have hlen : (a ++ 46 :: b).length = a.length + 1 + b.length := by
        simp only [List.length_append, List.length_cons]
        omega
      refine ⟨?_, ?_, ?_⟩
      · rw [hs, List.length_append, hlen]
        omega
      · rw [← hlen, hs, List.take_left]
        refine ⟨a, b, hall, hballl, ?_, Or.inl rfl⟩
        by_contra hc
        push_neg at hc
        rw [hc.1, hc.2] at h0
        exact h0 rfl
      · rw [← hlen, hs, List.drop_left]
        exact head_of_dropWhile digit rest2
  · rw [if_neg h46] at h
    by_cases h0 : a.length = 0
    · rw [if_pos h0] at h
      cases h
    · rw [if_neg h0] at h
      injection h with h
      subst h
      refine ⟨?_, ?_, ?_⟩
      · rw [← hcat, List.length_append]
        omega
      · rw [← hcat, List.take_left]
        exact ⟨a, [], hall, fun c hc => (by cases hc),
          Or.inl (fun hc => h0 (by rw [hc]; rfl)), Or.inr ⟨rfl, rfl⟩⟩
      · rw [← hcat, List.drop_left]
        exact hhead

theorem exponent_length_complete (marker : Nat) (hm : marker ≠ 0) (e : List Nat)
    (he : exponent_text marker e) : exponent_length marker e = e.length := by
  rcases he with he | ⟨c, sg, d, hc, hsg, hd, hdig, he⟩
  · subst he
    unfold exponent_length
    rw [if_neg (fun h => hm h.symm)]
    rfl
  · subst he
    obtain ⟨x, t, hxt⟩ := List.exists_cons_of_ne_nil hd
    have hx : isdigit x = true := hdig x (by rw [hxt]; exact List.mem_cons_self _ _)
    have hx43 : ¬ (x = 43 ∨ x = 45) := by
      simp [isdigit] at hx
      omega
    have hdl : ¬ d.length = 0 := by rw [hxt]; simp
    have htw := takeWhile_all isdigit d hdig
    unfold exponent_length
    rw [if_pos (by exact hc)]
    simp only []
    rcases hsg with h | h | h
    · subst h
      have h1 : char_at (c :: ([] ++ d)) 1 = x := by rw [hxt]; rfl
      rw [h1, if_neg hx43]
      have h2 : (c :: ([] ++ d)).drop (1 + 0) = d := rfl
      rw [h2, htw, if_neg hdl]
      simp only [List.length_cons, List.nil_append]
      omega
    · subst h
      have h1 : char_at (c :: ([43] ++ d)) 1 = 43 := rfl
      rw [h1, if_pos (Or.inl rfl)]
      have h2 : (c :: ([43] ++ d)).drop (1 + 1) = d := rfl
      rw [h2, htw, if_neg hdl]
      simp only [List.length_cons, List.length_append, List.length_nil]
      omega
    · subst h
      have h1 : char_at (c :: ([45] ++ d)) 1 = 45 := rfl
      rw [h1, if_pos (Or.inr rfl)]
      have h2 : (c :: ([45] ++ d)).drop (1 + 1) = d := rfl
      rw [h2, htw, if_neg hdl]
      simp only [List.length_cons, List.length_append, List.length_nil]
      omega

theorem exponent_length_sound (marker : Nat) (s : List Nat) :
    exponent_length marker s ≤ s.length ∧
      exponent_text marker (s.take (exponent_length marker s)) := by
  unfold exponent_length
  by_cases hc : tolower (char_at s 0) = marker
  · rw [if_pos hc]
    simp only []
    obtain ⟨sign, hsign⟩ : ∃ sign, sign = (if char_at s 1 = 43 ∨ char_at s 1 = 45 then 1 else 0) :=
      ⟨_, rfl⟩
    rw [← hsign]
    obtain ⟨d, hd⟩ : ∃ d, d = (s.drop (1 + sign)).takeWhile isdigit := ⟨_, rfl⟩
    rw [← hd]
    have hdall : all_chars isdigit d := by
      intro c hc
      rw [hd] at hc
      exact List.mem_takeWhile_imp hc
    by_cases h0 : d.length = 0
    · rw [if_pos h0]
      exact ⟨Nat.zero_le _, Or.inl rfl⟩
    · rw [if_neg h0]
      have hdne : d ≠ [] := fun h => h0 (by rw [h]; rfl)
      have hcat := List.takeWhile_append_dropWhile isdigit (s.drop (1 + sign))
      rw [← hd] at hcat
      have hlen : d.length ≤ (s.drop (1 + sign)).length := by
        rw [← hcat, List.length_append]
        omega
      rw [List.length_drop] at hlen
      have hpos : 0 < d.length := List.length_pos.2 hdne
      rcases s with _ | ⟨c, t⟩
      · simp only [List.length_nil] at hlen
        omega
      have hc2 : tolower c = marker := hc
      by_cases hs : char_at (c :: t) 1 = 43 ∨ char_at (c :: t) 1 = 45
      · rw [if_pos hs] at hsign
        subst hsign
        rcases t with _ | ⟨x, t2⟩
        · simp only [List.length_cons, List.length_nil] at hlen
          omega
        have hx : x = 43 ∨ x = 45 := hs
        have hd2 : (c :: x :: t2).drop (1 + 1) = t2 := rfl
        rw [hd2] at hcat
        refine ⟨by simp only [List.length_cons] at hlen ⊢; omega, Or.inr ⟨c, [x], d, hc2, ?_, hdne,
          hdall, ?_⟩⟩
        · rcases hx with h | h
          · exact Or.inr (Or.inl (by rw [h]))
          · exact Or.inr (Or.inr (by rw [h]))
        · have h3 : 1 + 1 + d.length = d.length + 2 := by omega
          rw [h3]
          show (c :: x :: t2).take (d.length + 2) = c :: ([x] ++ d)
          rw [List.take_succ_cons, List.take_succ_cons, ← hcat, List.take_left]
          rfl
      · rw [if_neg hs] at hsign
        subst hsign
        have hd2 : (c :: t).drop (1 + 0) = t := rfl
        rw [hd2] at hcat
        refine ⟨by simp only [List.length_cons] at hlen ⊢; omega, Or.inr ⟨c, [], d, hc2,
          Or.inl rfl, hdne, hdall, ?_⟩⟩
        have h3 : 1 + 0 + d.length = d.length + 1 := by omega
        rw [h3]
        show (c :: t).take (d.length + 1) = c :: ([] ++ d)
        rw [List.take_succ_cons, ← hcat, List.take_left]
        rfl
  · rw [if_neg hc]
    exact ⟨Nat.zero_le _, Or.inl rfl⟩

theorem tolower_cases (c k : Nat) (h : tolower c = k) : c = k ∨ (c + 32 = k ∧ 65 ≤ c ∧ c ≤ 90) := by
  unfold tolower at h
  split at h
  · right
    omega
  · left
    exact h

theorem starts_with_ci_eq (u lit : List Nat) :
    starts_with_ci u lit = true ↔ (u.take lit.length).map tolower = lit := by
  unfold starts_with_ci
  exact beq_iff_eq

theorem starts_with_ci_head (c l0 : Nat) (t lit : List Nat) (h : tolower c ≠ l0) :
    starts_with_ci (c :: t) (l0 :: lit) = false := by
  rw [Bool.eq_false_iff]
  intro hc
  rw [starts_with_ci_eq] at hc
  simp only [List.length_cons, List.take_succ_cons, List.map_cons, List.cons.injEq] at hc
  exact h hc.1

theorem starts_with_ci_nil (l0 : Nat) (lit : List Nat) :
    starts_with_ci [] (l0 :: lit) = false := by
  rw [Bool.eq_false_iff]
  intro hc
  rw [starts_with_ci_eq] at hc
  simp at hc

theorem number_start_of_digit (c : Nat) (h : isdigit c = true) : number_start c := by
  have h2 := h
  simp [isdigit] at h2
  refine ⟨?_, by omega, by omega, Or.inr (Or.inr (Or.inr h))⟩
  simp [isspace]
  omega

theorem number_start_letter (c k : Nat) (hk : k = 105 ∨ k = 110) (h : tolower c = k) :
    number_start c := by
  have hc : c = 105 ∨ c = 73 ∨ c = 110 ∨ c = 78 := by
    rcases tolower_cases c k h with h1 | h1 <;> omega
  refine ⟨?_, by omega, by omega, ?_⟩
  · simp [isspace]
    omega
  · rcases hk with hk | hk
    · exact Or.inl (by rw [h, hk])
    · exact Or.inr (Or.inl (by rw [h, hk]))

theorem mantissa_text_head (digit : Nat → Bool) (m : List Nat) (h : mantissa_text digit m) :
    ∃ c t, m = c :: t ∧ (c = 46 ∨ digit c = true) := by
  obtain ⟨a, b, ha, hb, hne, hm | ⟨hb0, hm⟩⟩ := h
  · rcases a with _ | ⟨x, xs⟩
    · exact ⟨46, b, by rw [hm]; rfl, Or.inl rfl⟩
    · exact ⟨x, xs ++ 46 :: b, by rw [hm]; rfl, Or.inr (ha x (List.mem_cons_self _ _))⟩
  · rcases a with _ | ⟨x, xs⟩
    · subst hb0
      rcases hne with h | h <;> exact absurd rfl h
    · exact ⟨x, xs, hm, Or.inr (ha x (List.mem_cons_self _ _))⟩

theorem number_text_head (u : List Nat) (h : number_text u) :
    ∃ c t, u = c :: t ∧ number_start c := by
  rcases h with h | h | ⟨n, cs, hn, _, h | h⟩ | ⟨x, m, e, _, _, _, h⟩ | ⟨m, e, hm, _, h⟩
  · rcases u with _ | ⟨c, t⟩
    · cases h
    · simp only [List.map_cons] at h
      injection h with h1 _
      exact ⟨c, t, rfl, number_start_letter c 105 (Or.inl rfl) h1⟩
  · rcases u with _ | ⟨c, t⟩
    · cases h
    · simp only [List.map_cons] at h
      injection h with h1 _
      exact ⟨c, t, rfl, number_start_letter c 105 (Or.inl rfl) h1⟩
  · rcases n with _ | ⟨c, t⟩
    · cases hn
    · simp only [List.map_cons] at hn
      injection hn with h1 _
      exact ⟨c, t, h, number_start_letter c 110 (Or.inr rfl) h1⟩
  · rcases n with _ | ⟨c, t⟩
    · cases hn
    · simp only [List.map_cons] at hn
      injection hn with h1 _
      exact ⟨c, t ++ 40 :: (cs ++ [41]), by rw [h]; rfl, number_start_letter c 110 (Or.inr rfl) h1⟩
  · exact ⟨48, _, h, number_start_of_digit 48 (by decide)⟩
  · obtain ⟨c, t, hct, hc⟩ := mantissa_text_head isdigit m hm
    refine ⟨c, t ++ e, by rw [h, hct]; rfl, ?_⟩
    rcases hc with hc | hc
    · subst hc
      exact ⟨by decide, by decide, by decide, Or.inr (Or.inr (Or.inl rfl))⟩
    · exact number_start_of_digit c hc

theorem exponent_text_head (marker : Nat) (e : List Nat) (h : exponent_text marker e) :
    ∀ c, e.head? = some c → tolower c = marker := by
  intro c hc
  rcases h with h | ⟨c2, sg, d, h1, _, _, _, h⟩
  · rw [h] at hc
    cases hc
  · rw [h] at hc
    simp only [List.head?_cons, Option.some.injEq] at hc
    rw [← hc]
    exact h1

theorem nan_suffix_length_nil : nan_suffix_length [] = 0 := rfl

theorem nan_suffix_length_complete (cs : List Nat) (h : all_chars is_nchar cs) :
    nan_suffix_length (40 :: (cs ++ [41])) = cs.length + 2 := by
  unfold nan_suffix_length
  rw [if_pos (by rfl)]
  simp only []
  have hd : (40 :: (cs ++ [41])).drop 1 = cs ++ [41] := rfl
  rw [hd, takeWhile_append_digits is_nchar cs [41] h (fun c hc => by
    simp only [List.head?_cons, Option.some.injEq] at hc
    rw [← hc]
    rfl)]
  have h41 : char_at (40 :: (cs ++ [41])) (1 + cs.length) = 41 := by
    have := char_at_append (40 :: cs) [41] 0
    simp only [List.length_cons, Nat.add_zero] at this
    rw [Nat.add_comm]
    exact this
  rw [if_pos h41]

theorem nan_suffix_length_sound (s : List Nat) (h : nan_suffix_length s ≠ 0) :
    ∃ cs, all_chars is_nchar cs ∧ nan_suffix_length s = cs.length + 2 ∧
      s.take (cs.length + 2) = 40 :: (cs ++ [41]) ∧ cs.length + 2 ≤ s.length := by
  unfold nan_suffix_length at h ⊢
  by_cases h40 : char_at s 0 = 40
  · rw [if_pos h40] at h ⊢
    simp only [] at h ⊢
    obtain ⟨rest, hrest⟩ := char_at_head s 40 h40 (by decide)
    subst hrest
    have hd : (40 :: rest).drop 1 = rest := rfl
    rw [hd] at h ⊢
    obtain ⟨cs, hcs⟩ : ∃ cs, cs = rest.takeWhile is_nchar := ⟨_, rfl⟩
    rw [← hcs] at h ⊢
    have hall : all_chars is_nchar cs := by
      intro c hc
      rw [hcs] at hc
      exact List.mem_takeWhile_imp hc
    have hcat := List.takeWhile_append_dropWhile is_nchar rest
    rw [← hcs] at hcat
    by_cases h41 : char_at (40 :: rest) (1 + cs.length) = 41
    · rw [if_pos h41]
      have h41b : char_at (rest.dropWhile is_nchar) 0 = 41 := by
        have h1 : char_at (40 :: rest) (1 + cs.length) = char_at rest cs.length := by
          have := char_at_append [40] rest cs.length
          simpa using this
        rw [h1, ← hcat, char_at_append_zero] at h41
        exact h41
      obtain ⟨r2, hr2⟩ := char_at_head _ 41 h41b (by decide)
      rw [hr2] at hcat
      refine ⟨cs, hall, rfl, ?_, ?_⟩
      · rw [← hcat]
        show (40 :: (cs ++ 41 :: r2)).take (cs.length + 1 + 1) = 40 :: (cs ++ [41])
        rw [List.take_succ_cons]
        have h2 : cs ++ 41 :: r2 = (cs ++ [41]) ++ r2 := by simp
        have h3 : cs.length + 1 = (cs ++ [41]).length := by simp
        rw [h2, h3, List.take_left]
      · rw [← hcat]
        simp only [List.length_cons, List.length_append]
        omega
    · rw [if_neg h41] at h
      exact absurd rfl h
  · rw [if_neg h40] at h
    exact absurd rfl h

theorem number_length_complete (u : List Nat) (h : number_text u) :
    number_length u = u.length := by
  unfold number_length
  rcases h with h | h | ⟨n, cs, hn, hcs, h⟩ | ⟨x, m, e, hx, hm, he, h⟩ | ⟨m, e, hm, he, h⟩
  · have hlen : u.length = 3 := by
      have := congrArg List.length h
      simpa using this
    have h1 : starts_with_ci u (ascii "infinity") = false := by
      rw [Bool.eq_false_iff, Ne, starts_with_ci_eq]
      intro hc
      have := congrArg List.length hc
      simp only [List.length_map, List.length_take] at this
      have h8 : (ascii "infinity").length = 8 := rfl
      omega
    have h2 : starts_with_ci u (ascii "inf") = true := by
      rw [starts_with_ci_eq]
      have h3 : (ascii "inf").length = 3 := rfl
      rw [h3, ← hlen, List.take_length]
      exact h
    rw [h1, h2]
    simp only [Bool.false_eq_true, if_false, if_true]
    exact hlen.symm
  · have hlen : u.length = 8 := by
      have := congrArg List.length h
      simpa using this
    have h1 : starts_with_ci u (ascii "infinity") = true := by
      rw [starts_with_ci_eq]
      have h3 : (ascii "infinity").length = 8 := rfl
      rw [h3, ← hlen, List.take_length]
      exact h
    rw [h1]
    simp only [if_true]
    exact hlen.symm
  · have hnl : n.length = 3 := by
      have := congrArg List.length hn
      simpa using this
    obtain ⟨c, t, hct⟩ : ∃ c t, n = c :: t := by
      rcases n with _ | ⟨c, t⟩
      · cases hn
      · exact ⟨c, t, rfl⟩
    have hc : tolower c = 110 := by
      rw [hct] at hn
      simp only [List.map_cons] at hn
      injection hn with h1 _
    obtain ⟨r, hu⟩ : ∃ r, u = c :: r := by
      rcases h with h | h
      · exact ⟨t, by rw [h, hct]⟩
      · exact ⟨t ++ 40 :: (cs ++ [41]), by rw [h, hct]; rfl⟩
    have h1 : starts_with_ci u (ascii "infinity") = false := by
      rw [hu]
      exact starts_with_ci_head c 105 r _ (by omega)
    have h2 : starts_with_ci u (ascii "inf") = false := by
      rw [hu]
      exact starts_with_ci_head c 105 r _ (by omega)
    have htake : u.take 3 = n := by
      rcases h with h | h
      · rw [h, ← hnl, List.take_length]
      · rw [h, ← hnl, List.take_left]
    have h3 : starts_with_ci u (ascii "nan") = true := by
      rw [starts_with_ci_eq]
      have h4 : (ascii "nan").length = 3 := rfl
      rw [h4, htake]
      exact hn
    rw [h1, h2, h3]
    simp only [Bool.false_eq_true, if_false, if_true]
    rcases h with h | h
    · have hd : u.drop 3 = [] := by rw [h, ← hnl, List.drop_length]
      rw [hd, nan_suffix_length_nil, h, hnl]
    · have hd : u.drop 3 = 40 :: (cs ++ [41]) := by rw [h, ← hnl, List.drop_left]
      have hl : u.length = 3 + (cs.length + 2) := by
        rw [h, List.length_append, hnl]
        simp only [List.length_append, List.length_cons, List.length_nil]
      rw [hd, nan_suffix_length_complete cs hcs, hl]
  · have h1 : starts_with_ci u (ascii "infinity") = false := by
      rw [h]
      exact starts_with_ci_head 48 105 _ _ (by decide)
    have h2 : starts_with_ci u (ascii "inf") = false := by
      rw [h]
      exact starts_with_ci_head 48 105 _ _ (by decide)
    have h3 : starts_with_ci u (ascii "nan") = false := by
      rw [h]
      exact starts_with_ci_head 48 110 _ _ (by decide)
    rw [h1, h2, h3]
    simp only [Bool.false_eq_true, if_false]
    have h4 : char_at u 0 = 48 ∧ tolower (char_at u 1) = 120 := by
      rw [h]
      exact ⟨rfl, hx⟩
    rw [if_pos h4]
    have hd : u.drop 2 = m ++ e := by rw [h]; rfl
    have hml := mantissa_length_complete isxdigit (by decide) m e hm (fun c hc => by
      have := exponent_text_head 112 e he c hc
      rcases tolower_cases c 112 this with h5 | h5
      · subst h5
        exact ⟨by decide, by decide⟩
      · have h6 : c = 80 := by omega
        subst h6
        exact ⟨by decide, by decide⟩)
    rw [hd, hml]
    simp only []
    have hd2 : u.drop (2 + m.length) = e := by
      rw [← List.drop_drop, hd, List.drop_left]
    rw [hd2, exponent_length_complete 112 (by decide) e he, h]
    simp only [List.length_cons, List.length_append]
    omega
  · obtain ⟨c, t, hct, hc⟩ := mantissa_text_head isdigit m hm
    have hu : u = c :: (t ++ e) := by rw [h, hct]; rfl
    have hcl : tolower c ≠ 105 ∧ tolower c ≠ 110 := by
      rcases hc with hc | hc
      · subst hc
        exact ⟨by decide, by decide⟩
      · simp [isdigit] at hc
        unfold tolower
        rw [if_neg (by omega)]
        omega
    have h1 : starts_with_ci u (ascii "infinity") = false := by
      rw [hu]
      exact starts_with_ci_head c 105 _ _ hcl.1
    have h2 : starts_with_ci u (ascii "inf") = false := by
      rw [hu]
      exact starts_with_ci_head c 105 _ _ hcl.1
    have h3 : starts_with_ci u (ascii "nan") = false := by
      rw [hu]
      exact starts_with_ci_head c 110 _ _ hcl.2
    rw [h1, h2, h3]
    simp only [Bool.false_eq_true, if_false]
    have hehead : ∀ x, e.head? = some x → isdigit x = false ∧ x ≠ 46 := by
      intro x hx
      have := exponent_text_head 101 e he x hx
      rcases tolower_cases x 101 this with h5 | h5
      · subst h5
        exact ⟨by decide, by decide⟩
      · have h6 : x = 69 := by omega
        subst h6
        exact ⟨by decide, by decide⟩
    have hml := mantissa_length_complete isdigit (by decide) m e hm hehead
    rw [← h] at hml
    have hx : ¬ (char_at u 0 = 48 ∧ tolower (char_at u 1) = 120) := by
      rintro ⟨_, hx1⟩
      -- the second character is a digit, a point, the exponent letter or absent
      have hmem : char_at u 1 = 0 ∨ char_at u 1 ∈ u := by
        unfold char_at
        rw [List.getD_eq_getElem?_getD]
        rcases hg : u[1]? with _ | y
        · left; rfl
        · right
          exact List.getElem?_mem hg
      rcases hmem with h0 | hmem
      · rw [h0] at hx1
        revert hx1
        decide
      · have hxx : char_at u 1 = 120 ∨ char_at u 1 = 88 := by
          rcases tolower_cases _ 120 hx1 with h5 | h5 <;> omega
        have hall : ∀ y ∈ u, y ≠ 120 ∧ y ≠ 88 := by
          intro y hy
          rw [h] at hy
          rcases List.mem_append.1 hy with hy | hy
          · obtain ⟨a, b, ha, hb, _, hm2 | ⟨_, hm2⟩⟩ := hm
            · rw [hm2] at hy
              rcases List.mem_append.1 hy with hy | hy
              · have := ha y hy
                simp [isdigit] at this
                omega
              · rcases List.mem_cons.1 hy with hy | hy
                · omega
                · have := hb y hy
                  simp [isdigit] at this
                  omega
            · rw [hm2] at hy
              have := ha y hy
              simp [isdigit] at this
              omega
          · rcases he with he | ⟨c2, sg, d, hc2, hsg, _, hd, he⟩
            · rw [he] at hy
              cases hy
            · rw [he] at hy
              rcases List.mem_cons.1 hy with hy | hy
              · subst hy
                rcases tolower_cases y 101 hc2 with h5 | h5 <;> omega
              · rcases List.mem_append.1 hy with hy | hy
                · rcases hsg with h5 | h5 | h5
                  · rw [h5] at hy
                    cases hy
                  · rw [h5, List.mem_singleton] at hy
                    omega
                  · rw [h5, List.mem_singleton] at hy
                    omega
                · have := hd y hy
                  simp [isdigit] at this
                  omega
        have := hall _ hmem
        omega
    rw [if_neg hx, hml]
    simp only []
    have hd2 : u.drop m.length = e := by rw [h, List.drop_left]
    rw [hd2, exponent_length_complete 101 (by decide) e he, h, List.length_append]

theorem all_chars_nil (p : Nat → Bool) : all_chars p [] := by
  intro c hc
  cases hc

theorem number_length_sound (u : List Nat) (h : number_length u ≠ 0) :
    number_length u ≤ u.length ∧ number_text (u.take (number_length u)) := by
  unfold number_length at h ⊢
  by_cases h1 : starts_with_ci u (ascii "infinity") = true
  · rw [if_pos h1]
    rw [starts_with_ci_eq] at h1
    have h8 : (ascii "infinity").length = 8 := rfl
    rw [h8] at h1
    have hl := congrArg List.length h1
    simp only [List.length_map, List.length_take, h8] at hl
    exact ⟨by omega, Or.inr (Or.inl h1)⟩
  rw [if_neg h1] at h ⊢
  by_cases h2 : starts_with_ci u (ascii "inf") = true
  · rw [if_pos h2]
    rw [starts_with_ci_eq] at h2
    have h3 : (ascii "inf").length = 3 := rfl
    rw [h3] at h2
    have hl := congrArg List.length h2
    simp only [List.length_map, List.length_take, h3] at hl
    exact ⟨by omega, Or.inl h2⟩
  rw [if_neg h2] at h ⊢
  by_cases h3 : starts_with_ci u (ascii "nan") = true
  · rw [if_pos h3]
    rw [starts_with_ci_eq] at h3
    have h33 : (ascii "nan").length = 3 := rfl
    rw [h33] at h3
    have hl := congrArg List.length h3
    simp only [List.length_map, List.length_take, h33] at hl
    have hl3 : 3 ≤ u.length := by omega
    by_cases hs : nan_suffix_length (u.drop 3) = 0
    · rw [hs]
      exact ⟨hl3, Or.inr (Or.inr (Or.inl ⟨u.take 3, [], h3, all_chars_nil _, Or.inl rfl⟩))⟩
    · obtain ⟨cs, hcs, hlen, htake, hle⟩ := nan_suffix_length_sound (u.drop 3) hs
      rw [hlen]
      rw [List.length_drop] at hle
      refine ⟨by omega, Or.inr (Or.inr (Or.inl ⟨u.take 3, cs, h3, hcs, Or.inr ?_⟩))⟩
      rw [List.take_add, htake]
  rw [if_neg h3] at h ⊢
  by_cases h4 : char_at u 0 = 48 ∧ tolower (char_at u 1) = 120
  · rw [if_pos h4]
    obtain ⟨t, ht⟩ := char_at_head u 48 h4.1 (by decide)
    have hx0 : char_at t 0 ≠ 0 := by
      intro h0
      have h5 : char_at u 1 = char_at t 0 := by rw [ht]; rfl
      have h6 := h4.2
      rw [h5, h0] at h6
      revert h6
      decide
    obtain ⟨rest, hrest⟩ := char_at_head t (char_at t 0) rfl hx0
    have hx : tolower (char_at t 0) = 120 := by
      have h5 : char_at u 1 = char_at t 0 := by rw [ht]; rfl
      rw [← h5]
      exact h4.2
    have hu : u = 48 :: char_at t 0 :: rest := by rw [ht, ← hrest]
    have hd : u.drop 2 = rest := by rw [hu]; rfl
    rw [hd]
    rcases hm : mantissa_length isxdigit rest with _ | m
    · simp only []
      refine ⟨by rw [hu]; simp, Or.inr (Or.inr (Or.inr (Or.inr ⟨[48], [], ?_, Or.inl rfl, ?_⟩)))⟩
      · refine ⟨[48], [], ?_, all_chars_nil _, Or.inl (by decide), Or.inr ⟨rfl, rfl⟩⟩
        intro c hc
        rw [List.mem_singleton] at hc
        rw [hc]
        rfl
      · rw [hu]
        rfl
    · simp only []
      obtain ⟨hml, hmt, _⟩ := mantissa_length_sound isxdigit rest m hm
      have hd2 : u.drop (2 + m) = rest.drop m := by rw [← List.drop_drop, hd]
      rw [hd2]
      obtain ⟨hel, het⟩ := exponent_length_sound 112 (rest.drop m)
      rw [List.length_drop] at hel
      refine ⟨by rw [hu]; simp only [List.length_cons]; omega,
        Or.inr (Or.inr (Or.inr (Or.inl ⟨char_at t 0, rest.take m,
          (rest.drop m).take (exponent_length 112 (rest.drop m)), hx, hmt, het, ?_⟩)))⟩
      rw [hu, ← List.take_add]
      have h7 : 2 + m + exponent_length 112 (rest.drop m)
          = (m + exponent_length 112 (rest.drop m)) + 1 + 1 := by omega
      rw [h7, List.take_succ_cons, List.take_succ_cons]
  rw [if_neg h4] at h ⊢
  rcases hm : mantissa_length isdigit u with _ | m
  · rw [hm] at h
    exact absurd rfl h
  · simp only []
    obtain ⟨hml, hmt, _⟩ := mantissa_length_sound isdigit u m hm
    obtain ⟨hel, het⟩ := exponent_length_sound 101 (u.drop m)
    rw [List.length_drop] at hel
    refine ⟨by omega, Or.inr (Or.inr (Or.inr (Or.inr ⟨u.take m,
      (u.drop m).take (exponent_length 101 (u.drop m)), hmt, het, ?_⟩)))⟩
    rw [List.take_add]

theorem sign_at (t : List Nat) :
    (char_at t 0 = 43 ∨ char_at t 0 = 45) → ∃ c r, t = c :: r ∧ sign_text [c] := by
  intro h
  rcases h with h | h
  · obtain ⟨r, hr⟩ := char_at_head t 43 h (by decide)
    exact ⟨43, r, hr, Or.inr (Or.inl rfl)⟩
  · obtain ⟨r, hr⟩ := char_at_head t 45 h (by decide)
    exact ⟨45, r, hr, Or.inr (Or.inr rfl)⟩

theorem strtod_end_complete (s : List Nat) (h : float_text s) :
    strtod_end s = s.length ∧ s ≠ [] := by
  obtain ⟨w, sg, u, hw, hsg, hu, hs⟩ := h
  obtain ⟨c, t, hct, hsp, h43, h45, _⟩ := number_text_head u hu
  have hne : s ≠ [] := by
    rw [hs, hct]
    simp
  refine ⟨?_, hne⟩
  have hhead : ∀ x, (sg ++ u).head? = some x → isspace x = false := by
    intro x hx
    rcases hsg with h | h | h
    · rw [h, hct] at hx
      simp only [List.nil_append, List.head?_cons, Option.some.injEq] at hx
      rw [← hx]
      exact hsp
    · rw [h] at hx
      simp only [List.singleton_append, List.head?_cons, Option.some.injEq] at hx
      rw [← hx]
      rfl
    · rw [h] at hx
      simp only [List.singleton_append, List.head?_cons, Option.some.injEq] at hx
      rw [← hx]
      rfl
  have hwhite : s.takeWhile isspace = w := by
    rw [hs]
    exact takeWhile_append_digits isspace w (sg ++ u) hw hhead
  have hnum := number_length_complete u hu
  have hulen : u.length ≠ 0 := by
    rw [hct]
    simp
  unfold strtod_end
  simp only []
  rw [hwhite]
  have hchar : char_at s w.length = char_at (sg ++ u) 0 := by
    rw [hs]
    exact char_at_append_zero w (sg ++ u)
  rw [hchar]
  rcases hsg with h | h | h
  · have hc : ¬ (char_at (sg ++ u) 0 = 43 ∨ char_at (sg ++ u) 0 = 45) := by
      rw [h, hct]
      show ¬ (c = 43 ∨ c = 45)
      omega
    rw [if_neg hc]
    have hd : s.drop (w.length + 0) = u := by
      rw [hs, h]
      simp
    rw [hd, hnum, if_neg hulen, hs, h]
    simp
  · have hc : char_at (sg ++ u) 0 = 43 ∨ char_at (sg ++ u) 0 = 45 := by
      rw [h]
      exact Or.inl rfl
    rw [if_pos hc]
    have hd : s.drop (w.length + 1) = u := by
      rw [hs, h, ← List.drop_drop, List.drop_left]
      rfl
    rw [hd, hnum, if_neg hulen, hs, h]
    simp only [List.length_append, List.length_cons, List.length_nil]
    omega
  · have hc : char_at (sg ++ u) 0 = 43 ∨ char_at (sg ++ u) 0 = 45 := by
      rw [h]
      exact Or.inr rfl
    rw [if_pos hc]
    have hd : s.drop (w.length + 1) = u := by
      rw [hs, h, ← List.drop_drop, List.drop_left]
      rfl
    rw [hd, hnum, if_neg hulen, hs, h]
    simp only [List.length_append, List.length_cons, List.length_nil]
    omega

theorem strtod_end_sound (s : List Nat) (h : strtod_end s ≠ 0) :
    strtod_end s ≤ s.length ∧ float_text (s.take (strtod_end s)) := by
  unfold strtod_end at h ⊢
  simp only [] at h ⊢
  obtain ⟨w, hwdef⟩ : ∃ w, w = s.takeWhile isspace := ⟨_, rfl⟩
  rw [← hwdef] at h ⊢
  have hw : all_chars isspace w := by
    intro c hc
    rw [hwdef] at hc
    exact List.mem_takeWhile_imp hc
  have hcat : w ++ s.dropWhile isspace = s := by
    rw [hwdef]
    exact List.takeWhile_append_dropWhile isspace s
  have hchar : char_at s w.length = char_at (s.dropWhile isspace) 0 := by
    conv_lhs => rw [← hcat]
    exact char_at_append_zero w _
  rw [hchar] at h ⊢
  have hdw : s.drop w.length = s.dropWhile isspace := by
    conv_lhs => rw [← hcat]
    exact List.drop_left _ _
  by_cases hc : char_at (s.dropWhile isspace) 0 = 43 ∨ char_at (s.dropWhile isspace) 0 = 45
  · rw [if_pos hc] at h ⊢
    obtain ⟨c, r, hr, hsign⟩ := sign_at _ hc
    have hd : s.drop (w.length + 1) = r := by
      rw [← List.drop_drop, hdw, hr]
      rfl
    rw [hd] at h ⊢
    by_cases hn : number_length r = 0
    · rw [if_pos hn] at h
      exact absurd rfl h
    · rw [if_neg hn]
      obtain ⟨hle, hnt⟩ := number_length_sound r hn
      have hs : s = w ++ (c :: r) := by rw [← hr, hcat]
      have hsl : s.length = w.length + (r.length + 1) := by
        conv_lhs => rw [hs]
        simp only [List.length_append, List.length_cons]
      refine ⟨by omega, w, [c], r.take (number_length r), hw, hsign, hnt, ?_⟩
      conv_lhs => rw [hs]
      rw [Nat.add_assoc, List.take_append, Nat.add_comm 1, List.take_succ_cons]
      rfl
  · rw [if_neg hc] at h ⊢
    have hd : s.drop (w.length + 0) = s.dropWhile isspace := hdw
    rw [hd] at h ⊢
    by_cases hn : number_length (s.dropWhile isspace) = 0
    · rw [if_pos hn] at h
      exact absurd rfl h
    · rw [if_neg hn]
      obtain ⟨hle, hnt⟩ := number_length_sound _ hn
      have hsl : s.length = w.length + (s.dropWhile isspace).length := by
        conv_lhs => rw [← hcat]
        simp only [List.length_append]
      have htk : ∀ k, s.take (w.length + k) = w ++ (s.dropWhile isspace).take k := by
        intro k
        conv_lhs => rw [← hcat]
        rw [List.take_append]
      refine ⟨by omega, w, [], (s.dropWhile isspace).take (number_length (s.dropWhile isspace)),
        hw, Or.inl rfl, hnt, ?_⟩
      rw [Nat.add_zero, htk]
      rfl

/-- The text that `strtod` converts up to its end is the floating-point
number of the grammar. -/
theorem float_text_iff (s : List Nat) :
    float_text s ↔ (strtod_end s = s.length ∧ s ≠ []) := by
  constructor
  · exact strtod_end_complete s
  · rintro ⟨h, hne⟩
    have h0 : strtod_end s ≠ 0 := by
      rw [h]
      intro hl
      exact hne (List.length_eq_zero.1 hl)
    have := (strtod_end_sound s h0).2
    rw [h, List.take_length] at this
    exact this

theorem strtod_end_le (s : List Nat) : strtod_end s ≤ s.length := by
  by_cases h : strtod_end s = 0
  · rw [h]
    exact Nat.zero_le _
  · exact (strtod_end_sound s h).1

/-- The test `*endptr == 0 && endptr != value` of a C string holds exactly
for a floating-point number. -/
theorem numeric_test_iff (value : List Nat) (hnul : 0 ∉ value) :
    (char_at value (strtod_end value) = 0 ∧ strtod_end value ≠ 0) ↔ float_text value := by
  rw [float_text_iff]
  have hle := strtod_end_le value
  constructor
  · rintro ⟨h1, h2⟩
    have hlen : strtod_end value = value.length := by
      by_contra hne
      have hlt : strtod_end value < value.length := by omega
      have hmem : char_at value (strtod_end value) ∈ value := by
        unfold char_at
        rw [List.getD_eq_getElem?_getD, List.getElem?_eq_getElem hlt]
        exact List.getElem_mem _
      rw [h1] at hmem
      exact hnul hmem
    refine ⟨hlen, ?_⟩
    intro hnil
    apply h2
    rw [hlen, hnil]
    rfl
  · rintro ⟨h1, h2⟩
    refine ⟨?_, ?_⟩
    · rw [h1]
      unfold char_at
      rw [List.getD_eq_getElem?_getD, List.getElem?_eq_none (Nat.le_refl _)]
      rfl
    · rw [h1]
      intro hl
      exact h2 (List.length_eq_zero.1 hl)

theorem write_header_loop_eq (keys values : List (List Nat)) :
    write_header_loop keys values
      = (List.zip keys values).filterMap (fun card => write_attribute card.1 card.2) := by
  induction keys generalizing values with
  | nil =>
    cases values <;> rfl
  | cons key keys ih =>
    rcases values with _ | ⟨value, values⟩
    · rfl
    · conv_lhs => unfold write_header_loop
      rw [List.zip_cons_cons, List.filterMap_cons]
      rcases hw : write_attribute key value with _ | created
      · simp only []
        exact ih values
      · simp only []
        rw [ih values]

theorem float_text_letter : ¬ float_text (ascii "T") ∧ ¬ float_text (ascii "F")
    ∧ ¬ float_text [] := by
  refine ⟨?_, ?_, ?_⟩
  · rw [float_text_iff]
    intro h
    exact absurd h.1 (by decide)
  · rw [float_text_iff]
    intro h
    exact absurd h.1 (by decide)
  · rw [float_text_iff]
    intro h
    exact h.2 rfl

/-- C33: a card keyed HISTORY or COMMENT gives no attribute; for any other
key `SofiaHDF5_write_header` writes the value T as the byte 1 and F as the
byte 0, any other value that is a floating-point number from its first to its
last character as a double, and every remaining value, the empty one among
them, as a string. The three classes exclude each other, and the attributes
of a header are those of its cards in their order. -/
theorem write_header_classification (key value : List Nat) (hnul : 0 ∉ value) :
    ((key = ascii "HISTORY" ∨ key = ascii "COMMENT") → write_attribute key value = none) ∧
    (¬ (key = ascii "HISTORY" ∨ key = ascii "COMMENT") →
      (value = ascii "T" → write_attribute key value = some (key, .uint8 1)) ∧
      (value = ascii "F" → write_attribute key value = some (key, .uint8 0)) ∧
      (value ≠ ascii "T" → value ≠ ascii "F" → float_text value →
        write_attribute key value = some (key, .double (strtod value))) ∧
      (value ≠ ascii "T" → value ≠ ascii "F" → ¬ float_text value →
        write_attribute key value = some (key, .string value)) ∧
      write_attribute key [] = some (key, .string [])) ∧
    (¬ float_text (ascii "T") ∧ ¬ float_text (ascii "F") ∧ ¬ float_text []) ∧
    (∀ fits : FitsFile, fits.header_parsed = true → fits.header_count ≠ 0 →
      SofiaHDF5_write_header fits
        = (List.zip (fits.header_keys.take fits.header_count)
            (fits.header_values.take fits.header_count)).filterMap
            (fun card => write_attribute card.1 card.2)) := by
  refine ⟨?_, ?_, float_text_letter, ?_⟩
  · intro hk
    unfold write_attribute
    rw [if_pos hk]
  · intro hk
    refine ⟨?_, ?_, ?_, ?_, ?_⟩
    · intro hv
      unfold write_attribute
      rw [if_neg hk]
      simp only []
      rw [if_pos (Or.inl hv), if_pos hv]
    · intro hv
      unfold write_attribute
      rw [if_neg hk]
      simp only []
      have hT : value ≠ ascii "T" := by
        rw [hv]
        decide
      rw [if_pos (Or.inr hv), if_neg hT]
    · intro hT hF hfl
      unfold write_attribute
      rw [if_neg hk]
      simp only []
      have hb : ¬ (value = ascii "T" ∨ value = ascii "F") := by
        rintro (h | h)
        · exact hT h
        · exact hF h
      rw [if_neg hb, if_pos ((numeric_test_iff value hnul).2 hfl)]
    · intro hT hF hfl
      unfold write_attribute
      rw [if_neg hk]
      simp only []
      have hb : ¬ (value = ascii "T" ∨ value = ascii "F") := by
        rintro (h | h)
        · exact hT h
        · exact hF h
      rw [if_neg hb, if_neg (fun h => hfl ((numeric_test_iff value hnul).1 h))]
    · unfold write_attribute
      rw [if_neg hk]
      rfl
  · intro fits hp hc
    unfold SofiaHDF5_write_header
    have hcond : ¬ (¬ fits.header_parsed = true ∨ fits.header_count = 0) := by
      rintro (h | h)
      · exact h hp
      · exact hc h
    rw [if_neg hcond]
    exact write_header_loop_eq _ _

theorem write_header_classification_witness :
    0 ∉ ascii "1.5E3" ∧
    write_attribute (ascii "BSCALE") (ascii "1.5E3")
      = some (ascii "BSCALE", .double (strtod (ascii "1.5E3"))) :=
  ⟨by decide,
    ((write_header_classification (ascii "BSCALE") (ascii "1.5E3") (by decide)).2.1
      (by decide)).2.2.1 (by decide) (by decide)
      ((float_text_iff (ascii "1.5E3")).2 ⟨by decide, by decide⟩)⟩

/-! ## Theorems: the scaling cards and the cube that is read -/

theorem card_or_wrapped (c : Prop) [Decidable c] (key value : List Nat) :
    (if c then CardResult.wrapped else CardResult.card key value) = .wrapped
      ∨ ∃ v, (if c then CardResult.wrapped else CardResult.card key value) = .card key v := by
  by_cases h : c
  · rw [if_pos h]
    exact Or.inl rfl
  · rw [if_neg h]
    exact Or.inr ⟨_, rfl⟩

theorem parse_card_keyed (line : List Nat) (equals : Nat)
    (hns : ¬ (char_at line 0 = 32 ∨ strncmp_eq line (ascii "COMMENT") 7 = true
      ∨ strncmp_eq line (ascii "HISTORY") 7 = true))
    (he : strchr line 61 = some equals) :
    parse_card line = .wrapped
      ∨ ∃ v, parse_card line = .card (strncpy_str line (trim_end line 0 equals)) v := by
  unfold parse_card
  rw [if_neg hns, he]
  exact card_or_wrapped _ _ _

theorem bscale_line_parse (rest : List Nat) :
    parse_card (66 :: 83 :: 67 :: 65 :: 76 :: 69 :: 32 :: 32 :: 61 :: rest) = .wrapped
      ∨ ∃ v, parse_card (66 :: 83 :: 67 :: 65 :: 76 :: 69 :: 32 :: 32 :: 61 :: rest)
          = .card (ascii "BSCALE") v := by
  have hns : ¬ (char_at (66 :: 83 :: 67 :: 65 :: 76 :: 69 :: 32 :: 32 :: 61 :: rest) 0 = 32
      ∨ strncmp_eq (66 :: 83 :: 67 :: 65 :: 76 :: 69 :: 32 :: 32 :: 61 :: rest)
          (ascii "COMMENT") 7 = true
      ∨ strncmp_eq (66 :: 83 :: 67 :: 65 :: 76 :: 69 :: 32 :: 32 :: 61 :: rest)
          (ascii "HISTORY") 7 = true) := by
    rintro (h | h | h)
    · exact absurd h (by simp [char_at])
    · exact absurd h (by simp [strncmp_eq, char_at, ascii])
    · exact absurd h (by simp [strncmp_eq, char_at, ascii])
  have he : strchr (66 :: 83 :: 67 :: 65 :: 76 :: 69 :: 32 :: 32 :: 61 :: rest) 61 = some 8 := by
    have := strchr_append [66, 83, 67, 65, 76, 69, 32, 32] (61 :: rest) 61 (by decide)
    rw [strchr_head] at this
    exact this
  have hk : trim_end (66 :: 83 :: 67 :: 65 :: 76 :: 69 :: 32 :: 32 :: 61 :: rest) 0 8 = 6 :=
    trim_end_append [66, 83, 67, 65, 76] 69 2 (61 :: rest) 0 (by decide) (by decide)
  have := parse_card_keyed _ 8 hns he
  rw [hk] at this
  exact this

theorem bzero_line_parse (rest : List Nat) :
    parse_card (66 :: 90 :: 69 :: 82 :: 79 :: 32 :: 32 :: 32 :: 61 :: rest) = .wrapped
      ∨ ∃ v, parse_card (66 :: 90 :: 69 :: 82 :: 79 :: 32 :: 32 :: 32 :: 61 :: rest)
          = .card (ascii "BZERO") v := by
  have hns : ¬ (char_at (66 :: 90 :: 69 :: 82 :: 79 :: 32 :: 32 :: 32 :: 61 :: rest) 0 = 32
      ∨ strncmp_eq (66 :: 90 :: 69 :: 82 :: 79 :: 32 :: 32 :: 32 :: 61 :: rest)
          (ascii "COMMENT") 7 = true
      ∨ strncmp_eq (66 :: 90 :: 69 :: 82 :: 79 :: 32 :: 32 :: 32 :: 61 :: rest)
          (ascii "HISTORY") 7 = true) := by
    rintro (h | h | h)
    · exact absurd h (by simp [char_at])
    · exact absurd h (by simp [strncmp_eq, char_at, ascii])
    · exact absurd h (by simp [strncmp_eq, char_at, ascii])
  have he : strchr (66 :: 90 :: 69 :: 82 :: 79 :: 32 :: 32 :: 32 :: 61 :: rest) 61 = some 8 := by
    have := strchr_append [66, 90, 69, 82, 79, 32, 32, 32] (61 :: rest) 61 (by decide)
    rw [strchr_head] at this
    exact this
  have hk : trim_end (66 :: 90 :: 69 :: 82 :: 79 :: 32 :: 32 :: 32 :: 61 :: rest) 0 8 = 5 :=
    trim_end_append [66, 90, 69, 82] 79 3 (61 :: rest) 0 (by decide) (by decide)
  have := parse_card_keyed _ 8 hns he
  rw [hk] at this
  exact this

theorem take_nine (l : List Nat) (a : List Nat) (h : l.take 9 = a) :
    l = a ++ l.drop 9 := by
  conv_lhs => rw [← List.take_append_drop 9 l]
  rw [h]

/-- A card of a scaling keyword is stored under the keyword, unless its
value end lies before its value start. -/
theorem scale_card_parse (l : List Nat) (h : scale_card l) :
    ∃ key, (key = ascii "BSCALE" ∨ key = ascii "BZERO") ∧ key <+: l.take 9 ∧
      (parse_card l = .wrapped ∨ ∃ v, parse_card l = .card key v) := by
  rcases h.2 with h9 | h9
  · have hl := take_nine l _ h9
    refine ⟨ascii "BSCALE", Or.inl rfl, by rw [h9]; decide, ?_⟩
    rw [hl]
    exact bscale_line_parse (l.drop 9)
  · have hl := take_nine l _ h9
    refine ⟨ascii "BZERO", Or.inr rfl, by rw [h9]; decide, ?_⟩
    rw [hl]
    exact bzero_line_parse (l.drop 9)

theorem scale_card_not_end (l : List Nat) (h : scale_card l) : is_end_line l = false := by
  rw [Bool.eq_false_iff]
  intro he
  unfold is_end_line at he
  have hp : [69, 78, 68] <+: l := of_decide_eq_true he
  have h3 : l.take 3 = [69, 78, 68] := by
    obtain ⟨t, ht⟩ := hp
    rw [← ht]
    rfl
  have h4 : (l.take 9).take 3 = l.take 3 := by
    rw [List.take_take]
    rfl
  rw [h3] at h4
  rcases h.2 with h9 | h9
  · rw [h9] at h4
    exact absurd h4 (by decide)
  · rw [h9] at h4
    exact absurd h4 (by decide)

theorem scale_twin_end (l1 l2 : List Nat) (h : scale_twin l1 l2) :
    is_end_line l1 = is_end_line l2 := by
  rcases h with h | ⟨h1, h2, _⟩
  · rw [h]
  · rw [scale_card_not_end l1 h1, scale_card_not_end l2 h2]

theorem find_value_cons (key k v : List Nat) (keys values : List (List Nat)) :
    find_value key (k :: keys) (v :: values)
      = if k = key then some v else find_value key keys values := rfl

/-- The lines of two headers are twins: the same keys are stored, unless a
value end of the second header lies before its value start, and every key
other than BSCALE and BZERO has the same value. -/
theorem parse_line_list_twin (ls1 ls2 : List (List Nat))
    (h : List.Forall₂ scale_twin ls1 ls2) :
    ∀ k1 v1, parse_line_list ls1 = .ok (k1, v1) →
      parse_line_list ls2 = .error .value_length_wrapped
      ∨ ∃ v2, parse_line_list ls2 = .ok (k1, v2) ∧
          ∀ key, key ≠ ascii "BSCALE" → key ≠ ascii "BZERO" →
            find_value key k1 v1 = find_value key k1 v2 := by
  induction h with
  | nil =>
    intro k1 v1 h1
    exact Or.inr ⟨v1, h1, fun _ _ _ => rfl⟩
  | @cons l1 l2 r1 r2 htw _ ih =>
    intro k1 v1 h1
    have hend := scale_twin_end l1 l2 htw
    unfold parse_line_list at h1 ⊢
    rw [← hend]
    by_cases he : is_end_line l1 = true
    · rw [if_pos he] at h1 ⊢
      injection h1 with h1
      cases h1
      exact Or.inr ⟨[], rfl, fun _ _ _ => rfl⟩
    rw [if_neg he] at h1 ⊢
    -- the outcome of the rest of the lines
    have hrest : ∀ (k v : List Nat) ks vs, parse_line_list r1 = .ok (ks, vs) →
        ∀ v', (k ≠ ascii "BSCALE" → k ≠ ascii "BZERO" → v = v') →
        (match parse_line_list r2 with
          | .ok (keys, values) => Except.ok (k :: keys, v' :: values)
          | .error e => .error e) = .error .value_length_wrapped
        ∨ ∃ v2, (match parse_line_list r2 with
          | .ok (keys, values) => Except.ok (k :: keys, v' :: values)
          | .error e => .error e) = .ok (k :: ks, v2) ∧
          ∀ key, key ≠ ascii "BSCALE" → key ≠ ascii "BZERO" →
            find_value key (k :: ks) (v :: vs) = find_value key (k :: ks) v2 := by
      intro k v ks vs hr v' hv
      rcases ih ks vs hr with h2 | ⟨v2, h2, hf⟩
      · rw [h2]
        exact Or.inl rfl
      · rw [h2]
        refine Or.inr ⟨v' :: v2, rfl, ?_⟩
        intro key hk1 hk2
        rw [find_value_cons, find_value_cons]
        by_cases hk : k = key
        · rw [if_pos hk, if_pos hk, hv (by rw [hk]; exact hk1) (by rw [hk]; exact hk2)]
        · rw [if_neg hk, if_neg hk]
          exact hf key hk1 hk2
    rcases htw with htw | ⟨hc1, hc2, h9⟩
    · subst htw
      rcases hp : parse_card l1 with _ | ⟨k, v⟩ | _
      · rw [hp] at h1
        exact ih k1 v1 h1
      · rw [hp] at h1
        simp only [] at h1 ⊢
        rcases hr : parse_line_list r1 with e | ⟨ks, vs⟩
        · rw [hr] at h1
          cases h1
        · rw [hr] at h1
          injection h1 with h1
          cases h1
          exact hrest k v ks vs hr v (fun _ _ => rfl)
      · rw [hp] at h1
        cases h1
    · obtain ⟨key1, hkey1, hpre1, hp1⟩ := scale_card_parse l1 hc1
      obtain ⟨key2, hkey2, hpre2, hp2⟩ := scale_card_parse l2 hc2
      have hkeys : key1 = key2 := by
        rw [h9] at hpre1
        rcases hkey1 with h | h <;> rcases hkey2 with h' | h'
        · rw [h, h']
        · exfalso
          rcases hc2.2 with h2 | h2
          · rw [h', h2] at hpre2
            exact absurd hpre2 (by decide)
          · rw [h, h2] at hpre1
            exact absurd hpre1 (by decide)
        · exfalso
          rcases hc2.2 with h2 | h2
          · rw [h, h2] at hpre1
            exact absurd hpre1 (by decide)
          · rw [h', h2] at hpre2
            exact absurd hpre2 (by decide)
        · rw [h, h']
      subst hkeys
      rcases hp1 with hp1 | ⟨va, hp1⟩
      · rw [hp1] at h1
        cases h1
      rw [hp1] at h1
      simp only [] at h1
      rcases hp2 with hp2 | ⟨vb, hp2⟩
      · rw [hp2]
        exact Or.inl rfl
      rw [hp2]
      simp only []
      rcases hr : parse_line_list r1 with e | ⟨ks, vs⟩
      · rw [hr] at h1
        cases h1
      · rw [hr] at h1
        injection h1 with h1
        cases h1
        refine hrest key1 va ks vs hr vb ?_
        intro hk1 hk2
        rcases hkey1 with h | h
        · exact absurd h hk1
        · exact absurd h hk2

theorem parse_fits_header_lines (self : FitsFile) (ls : List (List Nat))
    (hp : self.header_parsed = false) (hne : ls ≠ [])
    (hh : self.header = ls.flatten) (hs : self.header_size = 80 * ls.length)
    (h80 : ∀ l ∈ ls, l.length = 80) :
    (∀ e, parse_line_list ls = .error e → parse_fits_header self = .error e) ∧
    (∀ keys values, parse_line_list ls = .ok (keys, values) →
      parse_fits_header self
        = .ok { self with header_keys := keys, header_values := values,
                          header_count := keys.length, header_parsed := true }) := by
  have hlen : 0 < ls.length := List.length_pos.2 hne
  have hcond : ¬ (self.header_parsed = true ∨ self.header_size = 0) := by
    rw [hp, hs]
    intro h
    rcases h with h | h
    · exact absurd h (by decide)
    · omega
  have hlines : (self.header_size + (FITS_HEADER_LINE_SIZE - 1)) / FITS_HEADER_LINE_SIZE
      = ls.length := by
    rw [hs]
    show (80 * ls.length + (80 - 1)) / 80 = ls.length
    omega
  have hcount := count_lines_list self.header self.header_size ls h80 ls.length 0
    (by simpa using hh) rfl (by omega)
  have hlist := parse_lines_list self.header
    (ls.takeWhile (fun l => !is_end_line l)).length ls h80 ls.length 0 0
    (by simpa using hh) rfl (by omega)
  constructor
  · intro e he
    unfold parse_fits_header
    rw [if_neg hcond]
    simp only [hlines]
    rw [hcount, hlist, he]
  · intro keys values he
    unfold parse_fits_header
    rw [if_neg hcond]
    simp only [hlines]
    rw [hcount, hlist, he]

theorem flatten_length_lines (ls : List (List Nat)) (h80 : ∀ l ∈ ls, l.length = 80) :
    ls.flatten.length = 80 * ls.length := by
  induction ls with
  | nil => rfl
  | cons l rest ih =>
    rw [List.flatten_cons, List.length_append, h80 l (List.mem_cons_self _ _),
      ih (fun x hx => h80 x (List.mem_cons_of_mem _ hx)), List.length_cons]
    omega

theorem scale_twin_length (l1 l2 : List Nat) (h : scale_twin l1 l2) (h1 : l1.length = 80) :
    l2.length = 80 := by
  rcases h with h | ⟨_, h2, _⟩
  · rw [← h]
    exact h1
  · exact h2.1

theorem scale_twin_take (l1 l2 : List Nat) (h : scale_twin l1 l2) : l1.take 6 = l2.take 6 := by
  rcases h with h | ⟨_, _, h9⟩
  · rw [h]
  · have e1 : (l1.take 9).take 6 = l1.take 6 := by
      rw [List.take_take]
      rfl
    have e2 : (l2.take 9).take 6 = l2.take 6 := by
      rw [List.take_take]
      rfl
    rw [← e1, ← e2, h9]

theorem twin_lines_length (ls1 ls2 : List (List Nat)) (h : List.Forall₂ scale_twin ls1 ls2)
    (h80 : ∀ l ∈ ls1, l.length = 80) : ∀ l ∈ ls2, l.length = 80 := by
  induction h with
  | nil =>
    intro l hl
    cases hl
  | @cons l1 l2 r1 r2 htw _ ih =>
    intro l hl
    rcases List.mem_cons.1 hl with hl | hl
    · rw [hl]
      exact scale_twin_length l1 l2 htw (h80 l1 (List.mem_cons_self _ _))
    · exact ih (fun x hx => h80 x (List.mem_cons_of_mem _ hx)) l hl

theorem drop_line (l rest : List Nat) (hl : l.length = 80) : (l ++ rest).drop 80 = rest := by
  rw [← hl, List.drop_left]

/-- The twin files agree on the first six bytes of every line. -/
theorem twin_files_take (ls1 ls2 : List (List Nat)) (data : List Nat)
    (h : List.Forall₂ scale_twin ls1 ls2) (h80 : ∀ l ∈ ls1, l.length = 80) :
    ∀ m, ((ls1.flatten ++ data).drop (80 * m)).take 6
      = ((ls2.flatten ++ data).drop (80 * m)).take 6 := by
  induction h with
  | nil =>
    intro m
    rfl
  | @cons l1 l2 r1 r2 htw hrest ih =>
    intro m
    have hl1 : l1.length = 80 := h80 l1 (List.mem_cons_self _ _)
    have hl2 : l2.length = 80 := scale_twin_length l1 l2 htw hl1
    rw [List.flatten_cons, List.flatten_cons, List.append_assoc, List.append_assoc]
    rcases m with _ | m
    · rw [Nat.mul_zero, List.drop_zero, List.drop_zero,
        List.take_append_of_le_length (by omega), List.take_append_of_le_length (by omega)]
      exact scale_twin_take l1 l2 htw
    · have hm : 80 * (m + 1) = 80 + 80 * m := by omega
      rw [hm, ← List.drop_drop, ← List.drop_drop, drop_line l1 _ hl1, drop_line l2 _ hl2]
      exact ih (fun x hx => h80 x (List.mem_cons_of_mem _ hx)) m

theorem read_header_blocks_congr (f1 f2 : List Nat)
    (H : ∀ m, (f1.drop (80 * m)).take 3 = (f2.drop (80 * m)).take 3) (blocks b : Nat) :
    read_header_blocks f1 blocks (FITS_HEADER_BLOCK_SIZE * b)
      = read_header_blocks f2 blocks (FITS_HEADER_BLOCK_SIZE * b) := by
  induction blocks generalizing b with
  | zero => rfl
  | succ blocks ih =>
    have hc : scan_end FITS_HEADER_LINES
          ((f1.drop (FITS_HEADER_BLOCK_SIZE * b)).take FITS_HEADER_BLOCK_SIZE)
        = scan_end FITS_HEADER_LINES
          ((f2.drop (FITS_HEADER_BLOCK_SIZE * b)).take FITS_HEADER_BLOCK_SIZE) := by
      rw [Bool.eq_iff_iff, block_scan_iff, block_scan_iff]
      have hoff : ∀ j, 2880 * b + 80 * j = 80 * (36 * b + j) := by
        intro j
        omega
      constructor
      · rintro ⟨j, hj, he⟩
        refine ⟨j, hj, ?_⟩
        rw [hoff, ← H, ← hoff]
        exact he
      · rintro ⟨j, hj, he⟩
        refine ⟨j, hj, ?_⟩
        rw [hoff, H, ← hoff]
        exact he
    have hnext := ih (b + 1)
    rw [Nat.mul_succ] at hnext
    unfold read_header_blocks
    simp only []
    rw [hc, hnext]

theorem get_int_congr (p1 p2 : FitsFile) (hp1 : p1.header_parsed = true)
    (hp2 : p2.header_parsed = true) (key : List Nat)
    (h : find_value key p2.header_keys p2.header_values
      = find_value key p1.header_keys p1.header_values) :
    get_fits_header_int p2 key = get_fits_header_int p1 key := by
  unfold get_fits_header_int get_fits_header_value
  rw [if_neg (not_not.2 hp2), if_neg (not_not.2 hp1), h]

theorem with_elements_congr (p1 p2 : FitsFile)
    (hint : ∀ key, key ≠ ascii "BSCALE" → key ≠ ascii "BZERO" →
      get_fits_header_int p2 key = get_fits_header_int p1 key) :
    dimension_of p2 = dimension_of p1 ∧
    (with_elements p2).data_type = (with_elements p1).data_type ∧
    (with_elements p2).nx = (with_elements p1).nx ∧
    (with_elements p2).ny = (with_elements p1).ny ∧
    (with_elements p2).nz = (with_elements p1).nz ∧
    (with_elements p2).word_size = (with_elements p1).word_size ∧
    (with_elements p2).data_size = (with_elements p1).data_size := by
  have h1 := hint (ascii "BITPIX") (by decide) (by decide)
  have h2 := hint (ascii "NAXIS") (by decide) (by decide)
  have h3 := hint (ascii "NAXIS1") (by decide) (by decide)
  have h4 := hint (ascii "NAXIS2") (by decide) (by decide)
  have h5 := hint (ascii "NAXIS3") (by decide) (by decide)
  have hd : dimension_of p2 = dimension_of p1 := by
    unfold dimension_of
    rw [h2]
  unfold with_elements
  simp only [hd, h1, h3, h4, h5]
  exact ⟨trivial, trivial, trivial, trivial, trivial, trivial, trivial⟩

theorem twin_lines_refl (ls : List (List Nat)) : List.Forall₂ scale_twin ls ls := by
  induction ls with
  | nil => exact List.Forall₂.nil
  | cons l rest ih => exact List.Forall₂.cons (Or.inl rfl) ih

theorem scale_lines_twin (c1 c2 : List Nat) (h : scale_twin c1 c2) :
    List.Forall₂ scale_twin (scale_lines c1) (scale_lines c2) :=
  List.Forall₂.cons (Or.inl rfl) (List.Forall₂.cons (Or.inl rfl) (List.Forall₂.cons (Or.inl rfl)
    (List.Forall₂.cons (Or.inl rfl) (List.Forall₂.cons h (twin_lines_refl _)))))

theorem read_header_twin (ls1 ls2 : List (List Nat)) (data : List Nat)
    (h80 : ∀ l ∈ ls1, l.length = 80) (htwin : List.Forall₂ scale_twin ls1 ls2) :
    read_header (ls2.flatten ++ data) = read_header (ls1.flatten ++ data) := by
  have h80b := twin_lines_length ls1 ls2 htwin h80
  have hlen : (ls2.flatten ++ data).length = (ls1.flatten ++ data).length := by
    rw [List.length_append, List.length_append, flatten_length_lines ls1 h80,
      flatten_length_lines ls2 h80b, htwin.length_eq]
  have H : ∀ m, ((ls2.flatten ++ data).drop (80 * m)).take 3
      = ((ls1.flatten ++ data).drop (80 * m)).take 3 := by
    intro m
    have h6 := twin_files_take ls1 ls2 data htwin h80 m
    have e : ∀ x : List Nat, (x.take 6).take 3 = x.take 3 := by
      intro x
      rw [List.take_take]
      rfl
    rw [← e, ← h6, e]
  unfold read_header
  rw [hlen]
  exact read_header_blocks_congr _ _ H _ 0

/-- Supporting fact for C34: two cube files hold the same data behind
headers whose lines are equal or are cards of the same scaling keyword that
differ only behind the `=`. When the first file is read, the second one is
read as well and gives the same data bytes, extents and element type, unless
the value end of one of its scaling cards lies before the value start, which
ends the reading. -/
theorem scale_values_read (le : Bool) (ls1 ls2 : List (List Nat)) (data : List Nat)
    (h80 : ∀ l ∈ ls1, l.length = 80) (htwin : List.Forall₂ scale_twin ls1 ls2)
    (hhs : read_header (ls1.flatten ++ data) = .ok (80 * ls1.length))
    (r1 : FitsFile) (h1 : read_fits_file le (ls1.flatten ++ data) = .ok r1) :
    read_fits_file le (ls2.flatten ++ data) = .error .value_length_wrapped
    ∨ ∃ r2, read_fits_file le (ls2.flatten ++ data) = .ok r2 ∧
        r2.data = r1.data ∧ r2.nx = r1.nx ∧ r2.ny = r1.ny ∧ r2.nz = r1.nz ∧
        r2.data_type = r1.data_type ∧ r2.word_size = r1.word_size ∧
        r2.data_size = r1.data_size ∧ r2.header_keys = r1.header_keys := by
  have h80b := twin_lines_length ls1 ls2 htwin h80
  have hll : ls2.length = ls1.length := htwin.length_eq.symm
  have hfl1 := flatten_length_lines ls1 h80
  have hfl2 := flatten_length_lines ls2 h80b
  have hlen : (ls2.flatten ++ data).length = (ls1.flatten ++ data).length := by
    rw [List.length_append, List.length_append, hfl1, hfl2, hll]
  obtain ⟨hs, p1, m1, hh1, hsim1, hp1, hm1, _, hbit1, hd1, hd4, hsz1, hdat1, hr1⟩ :=
    read_fits_file_ok le _ r1 h1
  have hhs1 : hs = 80 * ls1.length := by
    rw [hhs] at hh1
    injection hh1 with hh1
    exact hh1.symm
  obtain ⟨k, hk, _, _⟩ := read_header_ok _ hs hh1
  have hne1 : ls1 ≠ [] := by
    intro h
    rw [h] at hhs1
    simp only [List.length_nil] at hhs1
    omega
  have hne2 : ls2 ≠ [] := by
    intro h
    rw [h] at hll
    simp only [List.length_nil] at hll
    exact hne1 (List.length_eq_zero.1 hll.symm)
  have hh2 : read_header (ls2.flatten ++ data) = .ok hs := by
    rw [read_header_twin ls1 ls2 data h80 htwin]
    exact hh1
  -- the headers handed to the parser
  have htake1 : (ls1.flatten ++ data).take hs = ls1.flatten := by
    rw [hhs1, ← hfl1, List.take_left]
  have htake2 : (ls2.flatten ++ data).take hs = ls2.flatten := by
    rw [hhs1, ← hll, ← hfl2, List.take_left]
  have hdrop1 : (ls1.flatten ++ data).drop hs = data := by
    rw [hhs1, ← hfl1, List.drop_left]
  have hdrop2 : (ls2.flatten ++ data).drop hs = data := by
    rw [hhs1, ← hll, ← hfl2, List.drop_left]
  have hsim2 : strncmp_eq ((ls2.flatten ++ data).take hs) (ascii "SIMPLE") 6 = true := by
    rw [strncmp_eq_SIMPLE] at hsim1 ⊢
    have h6 := twin_files_take ls1 ls2 data htwin h80 0
    rw [Nat.mul_zero, List.drop_zero, List.drop_zero] at h6
    have e : ∀ x : List Nat, (x.take hs).take 6 = x.take 6 := by
      intro x
      rw [List.take_take, Nat.min_eq_left (by omega)]
    rw [e] at hsim1 ⊢
    rw [← h6]
    exact hsim1
  have hraw1 := parse_fits_header_lines (raw_header (ls1.flatten ++ data) hs) ls1 rfl hne1
    htake1 hhs1 h80
  have hraw2 := parse_fits_header_lines (raw_header (ls2.flatten ++ data) hs) ls2 rfl hne2
    htake2 (by rw [hll]; exact hhs1) h80b
  rcases hpl1 : parse_line_list ls1 with e | ⟨k1, v1⟩
  · rw [hraw1.1 e hpl1] at hp1
    cases hp1
  have hp1b := hraw1.2 k1 v1 hpl1
  rw [hp1] at hp1b
  injection hp1b with hp1b
  rcases parse_line_list_twin ls1 ls2 htwin k1 v1 hpl1 with hpl2 | ⟨v2, hpl2, hfind⟩
  · left
    have hp2 := hraw2.1 _ hpl2
    unfold read_fits_file
    rw [read_fits_header_eq, hh2]
    simp only [hsim2, not_true_eq_false, if_false, hp2]
  right
  have hp2 := hraw2.2 k1 v2 hpl2
  obtain ⟨p2, hp2def⟩ : ∃ p2, p2 = { raw_header (ls2.flatten ++ data) hs with
      header_keys := k1, header_values := v2, header_count := k1.length,
      header_parsed := true } := ⟨_, rfl⟩
  rw [← hp2def] at hp2
  have hint : ∀ key, key ≠ ascii "BSCALE" → key ≠ ascii "BZERO" →
      get_fits_header_int p2 key = get_fits_header_int p1 key := by
    intro key hk1 hk2
    apply get_int_congr p1 p2 (by rw [hp1b]) (by rw [hp2def])
    rw [hp1b, hp2def]
    exact (hfind key hk1 hk2).symm
  obtain ⟨hdim, hty, hnx, hny, hnz, hws, hds⟩ := with_elements_congr p1 p2 hint
  have hhsz1 : (with_elements p1).header_size = hs := by
    rw [hp1b]
    rfl
  have hhsz2 : (with_elements p2).header_size = hs := by
    rw [hp2def]
    rfl
  rw [hm1] at hbit1 hsz1 hdat1 hr1
  obtain ⟨r2, hr2⟩ := read_fits_file_accepts le (ls2.flatten ++ data) hs p2 hh2 hsim2 hp2
    (by rw [hty]; exact hbit1) (by rw [hdim]; exact hd1) (by rw [hdim]; exact hd4)
    (by rw [hds]; exact hsz1)
    (by rw [hds, hws, hhsz2, hlen, ← hhsz1]; exact hdat1)
  obtain ⟨hs', p2', m2, hh2', _, hp2', hm2, _, _, _, _, _, _, hr2'⟩ :=
    read_fits_file_ok le _ r2 hr2
  have hs_eq : hs' = hs := by
    rw [hh2] at hh2'
    injection hh2' with h
    exact h.symm
  rw [hs_eq, hp2] at hp2'
  injection hp2' with hp2'
  rw [← hp2'] at hm2
  rw [hm2] at hr2'
  have hpay : payload_bytes (ls2.flatten ++ data) (with_elements p2)
      = payload_bytes (ls1.flatten ++ data) (with_elements p1) := by
    unfold payload_bytes
    rw [hhsz1, hhsz2, hdrop1, hdrop2, hds, hws]
  have hhost : host_order le (with_elements p2)
        (payload_bytes (ls2.flatten ++ data) (with_elements p2))
      = host_order le (with_elements p1)
        (payload_bytes (ls1.flatten ++ data) (with_elements p1)) := by
    rw [hpay]
    unfold host_order
    rw [hws, hds]
  have hkeys : (with_elements p2).header_keys = (with_elements p1).header_keys := by
    rw [hp1b, hp2def]
    rfl
  refine ⟨r2, hr2, ?_, ?_, ?_, ?_, ?_, ?_, ?_, ?_⟩
  · rw [hr2', hr1]
    exact hhost
  · rw [hr2', hr1]
    exact hnx
  · rw [hr2', hr1]
    exact hny
  · rw [hr2', hr1]
    exact hnz
  · rw [hr2', hr1]
    exact hty
  · rw [hr2', hr1]
    exact hws
  · rw [hr2', hr1]
    exact hds
  · rw [hr2', hr1]
    exact hkeys

/-- The files `unit_scale_file` and `other_scale_file` fulfil the conditions
of `scale_values_read`, which gives the cube of the second one from that of
the first. -/
theorem scale_values_read_example :
    (∃ r2, read_fits_file true other_scale_file = .ok r2 ∧ r2.data = [1, 2] ∧ r2.nx = 2 ∧
      r2.ny = 1 ∧ r2.nz = 1 ∧ r2.data_type = 8) := by
  have h80 : ∀ l ∈ scale_lines (fits_line "BSCALE  =                  1.0"), l.length = 80 := by
    decide!
  have hc1 : scale_card (fits_line "BSCALE  =                  1.0") := by
    unfold scale_card
    decide!
  have hc2 : scale_card (fits_line "BSCALE  =                  2.5") := by
    unfold scale_card
    decide!
  have h9 : (fits_line "BSCALE  =                  1.0").take 9
      = (fits_line "BSCALE  =                  2.5").take 9 := by decide!
  have hhs : read_header unit_scale_file = .ok 2880 := by decide!
  have h1 : read_fits_file true unit_scale_file
      = .ok { data := [1, 2], nx := 2, ny := 1, nz := 1, data_type := 8, word_size := 1,
              data_size := 2, header := unit_scale_file.take 2880, header_size := 2880,
              header_parsed := true,
              header_keys := [ascii "SIMPLE", ascii "BITPIX", ascii "NAXIS", ascii "NAXIS1",
                              ascii "BSCALE"],
              header_values := [ascii "T", ascii "8", ascii "1", ascii "2", ascii "1.0"],
              header_count := 5 } := by decide!
  have h2 : read_fits_file true other_scale_file ≠ .error .value_length_wrapped := by decide!
  rcases scale_values_read true _ _ [1, 2] h80
    (scale_lines_twin _ _ (Or.inr ⟨hc1, hc2, h9⟩)) hhs _ h1 with h | ⟨r2, hr, hd, hx, hy, hz, ht, _⟩
  · exact absurd h h2
  · exact ⟨r2, hr, hd, hx, hy, hz, ht⟩

/-- C34, failing input: the cube files `unit_scale_file` and
`quote_scale_file` have the same length and differ only in bytes 330 to 349,
which lie in the value of the BSCALE card. The first one is read and gives the
two data bytes, the extents 2, 1, 1 and the element type 8, and so does
`other_scale_file` with the scale 2.5, the data being left as it is; the
reading of the second one ends at the header, and no cube is returned. -/
theorem lone_quote_scale_aborts :
    unit_scale_file.length = quote_scale_file.length ∧
    unit_scale_file.take 330 = quote_scale_file.take 330 ∧
    unit_scale_file.drop 350 = quote_scale_file.drop 350 ∧
    (unit_scale_file.drop 320).take 10 = ascii "BSCALE  = " ∧
    (read_fits_file true unit_scale_file).map
        (fun r => (r.data, r.nx, r.ny, r.nz, r.data_type)) = .ok ([1, 2], 2, 1, 1, 8) ∧
    (read_fits_file true other_scale_file).map
        (fun r => (r.data, r.nx, r.ny, r.nz, r.data_type)) = .ok ([1, 2], 2, 1, 1, 8) ∧
    read_fits_file true quote_scale_file = .error .value_length_wrapped := by
  refine ⟨by decide!, by decide!, by decide!, by decide!, by decide!, by decide!, by decide!⟩

end Sofia2hdf5
